import Mathlib

/-! DigitalJS simulation core (`src/index.js`).

A shallow embedding of the `Circuit` class: the graph store, the propagation
handlers registered by `makeGraph`, the scheduler `updateGates` and the
connection predicate `validateConnection`.

Modelling conventions.

* A JavaScript signal value is a `Val`: `undefined` or a number.
* A JavaScript object used as a map from port names to values
  (`inputSignals`, `outputSignals`) is a `Sigs`, an association list; `read`
  is `m[k]`, `has` is `k in m`, `set` is `m[k] = v` and `isEqual` is lodash's
  `_.isEqual` (the test Backbone's `set` uses to decide whether a `change:`
  event fires).
* Objects are referred to by where they live: a gate by the index of its
  graph and its id, a wire likewise.  A gate that is in no graph any more
  (`gate.graph` is null) is one that the store does not find.
* The handlers call one another through Backbone events, synchronously and
  recursively.  The embedding runs them on an explicit call stack of `Task`s
  (`step` executes the statement on top and pushes the calls it makes, in
  source order), driven by `run` with a step budget.
* `joint.js` (the shapes: ports, default attributes, `operation`) is not part
  of the sources at hand: the ports are data of each gate and `operation` is a
  parameter of the scheduler.
-/

namespace DigitalJS

/-- A JavaScript signal value: `undefined` or a number. -/
inductive Val where
  | undefined : Val
  | num (n : Int) : Val
  deriving DecidableEq, Repr

/-- The outcome of running handler code: normal return, a thrown `TypeError`
(a property read on `undefined`), or the step budget of the model ran out. -/
inductive Outcome (α : Type) where
  | ok (a : α) : Outcome α
  | typeError : Outcome α
  | outOfFuel : Outcome α
  deriving DecidableEq, Repr

/-- A JavaScript object mapping port names to signal values. -/
abbrev Sigs := List (String × Val)

namespace Sigs

/-- Models `k in m`. -/
def has : Sigs → String → Bool
  | [], _ => false
  | (k', _) :: m, k => if k' = k then true else has m k

/-- Models `m[k]`, `undefined` when the key is absent. -/
def read : Sigs → String → Val
  | [], _ => Val.undefined
  | (k', v) :: m, k => if k' = k then v else read m k

/-- Models `m[k] = v` (also the result of `_.chain(m).clone().set(k, v).value()`). -/
def set : Sigs → String → Val → Sigs
  | [], k, v => [(k, v)]
  | (k', v') :: m, k, v => if k' = k then (k, v) :: m else (k', v') :: set m k v

/-- Models `_.isEqual(a, b)` on two such objects: same keys, same values. -/
def isEqual (a b : Sigs) : Bool :=
  (a.map Prod.fst ++ b.map Prod.fst).all
    fun k => (has a k == has b k) && decide (read a k = read b k)

end Sigs

/-- Direction of a port (`dir: 'in'` or `dir: 'out'`). -/
inductive Dir where
  | inp : Dir
  | out : Dir
  deriving DecidableEq, Repr

/-- The cell classes `getCellType` resolves a device type to. -/
inductive CellType where
  | And | Or | Xor | Not | Button | Input | Output | Subcircuit
  deriving DecidableEq, Repr

/-- Models `getCellType(tp)`. -/
def getCellType (tp : String) : CellType :=
  if tp = "$and" then CellType.And
  else if tp = "$or" then CellType.Or
  else if tp = "$xor" then CellType.Xor
  else if tp = "$not" then CellType.Not
  else if tp = "$button" then CellType.Button
  else if tp = "$input" then CellType.Input
  else if tp = "$output" then CellType.Output
  else CellType.Subcircuit

/-- One end of a wire: `{id, port}`; either key may be missing. -/
structure End where
  id : Option String
  port : Option String
  deriving DecidableEq, Repr

/-- The property key JavaScript uses for a port that may be `undefined`. -/
def portKey (p : Option String) : String := p.getD "undefined"

/-- A wire (`joint.shapes.digital.Wire`). -/
structure Wire where
  id : String
  source : End
  target : End
  signal : Val
  deriving DecidableEq, Repr

/-- A gate (any `joint.shapes.digital` element). `graph` is the `graph`
attribute of a Subcircuit: the index of its nested graph. -/
structure Gate where
  id : String
  type : CellType
  ports : List (String × Dir)
  inputSignals : Sigs
  outputSignals : Sigs
  buttonState : Bool
  net : Option String
  graph : Option Nat
  circuitIOmap : List (String × String)
  deriving DecidableEq, Repr

/-- A reference to a gate object: the index of its graph and its id. -/
abbrev GateRef := Nat × String

/-- One `joint.dia.Graph`: its gates, its wires, and its `subcircuit`
attribute (the Subcircuit gate that owns it, when nested). -/
structure Graph where
  cells : List Gate
  wires : List Wire
  subcircuit : Option GateRef
  deriving DecidableEq, Repr

/-- The state of a `Circuit`: every graph of the hierarchy and the one shared
pending set `this.queue` (a JavaScript `Set`, in insertion order). -/
structure Circuit where
  graphs : List Graph
  queue : List GateRef
  deriving DecidableEq, Repr

/-- Models `this.queue.add(gate)`: a `Set` ignores an element it already holds. -/
def queueAdd (q : List GateRef) (g : GateRef) : List GateRef :=
  if g ∈ q then q else q ++ [g]

/-- First gate of a list with the given id. -/
def findGate : List Gate → String → Option Gate
  | [], _ => none
  | c :: cs, id => if c.id = id then some c else findGate cs id

/-- First wire of a list with the given id. -/
def findWire : List Wire → String → Option Wire
  | [], _ => none
  | w :: ws, id => if w.id = id then some w else findWire ws id

/-- Replace the gate with the given id by its image under `f`. -/
def updGate (f : Gate → Gate) : List Gate → String → List Gate
  | [], _ => []
  | c :: cs, id => if c.id = id then f c :: cs else c :: updGate f cs id

/-- Replace the wire with the given id by its image under `f`. -/
def updWire (f : Wire → Wire) : List Wire → String → List Wire
  | [], _ => []
  | w :: ws, id => if w.id = id then f w :: ws else w :: updWire f ws id

/-- Apply `f` to the graph at index `g`. -/
def updGraph (f : Graph → Graph) : List Graph → Nat → List Graph
  | [], _ => []
  | x :: xs, 0 => f x :: xs
  | x :: xs, n + 1 => x :: updGraph f xs n

/-- The graph at index `g`. -/
def getGraph (s : Circuit) (g : Nat) : Option Graph := s.graphs[g]?

/-- Models `graph.getCell(id)` for a gate id that may be `undefined`. -/
def getCell (s : Circuit) (g : Nat) (id : Option String) : Option Gate :=
  match getGraph s g, id with
  | some gr, some i => findGate gr.cells i
  | _, _ => none

/-- The wire with the given id in graph `g`. -/
def getWire (s : Circuit) (g : Nat) (id : String) : Option Wire :=
  match getGraph s g with
  | some gr => findWire gr.wires id
  | none => none

/-- Overwrite a gate in place. -/
def modifyGate (s : Circuit) (r : GateRef) (f : Gate → Gate) : Circuit :=
  { s with graphs := updGraph (fun gr => { gr with cells := updGate f gr.cells r.2 }) s.graphs r.1 }

/-- Overwrite a wire in place. -/
def modifyWire (s : Circuit) (g : Nat) (id : String) (f : Wire → Wire) : Circuit :=
  { s with graphs := updGraph (fun gr => { gr with wires := updWire f gr.wires id }) s.graphs g }

/-! ## The scheduler: `updateGates`, capture phase -/

/-- Lines 195-198: every port of direction `'in'` missing from `args` is
added with value 0. -/
def fillInputs (ports : List (String × Dir)) (args : Sigs) : Sigs :=
  ports.foldl
    (fun a p => if p.2 ≠ Dir.inp then a else if Sigs.has a p.1 then a else Sigs.set a p.1 (Val.num 0))
    args

/-- One iteration of the capture loop (lines 184-201) for the queued gate
`r`.  Subcircuits and gates that are in no graph are skipped.  `args` is the
very object stored as the gate's `inputSignals`, so the defaults are written
into the gate (without any event); `operation` is called on the gate with that
object. -/
def captureGate (operation : Gate → Sigs → Sigs) (s : Circuit) (r : GateRef) :
    Circuit × Option (GateRef × Sigs) :=
  match getCell s r.1 (some r.2) with
  | none => (s, none)
  | some gate =>
    if gate.type = CellType.Subcircuit then (s, none)
    else
      let args := fillInputs gate.ports gate.inputSignals
      let s1 := modifyGate s r (fun c => { c with inputSignals := args })
      (s1, some (r, operation { gate with inputSignals := args } args))

/-- The capture loop over the captured set `q`: the state after it and the
list `changes`. -/
def captureLoop (operation : Gate → Sigs → Sigs) :
    Circuit → List GateRef → Circuit × List (GateRef × Sigs)
  | s, [] => (s, [])
  | s, r :: q =>
    let (s1, c) := captureGate operation s r
    let (s2, cs) := captureLoop operation s1 q
    (s2, c.toList ++ cs)

/-! ## The propagation handlers of `makeGraph` -/

/-- A pending call of the propagation layer. -/
inductive Task where
  /-- Call `gate.set('outputSignals', sigs)`. -/
  | setOutputSignals (g : GateRef) (sigs : Sigs) : Task
  /-- Call `wire.set('signal', v)` on the wire `wire` of graph `graph`. -/
  | setSignal (graph : Nat) (wire : String) (v : Val) : Task
  /-- Call `setInput(sig, end, gate)`. -/
  | setInput (sig : Val) (e : End) (g : GateRef) : Task
  /-- Run the rest of `setInput(sig, end, gate)` after its `gate.set` has returned
  (lines 143-149). -/
  | forwardInput (sig : Val) (e : End) (g : GateRef) : Task
  deriving DecidableEq, Repr

/-- Models `graph.getConnectedLinks(gate, {outbound: true})`. -/
def connectedOutbound (gr : Graph) (id : String) : List Wire :=
  gr.wires.filter fun w => w.source.id = some id

/-- Models `graph.getConnectedLinks(gate)`: inbound and outbound. -/
def getConnectedLinks (gr : Graph) (id : String) : List Wire :=
  gr.wires.filter fun w => w.source.id = some id ∨ w.target.id = some id

/-- Add `w` to the group of key `k`, creating the group at the end if new. -/
def groupInsert (k : String) (w : Wire) : List (String × List Wire) → List (String × List Wire)
  | [] => [(k, [w])]
  | (k', l) :: gs => if k' = k then (k', l ++ [w]) :: gs else (k', l) :: groupInsert k w gs

/-- Lodash `groupBy((wire) => wire.get('source').port)`: groups in order of
first occurrence (port names are not array indices). -/
def groupByPort (ws : List Wire) : List (String × List Wire) :=
  ws.foldl (fun gs w => groupInsert (portKey w.source.port) w gs) []

/-- The `wire.set('signal', sigs[port])` calls of the `change:outputSignals`
handler (lines 126-130), in the order it makes them. -/
def outputTasks (g : Nat) (ws : List Wire) (sigs : Sigs) : List Task :=
  ((groupByPort ws).map fun grp => grp.2.map fun w => Task.setSignal g w.id (Sigs.read sigs grp.1)).flatten

/-- Models `iomap[key]`. -/
def lookupIomap : List (String × String) → String → Option String
  | [], _ => none
  | (k', v) :: m, k => if k' = k then some v else lookupIomap m k

/-- Execute the call on top of the stack: the new state and the calls it makes
in turn, in source order. A `set` whose value `_.isEqual`s the current one
fires no event. -/
def step (t : Task) (s : Circuit) : Outcome (List Task × Circuit) :=
  match t with
  | Task.setOutputSignals r sigs =>
    match getCell s r.1 (some r.2) with
    | none => Outcome.ok ([], s)
    | some gate =>
      if Sigs.isEqual gate.outputSignals sigs then Outcome.ok ([], s)
      else
        -- `change:outputSignals` (lines 125-131)
        let s1 := modifyGate s r (fun c => { c with outputSignals := sigs })
        match getGraph s1 r.1 with
        | none => Outcome.ok ([], s1)
        | some gr => Outcome.ok (outputTasks r.1 (connectedOutbound gr r.2) sigs, s1)
  | Task.setSignal g wid v =>
    match getWire s g wid with
    | none => Outcome.ok ([], s)
    | some w =>
      if w.signal = v then Outcome.ok ([], s)
      else
        -- `change:signal` (lines 112-115)
        let s1 := modifyWire s g wid (fun x => { x with signal := v })
        match getCell s1 g w.target.id with
        | some gate => Outcome.ok ([Task.setInput v w.target (g, gate.id)], s1)
        | none => Outcome.ok ([], s1)
  | Task.setInput sig e r =>
    match getCell s r.1 (some r.2) with
    | none => Outcome.ok ([], s)
    | some gate =>
      let sigs := Sigs.set gate.inputSignals (portKey e.port) sig
      let fwd := if gate.type = CellType.Subcircuit then [Task.forwardInput sig e r] else []
      if Sigs.isEqual gate.inputSignals sigs then Outcome.ok (fwd, s)
      else
        -- `change:inputSignals` (lines 116-124)
        let s1 := modifyGate s r (fun c => { c with inputSignals := sigs })
        if gate.type = CellType.Output then
          match (getGraph s1 r.1).bind (fun gr => gr.subcircuit) with
          | none => Outcome.typeError
          | some sr =>
            match getCell s1 sr.1 (some sr.2) with
            | none => Outcome.ok (fwd, s1)
            | some sub =>
              Outcome.ok (Task.setOutputSignals sr
                (Sigs.set sub.outputSignals (portKey gate.net) (Sigs.read sigs "in")) :: fwd, s1)
        else Outcome.ok (fwd, { s1 with queue := queueAdd s1.queue r })
  | Task.forwardInput sig e r =>
    match getCell s r.1 (some r.2) with
    | none => Outcome.ok ([], s)
    | some gate =>
      match gate.graph with
      | none => Outcome.typeError
      | some ng =>
        match getCell s ng (lookupIomap gate.circuitIOmap (portKey e.port)) with
        | none => Outcome.typeError
        | some input => Outcome.ok ([Task.setOutputSignals (ng, input.id) [("out", sig)]], s)

/-- Run the call stack until it is empty, within a budget of `fuel` calls. -/
def run : Nat → List Task → Circuit → Outcome Circuit
  | _, [], s => Outcome.ok s
  | 0, _ :: _, _ => Outcome.outOfFuel
  | n + 1, t :: ts, s =>
    match step t s with
    | Outcome.ok (new, s1) => run n (new ++ ts) s1
    | Outcome.typeError => Outcome.typeError
    | Outcome.outOfFuel => Outcome.outOfFuel

/-- Models `updateGates()`: swap the pending set for an empty one, capture, then
apply every `gate.set('outputSignals', sigs)` of `changes` in order. -/
def updateGates (operation : Gate → Sigs → Sigs) (fuel : Nat) (s : Circuit) : Outcome Circuit :=
  let q := s.queue
  let s0 := { s with queue := [] }
  let r := captureLoop operation s0 q
  run fuel (r.2.map fun c => Task.setOutputSignals c.1 c.2) r.1

/-! ## Edits of a graph and the handlers they fire -/

/-- The `'add'` handler's call for a wire just added (lines 170-177). -/
def addTasks (s : Circuit) (g : Nat) (w : Wire) : List Task :=
  match getCell s g w.source.id, w.source.port with
  | some sgate, some p => [Task.setSignal g w.id (Sigs.read sgate.outputSignals p)]
  | _, _ => []

/-- The circuit with the wire `w` added to graph `g`. -/
def attachWire (s : Circuit) (g : Nat) (w : Wire) : Circuit :=
  let add : Graph → Graph := fun x => { x with wires := x.wires ++ [w] }
  { s with graphs := updGraph add s.graphs g }

/-- Models `graph.addCell(wire)` once the listeners are registered. A cell whose id
the graph already holds is not added. -/
def addWire (fuel : Nat) (g : Nat) (w : Wire) (s : Circuit) : Outcome Circuit :=
  match getGraph s g with
  | none => Outcome.ok s
  | some gr =>
    if (findWire gr.wires w.id).isSome ∨ (findGate gr.cells w.id).isSome then Outcome.ok s
    else run fuel (addTasks (attachWire s g w) g w) (attachWire s g w)

/-- The `'remove'` handler's call for a wire just removed (lines 162-169). -/
def removeTasks (s : Circuit) (g : Nat) (w : Wire) : List Task :=
  match getCell s g w.target.id, w.target.port with
  | some gate, some _ => [Task.setInput (Val.num 0) w.target (g, gate.id)]
  | _, _ => []

/-- The circuit without the wire `wid` of graph `g`. -/
def detachWire (s : Circuit) (g : Nat) (wid : String) : Circuit :=
  let drop : Graph → Graph := fun x => { x with wires := x.wires.filter fun y => y.id ≠ wid }
  { s with graphs := updGraph drop s.graphs g }

/-- Models `wire.remove()`. -/
def removeWire (fuel : Nat) (g : Nat) (wid : String) (s : Circuit) : Outcome Circuit :=
  match getWire s g wid with
  | none => Outcome.ok s
  | some w => run fuel (removeTasks (detachWire s g wid) g w) (detachWire s g wid)

/-- The `change:target` handler's calls (lines 151-161): `e` is the new end,
`pend` the previous one, `sig` the wire's signal. -/
def targetTasks (s : Circuit) (g : Nat) (sig : Val) (e pend : End) : List Task :=
  (match getCell s g e.id, e.port with
    | some gate, some _ => [Task.setInput sig e (g, gate.id)]
    | _, _ => []) ++
  (match getCell s g pend.id, pend.port with
    | some pgate, some _ => [Task.setInput (Val.num 0) pend (g, pgate.id)]
    | _, _ => [])

/-- Models `wire.set('target', e)`. -/
def setTarget (fuel : Nat) (g : Nat) (wid : String) (e : End) (s : Circuit) : Outcome Circuit :=
  match getWire s g wid with
  | none => Outcome.ok s
  | some w =>
    if w.target = e then Outcome.ok s
    else
      let s1 := modifyWire s g wid (fun x => { x with target := e })
      run fuel (targetTasks s1 g w.signal e w.target) s1

/-- The `change:source` handler's call (lines 132-139). -/
def sourceTasks (s : Circuit) (g : Nat) (wid : String) (e : End) : List Task :=
  match getCell s g e.id, e.port with
  | some gate, some p => [Task.setSignal g wid (Sigs.read gate.outputSignals p)]
  | _, _ => [Task.setSignal g wid (Val.num 0)]

/-- Models `wire.set('source', e)`. -/
def setSource (fuel : Nat) (g : Nat) (wid : String) (e : End) (s : Circuit) : Outcome Circuit :=
  match getWire s g wid with
  | none => Outcome.ok s
  | some w =>
    if w.source = e then Outcome.ok s
    else
      let s1 := modifyWire s g wid (fun x => { x with source := e })
      run fuel (sourceTasks s1 g wid e) s1

/-- Models `gate.set('buttonState', b)` and its handler (lines 109-111). -/
def setButtonState (r : GateRef) (b : Bool) (s : Circuit) : Circuit :=
  match getCell s r.1 (some r.2) with
  | none => s
  | some gate =>
    if gate.buttonState = b then s
    else
      let s1 := modifyGate s r (fun c => { c with buttonState := b })
      { s1 with queue := queueAdd s1.queue r }

/-! ## What a tick is to compute, and concrete circuits -/

/-- The pair a tick is to record for the pending gate `r`, read off the state
`s` the tick starts in: nothing for a Subcircuit or a gate in no graph,
otherwise the gate's operation applied to its `inputSignals` with every absent
input port set to 0. -/
def tickOutputs (operation : Gate → Sigs → Sigs) (s : Circuit) (r : GateRef) :
    Option (GateRef × Sigs) :=
  match getCell s r.1 (some r.2) with
  | none => none
  | some gate =>
    if gate.type = CellType.Subcircuit then none
    else
      let args := fillInputs gate.ports gate.inputSignals
      some (r, operation { gate with inputSignals := args } args)

/-- JavaScript truthiness of a signal value. -/
def truthy : Val → Bool
  | Val.undefined => false
  | Val.num n => decide (n ≠ 0)

/-- A boolean as the number 1 or 0. -/
def ofBool (b : Bool) : Val := if b then Val.num 1 else Val.num 0

/-- Modelled from the spec: the `operation` methods of the shapes are defined in
`joint.js`, which is not among the sources. The primitive kinds compute the
logic function of their name over the ports `in1`, `in2` (`in` for NOT) into
`out`, a button outputs its state, an input terminal keeps the outputs that
forwarding gave it, and the other kinds compute nothing. -/
def gateOperation (g : Gate) (args : Sigs) : Sigs :=
  match g.type with
  | CellType.And => [("out", ofBool (truthy (Sigs.read args "in1") && truthy (Sigs.read args "in2")))]
  | CellType.Or => [("out", ofBool (truthy (Sigs.read args "in1") || truthy (Sigs.read args "in2")))]
  | CellType.Xor => [("out", ofBool (xor (truthy (Sigs.read args "in1")) (truthy (Sigs.read args "in2"))))]
  | CellType.Not => [("out", ofBool (!truthy (Sigs.read args "in")))]
  | CellType.Button => [("out", ofBool g.buttonState)]
  | CellType.Input => g.outputSignals
  | CellType.Output => []
  | CellType.Subcircuit => []

/-- A gate with the given id, kind and ports, and empty signal maps. -/
def mkGate (id : String) (t : CellType) (ports : List (String × Dir)) : Gate :=
  { id := id, type := t, ports := ports, inputSignals := [], outputSignals := [],
    buttonState := false, net := none, graph := none, circuitIOmap := [] }

/-- A wire with the given id and ends, carrying 0. -/
def mkWire (id : String) (sg sp tg tp : String) : Wire :=
  { id := id, source := ⟨some sg, some sp⟩, target := ⟨some tg, some tp⟩, signal := Val.num 0 }

/-- A button driving two NOT gates in series, nothing evaluated yet. -/
def notChain : Circuit :=
  { graphs := [{ cells := [mkGate "b" CellType.Button [("out", Dir.out)],
                           mkGate "n1" CellType.Not [("in", Dir.inp), ("out", Dir.out)],
                           mkGate "n2" CellType.Not [("in", Dir.inp), ("out", Dir.out)]],
                 wires := [mkWire "w1" "b" "out" "n1" "in", mkWire "w2" "n1" "out" "n2" "in"],
                 subcircuit := none }],
    queue := [(0, "b"), (0, "n1"), (0, "n2")] }

/-- A Subcircuit gate `x` whose nested graph (index 1) passes its input terminal
`i` straight to its output terminal `o`. -/
def passThrough : Circuit :=
  { graphs :=
      [{ cells := [{ mkGate "x" CellType.Subcircuit [("p", Dir.inp), ("n", Dir.out)] with
                      graph := some 1, circuitIOmap := [("p", "i"), ("n", "o")] }],
         wires := [],
         subcircuit := none },
       { cells := [{ mkGate "i" CellType.Input [("out", Dir.out)] with net := some "p" },
                   { mkGate "o" CellType.Output [("in", Dir.inp)] with net := some "n" }],
         wires := [mkWire "v" "i" "out" "o" "in"],
         subcircuit := some (0, "x") }],
    queue := [] }

/-! ## Connection validation (`validateConnection` of `makePaper`) -/

/-- The end of the link being connected: the argument `e`. -/
inductive Dragged where
  | source : Dragged
  | target : Dragged
  deriving DecidableEq, Repr

/-- Models `gate.ports[name]`: the direction of the port of that name, if any. -/
def lookupPort : List (String × Dir) → String → Option Dir
  | [], _ => none
  | (k', d) :: m, k => if k' = k then some d else lookupPort m k

/-- Models `validateConnection(vs, ms, vt, mt, e, vl)` on the graph `gr` of the
paper. `vs` and `vt` are the gates of the two cell views, `ms` and `mt` the
`port` attributes of the two magnets (`none`: no magnet), `vl` the id of the
link being connected. A result that is `undefined` counts as `false`. -/
def validateConnection (gr : Graph) (vs : Gate) (ms : Option String) (vt : Gate)
    (mt : Option String) (e : Dragged) (vl : String) : Outcome Bool :=
  match e with
  | Dragged.target =>
    match mt with
    | none => Outcome.ok false
    | some port =>
      match lookupPort vt.ports port with
      | some Dir.inp =>
        Outcome.ok (!(getConnectedLinks gr vt.id).any fun l =>
          decide (l.id ≠ vl) && decide (l.target.id = some vt.id) &&
            decide (l.target.port = some port))
      | _ => Outcome.ok false
  | Dragged.source =>
    match ms with
    | none => Outcome.typeError
    | some port =>
      match lookupPort vs.ports port with
      | some Dir.out => Outcome.ok true
      | _ => Outcome.ok false

/-- An interactive connection of one end of the wire `vl` of graph `g` to the
magnet under the pointer: the end is set when `validateConnection` accepts the
connection and nothing happens when it does not. -/
def connect (fuel : Nat) (g : Nat) (vs : Gate) (ms : Option String) (vt : Gate)
    (mt : Option String) (e : Dragged) (vl : String) (s : Circuit) : Outcome Circuit :=
  match getGraph s g with
  | none => Outcome.ok s
  | some gr =>
    match validateConnection gr vs ms vt mt e vl with
    | Outcome.ok true =>
      match e with
      | Dragged.target => setTarget fuel g vl ⟨some vt.id, mt⟩ s
      | Dragged.source => setSource fuel g vl ⟨some vs.id, ms⟩ s
    | Outcome.ok false => Outcome.ok s
    | Outcome.typeError => Outcome.typeError
    | Outcome.outOfFuel => Outcome.outOfFuel

/-- A button `a`. -/
def buttonA : Gate := mkGate "a" CellType.Button [("out", Dir.out)]

/-- An AND gate `c` with inputs `in1` and `in2`. -/
def andC : Gate := mkGate "c" CellType.And [("in1", Dir.inp), ("in2", Dir.inp), ("out", Dir.out)]

/-- A NOT gate `d`. -/
def notD : Gate := mkGate "d" CellType.Not [("in", Dir.inp), ("out", Dir.out)]

/-- A wire from the input port `c.in2` whose target end is not connected yet. -/
def looseWire : Wire :=
  { id := "w2", source := ⟨some "c", some "in2"⟩, target := ⟨none, none⟩, signal := Val.num 0 }

/-- The graph of `andBoard`. -/
def andBoardGraph : Graph :=
  { cells := [buttonA, mkGate "b" CellType.Button [("out", Dir.out)], andC, notD],
    wires := [mkWire "w1" "a" "out" "c" "in1", looseWire],
    subcircuit := none }

/-- Two buttons `a` and `b`, the AND gate `c`, the NOT gate `d`, a wire `w1` from
`a.out` to `c.in1`, and the loose wire `w2`. -/
def andBoard : Circuit := { graphs := [andBoardGraph], queue := [] }

/-! ## Construction: `makeGraph` -/

/-- One entry of `data.devices`. -/
structure Device where
  type : String
  label : Option String
  net : Option String
  deriving DecidableEq, Repr

/-- One entry of `data.connectors`, its `from` and `to` strings already split
at the dot into device id and port, together with the fresh id the new Wire
gets. -/
structure Connector where
  id : String
  src : String × String
  tgt : String × String
  deriving DecidableEq, Repr

/-- The declarative description `data`: devices, connectors, and the
descriptions of the subcircuit types it uses. -/
inductive Description where
  | mk (devices : List (String × Device)) (connectors : List Connector)
      (subcircuits : List (String × Description)) : Description

/-- Models `data.devices`. -/
def Description.devices : Description → List (String × Device)
  | Description.mk d _ _ => d

/-- Models `data.connectors`. -/
def Description.connectors : Description → List Connector
  | Description.mk _ c _ => c

/-- Models `data.subcircuits[name]`. -/
def Description.subcircuit : Description → String → Option Description
  | Description.mk _ _ subs, name => (subs.find? fun x => x.1 = name).map Prod.snd

/-- Modelled from the spec: the port schema of each primitive kind, defined in
`joint.js`, which is not among the sources. -/
def defaultPorts : CellType → List (String × Dir)
  | CellType.And => [("in1", Dir.inp), ("in2", Dir.inp), ("out", Dir.out)]
  | CellType.Or => [("in1", Dir.inp), ("in2", Dir.inp), ("out", Dir.out)]
  | CellType.Xor => [("in1", Dir.inp), ("in2", Dir.inp), ("out", Dir.out)]
  | CellType.Not => [("in", Dir.inp), ("out", Dir.out)]
  | CellType.Button => [("out", Dir.out)]
  | CellType.Input => [("out", Dir.out)]
  | CellType.Output => [("in", Dir.inp)]
  | CellType.Subcircuit => []

/-- Modelled from the spec: the ports of a Hierarchical gate, one per terminal
gate of its nested graph, named by the terminal's net, an input terminal giving
an input port and an output terminal an output port (`joint.js` is not among the
sources). -/
def subcircuitPorts (nested : Graph) : List (String × Dir) :=
  nested.cells.filterMap fun c =>
    match c.type with
    | CellType.Input => some (portKey c.net, Dir.inp)
    | CellType.Output => some (portKey c.net, Dir.out)
    | _ => none

/-- Modelled from the spec: the map from the external port names of a
Hierarchical gate to the ids of the nested terminal gates (`joint.js` is not
among the sources). -/
def subcircuitIOmap (nested : Graph) : List (String × String) :=
  nested.cells.filterMap fun c =>
    match c.type with
    | CellType.Input => some (portKey c.net, c.id)
    | CellType.Output => some (portKey c.net, c.id)
    | _ => none

/-- Modelled from the spec: `new cellType(cellArgs)`, the constructors being
defined in `joint.js`, which is not among the sources. No input is set, every
output port holds 0. -/
def newCell (t : CellType) (id : String) (net : Option String) (nested : Option (Nat × Graph)) :
    Gate :=
  let ports := match nested with
    | some (_, gr) => subcircuitPorts gr
    | none => defaultPorts t
  { id := id, type := t, ports := ports, inputSignals := [],
    outputSignals := (ports.filter fun p => p.2 = Dir.out).map fun p => (p.1, Val.num 0),
    buttonState := false, net := net, graph := nested.map Prod.fst,
    circuitIOmap := match nested with
      | some (_, gr) => subcircuitIOmap gr
      | none => [] }

/-- Models `graph.addCell(cell)` for a gate: a cell whose id the graph holds
already is not added. -/
def addGate (s : Circuit) (g : Nat) (c : Gate) : Circuit :=
  let add : Graph → Graph := fun gr =>
    if (findGate gr.cells c.id).isSome ∨ (findWire gr.wires c.id).isSome then gr
    else { gr with cells := gr.cells ++ [c] }
  { s with graphs := updGraph add s.graphs g }

/-- The connectors loop of `makeGraph` (lines 95-102): the wires are added
before any listener is registered, so no handler runs. The signal of a new
Wire is its default, 0 (modelled from the spec, `joint.js` not being among the
sources). -/
def addConnectors (s : Circuit) (g : Nat) : List Connector → Circuit
  | [] => s
  | conn :: rest =>
    let w : Wire := { id := conn.id, source := ⟨some conn.src.1, some conn.src.2⟩,
                      target := ⟨some conn.tgt.1, some conn.tgt.2⟩, signal := Val.num 0 }
    let add : Graph → Graph := fun gr =>
      if (findGate gr.cells w.id).isSome ∨ (findWire gr.wires w.id).isSome then gr
      else { gr with wires := gr.wires ++ [w] }
    addConnectors { s with graphs := updGraph add s.graphs g } g rest

/-- The devices loop of `makeGraph` (lines 80-94) for the graph at index `g`,
`mk` being the recursive call for a nested description. A Subcircuit device
whose type `data.subcircuits` does not know makes the recursive call read
`undefined.devices`. -/
def addDevices (mk : Description → Circuit → Outcome (Circuit × Nat)) (data : Description)
    (g : Nat) : List (String × Device) → Circuit → Outcome Circuit
  | [], s => Outcome.ok s
  | (devid, dev) :: rest, s =>
    let cellType := getCellType dev.type
    let net := if cellType = CellType.Input ∨ cellType = CellType.Output then dev.net else none
    if cellType = CellType.Subcircuit then
      match data.subcircuit dev.type with
      | none => Outcome.typeError
      | some sub =>
        match mk sub s with
        | Outcome.ok (s1, ng) =>
          match getGraph s1 ng with
          | none => Outcome.typeError
          | some gr =>
            let cell := newCell cellType devid net (some (ng, gr))
            let s2 : Circuit :=
              { s1 with graphs :=
                  updGraph (fun x => { x with subcircuit := some (g, devid) }) s1.graphs ng }
            let s3 := addGate s2 g cell
            addDevices mk data g rest { s3 with queue := queueAdd s3.queue (g, devid) }
        | Outcome.typeError => Outcome.typeError
        | Outcome.outOfFuel => Outcome.outOfFuel
    else
      let cell := newCell cellType devid net none
      let s3 := addGate s g cell
      addDevices mk data g rest { s3 with queue := queueAdd s3.queue (g, devid) }

/-- Models `makeGraph(data)`: the new graph is stored at a fresh index, which is
returned with the state. `fuel` bounds the nesting depth of the description. -/
def makeGraph : Nat → Description → Circuit → Outcome (Circuit × Nat)
  | 0, _, _ => Outcome.outOfFuel
  | fuel + 1, data, s =>
    let g := s.graphs.length
    let s0 : Circuit :=
      { s with graphs := s.graphs ++ [{ cells := [], wires := [], subcircuit := none }] }
    match addDevices (makeGraph fuel) data g data.devices s0 with
    | Outcome.ok s1 => Outcome.ok (addConnectors s1 g data.connectors, g)
    | Outcome.typeError => Outcome.typeError
    | Outcome.outOfFuel => Outcome.outOfFuel

/-- The constructor of `Circuit` (lines 26-30): an empty pending set, then
`makeGraph(data)`; the root graph has index 0. -/
def Circuit.new (fuel : Nat) (data : Description) : Outcome Circuit :=
  match makeGraph fuel data { graphs := [], queue := [] } with
  | Outcome.ok (s, _) => Outcome.ok s
  | Outcome.typeError => Outcome.typeError
  | Outcome.outOfFuel => Outcome.outOfFuel

/-- A description with two buttons and an AND gate, both buttons wired to the
same input port `c.in1`. -/
def doubleDriver : Description :=
  Description.mk
    [("a", ⟨"$button", none, none⟩), ("b", ⟨"$button", none, none⟩), ("c", ⟨"$and", none, none⟩)]
    [⟨"w1", ("a", "out"), ("c", "in1")⟩, ⟨"w2", ("b", "out"), ("c", "in1")⟩]
    []

/-! ## Topology: what the propagation layer never changes -/

/-- A gate without its signals. -/
def Gate.bare (c : Gate) : Gate := { c with inputSignals := [], outputSignals := [] }

/-- A wire without its signal. -/
def Wire.bare (w : Wire) : Wire := { w with signal := Val.undefined }

/-- A graph without its signals. -/
def Graph.bare (gr : Graph) : Graph :=
  { cells := gr.cells.map Gate.bare, wires := gr.wires.map Wire.bare, subcircuit := gr.subcircuit }

/-- The topology of a circuit: its graphs without any signal. -/
def skeleton (s : Circuit) : List Graph := s.graphs.map Graph.bare

/-! ## Edits -/

/-- Remove the wires with the given ids one after the other. -/
def removeWires (fuel : Nat) (g : Nat) : List String → Circuit → Outcome Circuit
  | [], s => Outcome.ok s
  | wid :: rest, s =>
    match removeWire fuel g wid s with
    | Outcome.ok s1 => removeWires fuel g rest s1
    | Outcome.typeError => Outcome.typeError
    | Outcome.outOfFuel => Outcome.outOfFuel

/-- Models `gate.remove()`: the wires connected to the gate are removed first, each
firing the `'remove'` handler, then the gate leaves the graph. -/
def removeGate (fuel : Nat) (g : Nat) (id : String) (s : Circuit) : Outcome Circuit :=
  match getGraph s g with
  | none => Outcome.ok s
  | some gr =>
    match findGate gr.cells id with
    | none => Outcome.ok s
    | some _ =>
      match removeWires fuel g ((getConnectedLinks gr id).map fun w => w.id) s with
      | Outcome.ok s1 =>
        let drop : Graph → Graph := fun x => { x with cells := x.cells.filter fun c => c.id ≠ id }
        Outcome.ok { s1 with graphs := updGraph drop s1.graphs g }
      | Outcome.typeError => Outcome.typeError
      | Outcome.outOfFuel => Outcome.outOfFuel

/-- What an editor or the timer can do to a circuit once it is built. -/
inductive Edit where
  /-- Pull a new wire out of a port: it is added with its target end loose. -/
  | pull (g : Nat) (wid : String) (src : End) : Edit
  /-- Drop one end of a wire on a magnet; `validateConnection` decides. -/
  | connect (g : Nat) (vs : Gate) (ms : Option String) (vt : Gate) (mt : Option String)
      (e : Dragged) (vl : String) : Edit
  /-- Drag the target end of a wire off its magnet: the end is then a point of
  the paper, with neither `id` nor `port`. -/
  | unplug (g : Nat) (wid : String) : Edit
  /-- Remove a wire. -/
  | removeWire (g : Nat) (wid : String) : Edit
  /-- Remove a gate. -/
  | removeGate (g : Nat) (id : String) : Edit
  /-- Press or release a button. -/
  | press (r : GateRef) (b : Bool) : Edit
  /-- One run of `updateGates`. -/
  | tick : Edit

/-- Carry out one edit. -/
def applyEdit (operation : Gate → Sigs → Sigs) (fuel : Nat) : Edit → Circuit → Outcome Circuit
  | Edit.pull g wid src, s =>
    addWire fuel g { id := wid, source := src, target := ⟨none, none⟩, signal := Val.num 0 } s
  | Edit.connect g vs ms vt mt e vl, s => connect fuel g vs ms vt mt e vl s
  | Edit.unplug g wid, s => setTarget fuel g wid ⟨none, none⟩ s
  | Edit.removeWire g wid, s => removeWire fuel g wid s
  | Edit.removeGate g id, s => removeGate fuel g id s
  | Edit.press r b, s => Outcome.ok (setButtonState r b s)
  | Edit.tick, s => updateGates operation fuel s

/-- Carry out a sequence of edits. -/
def applyEdits (operation : Gate → Sigs → Sigs) (fuel : Nat) :
    List Edit → Circuit → Outcome Circuit
  | [], s => Outcome.ok s
  | e :: es, s =>
    match applyEdit operation fuel e s with
    | Outcome.ok s1 => applyEdits operation fuel es s1
    | Outcome.typeError => Outcome.typeError
    | Outcome.outOfFuel => Outcome.outOfFuel

/-! ## Invariants of the topology -/

/-- The end names a gate and a port. -/
def End.bound (e : End) : Prop := e.id.isSome = true ∧ e.port.isSome = true

/-- Every (gate, port) pair is the target of at most one wire of the graph. -/
def Graph.SingleDriver (gr : Graph) : Prop :=
  ∀ id p : String, (gr.wires.filter fun w => w.target = ⟨some id, some p⟩).length ≤ 1

/-- Single-driver invariant, in every graph of the hierarchy. -/
def SingleDriver (s : Circuit) : Prop := ∀ gr ∈ s.graphs, gr.SingleDriver

/-- The wires of a graph have pairwise different ids (a graph keeps its cells
in a collection keyed by id). -/
def UniqueWireIds (s : Circuit) : Prop := ∀ gr ∈ s.graphs, (gr.wires.map fun w => w.id).Nodup

/-- The wires of a list have pairwise different ids and no two of them target
the same (gate, port) pair. -/
def WiredOK (ws : List Wire) : Prop :=
  (ws.map fun w => w.id).Nodup ∧
    ∀ id p : String, (ws.filter fun w => w.target = ⟨some id, some p⟩).length ≤ 1

/-- The wires of every graph, without their signals. -/
def wiring (s : Circuit) : List (List Wire) := s.graphs.map fun gr => gr.wires.map Wire.bare

/-- The value a gate's input port holds: the stored one, 0 when the port is
absent from `inputSignals` (the default `updateGates` fills in). -/
def inputValue (m : Sigs) (k : String) : Val := if Sigs.has m k then Sigs.read m k else Val.num 0

/-- The task is a call `setInput(_, end, gate)` on gate `r` with `end.port` giving key `p`. -/
def Task.onPort (r : GateRef) (p : String) : Task → Prop
  | Task.setInput _ e r' => r' = r ∧ portKey e.port = p
  | _ => False

/-- The wire targets port `p` of the gate `id` (`p` as the property key that
`setInput` writes). -/
def Wire.drives (w : Wire) (id p : String) : Prop :=
  w.target.id = some id ∧ portKey w.target.port = p

/-- No wire of graph `g` targets port `p` of gate `id`. -/
def NoDriver (s : Circuit) (g : Nat) (id p : String) : Prop :=
  ∀ gr, getGraph s g = some gr → ∀ w ∈ gr.wires, ¬ w.drives id p

/-- Every wire of graph `g` that targets port `p` of gate `id` has the id `wid`. -/
def OnlyDriver (s : Circuit) (g : Nat) (id p wid : String) : Prop :=
  ∀ gr, getGraph s g = some gr → ∀ w ∈ gr.wires, w.drives id p → w.id = wid

instance (w : Wire) (id p : String) : Decidable (w.drives id p) := by
  unfold Wire.drives
  infer_instance

/-- The AND board with button `a` lit: `a` outputs 1, the wire `w1` carries it
into `c.in1`. -/
def litBoard : Circuit :=
  { graphs :=
      [{ cells := [{ buttonA with buttonState := true, outputSignals := [("out", Val.num 1)] },
                   mkGate "b" CellType.Button [("out", Dir.out)],
                   { andC with inputSignals := [("in1", Val.num 1)] },
                   notD],
         wires := [{ mkWire "w1" "a" "out" "c" "in1" with signal := Val.num 1 }, looseWire],
         subcircuit := none }],
    queue := [(0, "c")] }

/-- The board `litBoard` after `w1` has been moved from `c.in1` to `d.in`. -/
def litBoardMoved : Circuit :=
  { graphs :=
      [{ cells := [{ buttonA with buttonState := true, outputSignals := [("out", Val.num 1)] },
                   mkGate "b" CellType.Button [("out", Dir.out)],
                   { andC with inputSignals := [("in1", Val.num 0)] },
                   { notD with inputSignals := [("in", Val.num 1)] }],
         wires := [{ mkWire "w1" "a" "out" "d" "in" with signal := Val.num 1 }, looseWire],
         subcircuit := none }],
    queue := [(0, "c"), (0, "d")] }

/-! ## Hierarchy: a Subcircuit port and the terminal it maps to -/

/-- The task neither assigns the outputs of the gate `term` nor is the second
half of a `setInput` on port `p` of the gate `H`. -/
def Task.safeFor (H : GateRef) (p : String) (term : GateRef) : Task → Prop
  | Task.setOutputSignals r _ => r ≠ term
  | Task.forwardInput _ e r => ¬ (r = H ∧ portKey e.port = p)
  | _ => True

/-- The outputs of the terminal `term` are `{out: v}`, `v` being what input `p`
of the gate `H` holds. -/
def Mirror (s : Circuit) (H : GateRef) (p : String) (term : GateRef) : Prop :=
  ∀ h t, getCell s H.1 (some H.2) = some h → getCell s term.1 (some term.2) = some t →
    Sigs.isEqual t.outputSignals [("out", inputValue h.inputSignals p)] = true

/-- The gate `H` is a Subcircuit whose `circuitIOmap` sends port `p` to the gate
`term` of its nested graph; no other gate and port are mapped to `term`, and
`term` is not the `subcircuit` of any graph. -/
structure Forwards (s : Circuit) (H : GateRef) (p : String) (term : GateRef) : Prop where
  sub : ∀ h, getCell s H.1 (some H.2) = some h →
    h.type = CellType.Subcircuit ∧ h.graph = some term.1 ∧
      lookupIomap h.circuitIOmap p = some term.2
  inj : ∀ (r : GateRef) h k, getCell s r.1 (some r.2) = some h → h.graph = some term.1 →
    lookupIomap h.circuitIOmap k = some term.2 → r = H ∧ k = p
  noref : ∀ g gr, getGraph s g = some gr → gr.subcircuit ≠ some term

/-- A subcircuit type `pass` that hands its input `p` straight to its output
`n` and has a second input `q`; at the root a button `a` drives `x.p`, and the
output `x.n` is fed back into `x.q`. -/
def feedbackData : Description :=
  Description.mk
    [("a", ⟨"$button", none, none⟩), ("x", ⟨"pass", none, none⟩)]
    [⟨"w", ("a", "out"), ("x", "p")⟩, ⟨"f", ("x", "n"), ("x", "q")⟩]
    [("pass", Description.mk
        [("i", ⟨"$input", none, some "p"⟩), ("j", ⟨"$input", none, some "q"⟩),
         ("o", ⟨"$output", none, some "n"⟩)]
        [⟨"v", ("i", "out"), ("o", "in")⟩]
        [])]

/-- The state of an outcome, the empty circuit if there is none. -/
def Outcome.state : Outcome Circuit → Circuit
  | Outcome.ok s => s
  | _ => { graphs := [], queue := [] }

/-- The circuit built from `feedbackData`, after a first tick, a press of the
button and a second tick: the button's 1 has gone through `x.p`, the nested
terminals and `x.n` back into `x.q`. -/
def feedbackLit : Circuit :=
  (applyEdits gateOperation 40 [Edit.tick, Edit.press (0, "a") true, Edit.tick]
    (Circuit.new 3 feedbackData).state).state

/-- A decision procedure for `Forwards` on a concrete circuit. -/
def forwardsCheck (s : Circuit) (H : GateRef) (p : String) (term : GateRef) : Bool :=
  (match getCell s H.1 (some H.2) with
    | some h => decide (h.type = CellType.Subcircuit) && decide (h.graph = some term.1) &&
        decide (lookupIomap h.circuitIOmap p = some term.2)
    | none => true)
  && s.graphs.enum.all fun x =>
      decide (x.2.subcircuit ≠ some term) &&
      x.2.cells.all fun c =>
        decide (c.graph ≠ some term.1) ||
        c.circuitIOmap.all fun kv =>
          decide (lookupIomap c.circuitIOmap kv.1 ≠ some term.2) ||
          (decide ((x.1, c.id) = H) && decide (kv.1 = p))

/-- A subcircuit type `sub` with an input `p` handed straight to its output `m`
and a button `k` driving its output `n`; at the root the output `x.n` is fed
back into `x.p` (wire `w1`, added first) and the output `x.m` drives a NOT gate
`d` (wire `w2`). -/
def staleData : Description :=
  Description.mk
    [("x", ⟨"sub", none, none⟩), ("d", ⟨"$not", none, none⟩)]
    [⟨"w1", ("x", "n"), ("x", "p")⟩, ⟨"w2", ("x", "m"), ("d", "in")⟩]
    [("sub", Description.mk
        [("i", ⟨"$input", none, some "p"⟩), ("om", ⟨"$output", none, some "m"⟩),
         ("on", ⟨"$output", none, some "n"⟩), ("k", ⟨"$button", none, none⟩)]
        [⟨"v1", ("i", "out"), ("om", "in")⟩, ⟨"v2", ("k", "out"), ("on", "in")⟩]
        [])]

/-- The circuit built from `staleData` after a first tick, a press of the nested
button `k` and a second tick. -/
def staleRun : Outcome Circuit :=
  applyEdits gateOperation 60 [Edit.tick, Edit.press (1, "k") true, Edit.tick]
    (Circuit.new 3 staleData).state

/-! ## Consistency of gate inputs with wires -/

/-- Every wire end that names a gate names a port of it. -/
def TargetsWF (s : Circuit) : Prop :=
  ∀ gr ∈ s.graphs, ∀ w ∈ gr.wires, w.target.id.isSome = true → w.target.port.isSome = true

/-- Every input port holds the signal of the wire that targets it, and 0 when no
wire targets it (an input absent from `inputSignals` reads 0). -/
def InputsConsistent (s : Circuit) : Prop :=
  ∀ g gr id c p, getGraph s g = some gr → findGate gr.cells id = some c →
    (∀ w ∈ gr.wires, w.target = ⟨some id, some p⟩ → inputValue c.inputSignals p = w.signal) ∧
    ((∀ w ∈ gr.wires, w.target ≠ ⟨some id, some p⟩) → inputValue c.inputSignals p = Val.num 0)

/-- What `InputsConsistent` asks of the state a cascade starts in, the calls of
`ts` being pending: every driven port holds its wire's signal, or the call that
writes it is on top of the stack; every undriven port holds 0, or a call that
writes 0 into it is pending. -/
def ConsistentStart (ts : List Task) (s : Circuit) : Prop :=
  ∀ g gr id c p, getGraph s g = some gr → findGate gr.cells id = some c →
    (∀ w ∈ gr.wires, w.target = ⟨some id, some p⟩ →
      (inputValue c.inputSignals p = w.signal ∧ ∀ t ∈ ts, ¬ Task.onPort (g, id) p t)
      ∨ ∃ e rest, ts = Task.setInput w.signal e (g, id) :: rest ∧ portKey e.port = p ∧
          ∀ t ∈ rest, ¬ Task.onPort (g, id) p t)
    ∧ ((∀ w ∈ gr.wires, w.target ≠ ⟨some id, some p⟩) →
      (∀ t ∈ ts, ∀ v e, t = Task.setInput v e (g, id) → portKey e.port = p → v = Val.num 0)
      ∧ (inputValue c.inputSignals p = Val.num 0 ∨ ∃ t ∈ ts, Task.onPort (g, id) p t))

/-- What `makeGraph` builds in a graph: the wires have pairwise different ids,
hold the signal 0 and name a target port, and no gate has an input set. -/
def Graph.Pristine (gr : Graph) : Prop :=
  (gr.wires.map fun w => w.id).Nodup ∧
    (∀ w ∈ gr.wires, w.signal = Val.num 0 ∧ w.target.port.isSome = true) ∧
    ∀ c ∈ gr.cells, c.inputSignals = []

/-- Every graph of the hierarchy is as `makeGraph` builds it. -/
def Pristine (s : Circuit) : Prop := ∀ gr ∈ s.graphs, gr.Pristine

/-- The circuit built from `feedbackData` after a first tick, a press of the
button, a second tick, the feedback wire `f` unplugged from `x.q` and a third
tick. -/
def feedbackUnplugged : Outcome Circuit :=
  applyEdits gateOperation 60
    [Edit.tick, Edit.press (0, "a") true, Edit.tick, Edit.unplug 0 "f", Edit.tick]
    (Circuit.new 3 feedbackData).state

/-- The chain `notChain` with nothing pending, after the button's outputs have
been set to `{out: 1}`: the wire `w1` carries the 1 into `n1.in`. -/
def notChainLit : Outcome Circuit :=
  run 10 [Task.setOutputSignals (0, "b") [("out", Val.num 1)]] { notChain with queue := [] }

/-- The gate `n1` of `notChainLit`. -/
def notN1Lit : Gate :=
  { mkGate "n1" CellType.Not [("in", Dir.inp), ("out", Dir.out)] with
    inputSignals := [("in", Val.num 1)] }

/-! ## Edits as cascades -/

/-- The call is one an edit of the wiring makes: `wire.set('signal', v)` or
`setInput(sig, end, gate)`. -/
def Task.isWireCall : Task → Prop
  | Task.setSignal _ _ _ => True
  | Task.setInput _ _ _ => True
  | _ => False

/-- The two states have the same pending set and, graph by graph, the same
gates and the same `subcircuit` attribute: they differ in their wires only. -/
def SameCells (sm s : Circuit) : Prop :=
  sm.queue = s.queue ∧
    sm.graphs.map (fun gr => (gr.cells, gr.subcircuit))
      = s.graphs.map (fun gr => (gr.cells, gr.subcircuit))

/-- The circuit without the gates of id `id` in graph `g` (the last step of
`gate.remove()`). -/
def dropGate (s : Circuit) (g : Nat) (id : String) : Circuit :=
  let drop : Graph → Graph := fun x => { x with cells := x.cells.filter fun c => c.id ≠ id }
  { s with graphs := updGraph drop s.graphs g }

/-- Every gate of `s1` is a gate of `s` of the same kind, with the same nested
graph and the same `circuitIOmap`, and every graph of `s1` is a graph of `s`
with the same `subcircuit` attribute: `s1` has no gate and no graph that `s`
has not. -/
def Within (s1 s : Circuit) : Prop :=
  (∀ g i c1, getCell s1 g (some i) = some c1 →
    ∃ c, getCell s g (some i) = some c ∧ c.type = c1.type ∧ c.graph = c1.graph ∧
      c.circuitIOmap = c1.circuitIOmap)
  ∧ ∀ g gr1, getGraph s1 g = some gr1 →
    ∃ gr, getGraph s g = some gr ∧ gr.subcircuit = gr1.subcircuit

/-- No output terminal is in the pending set. -/
def NoOutputPending (s : Circuit) : Prop :=
  ∀ r ∈ s.queue, ∀ c, getCell s r.1 (some r.2) = some c → c.type ≠ CellType.Output

/-- The circuit built from `feedbackData` after its first tick. -/
def feedbackTicked : Outcome Circuit :=
  updateGates gateOperation 40 (Circuit.new 3 feedbackData).state

/-- The circuit `feedbackTicked` after a press of the button and a tick. -/
def feedbackPressed : Outcome Circuit :=
  applyEdits gateOperation 40 [Edit.press (0, "a") true, Edit.tick] feedbackTicked.state

/-! ## Primitive logic gates and the forwarding maps -/

/-- The kinds of primitive logic gates: not a terminal, not a Subcircuit. -/
def CellType.isLogic : CellType → Bool
  | CellType.And => true
  | CellType.Or => true
  | CellType.Xor => true
  | CellType.Not => true
  | CellType.Button => true
  | _ => false

/-- The forwarding rules reach no primitive logic gate: the gates a
`circuitIOmap` names in the nested graph, and the gate a graph has as its
`subcircuit`, are terminals or Subcircuits. -/
def Sealed (s : Circuit) : Prop :=
  (∀ (H : GateRef) h ng k id c, getCell s H.1 (some H.2) = some h → h.graph = some ng →
    lookupIomap h.circuitIOmap k = some id → getCell s ng (some id) = some c →
    c.type.isLogic = false)
  ∧ ∀ g gr (sr : GateRef) c, getGraph s g = some gr → gr.subcircuit = some sr →
    getCell s sr.1 (some sr.2) = some c → c.type.isLogic = false

/-- A decision procedure for `Sealed` on a concrete circuit. -/
def sealedCheck (s : Circuit) : Bool :=
  s.graphs.all fun gr =>
    (match gr.subcircuit with
      | some sr =>
        (match getCell s sr.1 (some sr.2) with
          | some c => !c.type.isLogic
          | none => true)
      | none => true)
    && gr.cells.all fun h =>
      match h.graph with
      | some ng =>
        h.circuitIOmap.all fun kv =>
          match getCell s ng (some kv.2) with
          | some c => !c.type.isLogic
          | none => true
      | none => true

/-! ## Gates at rest -/

/-- What a tick would assign to the gate `c` as it is: its operation applied to
its `inputSignals` with every absent input port set to 0. -/
def restVal (operation : Gate → Sigs → Sigs) (c : Gate) : Sigs :=
  operation { c with inputSignals := fillInputs c.ports c.inputSignals }
    (fillInputs c.ports c.inputSignals)

/-- The outputs of the gate are its operation applied to its inputs. -/
def AtRest (operation : Gate → Sigs → Sigs) (c : Gate) : Prop :=
  Sigs.isEqual c.outputSignals (restVal operation c) = true

/-- The operation of a logic gate does not read the gate's stored outputs. -/
def OutputBlind (operation : Gate → Sigs → Sigs) : Prop :=
  ∀ (c : Gate) (o args : Sigs), c.type.isLogic = true →
    operation { c with outputSignals := o } args = operation c args

/-- Every primitive logic gate is pending or at rest. -/
def Settled (operation : Gate → Sigs → Sigs) (s : Circuit) : Prop :=
  ∀ g i c, getCell s g (some i) = some c → c.type.isLogic = true →
    (g, i) ∈ s.queue ∨ AtRest operation c

/-- Every gate of every graph is in the pending set. -/
def AllPending (s : Circuit) : Prop :=
  ∀ g gr, getGraph s g = some gr → ∀ c ∈ gr.cells, (g, c.id) ∈ s.queue

/-- The circuit built from `staleData` after a tick, a press of the nested
button `k` and two more ticks: nothing is pending. -/
def staleSettled : Outcome Circuit :=
  applyEdits gateOperation 60 [Edit.tick, Edit.press (1, "k") true, Edit.tick, Edit.tick]
    (Circuit.new 3 staleData).state

/-- Two buttons and an AND gate, not wired. -/
def andData : Description :=
  Description.mk
    [("a", ⟨"$button", none, none⟩), ("b", ⟨"$button", none, none⟩), ("c", ⟨"$and", none, none⟩)]
    [] []

/-- The circuit built from `andData` with both buttons pressed, after a tick:
both buttons output 1, the AND gate outputs 0. -/
def andLit : Outcome Circuit :=
  applyEdits gateOperation 20 [Edit.press (0, "a") true, Edit.press (0, "b") true, Edit.tick]
    (Circuit.new 3 andData).state

/-- The edits that wire the two buttons to the inputs of the AND gate. -/
def wireUp : List Edit :=
  [Edit.pull 0 "w1" ⟨some "a", some "out"⟩,
   Edit.connect 0 buttonA (some "out") andC (some "in1") Dragged.target "w1",
   Edit.pull 0 "w2" ⟨some "b", some "out"⟩,
   Edit.connect 0 buttonA (some "out") andC (some "in2") Dragged.target "w2"]

/-- The circuit `andLit` with both buttons wired to the AND gate, no tick run. -/
def andWired : Outcome Circuit := applyEdits gateOperation 20 wireUp andLit.state

/-- The AND gate of `andWired`: both inputs 1, output still 0. -/
def andWiredC : Gate :=
  { mkGate "c" CellType.And [("in1", Dir.inp), ("in2", Dir.inp), ("out", Dir.out)] with
    inputSignals := [("in1", Val.num 1), ("in2", Val.num 1)],
    outputSignals := [("out", Val.num 0)] }

/-- The circuit `feedbackTicked` at the moment the wire `w` into `x.p` has
taken the signal 1 and the `change:signal` handler is about to call `setInput`. -/
def feedbackWired : Circuit :=
  modifyWire feedbackTicked.state 0 "w" (fun x => { x with signal := Val.num 1 })

/-- The call `setInput(1, {id: x, port: p}, x)` run from `feedbackWired`. -/
def feedbackDown : Outcome Circuit :=
  run 40 [Task.setInput (Val.num 1) ⟨some "x", some "p"⟩ (0, "x")] feedbackWired

/-! ## A NOT gate in a box and a flat NOT gate -/

/-- The subcircuit type `inv`: an input terminal `i` (net `p`) wired to a NOT
gate `n` wired to an output terminal `o` (net `q`). -/
def invType : Description :=
  Description.mk
    [("i", ⟨"$input", none, some "p"⟩), ("n", ⟨"$not", none, none⟩),
     ("o", ⟨"$output", none, some "q"⟩)]
    [⟨"v1", ("i", "out"), ("n", "in")⟩, ⟨"v2", ("n", "out"), ("o", "in")⟩]
    []

/-- A button `a` wired to the input `p` of a Subcircuit `x` of type `inv` and
to the input of a flat NOT gate `m`. -/
def boxedNot : Description :=
  Description.mk
    [("a", ⟨"$button", none, none⟩), ("x", ⟨"inv", none, none⟩), ("m", ⟨"$not", none, none⟩)]
    [⟨"w1", ("a", "out"), ("x", "p")⟩, ⟨"w2", ("a", "out"), ("m", "in")⟩]
    [("inv", invType)]

/-- The same three gates, not wired. -/
def boxedNotLoose : Description :=
  Description.mk
    [("a", ⟨"$button", none, none⟩), ("x", ⟨"inv", none, none⟩), ("m", ⟨"$not", none, none⟩)]
    []
    [("inv", invType)]

/-- What is to be seen of the two NOT gates: the input `x.p`, the input `m.in`,
the output `x.q` and the output `m.out`, and the pending set. -/
def notView (s : Outcome Circuit) : List (Option Val) × List GateRef :=
  match s with
  | Outcome.ok c =>
    ([(getCell c 0 (some "x")).map (fun g => inputValue g.inputSignals "p"),
      (getCell c 0 (some "m")).map (fun g => inputValue g.inputSignals "in"),
      (getCell c 0 (some "x")).map (fun g => Sigs.read g.outputSignals "q"),
      (getCell c 0 (some "m")).map (fun g => Sigs.read g.outputSignals "out")], c.queue)
  | _ => ([], [])

/-- The gate of the view of `x`, as `validateConnection` sees it. -/
def boxX : Gate := mkGate "x" CellType.Subcircuit [("p", Dir.inp), ("q", Dir.out)]

/-- The gate of the view of `m`. -/
def notM : Gate := mkGate "m" CellType.Not [("in", Dir.inp), ("out", Dir.out)]

/-- Wire the lit button `a` to `x.p` and to `m.in`. -/
def wireBoth : List Edit :=
  [Edit.pull 0 "w1" ⟨some "a", some "out"⟩,
   Edit.connect 0 buttonA (some "out") boxX (some "p") Dragged.target "w1",
   Edit.pull 0 "w2" ⟨some "a", some "out"⟩,
   Edit.connect 0 buttonA (some "out") notM (some "in") Dragged.target "w2"]

/-! ## Cascades that stay among primitive gates -/

/-- The gate `id` of graph `g`, if there is one, is neither a Subcircuit nor an
output terminal: a `setInput` on it makes no further call. -/
def PrimitiveAt (s : Circuit) (g : Nat) (id : Option String) : Prop :=
  ∀ c, getCell s g id = some c → c.type ≠ CellType.Subcircuit ∧ c.type ≠ CellType.Output

/-- The call leads to primitive gates only: a `setInput` is on one, a wire
whose signal is set targets one, and the wires out of a gate whose outputs are
set target such gates. -/
def Task.tame (s : Circuit) : Task → Prop
  | Task.setInput _ _ r => PrimitiveAt s r.1 (some r.2)
  | Task.setSignal g wid _ => ∀ w, getWire s g wid = some w → PrimitiveAt s g w.target.id
  | Task.setOutputSignals r _ =>
    ∀ gr, getGraph s r.1 = some gr → ∀ w ∈ gr.wires, w.source.id = some r.2 →
      ∀ w', getWire s r.1 w.id = some w' → PrimitiveAt s r.1 w'.target.id
  | Task.forwardInput _ _ _ => False

/-- A bound on the number of calls a tame call takes, `W` bounding the number
of wires of a graph. -/
def Task.cost (W : Nat) : Task → Nat
  | Task.setInput _ _ _ => 1
  | Task.setSignal _ _ _ => 2
  | Task.setOutputSignals _ _ => 2 * W + 1
  | Task.forwardInput _ _ _ => 1

/-- No graph has more than `W` wires. -/
def WireBound (W : Nat) (s : Circuit) : Prop := ∀ gr ∈ s.graphs, gr.wires.length ≤ W

/-- The calls `gate.set('outputSignals', _)` are at the bottom of the stack: below
one of them there are only others. This is the stack of a tick whose cascades
stay among primitive gates. -/
def Shaped : List Task → Prop
  | [] => True
  | t :: ts =>
    ((∃ r sigs, t = Task.setOutputSignals r sigs) →
      ∀ t' ∈ ts, ∃ r sigs, t' = Task.setOutputSignals r sigs) ∧ Shaped ts

instance (s : Circuit) (g : Nat) (id : Option String) : Decidable (PrimitiveAt s g id) :=
  match h : getCell s g id with
  | none => isTrue (by intro c hc; rw [h] at hc; cases hc)
  | some c =>
    if h1 : c.type ≠ CellType.Subcircuit ∧ c.type ≠ CellType.Output then
      isTrue (by intro c' hc; rw [h] at hc; cases hc; exact h1)
    else isFalse (fun hp => h1 (hp c h))

/-- The first two calls of a tick: the first `gate.set('outputSignals', sigs)` of
`changes` and the first call its handler makes; the result is the state after
them and what that second call is about to call in turn. -/
def tickToCall (operation : Gate → Sigs → Sigs) (s : Circuit) : Outcome (List Task × Circuit) :=
  let r := captureLoop operation { s with queue := [] } s.queue
  match r.2 with
  | [] => Outcome.ok ([], r.1)
  | c :: _ =>
    match step (Task.setOutputSignals c.1 c.2) r.1 with
    | Outcome.ok (t :: _, s1) => step t s1
    | other => other

/-- The state and the pending call of an outcome of `tickToCall`. -/
def Outcome.reached : Outcome (List Task × Circuit) → Circuit
  | Outcome.ok (_, s) => s
  | _ => { graphs := [], queue := [] }

/-- The circuit built from `staleData` after a first tick and a press of the
nested button `k`. -/
def stalePressed : Outcome Circuit :=
  applyEdits gateOperation 60 [Edit.tick, Edit.press (1, "k") true]
    (Circuit.new 3 staleData).state

/-- The state in the tick after the press at the moment the wire `v2` has taken
the button's 1 and its `change:signal` handler is about to call `setInput` on
the output terminal `on`. -/
def staleWired : Circuit := (tickToCall gateOperation stalePressed.state).reached

/-- The call `setInput(1, {id: on, port: in}, on)` run from `staleWired`. -/
def staleUp : Outcome Circuit :=
  run 40 [Task.setInput (Val.num 1) ⟨some "on", some "in"⟩ (1, "on")] staleWired

/-- A subcircuit type `src` whose button `k` drives its output terminal `o`
(net `q`); at the root the output `x.q` drives a NOT gate `d`. -/
def srcData : Description :=
  Description.mk
    [("x", ⟨"src", none, none⟩), ("d", ⟨"$not", none, none⟩)]
    [⟨"w", ("x", "q"), ("d", "in")⟩]
    [("src", Description.mk
        [("k", ⟨"$button", none, none⟩), ("o", ⟨"$output", none, some "q"⟩)]
        [⟨"v", ("k", "out"), ("o", "in")⟩]
        [])]

/-- The circuit built from `srcData` after a first tick and a press of the
nested button `k`. -/
def srcPressed : Outcome Circuit :=
  applyEdits gateOperation 40 [Edit.tick, Edit.press (1, "k") true]
    (Circuit.new 3 srcData).state

/-- The state in the tick after the press at the moment the wire `v` has taken
the button's 1 and its `change:signal` handler is about to call `setInput` on
the output terminal `o`. -/
def srcWired : Circuit := (tickToCall gateOperation srcPressed.state).reached

/-- The output terminal `o` of `srcWired`. -/
def srcO : Gate :=
  { mkGate "o" CellType.Output [("in", Dir.inp)] with
    inputSignals := [("in", Val.num 0)], net := some "q" }

/-- The Subcircuit `x` of `srcWired`. -/
def srcX : Gate :=
  { mkGate "x" CellType.Subcircuit [("q", Dir.out)] with
    outputSignals := [("q", Val.num 0)], graph := some 1, circuitIOmap := [("q", "o")] }

/-- The root graph of `srcWired`. -/
def srcRoot : Graph := (getGraph srcWired 0).getD andBoardGraph

/-! ## Flat circuits and chains of gates -/

/-- The circuit has no hierarchy: no graph is nested, and no gate is a
Subcircuit, an output terminal, or has a nested graph. -/
def Flat (s : Circuit) : Prop :=
  ∀ gr ∈ s.graphs, gr.subcircuit = none ∧
    ∀ c ∈ gr.cells, c.type ≠ CellType.Subcircuit ∧ c.type ≠ CellType.Output ∧ c.graph = none

instance (s : Circuit) : Decidable (Flat s) := by
  unfold Flat
  infer_instance

/-- The value `f_j(… f_1(v))` a chain of operations `f_1, f_2, …` makes of `v`. -/
def chainValue (fs : Nat → Val → Val) (v : Val) : Nat → Val
  | 0 => v
  | j + 1 => fs (j + 1) (chainValue fs v j)

/-- The entry `p` of the `outputSignals` of the gate `id` of graph `g`. -/
def outputOf (s : Circuit) (g : Nat) (id p : String) : Option Val :=
  (getCell s g (some id)).map fun c => Sigs.read c.outputSignals p

/-- A chain in graph `g` of a flat circuit: a source gate `ids 0` whose
operation yields `v` on `out` whatever its inputs and which outputs `v` now,
and logic gates `ids 1`, …, `ids D`, the operation of gate `ids j` making
`fs j` of its input `in` on its output `out`. The wire `wids j` goes from
`out` of gate `ids (j - 1)` to `in` of gate `ids j`, is the only wire into that
port, carries what its source outputs, and the port holds what the wire
carries. Every logic gate of the circuit is pending or at rest. -/
structure ChainAt (operation : Gate → Sigs → Sigs) (s : Circuit) (g : Nat)
    (ids wids : Nat → String) (fs : Nat → Val → Val) (v : Val) (D : Nat) : Prop where
  flat : Flat s
  nodup : ∀ gr, getGraph s g = some gr → (gr.wires.map fun w => w.id).Nodup
  settled : Settled operation s
  driver : ∃ c, getCell s g (some (ids 0)) = some c ∧ c.type.isLogic = true ∧
    Sigs.read c.outputSignals "out" = v ∧
    ∀ c' args, c'.bare = c.bare → Sigs.read (operation c' args) "out" = v
  gate : ∀ j, 1 ≤ j → j ≤ D →
    ∃ c, getCell s g (some (ids j)) = some c ∧ c.type.isLogic = true ∧
      ("in", Dir.inp) ∈ c.ports ∧
      ∀ c' args, c'.bare = c.bare →
        Sigs.read (operation c' args) "out" = fs j (Sigs.read args "in")
  wire : ∀ j, 1 ≤ j → j ≤ D →
    OnlyDriver s g (ids j) "in" (wids j) ∧
    ∃ w, getWire s g (wids j) = some w ∧
      w.source = ⟨some (ids (j - 1)), some "out"⟩ ∧ w.target = ⟨some (ids j), some "in"⟩ ∧
      (∀ c, getCell s g (some (ids (j - 1))) = some c →
        w.signal = Sigs.read c.outputSignals "out") ∧
      (∀ c, getCell s g (some (ids j)) = some c → inputValue c.inputSignals "in" = w.signal)

/-- A button `b` driving two NOT gates `n1`, `n2` in series. -/
def chainData : Description :=
  Description.mk
    [("b", ⟨"$button", none, none⟩), ("n1", ⟨"$not", none, none⟩), ("n2", ⟨"$not", none, none⟩)]
    [⟨"w1", ("b", "out"), ("n1", "in")⟩, ⟨"w2", ("n1", "out"), ("n2", "in")⟩]
    []

/-- The circuit built from `chainData`, settled with the button at 0 (two
ticks: `n1` outputs 1, `n2` outputs 0), after a press of the button and the
tick that puts its 1 on the input of `n1`: `n1` is pending. -/
def chainSet : Outcome Circuit :=
  applyEdits gateOperation 20 [Edit.tick, Edit.tick, Edit.press (0, "b") true, Edit.tick]
    (Circuit.new 3 chainData).state

/-- The gates of the chain of `chainData`: the source `b`, then `n1`, `n2`. -/
def chainIds : Nat → String
  | 0 => "b"
  | 1 => "n1"
  | _ => "n2"

/-- The wires of the chain of `chainData`: `w1` into `n1`, `w2` into `n2`. -/
def chainWids : Nat → String
  | 1 => "w1"
  | _ => "w2"

/-- The operation of every gate of the chain of `chainData`: NOT. -/
def notOp : Nat → Val → Val := fun _ x => ofBool (!truthy x)

/-- The button `b` of `chainSet`. -/
def chainB : Gate :=
  { mkGate "b" CellType.Button [("out", Dir.out)] with
    buttonState := true, outputSignals := [("out", Val.num 1)] }

/-- The gate `n1` of `chainSet`. -/
def chainN1 : Gate :=
  { mkGate "n1" CellType.Not [("in", Dir.inp), ("out", Dir.out)] with
    inputSignals := [("in", Val.num 1)], outputSignals := [("out", Val.num 1)] }

/-- The gate `n2` of `chainSet`. -/
def chainN2 : Gate :=
  { mkGate "n2" CellType.Not [("in", Dir.inp), ("out", Dir.out)] with
    inputSignals := [("in", Val.num 1)], outputSignals := [("out", Val.num 0)] }

/-- A pressed button `b` that outputs 1 into two NOT gates `n1`, `n2` in series
that both output 0: the input of `n1` holds the 1, the input of `n2` the 0 of
`n1`. The pending set is `q`. -/
def zeroChain (q : List GateRef) : Circuit :=
  { graphs :=
      [{ cells := [chainB,
                   { mkGate "n1" CellType.Not [("in", Dir.inp), ("out", Dir.out)] with
                      inputSignals := [("in", Val.num 1)], outputSignals := [("out", Val.num 0)] },
                   { mkGate "n2" CellType.Not [("in", Dir.inp), ("out", Dir.out)] with
                      inputSignals := [("in", Val.num 0)], outputSignals := [("out", Val.num 0)] }],
         wires := [{ mkWire "w1" "b" "out" "n1" "in" with signal := Val.num 1 },
                   mkWire "w2" "n1" "out" "n2" "in"],
         subcircuit := none }],
    queue := q }

/-! ## The states of the boxed NOT gate -/

/-- The circuit of `boxedNot` with the button state `b`, the inputs `xin` of
`x`, the value `u` on the button's output, on the four wires and inputs after
it and on the nested input terminal, the value `r` on the outputs of the two
NOT gates and after them, and the pending set `q`. -/
def boxedAt (b : Bool) (xin : Sigs) (u r : Val) (q : List GateRef) : Circuit :=
  { graphs :=
      [{ cells :=
           [{ id := "a", type := CellType.Button, ports := [("out", Dir.out)],
              inputSignals := [], outputSignals := [("out", u)], buttonState := b,
              net := none, graph := none, circuitIOmap := [] },
            { id := "x", type := CellType.Subcircuit,
              ports := [("p", Dir.inp), ("q", Dir.out)],
              inputSignals := xin, outputSignals := [("q", r)], buttonState := false,
              net := none, graph := some 1, circuitIOmap := [("p", "i"), ("q", "o")] },
            { id := "m", type := CellType.Not, ports := [("in", Dir.inp), ("out", Dir.out)],
              inputSignals := [("in", u)], outputSignals := [("out", r)],
              buttonState := false, net := none, graph := none, circuitIOmap := [] }],
         wires :=
           [{ id := "w1", source := ⟨some "a", some "out"⟩, target := ⟨some "x", some "p"⟩,
              signal := u },
            { id := "w2", source := ⟨some "a", some "out"⟩, target := ⟨some "m", some "in"⟩,
              signal := u }],
         subcircuit := none },
       { cells :=
           [{ id := "i", type := CellType.Input, ports := [("out", Dir.out)],
              inputSignals := [], outputSignals := [("out", u)], buttonState := false,
              net := some "p", graph := none, circuitIOmap := [] },
            { id := "n", type := CellType.Not, ports := [("in", Dir.inp), ("out", Dir.out)],
              inputSignals := [("in", u)], outputSignals := [("out", r)],
              buttonState := false, net := none, graph := none, circuitIOmap := [] },
            { id := "o", type := CellType.Output, ports := [("in", Dir.inp)],
              inputSignals := [("in", r)], outputSignals := [], buttonState := false,
              net := some "q", graph := none, circuitIOmap := [] }],
         wires :=
           [{ id := "v1", source := ⟨some "i", some "out"⟩, target := ⟨some "n", some "in"⟩,
              signal := u },
            { id := "v2", source := ⟨some "n", some "out"⟩, target := ⟨some "o", some "in"⟩,
              signal := r }],
         subcircuit := some (0, "x") }],
    queue := q }

/-- The pending set after a tick that changed the button's output. -/
def boxedPending : List GateRef := [(0, "x"), (1, "n"), (0, "m")]

/-- The states of `boxedNot` that ticks, presses and releases of the button reach
once the first tick has run. -/
def boxedReach : List Circuit :=
  [boxedAt false [] (Val.num 0) (Val.num 1) [],
   boxedAt true [] (Val.num 0) (Val.num 1) [(0, "a")],
   boxedAt false [] (Val.num 0) (Val.num 1) [(0, "a")],
   boxedAt true [("p", Val.num 1)] (Val.num 1) (Val.num 1) boxedPending,
   boxedAt true [("p", Val.num 1)] (Val.num 1) (Val.num 0) [],
   boxedAt false [("p", Val.num 1)] (Val.num 1) (Val.num 1) (boxedPending ++ [(0, "a")]),
   boxedAt false [("p", Val.num 1)] (Val.num 1) (Val.num 0) [(0, "a")],
   boxedAt false [("p", Val.num 0)] (Val.num 0) (Val.num 0) boxedPending,
   boxedAt true [("p", Val.num 1)] (Val.num 1) (Val.num 1) (boxedPending ++ [(0, "a")]),
   boxedAt true [("p", Val.num 1)] (Val.num 1) (Val.num 0) [(0, "a")],
   boxedAt false [("p", Val.num 0)] (Val.num 0) (Val.num 1) [],
   boxedAt true [("p", Val.num 0)] (Val.num 0) (Val.num 0) (boxedPending ++ [(0, "a")]),
   boxedAt true [("p", Val.num 0)] (Val.num 0) (Val.num 1) [(0, "a")],
   boxedAt false [("p", Val.num 0)] (Val.num 0) (Val.num 0) (boxedPending ++ [(0, "a")]),
   boxedAt false [("p", Val.num 0)] (Val.num 0) (Val.num 1) [(0, "a")]]

/-- The edit `e` returns on every state of `boxedReach`, with a state of
`boxedReach`. -/
def boxedClosed (e : Edit) : Bool :=
  boxedReach.all fun s =>
    match applyEdit gateOperation 40 e s with
    | Outcome.ok s1 => decide (s1 ∈ boxedReach)
    | _ => false

/-- The boxed NOT gate and the flat one agree: `x.p` and `m.in` hold the same
value, which the nested input terminal outputs and the nested NOT gate has as
input, and `x.q` and `m.out` hold the same value. -/
def boxedAgree (s : Circuit) : Bool :=
  match getCell s 0 (some "x"), getCell s 0 (some "m"), getCell s 1 (some "i"),
      getCell s 1 (some "n") with
  | some x, some m, some i, some n =>
    decide (inputValue x.inputSignals "p" = inputValue m.inputSignals "in") &&
    decide (Sigs.read i.outputSignals "out" = inputValue m.inputSignals "in") &&
    decide (inputValue n.inputSignals "in" = inputValue m.inputSignals "in") &&
    decide (Sigs.read x.outputSignals "q" = Sigs.read m.outputSignals "out")
  | _, _, _, _ => false

/-! ## Lodash `set` and the keys it takes as property names

The handlers write a port of a signal map with lodash `set(end.port, sig)`
(lines 121-122 and 141-142), which reads its key as a path when the key has a
dot or a bracket pair and is not yet a property of the object. `Sigs.set` is
the write of a property; the definitions below give the write along a path and
the keys for which the two agree. -/

/-- A JavaScript value as lodash `set` can build it. -/
inductive JVal where
  | undefined : JVal
  | num (n : Int) : JVal
  | array (items : List JVal) : JVal
  | object (fields : List (String × JVal)) : JVal

/-- The signal value as a JavaScript value. -/
def Val.toJ : Val → JVal
  | Val.undefined => JVal.undefined
  | Val.num n => JVal.num n

/-- The signal map as a JavaScript object. -/
def Sigs.toJ (m : Sigs) : JVal := JVal.object (m.map fun kv => (kv.1, kv.2.toJ))

/-- The names every JavaScript object inherits from `Object.prototype`,
and `prototype`: a read of such a key of a signal map does not give
`undefined` when the key is absent, and lodash `set` refuses three of them. -/
def reservedKeys : List String :=
  ["__proto__", "constructor", "prototype", "hasOwnProperty", "isPrototypeOf",
   "propertyIsEnumerable", "toLocaleString", "toString", "valueOf", "__defineGetter__",
   "__defineSetter__", "__lookupGetter__", "__lookupSetter__"]

/-- A key that lodash `set` takes as the name of a property whatever the object:
no dot, no opening bracket, and not a reserved name. -/
def plainKey (k : String) : Bool :=
  !k.data.contains '.' && !k.data.contains '[' && !reservedKeys.contains k

/-- The characters hold an opening bracket with a closing bracket after it. -/
def hasBracketPair : List Char → Bool
  | [] => false
  | c :: cs => (c == '[' && cs.contains ']') || hasBracketPair cs

/-- Modelled from lodash (`reIsDeepProp`): the key has a dot or a bracket pair. -/
def deepProp (k : String) : Bool := k.data.contains '.' || hasBracketPair k.data

/-- The number a list of decimal digits stands for, if it is one. -/
def natOfDigits : List Char → Option Nat
  | [] => none
  | cs => if cs.all Char.isDigit then some (cs.foldl (fun n c => 10 * n + (c.toNat - 48)) 0)
    else none

/-- Modelled from lodash (`isIndex`): the number the key is the decimal form
of, if any (no leading zero). -/
def indexOf (k : String) : Option Nat :=
  match k.data with
  | [] => none
  | [c] => natOfDigits [c]
  | c :: cs => if c = '0' then none else natOfDigits (c :: cs)

/-- Models `k in o` for a JavaScript value. -/
def JVal.hasField : JVal → String → Bool
  | JVal.object fs, k => fs.any fun kv => kv.1 = k
  | JVal.array items, k =>
    match indexOf k with
    | some i => decide (i < items.length)
    | none => false
  | _, _ => false

/-- Models `o[k]` for a JavaScript value. -/
def JVal.getField : JVal → String → JVal
  | JVal.object fs, k => ((fs.find? fun kv => kv.1 = k).map Prod.snd).getD JVal.undefined
  | JVal.array items, k =>
    match indexOf k with
    | some i => items.getD i JVal.undefined
    | none => JVal.undefined
  | _, _ => JVal.undefined

/-- The fields with the field `k` set to `v`. -/
def putAssoc : List (String × JVal) → String → JVal → List (String × JVal)
  | [], k, v => [(k, v)]
  | (k', v') :: m, k, v => if k' = k then (k, v) :: m else (k', v') :: putAssoc m k v

/-- Models `o[k] = v` for a JavaScript value: a field of an object, an item of
an array (the array grows as needed). -/
def JVal.putField : JVal → String → JVal → JVal
  | JVal.object fs, k, v => JVal.object (putAssoc fs k v)
  | JVal.array items, k, v =>
    match indexOf k with
    | some i =>
      JVal.array ((items ++ List.replicate (i + 1 - items.length) JVal.undefined).set i v)
    | none => JVal.array items
  | o, _, _ => o

/-- Models `isObject(o)`. -/
def JVal.isObject : JVal → Bool
  | JVal.object _ => true
  | JVal.array _ => true
  | _ => false

/-- The runs of characters between dots and brackets, `cur` being the run read
so far, last character first. -/
def pathRuns : List Char → List Char → List String
  | [], cur => if cur = [] then [] else [String.mk cur.reverse]
  | c :: cs, cur =>
    if c = '.' ∨ c = '[' ∨ c = ']' then
      if cur = [] then pathRuns cs [] else String.mk cur.reverse :: pathRuns cs []
    else pathRuns cs (c :: cur)

/-- Modelled from lodash (`stringToPath`), for keys made of names, dots and
bracketed numbers: the names and numbers, in order. -/
def stringToPath (k : String) : List String := pathRuns k.data []

/-- Modelled from lodash (`baseSet`): the write of `v` along the path, creating
an array for a missing step that an index follows and an object for another
missing step, and refusing three reserved names. -/
def setPath : List String → JVal → JVal → JVal
  | [], o, _ => o
  | [k], o, v =>
    if k = "__proto__" ∨ k = "constructor" ∨ k = "prototype" then o else o.putField k v
  | k :: k2 :: rest, o, v =>
    if k = "__proto__" ∨ k = "constructor" ∨ k = "prototype" then o
    else
      let child := o.getField k
      let base := if child.isObject then child
        else if (indexOf k2).isSome then JVal.array [] else JVal.object []
      o.putField k (setPath (k2 :: rest) base v)

/-- Modelled from lodash (`set` with `castPath` and `isKey`): a key without dot
and bracket pair, or one that is a property of the object already, is the name
of a property; another key is a path. -/
def lodashSet (o : JVal) (k : String) (v : JVal) : JVal :=
  if !deepProp k || o.hasField k then setPath [k] o v else setPath (stringToPath k) o v

/-- Every port name at a wire end and every net of a gate is a key that lodash
`set` takes as the name of a property. -/
def PlainPorts (s : Circuit) : Prop :=
  ∀ gr ∈ s.graphs,
    (∀ w ∈ gr.wires, plainKey (portKey w.source.port) = true
      ∧ plainKey (portKey w.target.port) = true)
    ∧ ∀ c ∈ gr.cells, plainKey (portKey c.net) = true
      ∧ ∀ p ∈ c.ports, plainKey p.1 = true

instance (s : Circuit) : Decidable (PlainPorts s) := by
  unfold PlainPorts; exact inferInstance

/-! ## Counting the calls of a cascade -/

/-- Execute exactly `n` calls of the stack: the stack and the state after them,
`none` when the stack is empty before that or a call throws. -/
def callsFor : Nat → List Task → Circuit → Option (List Task × Circuit)
  | 0, ts, s => some (ts, s)
  | _ + 1, [], _ => none
  | n + 1, t :: ts, s =>
    match step t s with
    | Outcome.ok (new, s1) => callsFor n (new ++ ts) s1
    | _ => none

/-- The calls made while the stack runs, in the order they are made, within a
budget of `fuel` calls. -/
def callLog : Nat → List Task → Circuit → List Task
  | _, [], _ => []
  | 0, _ :: _, _ => []
  | n + 1, t :: ts, s =>
    t :: match step t s with
      | Outcome.ok (new, s1) => callLog n (new ++ ts) s1
      | _ => []

/-- A subcircuit type `two` that hands its input `p` to its output `m` and its
input `r` to its output `n`; at the root `x.m` is fed back into `x.r` (wire
`f1`, added first) and `x.n` into `x.p` (wire `f2`), and a button `a` is not
wired. -/
def twoPass : Description :=
  Description.mk
    [("a", ⟨"$button", none, none⟩), ("x", ⟨"two", none, none⟩)]
    [⟨"f1", ("x", "m"), ("x", "r")⟩, ⟨"f2", ("x", "n"), ("x", "p")⟩]
    [("two", Description.mk
        [("ip", ⟨"$input", none, some "p"⟩), ("ir", ⟨"$input", none, some "r"⟩),
         ("om", ⟨"$output", none, some "m"⟩), ("on", ⟨"$output", none, some "n"⟩)]
        [⟨"v1", ("ip", "out"), ("om", "in")⟩, ⟨"v2", ("ir", "out"), ("on", "in")⟩]
        [])]

/-- The circuit of `twoPass` after a first tick, a press of the button, a second
tick, and a wire `w` pulled out of the lit button: `w` carries 1 and its target
end is loose. -/
def twoPassLit : Circuit :=
  (applyEdits gateOperation 60
    [Edit.tick, Edit.press (0, "a") true, Edit.tick, Edit.pull 0 "w" ⟨some "a", some "out"⟩]
    (Circuit.new 3 twoPass).state).state

/-- After `n0` calls the call `t` is on top of the stack, and `n + 1` calls later
it is on top again in the same state, the calls below it not yet reached. -/
def cycleCheck (n0 n : Nat) (ts : List Task) (s : Circuit) : Bool :=
  match callsFor n0 ts s with
  | some (t :: _, sc) =>
    match callsFor (n + 1) [t] sc with
    | some (t2 :: _, s2) => decide (t2 = t) && decide (s2 = sc)
    | _ => false
  | _ => false

/-- The port an edit binds a wire end to is a key that lodash `set` takes as
the name of a property. -/
def Edit.plain : Edit → Prop
  | Edit.pull _ _ src => plainKey (portKey src.port) = true
  | Edit.connect _ _ ms _ mt e _ =>
    match e with
    | Dragged.target => plainKey (portKey mt) = true
    | Dragged.source => plainKey (portKey ms) = true
  | _ => True

instance : DecidablePred Edit.plain := fun e => by
  cases e with
  | connect g vs ms vt mt e vl => cases e <;> (unfold Edit.plain; exact inferInstance)
  | _ => unfold Edit.plain; exact inferInstance

/-- The subcircuit type `two` of `twoPass` with three feedback wires at the
root, in this order: `x.m` into `x.r` (wire `h1`), `x.n` into `x.r` (wire `h2`)
and `x.n` into `x.p` (wire `h3`); a button `a` is not wired. -/
def crossed : Description :=
  Description.mk
    [("a", ⟨"$button", none, none⟩), ("x", ⟨"two", none, none⟩)]
    [⟨"h1", ("x", "m"), ("x", "r")⟩, ⟨"h2", ("x", "n"), ("x", "r")⟩,
     ⟨"h3", ("x", "n"), ("x", "p")⟩]
    [("two", Description.mk
        [("ip", ⟨"$input", none, some "p"⟩), ("ir", ⟨"$input", none, some "r"⟩),
         ("om", ⟨"$output", none, some "m"⟩), ("on", ⟨"$output", none, some "n"⟩)]
        [⟨"v1", ("ip", "out"), ("om", "in")⟩, ⟨"v2", ("ir", "out"), ("on", "in")⟩]
        [])]

/-- The circuit of `crossed` after a first tick, a press of the button, a second
tick, and a wire `w` pulled out of the lit button: `w` carries 1 and its target
end is loose. -/
def crossedLit : Circuit :=
  (applyEdits gateOperation 60
    [Edit.tick, Edit.press (0, "a") true, Edit.tick, Edit.pull 0 "w" ⟨some "a", some "out"⟩]
    (Circuit.new 3 crossed).state).state

/-- A Subcircuit `x` whose nested graph has one input terminal, of net `p[0]`. -/
def pathBox : Description :=
  Description.mk
    [("x", ⟨"box", none, none⟩)]
    []
    [("box", Description.mk [("i", ⟨"$input", none, some "p[0]"⟩)] [] [])]

/-! ## Cascades that descend a rank -/

/-- A `setInput` on the gate makes further calls: the gate is a Subcircuit or an
output terminal. -/
def Gate.crossing (c : Gate) : Bool :=
  decide (c.type = CellType.Subcircuit) || decide (c.type = CellType.Output)

/-- A rank for the outputs of every gate and for every input port of every
gate. -/
structure Rank where
  out : GateRef → Nat
  inp : GateRef → String → Nat

/-- The check of `Ranked` on the graph `gr` of index `g`. -/
def rankedGraph (rk : Rank) (gs : List Graph) (g : Nat) (gr : Graph) : Bool :=
  (gr.wires.all fun w =>
    match w.target.id.bind (findGate gr.cells) with
    | none => true
    | some c =>
      (!c.crossing || gr.wires.all fun x =>
        decide (x.id ≠ w.id) ||
          match x.source.id with
          | some a => decide (rk.inp (g, c.id) (portKey w.target.port) < rk.out (g, a))
          | none => true)
      && (!decide (c.type = CellType.Subcircuit) ||
        match c.graph.bind (fun ng => gs[ng]?) with
        | some ngr => ((lookupIomap c.circuitIOmap (portKey w.target.port)).bind
            (findGate ngr.cells)).isSome
        | none => false)
      && (!decide (c.type = CellType.Output) ||
        match gr.subcircuit with
        | some H => decide (rk.out H ≤ rk.inp (g, c.id) (portKey w.target.port))
        | none => false))
  && (gr.cells.all fun h =>
    match h.graph with
    | some ng => h.circuitIOmap.all fun kv => decide (rk.out (ng, kv.2) ≤ rk.inp (g, h.id) kv.1)
    | none => true)

/-- The zero-delay propagation descends the rank `rk`, and finds the gates it
forwards to. A wire into a port of a Subcircuit or of an output terminal comes
from a gate whose outputs have a higher rank than that port; a wire into a
Subcircuit names a port that the `circuitIOmap` sends to a gate of the nested
graph; the outputs of a nested gate a `circuitIOmap` names have at most the rank
of the port mapped to it; a wire into an output terminal is in a graph that has
a `subcircuit`, whose outputs have at most the rank of the port the wire is on.
The wires into the other gates are not restricted. The condition is on the
topology only. -/
def Ranked (rk : Rank) (s : Circuit) : Prop :=
  ((skeleton s).enum.all fun x => rankedGraph rk (skeleton s) x.1 x.2) = true

/-- The rank of a call `setInput` for the end `e` of a wire of graph `g`. -/
def inputRank (rk : Rank) (s : Circuit) (g : Nat) (e : End) : Nat :=
  match getCell s g e.id with
  | some c => if c.crossing then 4 * rk.inp (g, c.id) (portKey e.port) + 4 else 0
  | none => 0

/-- The rank of a call: the calls it makes have a lower one. -/
def Task.rank (rk : Rank) (s : Circuit) : Task → Nat
  | Task.setInput _ e r => inputRank rk s r.1 ⟨some r.2, e.port⟩
  | Task.setSignal g wid _ =>
    match getWire s g wid with
    | some w => inputRank rk s g w.target + 1
    | none => 1
  | Task.setOutputSignals r _ => 4 * rk.out r + 2
  | Task.forwardInput _ e r => 4 * rk.inp r (portKey e.port) + 3

/-- A bound on the number of calls a call takes in a ranked circuit, `W`
bounding the number of wires of a graph. -/
def Task.bound (rk : Rank) (W : Nat) (s : Circuit) (t : Task) : Nat :=
  (W + 3) ^ t.rank rk s

/-- A call `setInput` on a Subcircuit names a port that the `circuitIOmap` sends
to a gate of the nested graph, and one on an output terminal is in a graph that
has a `subcircuit`, whose outputs have at most the rank of the port. -/
def Task.plugged (rk : Rank) (s : Circuit) : Task → Prop
  | Task.setInput _ e r => ∀ c, getCell s r.1 (some r.2) = some c →
      (c.type = CellType.Subcircuit →
        ∃ ng t, c.graph = some ng ∧
          getCell s ng (lookupIomap c.circuitIOmap (portKey e.port)) = some t)
      ∧ (c.type = CellType.Output →
        ∃ H, (getGraph s r.1).bind (fun gr => gr.subcircuit) = some H ∧
          rk.out H ≤ rk.inp r (portKey e.port))
  | Task.forwardInput _ e r => ∀ c, getCell s r.1 (some r.2) = some c →
      ∃ ng t, c.graph = some ng ∧
        getCell s ng (lookupIomap c.circuitIOmap (portKey e.port)) = some t
  | _ => True

instance (rk : Rank) (s : Circuit) : Decidable (Ranked rk s) := by
  unfold Ranked; exact inferInstance

/-- The subcircuit type `tap`: a button `k` drives the output terminal `o1` of
net `m`; a second output terminal `o2` has the same net `m`, and the input
terminal `i` of net `p` is connected to `o2.aux`, which is not a port of
`o2`. -/
def tapType : Description :=
  Description.mk
    [("i", ⟨"$input", none, some "p"⟩), ("k", ⟨"$button", none, none⟩),
     ("o1", ⟨"$output", none, some "m"⟩), ("o2", ⟨"$output", none, some "m"⟩)]
    [⟨"v1", ("k", "out"), ("o1", "in")⟩, ⟨"v2", ("i", "out"), ("o2", "aux")⟩]
    []

/-- A Subcircuit `x` of type `tap`, not wired. -/
def tapLoose : Description :=
  Description.mk [("x", ⟨"tap", none, none⟩)] [] [("tap", tapType)]

/-- The circuit of `tapLoose` after a first tick, a press of the nested button `k`
and a second tick: `x.outputSignals.m` is 1, `o2.inputSignals` is `{in: 0}`,
and no wire targets `x.p`. -/
def tapLit : Circuit :=
  (applyEdits gateOperation 60 [Edit.tick, Edit.press (1, "k") true, Edit.tick]
    (Circuit.new 3 tapLoose).state).state

/-- The subcircuit type `two` of `twoPass` with a third input terminal `iq` of
net `q`, connected to the output terminal `om` as `ip` is; at the root the
feedback wires of `twoPass` and a button `a`, not wired. -/
def loopBox : Description :=
  Description.mk
    [("a", ⟨"$button", none, none⟩), ("x", ⟨"three", none, none⟩)]
    [⟨"f1", ("x", "m"), ("x", "r")⟩, ⟨"f2", ("x", "n"), ("x", "p")⟩]
    [("three", Description.mk
        [("ip", ⟨"$input", none, some "p"⟩), ("ir", ⟨"$input", none, some "r"⟩),
         ("iq", ⟨"$input", none, some "q"⟩),
         ("om", ⟨"$output", none, some "m"⟩), ("on", ⟨"$output", none, some "n"⟩)]
        [⟨"v1", ("ip", "out"), ("om", "in")⟩, ⟨"v2", ("ir", "out"), ("on", "in")⟩,
         ⟨"v3", ("iq", "out"), ("om", "in")⟩]
        [])]

/-- The circuit of `loopBox` after a first tick, a press of the button and a
second tick: the button outputs 1 and no wire targets `x.q`. -/
def loopBoxLit : Circuit :=
  (applyEdits gateOperation 60 [Edit.tick, Edit.press (0, "a") true, Edit.tick]
    (Circuit.new 3 loopBox).state).state

/-! ## Lemmas on signal maps -/

theorem Sigs.has_set (m : Sigs) (k : String) (v : Val) (k' : String) :
    Sigs.has (Sigs.set m k v) k' = (decide (k = k') || Sigs.has m k') := by
  induction m with
  | nil => simp [Sigs.set, Sigs.has]
  | cons a m ih =>
    obtain ⟨k0, v0⟩ := a
    by_cases h : k0 = k
    · subst h
      by_cases h' : k0 = k' <;> simp [Sigs.set, Sigs.has, h']
    · by_cases h' : k0 = k'
      · subst h'
        simp [Sigs.set, Sigs.has, h]
      · simp [Sigs.set, Sigs.has, h, h', ih]

theorem Sigs.read_set (m : Sigs) (k : String) (v : Val) (k' : String) :
    Sigs.read (Sigs.set m k v) k' = if k = k' then v else Sigs.read m k' := by
  induction m with
  | nil => simp [Sigs.set, Sigs.read]
  | cons a m ih =>
    obtain ⟨k0, v0⟩ := a
    by_cases h : k0 = k
    · subst h
      by_cases h' : k0 = k' <;> simp [Sigs.set, Sigs.read, h']
    · by_cases h' : k0 = k'
      · subst h'
        simp [Sigs.set, Sigs.read, h, Ne.symm h]
      · simp [Sigs.set, Sigs.read, h, h', ih]

theorem has_fillInputs (ports : List (String × Dir)) (m : Sigs) (k : String) :
    Sigs.has (fillInputs ports m) k = (Sigs.has m k || decide ((k, Dir.inp) ∈ ports)) := by
  induction ports generalizing m with
  | nil => simp [fillInputs]
  | cons p ports ih =>
    obtain ⟨n, d⟩ := p
    have hstep : fillInputs ((n, d) :: ports) m =
        fillInputs ports (if d ≠ Dir.inp then m else if Sigs.has m n then m
          else Sigs.set m n (Val.num 0)) := by
      simp [fillInputs]
    rw [hstep, ih]
    cases d with
    | out => simp
    | inp =>
      by_cases hn : Sigs.has m n = true
      · by_cases hk : k = n
        · subst hk; simp [hn]
        · simp [hn, hk]
      · by_cases hk : k = n
        · subst hk; simp [hn, Sigs.has_set]
        · simp [hn, hk, Sigs.has_set, Ne.symm hk]

theorem read_fillInputs (ports : List (String × Dir)) (m : Sigs) (k : String) :
    Sigs.read (fillInputs ports m) k =
      if Sigs.has m k then Sigs.read m k
      else if (k, Dir.inp) ∈ ports then Val.num 0 else Val.undefined := by
  induction ports generalizing m with
  | nil =>
    simp only [fillInputs, List.foldl_nil, List.not_mem_nil, if_false]
    split
    · rfl
    · rename_i h
      induction m with
      | nil => rfl
      | cons a m ihm =>
        obtain ⟨k0, v0⟩ := a
        by_cases hk : k0 = k
        · simp [Sigs.has, hk] at h
        · simp only [Sigs.has, hk, if_false] at h
          simp [Sigs.read, hk, ihm h]
  | cons p ports ih =>
    obtain ⟨n, d⟩ := p
    have hstep : fillInputs ((n, d) :: ports) m =
        fillInputs ports (if d ≠ Dir.inp then m else if Sigs.has m n then m
          else Sigs.set m n (Val.num 0)) := by
      simp [fillInputs]
    rw [hstep, ih]
    cases d with
    | out => simp
    | inp =>
      by_cases hn : Sigs.has m n = true
      · by_cases hk : k = n
        · subst hk; simp [hn]
        · simp [hn, hk]
      · by_cases hk : k = n
        · subst hk; simp [hn, Sigs.has_set, Sigs.read_set]
        · simp [hn, hk, Sigs.has_set, Sigs.read_set, Ne.symm hk]

theorem fillInputs_of_has (l : List (String × Dir)) (a : Sigs)
    (h : ∀ p ∈ l, p.2 = Dir.inp → Sigs.has a p.1 = true) : fillInputs l a = a := by
  induction l with
  | nil => rfl
  | cons p l ih =>
    have hp := h p (List.mem_cons_self _ _)
    have hstep : fillInputs (p :: l) a =
        fillInputs l (if p.2 ≠ Dir.inp then a else if Sigs.has a p.1 then a
          else Sigs.set a p.1 (Val.num 0)) := by
      simp [fillInputs]
    rw [hstep]
    by_cases hd : p.2 = Dir.inp
    · simp only [hd, ne_eq, not_true_eq_false, if_false, hp hd, if_true]
      exact ih fun q hq => h q (List.mem_cons_of_mem _ hq)
    · simp only [ne_eq, hd, not_false_eq_true, if_true]
      exact ih fun q hq => h q (List.mem_cons_of_mem _ hq)

theorem fillInputs_idem (ports : List (String × Dir)) (m : Sigs) :
    fillInputs ports (fillInputs ports m) = fillInputs ports m := by
  apply fillInputs_of_has
  intro p hp hd
  rw [has_fillInputs]
  have : (p.1, Dir.inp) ∈ ports := by
    rw [← hd]; exact hp
  simp [this]

/-! ## Lemmas on the store -/

theorem findGate_updGate (f : Gate → Gate) (hf : ∀ c, (f c).id = c.id) (cs : List Gate)
    (id i : String) :
    findGate (updGate f cs id) i = if i = id then (findGate cs i).map f else findGate cs i := by
  induction cs with
  | nil => simp [updGate, findGate]
  | cons c cs ih =>
    by_cases h1 : c.id = id
    · by_cases h2 : i = id
      · simp [updGate, findGate, h1, h2, hf]
      · have h3 : ¬ id = i := fun h => h2 h.symm
        simp [updGate, findGate, h1, h2, h3, hf]
    · by_cases h2 : c.id = i
      · have h3 : ¬ i = id := fun h => h1 (h2.trans h)
        simp [updGate, findGate, h1, h2, h3]
      · simp [updGate, findGate, h1, h2, ih]

theorem getElem?_updGraph (F : Graph → Graph) (gs : List Graph) (n m : Nat) :
    (updGraph F gs n)[m]? = if m = n then (gs[m]?).map F else gs[m]? := by
  induction gs generalizing n m with
  | nil => cases n <;> simp [updGraph]
  | cons x xs ih =>
    cases n with
    | zero =>
      cases m with
      | zero => simp [updGraph]
      | succ m => simp [updGraph]
    | succ n =>
      cases m with
      | zero => simp [updGraph]
      | succ m => simp [updGraph, ih]

theorem getCell_modifyGate (s : Circuit) (r : GateRef) (f : Gate → Gate)
    (hf : ∀ c, (f c).id = c.id) (g : Nat) (i : String) :
    getCell (modifyGate s r f) g (some i) =
      if g = r.1 ∧ i = r.2 then (getCell s g (some i)).map f else getCell s g (some i) := by
  unfold getCell getGraph modifyGate
  simp only [getElem?_updGraph]
  by_cases hg : g = r.1
  · subst hg
    cases h : s.graphs[r.1]? with
    | none => simp
    | some gr =>
      simp only [if_true, Option.map_some', true_and, findGate_updGate f hf]
  · simp [hg]

/-! ## The scheduler -/

theorem captureGate_queue (op : Gate → Sigs → Sigs) (s : Circuit) (r : GateRef) :
    (captureGate op s r).1.queue = s.queue := by
  unfold captureGate
  cases getCell s r.1 (some r.2) with
  | none => rfl
  | some gate =>
    by_cases h : gate.type = CellType.Subcircuit
    · simp [h]
    · simp [h, modifyGate]

theorem captureLoop_queue (op : Gate → Sigs → Sigs) (s : Circuit) (q : List GateRef) :
    (captureLoop op s q).1.queue = s.queue := by
  induction q generalizing s with
  | nil => rfl
  | cons r q ih =>
    simp only [captureLoop]
    rw [ih, captureGate_queue]

theorem captureGate_snd (op : Gate → Sigs → Sigs) (s : Circuit) (r : GateRef) :
    (captureGate op s r).2 = tickOutputs op s r := by
  unfold captureGate tickOutputs
  cases getCell s r.1 (some r.2) with
  | none => rfl
  | some gate =>
    by_cases h : gate.type = CellType.Subcircuit <;> simp [h]

theorem tickOutputs_captureGate (op : Gate → Sigs → Sigs) (s : Circuit) (r r' : GateRef) :
    tickOutputs op (captureGate op s r).1 r' = tickOutputs op s r' := by
  unfold captureGate
  cases hc : getCell s r.1 (some r.2) with
  | none => rfl
  | some gate =>
    by_cases h : gate.type = CellType.Subcircuit
    · simp [h]
    · simp only [h, if_false]
      unfold tickOutputs
      rw [getCell_modifyGate s r
        (fun c => { c with inputSignals := fillInputs gate.ports gate.inputSignals }) (fun _ => rfl)]
      by_cases hr : r'.1 = r.1 ∧ r'.2 = r.2
      · have hrr : r' = r := Prod.ext hr.1 hr.2
        subst hrr
        simp [hc, h, fillInputs_idem]
      · simp [hr]

theorem captureLoop_changes (op : Gate → Sigs → Sigs) (s : Circuit) (q : List GateRef) :
    (captureLoop op s q).2 = q.filterMap (tickOutputs op s) := by
  induction q generalizing s with
  | nil => rfl
  | cons r q ih =>
    simp only [captureLoop]
    rw [ih, captureGate_snd]
    have hq : q.filterMap (tickOutputs op (captureGate op s r).1) = q.filterMap (tickOutputs op s) := by
      congr 1
      funext r'
      exact tickOutputs_captureGate op s r r'
    rw [hq]
    cases h : tickOutputs op s r <;> simp [List.filterMap_cons, h]

/-- C1: the pairs `changes` that a tick records are, for each pending gate in
turn, the gate's operation applied to its `inputSignals` as the state at the
start of the tick has them, absent input ports reading 0; visiting the pending
gates in another order permutes `changes` and nothing else. -/
theorem updateGates_batch_isolation (operation : Gate → Sigs → Sigs) (s : Circuit)
    (q : List GateRef) :
    (captureLoop operation { s with queue := [] } q).2 = q.filterMap (tickOutputs operation s)
    ∧ (∀ fuel, updateGates operation fuel s =
        run fuel ((s.queue.filterMap (tickOutputs operation s)).map
            fun c => Task.setOutputSignals c.1 c.2)
          (captureLoop operation { s with queue := [] } s.queue).1)
    ∧ (∀ (gate : Gate) (k : String),
        Sigs.read (fillInputs gate.ports gate.inputSignals) k =
          if Sigs.has gate.inputSignals k then Sigs.read gate.inputSignals k
          else if (k, Dir.inp) ∈ gate.ports then Val.num 0 else Val.undefined)
    ∧ (∀ q', q.Perm q' →
        (captureLoop operation { s with queue := [] } q).2.Perm
          (captureLoop operation { s with queue := [] } q').2) := by
  have key : ∀ l, (captureLoop operation { s with queue := [] } l).2
      = l.filterMap (tickOutputs operation s) := fun l => captureLoop_changes operation _ l
  refine ⟨key q, ?_, ?_, ?_⟩
  · intro fuel
    unfold updateGates
    simp only [key]
  · intro gate k
    exact read_fillInputs _ _ _
  · intro q' hp
    rw [key, key]
    exact hp.filterMap _

theorem updateGates_batch_isolation_witness :
    ([(0, "n1"), (0, "n2")] : List GateRef).Perm [(0, "n2"), (0, "n1")]
    ∧ (captureLoop gateOperation { notChain with queue := [] } [(0, "n1"), (0, "n2")]).2.Perm
        (captureLoop gateOperation { notChain with queue := [] } [(0, "n2"), (0, "n1")]).2 :=
  ⟨List.Perm.swap _ _ _,
   (updateGates_batch_isolation gateOperation notChain [(0, "n1"), (0, "n2")]).2.2.2 _
     (List.Perm.swap _ _ _)⟩

/-- C3: whatever the state and the captured set, the pending set is empty when
the capture loop has finished, so the assertion `this.queue.size == 0` between
the two loops of `updateGates` holds. -/
theorem updateGates_queue_empty_after_capture (operation : Gate → Sigs → Sigs) (s : Circuit)
    (q : List GateRef) :
    (captureLoop operation { s with queue := [] } q).1.queue = [] := by
  rw [captureLoop_queue]

theorem queueAdd_nodup (q : List GateRef) (g : GateRef) (h : q.Nodup) : (queueAdd q g).Nodup := by
  unfold queueAdd
  by_cases hg : g ∈ q
  · simp [hg, h]
  · simp only [hg, if_false]
    rw [List.nodup_append]
    refine ⟨h, List.nodup_singleton g, ?_⟩
    intro a ha hb
    rw [List.mem_singleton] at hb
    exact hg (hb ▸ ha)

theorem mem_queueAdd (q : List GateRef) (g x : GateRef) :
    x ∈ queueAdd q g ↔ x ∈ q ∨ x = g := by
  unfold queueAdd
  by_cases hg : g ∈ q
  · simp only [hg, if_true]
    constructor
    · exact Or.inl
    · rintro (h | h)
      · exact h
      · exact h ▸ hg
  · simp [hg]

theorem foldl_queueAdd_nodup (adds q : List GateRef) (h : q.Nodup) :
    (adds.foldl queueAdd q).Nodup := by
  induction adds generalizing q with
  | nil => exact h
  | cons a adds ih => exact ih _ (queueAdd_nodup q a h)

theorem mem_foldl_queueAdd (adds q : List GateRef) (x : GateRef) :
    x ∈ adds.foldl queueAdd q ↔ x ∈ q ∨ x ∈ adds := by
  induction adds generalizing q with
  | nil => simp
  | cons a adds ih =>
    simp only [List.foldl_cons, ih, mem_queueAdd, List.mem_cons]
    tauto

theorem tickOutputs_fst (op : Gate → Sigs → Sigs) (s : Circuit) (r : GateRef)
    (c : GateRef × Sigs) (h : tickOutputs op s r = some c) : c.1 = r := by
  unfold tickOutputs at h
  cases hc : getCell s r.1 (some r.2) with
  | none => simp [hc] at h
  | some gate =>
    by_cases ht : gate.type = CellType.Subcircuit
    · simp [hc, ht] at h
    · simp only [hc, ht, if_false, Option.some.injEq] at h
      rw [← h]

theorem countP_eq_one_of_mem (q : List GateRef) (r : GateRef) (hnd : q.Nodup) (hm : r ∈ q) :
    q.countP (fun x => decide (x = r)) = 1 := by
  induction q with
  | nil => simp at hm
  | cons a q ih =>
    rw [List.nodup_cons] at hnd
    by_cases har : a = r
    · subst har
      have h0 : q.countP (fun x => decide (x = a)) = 0 := by
        rw [List.countP_eq_zero]
        intro x hx
        simp only [decide_eq_true_eq]
        intro hxa
        exact hnd.1 (hxa ▸ hx)
      simp [List.countP_cons, h0]
    · have hm' : r ∈ q := by
        rcases List.mem_cons.1 hm with h | h
        · exact absurd h.symm har
        · exact h
      simp [List.countP_cons, har, ih hnd.2 hm']

theorem countP_changes (op : Gate → Sigs → Sigs) (s : Circuit) (q : List GateRef) (r : GateRef) :
    (q.filterMap (tickOutputs op s)).countP (fun c => decide (c.1 = r)) =
      if (tickOutputs op s r).isSome then q.countP (fun x => decide (x = r)) else 0 := by
  induction q with
  | nil => simp
  | cons a q ih =>
    cases h : tickOutputs op s a with
    | none =>
      rw [List.filterMap_cons_none h, ih]
      by_cases har : a = r
      · subst har; simp [h]
      · simp [List.countP_cons, har]
    | some c =>
      rw [List.filterMap_cons_some h, List.countP_cons, ih]
      have hc := tickOutputs_fst op s a c h
      by_cases har : a = r
      · subst har; simp [h, hc, List.countP_cons]
      · have hcr : ¬ c.1 = r := fun e => har (hc ▸ e)
        simp [hcr, List.countP_cons, har]

/-- C2 (as the code has it): when a gate has been added to the pending set,
any number of times, it is in the set once; the next tick records one pair for
it, so calls its operation once and assigns its outputs once, if it is in a
graph and is not a Subcircuit, and records nothing for it otherwise. -/
theorem updateGates_idempotent_enqueue (operation : Gate → Sigs → Sigs) (s : Circuit)
    (q0 adds : List GateRef) (r : GateRef) (hq0 : q0.Nodup) (hr : r ∈ adds)
    (hs : s.queue = adds.foldl queueAdd q0) :
    s.queue.countP (fun x => decide (x = r)) = 1
    ∧ (captureLoop operation { s with queue := [] } s.queue).2.countP (fun c => decide (c.1 = r)) =
        (match getCell s r.1 (some r.2) with
          | some gate => if gate.type = CellType.Subcircuit then 0 else 1
          | none => 0) := by
  have hnd : s.queue.Nodup := hs ▸ foldl_queueAdd_nodup adds q0 hq0
  have hmem : r ∈ s.queue := by
    rw [hs, mem_foldl_queueAdd]; exact Or.inr hr
  have hcount := countP_eq_one_of_mem s.queue r hnd hmem
  refine ⟨hcount, ?_⟩
  rw [captureLoop_changes, countP_changes, hcount]
  have ht : tickOutputs operation { s with queue := [] } r = tickOutputs operation s r := rfl
  rw [ht]
  unfold tickOutputs
  cases getCell s r.1 (some r.2) with
  | none => rfl
  | some gate =>
    by_cases h : gate.type = CellType.Subcircuit <;> simp [h]

theorem updateGates_idempotent_enqueue_witness :
    (notChain.queue.countP (fun x => decide (x = (0, "n1"))) = 1
    ∧ (captureLoop gateOperation { notChain with queue := [] } notChain.queue).2.countP
          (fun c => decide (c.1 = (0, "n1"))) =
        (match getCell notChain 0 (some "n1") with
          | some gate => if gate.type = CellType.Subcircuit then 0 else 1
          | none => 0)) :=
  updateGates_idempotent_enqueue gateOperation notChain []
    [(0, "b"), (0, "n1"), (0, "n1"), (0, "n2"), (0, "n1")] (0, "n1") List.nodup_nil
    (by decide) (by decide)

/-- C2, as stated, fails for a Subcircuit gate: added to the pending set twice,
it is in the set, and the tick records no pair for it (its operation is not
called and its outputs are not assigned), rather than exactly one. -/
theorem subcircuit_enqueued_twice_not_evaluated :
    (0, "x") ∈ queueAdd (queueAdd passThrough.queue (0, "x")) (0, "x")
    ∧ ¬ ((captureLoop gateOperation { passThrough with queue := [] }
          (queueAdd (queueAdd passThrough.queue (0, "x")) (0, "x"))).2.countP
            (fun c => decide (c.1 = (0, "x"))) = 1) := by
  decide

/-! ## Connection validation -/

theorem any_getConnectedLinks (gr : Graph) (id : String) (p : Wire → Bool)
    (hp : ∀ l, p l = true → l.target.id = some id) :
    (getConnectedLinks gr id).any p = gr.wires.any p := by
  unfold getConnectedLinks
  rw [Bool.eq_iff_iff]
  simp only [List.any_eq_true, List.mem_filter, decide_eq_true_eq]
  constructor
  · rintro ⟨l, ⟨hl, _⟩, hpl⟩
    exact ⟨l, hl, hpl⟩
  · rintro ⟨l, hl, hpl⟩
    exact ⟨l, ⟨hl, Or.inr (hp l hpl)⟩, hpl⟩

theorem validateConnection_target_iff (gr : Graph) (vs : Gate) (ms : Option String)
    (vt : Gate) (mt : Option String) (vl : String) :
    validateConnection gr vs ms vt mt Dragged.target vl = Outcome.ok true ↔
      ∃ port, mt = some port ∧ lookupPort vt.ports port = some Dir.inp ∧
        ∀ l ∈ gr.wires, l.id ≠ vl → l.target ≠ ⟨some vt.id, some port⟩ := by
  unfold validateConnection
  cases mt with
  | none => simp
  | some port =>
    simp only [Option.some.injEq, exists_eq_left']
    cases hd : lookupPort vt.ports port with
    | none => simp
    | some d =>
      cases d with
      | out => simp
      | inp =>
        simp only [Outcome.ok.injEq, Bool.not_eq_true', true_and]
        rw [any_getConnectedLinks gr vt.id _ (by
          intro l hl
          simp only [Bool.and_eq_true, decide_eq_true_eq] at hl
          exact hl.1.2)]
        rw [List.any_eq_false]
        constructor
        · intro h l hl hne heq
          apply h l hl
          simp [hne, heq]
        · intro h l hl hc
          simp only [Bool.and_eq_true, decide_eq_true_eq] at hc
          apply h l hl hc.1.1
          cases ht : l.target with
          | mk i p =>
            rw [ht] at hc
            simp only at hc
            rw [hc.1.2, hc.2]

theorem validateConnection_source_iff (gr : Graph) (vs : Gate) (ms : Option String)
    (vt : Gate) (mt : Option String) (vl : String) :
    validateConnection gr vs ms vt mt Dragged.source vl = Outcome.ok true ↔
      ∃ port, ms = some port ∧ lookupPort vs.ports port = some Dir.out := by
  unfold validateConnection
  cases ms with
  | none => simp
  | some port =>
    simp only [Option.some.injEq, exists_eq_left']
    cases hd : lookupPort vs.ports port with
    | none => simp
    | some d => cases d <;> simp

/-- C7 (as the code has it): `validateConnection` examines only the end being
connected. Connecting the target end is accepted exactly when there is a magnet,
its port is an input port of the target gate, and no other wire of the graph
targets that gate and port; connecting the source end is accepted exactly when
the port of the source magnet is an output port of the source gate. A
connection that is rejected changes nothing. -/
theorem validateConnection_accepts_iff (gr : Graph) (vs : Gate) (ms : Option String)
    (vt : Gate) (mt : Option String) (vl : String) :
    (validateConnection gr vs ms vt mt Dragged.target vl = Outcome.ok true ↔
      ∃ port, mt = some port ∧ lookupPort vt.ports port = some Dir.inp ∧
        ∀ l ∈ gr.wires, l.id ≠ vl → l.target ≠ ⟨some vt.id, some port⟩)
    ∧ (validateConnection gr vs ms vt mt Dragged.source vl = Outcome.ok true ↔
      ∃ port, ms = some port ∧ lookupPort vs.ports port = some Dir.out)
    ∧ (∀ (fuel g : Nat) (e : Dragged) (s : Circuit), getGraph s g = some gr →
        validateConnection gr vs ms vt mt e vl = Outcome.ok false →
        connect fuel g vs ms vt mt e vl s = Outcome.ok s) := by
  refine ⟨validateConnection_target_iff gr vs ms vt mt vl,
    validateConnection_source_iff gr vs ms vt mt vl, ?_⟩
  intro fuel g e s hg hv
  unfold connect
  rw [hg]
  simp only [hv]

theorem validateConnection_accepts_iff_witness :
    connect 5 0 buttonA (some "out") andC (some "in1") Dragged.target "w2" andBoard
      = Outcome.ok andBoard :=
  (validateConnection_accepts_iff andBoardGraph buttonA (some "out") andC (some "in1") "w2").2.2
    5 0 Dragged.target andBoard (by decide) (by decide)

/-- C7, as stated, fails: connecting the target end of a wire whose source is an
input port (`c.in2`) to a free input port is accepted, although the source port
is not an output port. -/
theorem validateConnection_ignores_other_end :
    lookupPort andC.ports "in2" ≠ some Dir.out
    ∧ getWire andBoard 0 "w2" = some looseWire
    ∧ looseWire.source = ⟨some "c", some "in2"⟩
    ∧ validateConnection andBoardGraph andC (some "in2") notD (some "in") Dragged.target "w2"
        = Outcome.ok true := by
  decide

/-! ## The propagation layer keeps the topology -/

theorem map_updGraph {β : Type} (G : Graph → β) (F : Graph → Graph) (h : ∀ x, G (F x) = G x)
    (gs : List Graph) (n : Nat) : (updGraph F gs n).map G = gs.map G := by
  induction gs generalizing n with
  | nil => cases n <;> rfl
  | cons x xs ih =>
    cases n with
    | zero => simp [updGraph, h]
    | succ n => simp [updGraph, ih]

theorem map_updGate {β : Type} (G : Gate → β) (f : Gate → Gate) (h : ∀ x, G (f x) = G x)
    (cs : List Gate) (id : String) : (updGate f cs id).map G = cs.map G := by
  induction cs with
  | nil => rfl
  | cons c cs ih =>
    by_cases hc : c.id = id <;> simp [updGate, hc, h, ih]

theorem map_updWire {β : Type} (G : Wire → β) (f : Wire → Wire) (h : ∀ x, G (f x) = G x)
    (ws : List Wire) (id : String) : (updWire f ws id).map G = ws.map G := by
  induction ws with
  | nil => rfl
  | cons w ws ih =>
    by_cases hc : w.id = id <;> simp [updWire, hc, h, ih]

theorem skeleton_modifyGate (s : Circuit) (r : GateRef) (f : Gate → Gate)
    (h : ∀ c, (f c).bare = c.bare) : skeleton (modifyGate s r f) = skeleton s := by
  unfold skeleton modifyGate
  apply map_updGraph
  intro gr
  simp only [Graph.bare, map_updGate Gate.bare f h]

theorem skeleton_modifyWire (s : Circuit) (g : Nat) (id : String) (f : Wire → Wire)
    (h : ∀ w, (f w).bare = w.bare) : skeleton (modifyWire s g id f) = skeleton s := by
  unfold skeleton modifyWire
  apply map_updGraph
  intro gr
  simp only [Graph.bare, map_updWire Wire.bare f h]

theorem step_skeleton (t : Task) (s s1 : Circuit) (new : List Task)
    (h : step t s = Outcome.ok (new, s1)) : skeleton s1 = skeleton s := by
  cases t with
  | setOutputSignals r sigs =>
    simp only [step] at h
    split at h
    · cases h; rfl
    · split at h
      · cases h; rfl
      · split at h <;> cases h <;> exact skeleton_modifyGate _ _ _ (fun _ => rfl)
  | setSignal g wid v =>
    simp only [step] at h
    split at h
    · cases h; rfl
    · split at h
      · cases h; rfl
      · split at h <;> cases h <;> exact skeleton_modifyWire _ _ _ _ (fun _ => rfl)
  | setInput sig e r =>
    simp only [step] at h
    split at h
    · cases h; rfl
    · split at h
      · cases h; rfl
      · split at h
        · split at h
          · cases h
          · split at h <;> cases h <;> exact skeleton_modifyGate _ _ _ (fun _ => rfl)
        · cases h
          exact skeleton_modifyGate _ _ _ (fun _ => rfl)
  | forwardInput sig e r =>
    simp only [step] at h
    split at h
    · cases h; rfl
    · split at h
      · cases h
      · split at h
        · cases h
        · cases h; rfl

theorem run_skeleton (fuel : Nat) (ts : List Task) (s s1 : Circuit)
    (h : run fuel ts s = Outcome.ok s1) : skeleton s1 = skeleton s := by
  induction fuel generalizing ts s with
  | zero =>
    cases ts with
    | nil => simp only [run] at h; cases h; rfl
    | cons t ts => simp [run] at h
  | succ n ih =>
    cases ts with
    | nil => simp only [run] at h; cases h; rfl
    | cons t ts =>
      simp only [run] at h
      cases hs : step t s with
      | ok p =>
        obtain ⟨new, s2⟩ := p
        rw [hs] at h
        exact (ih _ _ h).trans (step_skeleton t s s2 new hs)
      | typeError => rw [hs] at h; cases h
      | outOfFuel => rw [hs] at h; cases h

/-! ## The single-driver invariant -/

theorem wiredOK_bare (ws : List Wire) : WiredOK (ws.map Wire.bare) ↔ WiredOK ws := by
  unfold WiredOK
  have h1 : (ws.map Wire.bare).map (fun w => w.id) = ws.map fun w => w.id := by
    rw [List.map_map]; rfl
  have h2 : ∀ k : End, ((ws.map Wire.bare).filter fun w => decide (w.target = k)).length
      = (ws.filter fun w => decide (w.target = k)).length := by
    intro k
    rw [List.filter_map, List.length_map]
    rfl
  rw [h1]
  simp only [h2]

theorem wiring_eq_of_skeleton (s s1 : Circuit) (h : skeleton s1 = skeleton s) :
    wiring s1 = wiring s := by
  have : ∀ x : Circuit, wiring x = (skeleton x).map fun gr => gr.wires := by
    intro x
    unfold wiring skeleton
    rw [List.map_map]
    rfl
  rw [this, this, h]

theorem wired_of_wiring (s s1 : Circuit) (h : wiring s1 = wiring s)
    (hw : ∀ gr ∈ s.graphs, WiredOK gr.wires) : ∀ gr ∈ s1.graphs, WiredOK gr.wires := by
  intro gr hgr
  have hm : gr.wires.map Wire.bare ∈ wiring s1 := List.mem_map_of_mem _ hgr
  rw [h] at hm
  obtain ⟨gr0, hgr0, he⟩ := List.mem_map.1 hm
  rw [← wiredOK_bare, ← he, wiredOK_bare]
  exact hw gr0 hgr0

theorem mem_updGraph (F : Graph → Graph) (gs : List Graph) (n : Nat) (x : Graph)
    (h : x ∈ updGraph F gs n) : x ∈ gs ∨ ∃ gr, gs[n]? = some gr ∧ x = F gr := by
  induction gs generalizing n with
  | nil => cases n <;> simp [updGraph] at h
  | cons y ys ih =>
    cases n with
    | zero =>
      simp only [updGraph, List.mem_cons] at h
      rcases h with h | h
      · exact Or.inr ⟨y, by simp, h⟩
      · exact Or.inl (List.mem_cons_of_mem _ h)
    | succ n =>
      simp only [updGraph, List.mem_cons] at h
      rcases h with h | h
      · exact Or.inl (h ▸ List.mem_cons_self _ _)
      · rcases ih n h with h1 | ⟨gr, h1, h2⟩
        · exact Or.inl (List.mem_cons_of_mem _ h1)
        · exact Or.inr ⟨gr, by simpa using h1, h2⟩

theorem wired_updGraph (s : Circuit) (F : Graph → Graph) (g : Nat)
    (hw : ∀ gr ∈ s.graphs, WiredOK gr.wires)
    (hF : ∀ gr, getGraph s g = some gr → WiredOK gr.wires → WiredOK (F gr).wires) :
    ∀ gr ∈ updGraph F s.graphs g, WiredOK gr.wires := by
  intro gr hgr
  rcases mem_updGraph F s.graphs g gr hgr with h | ⟨gr0, h0, h1⟩
  · exact hw gr h
  · rw [h1]
    exact hF gr0 h0 (hw gr0 (List.getElem?_mem h0))

theorem wiring_modifyGate (s : Circuit) (r : GateRef) (f : Gate → Gate) :
    wiring (modifyGate s r f) = wiring s := by
  unfold wiring modifyGate
  apply map_updGraph
  intro gr
  rfl

theorem mem_updWire (f : Wire → Wire) (ws : List Wire) (id : String) (x : Wire)
    (h : x ∈ updWire f ws id) : x ∈ ws ∨ ∃ w ∈ ws, w.id = id ∧ x = f w := by
  induction ws with
  | nil => simp [updWire] at h
  | cons w ws ih =>
    by_cases hc : w.id = id
    · simp only [updWire, hc, if_true, List.mem_cons] at h
      rcases h with h | h
      · exact Or.inr ⟨w, List.mem_cons_self _ _, hc, h⟩
      · exact Or.inl (List.mem_cons_of_mem _ h)
    · simp only [updWire, hc, if_false, List.mem_cons] at h
      rcases h with h | h
      · exact Or.inl (h ▸ List.mem_cons_self _ _)
      · rcases ih h with h1 | ⟨w0, h1, h2, h3⟩
        · exact Or.inl (List.mem_cons_of_mem _ h1)
        · exact Or.inr ⟨w0, List.mem_cons_of_mem _ h1, h2, h3⟩

theorem findWire_eq_none (ws : List Wire) (id : String) (h : findWire ws id = none) :
    id ∉ ws.map fun w => w.id := by
  induction ws with
  | nil => simp
  | cons w ws ih =>
    by_cases hc : w.id = id
    · simp [findWire, hc] at h
    · simp only [findWire, hc, if_false] at h
      simp only [List.map_cons, List.mem_cons, not_or]
      exact ⟨fun e => hc e.symm, ih h⟩

theorem singleDriver_retarget (ws : List Wire) (vl : String) (e k : End)
    (hnd : (ws.map fun w => w.id).Nodup)
    (H : e = k → ∀ l ∈ ws, l.id ≠ vl → l.target ≠ e)
    (hk : (ws.filter fun w => decide (w.target = k)).length ≤ 1) :
    ((updWire (fun x => { x with target := e }) ws vl).filter
      fun w => decide (w.target = k)).length ≤ 1 := by
  induction ws with
  | nil => simp [updWire]
  | cons w ws ih =>
    simp only [List.map_cons, List.nodup_cons] at hnd
    have hsub : (ws.filter fun w => decide (w.target = k)).length ≤ 1 := by
      refine le_trans ?_ hk
      exact (List.Sublist.filter _ (List.sublist_cons_self w ws)).length_le
    by_cases hc : w.id = vl
    · simp only [updWire, hc, if_true]
      by_cases hek : e = k
      · have hnil : (ws.filter fun w => decide (w.target = k)) = [] := by
          rw [List.filter_eq_nil_iff]
          intro l hl
          simp only [decide_eq_true_eq]
          have hlid : l.id ≠ vl := by
            intro hh
            apply hnd.1
            rw [hc, ← hh]
            exact List.mem_map_of_mem (fun w => w.id) hl
          rw [← hek]
          exact H hek l (List.mem_cons_of_mem _ hl) hlid
        simp [List.filter_cons, hek, hnil]
      · simp only [List.filter_cons, hek, decide_False, Bool.false_eq_true, if_false]
        exact hsub
    · simp only [updWire, hc, if_false]
      have ih' := ih hnd.2 (fun he l hl => H he l (List.mem_cons_of_mem _ hl)) hsub
      by_cases hwk : w.target = k
      · have hke : k ≠ e := fun hh => H hh.symm w (List.mem_cons_self _ _) hc (hwk.trans hh)
        have hws : (ws.filter fun w => decide (w.target = k)) = [] := by
          have hk' := hk
          simp only [List.filter_cons, hwk, decide_True, if_true, List.length_cons] at hk'
          exact List.eq_nil_of_length_eq_zero (by omega)
        have hnil : ((updWire (fun x => { x with target := e }) ws vl).filter
            fun w => decide (w.target = k)) = [] := by
          rw [List.filter_eq_nil_iff]
          intro l hl
          simp only [decide_eq_true_eq]
          rcases mem_updWire _ ws vl l hl with h1 | ⟨w0, _, _, h3⟩
          · rw [List.filter_eq_nil_iff] at hws
            simpa using hws l h1
          · rw [h3]
            exact fun hh => hke hh.symm
        simp [List.filter_cons, hwk, hnil]
      · simp only [List.filter_cons, hwk, decide_False, Bool.false_eq_true, if_false]
        exact ih'

theorem run_wired (fuel : Nat) (ts : List Task) (s s1 : Circuit)
    (h : run fuel ts s = Outcome.ok s1) (hw : ∀ gr ∈ s.graphs, WiredOK gr.wires) :
    ∀ gr ∈ s1.graphs, WiredOK gr.wires :=
  wired_of_wiring s s1 (wiring_eq_of_skeleton s s1 (run_skeleton fuel ts s s1 h)) hw

theorem wiredOK_filter (ws : List Wire) (p : Wire → Bool) (h : WiredOK ws) :
    WiredOK (ws.filter p) := by
  refine ⟨(List.Sublist.map _ (List.filter_sublist ws)).nodup h.1, ?_⟩
  intro id q
  refine le_trans ?_ (h.2 id q)
  exact (List.Sublist.filter _ (List.filter_sublist ws)).length_le

theorem addWire_wired (fuel g : Nat) (w : Wire) (s s1 : Circuit)
    (hloose : w.target = ⟨none, none⟩) (h : addWire fuel g w s = Outcome.ok s1)
    (hw : ∀ gr ∈ s.graphs, WiredOK gr.wires) : ∀ gr ∈ s1.graphs, WiredOK gr.wires := by
  unfold addWire at h
  cases hg : getGraph s g with
  | none => rw [hg] at h; cases h; exact hw
  | some gr =>
    rw [hg] at h
    simp only at h
    split at h
    · cases h; exact hw
    · rename_i hex
      refine run_wired _ _ _ _ h ?_
      unfold attachWire
      apply wired_updGraph s _ g hw
      intro gr0 hgr0 hok
      rw [hg] at hgr0
      cases hgr0
      have hnone : findWire gr.wires w.id = none := by
        cases hf : findWire gr.wires w.id with
        | none => rfl
        | some x => exact absurd (Or.inl (by simp [hf])) hex
      refine ⟨?_, ?_⟩
      · simp only [List.map_append, List.map_cons, List.map_nil]
        rw [List.nodup_append]
        refine ⟨hok.1, List.nodup_singleton _, ?_⟩
        intro a ha hb
        rw [List.mem_singleton] at hb
        exact findWire_eq_none gr.wires w.id hnone (hb ▸ ha)
      · intro id p
        simp only [List.filter_append, List.length_append]
        have : ([w].filter fun x => decide (x.target = ⟨some id, some p⟩)) = [] := by
          simp [List.filter_cons, hloose]
        rw [this]
        exact hok.2 id p

theorem removeWire_wired (fuel g : Nat) (wid : String) (s s1 : Circuit)
    (h : removeWire fuel g wid s = Outcome.ok s1)
    (hw : ∀ gr ∈ s.graphs, WiredOK gr.wires) : ∀ gr ∈ s1.graphs, WiredOK gr.wires := by
  unfold removeWire at h
  cases hg : getWire s g wid with
  | none => rw [hg] at h; cases h; exact hw
  | some w =>
    rw [hg] at h
    refine run_wired _ _ _ _ h ?_
    unfold detachWire
    apply wired_updGraph s _ g hw
    intro gr0 _ hok
    exact wiredOK_filter _ _ hok

theorem removeWires_wired (fuel g : Nat) (ids : List String) (s s1 : Circuit)
    (h : removeWires fuel g ids s = Outcome.ok s1)
    (hw : ∀ gr ∈ s.graphs, WiredOK gr.wires) : ∀ gr ∈ s1.graphs, WiredOK gr.wires := by
  induction ids generalizing s with
  | nil => simp only [removeWires] at h; cases h; exact hw
  | cons wid rest ih =>
    simp only [removeWires] at h
    cases hr : removeWire fuel g wid s with
    | ok s2 =>
      rw [hr] at h
      exact ih s2 h (removeWire_wired fuel g wid s s2 hr hw)
    | typeError => rw [hr] at h; cases h
    | outOfFuel => rw [hr] at h; cases h

theorem removeGate_wired (fuel g : Nat) (id : String) (s s1 : Circuit)
    (h : removeGate fuel g id s = Outcome.ok s1)
    (hw : ∀ gr ∈ s.graphs, WiredOK gr.wires) : ∀ gr ∈ s1.graphs, WiredOK gr.wires := by
  unfold removeGate at h
  cases hg : getGraph s g with
  | none => rw [hg] at h; cases h; exact hw
  | some gr =>
    rw [hg] at h
    simp only at h
    cases hf : findGate gr.cells id with
    | none => rw [hf] at h; cases h; exact hw
    | some c =>
      rw [hf] at h
      simp only at h
      cases hr : removeWires fuel g ((getConnectedLinks gr id).map fun w => w.id) s with
      | ok s2 =>
        rw [hr] at h
        cases h
        have h2 := removeWires_wired fuel g _ s s2 hr hw
        exact wired_updGraph s2 _ g h2 (fun _ _ hok => hok)
      | typeError => rw [hr] at h; cases h
      | outOfFuel => rw [hr] at h; cases h

theorem setSource_wired (fuel g : Nat) (wid : String) (e : End) (s s1 : Circuit)
    (h : setSource fuel g wid e s = Outcome.ok s1)
    (hw : ∀ gr ∈ s.graphs, WiredOK gr.wires) : ∀ gr ∈ s1.graphs, WiredOK gr.wires := by
  unfold setSource at h
  cases hg : getWire s g wid with
  | none => rw [hg] at h; cases h; exact hw
  | some w =>
    rw [hg] at h
    simp only at h
    split at h
    · cases h; exact hw
    · refine run_wired _ _ _ _ h ?_
      apply wired_updGraph s _ g hw
      intro gr0 _ hok
      unfold WiredOK
      simp only
      rw [map_updWire (fun w => w.id) (fun x => { x with source := e }) (fun _ => rfl)]
      refine ⟨hok.1, ?_⟩
      intro id p
      have := hok.2 id p
      have hmap : ∀ ws : List Wire, (ws.filter fun w => decide (w.target = ⟨some id, some p⟩)).length
          = ((ws.map fun w => w.target).filter fun t => decide (t = ⟨some id, some p⟩)).length := by
        intro ws
        rw [List.filter_map, List.length_map]
        rfl
      rw [hmap, map_updWire (fun w => w.target) (fun x => { x with source := e }) (fun _ => rfl), ← hmap]
      exact this

theorem setTarget_wired (fuel g : Nat) (wid : String) (e : End) (s s1 : Circuit)
    (H : e.id.isSome = true → ∀ gr, getGraph s g = some gr → ∀ l ∈ gr.wires, l.id ≠ wid →
      l.target ≠ e)
    (h : setTarget fuel g wid e s = Outcome.ok s1)
    (hw : ∀ gr ∈ s.graphs, WiredOK gr.wires) : ∀ gr ∈ s1.graphs, WiredOK gr.wires := by
  unfold setTarget at h
  cases hg : getWire s g wid with
  | none => rw [hg] at h; cases h; exact hw
  | some w =>
    rw [hg] at h
    simp only at h
    split at h
    · cases h; exact hw
    · refine run_wired _ _ _ _ h ?_
      apply wired_updGraph s _ g hw
      intro gr0 hgr0 hok
      unfold WiredOK
      simp only
      rw [map_updWire (fun w => w.id) (fun x => { x with target := e }) (fun _ => rfl)]
      refine ⟨hok.1, ?_⟩
      intro id p
      exact singleDriver_retarget gr0.wires wid e ⟨some id, some p⟩ hok.1
        (fun hek => H (by rw [hek]; rfl) gr0 hgr0) (hok.2 id p)

theorem captureLoop_wiring (op : Gate → Sigs → Sigs) (s : Circuit) (q : List GateRef) :
    wiring (captureLoop op s q).1 = wiring s := by
  induction q generalizing s with
  | nil => rfl
  | cons r q ih =>
    simp only [captureLoop]
    rw [ih]
    unfold captureGate
    cases getCell s r.1 (some r.2) with
    | none => rfl
    | some gate =>
      by_cases ht : gate.type = CellType.Subcircuit
      · simp [ht]
      · simp only [ht, if_false]
        exact wiring_modifyGate _ _ _

theorem applyEdit_wired (op : Gate → Sigs → Sigs) (fuel : Nat) (e : Edit) (s s1 : Circuit)
    (h : applyEdit op fuel e s = Outcome.ok s1)
    (hw : ∀ gr ∈ s.graphs, WiredOK gr.wires) : ∀ gr ∈ s1.graphs, WiredOK gr.wires := by
  cases e with
  | pull g wid src => exact addWire_wired fuel g _ s s1 rfl h hw
  | connect g vs ms vt mt d vl =>
    simp only [applyEdit, connect] at h
    cases hg : getGraph s g with
    | none => rw [hg] at h; cases h; exact hw
    | some gr =>
      rw [hg] at h
      simp only at h
      cases hv : validateConnection gr vs ms vt mt d vl with
      | ok b =>
        rw [hv] at h
        cases b with
        | false => cases h; exact hw
        | true =>
          cases d with
          | source => exact setSource_wired fuel g vl _ s s1 h hw
          | target =>
            obtain ⟨port, hp, _, hfree⟩ := (validateConnection_target_iff gr vs ms vt mt vl).1 hv
            subst hp
            refine setTarget_wired fuel g vl _ s s1 ?_ h hw
            intro _ gr0 hgr0
            rw [hg] at hgr0
            cases hgr0
            exact hfree
      | typeError => rw [hv] at h; cases h
      | outOfFuel => rw [hv] at h; cases h
  | unplug g wid => exact setTarget_wired fuel g wid _ s s1 (fun h0 => by simp at h0) h hw
  | removeWire g wid => exact removeWire_wired fuel g wid s s1 h hw
  | removeGate g id => exact removeGate_wired fuel g id s s1 h hw
  | press r b =>
    simp only [applyEdit, Outcome.ok.injEq] at h
    subst h
    unfold setButtonState
    cases getCell s r.1 (some r.2) with
    | none => exact hw
    | some gate =>
      simp only
      split
      · exact hw
      · exact wired_of_wiring s _ (wiring_modifyGate s r _) hw
  | tick =>
    simp only [applyEdit, updateGates] at h
    refine run_wired _ _ _ _ h ?_
    exact wired_of_wiring s _ (captureLoop_wiring op _ s.queue) hw

theorem applyEdits_wired (op : Gate → Sigs → Sigs) (fuel : Nat) (es : List Edit) (s s1 : Circuit)
    (h : applyEdits op fuel es s = Outcome.ok s1)
    (hw : ∀ gr ∈ s.graphs, WiredOK gr.wires) : ∀ gr ∈ s1.graphs, WiredOK gr.wires := by
  induction es generalizing s with
  | nil => simp only [applyEdits] at h; cases h; exact hw
  | cons e es ih =>
    simp only [applyEdits] at h
    cases hr : applyEdit op fuel e s with
    | ok s2 =>
      rw [hr] at h
      exact ih s2 h (applyEdit_wired op fuel e s s2 hr hw)
    | typeError => rw [hr] at h; cases h
    | outOfFuel => rw [hr] at h; cases h

/-- C6 (as the code has it): the single-driver invariant is kept, not
established. From a state whose graphs hold every wire id once and in which no
(gate, port) pair is the target of two wires, every sequence of wire pulls,
connections decided by `validateConnection`, unpluggings, wire and gate
removals, button presses and ticks that runs to its end leads to such a state
again. -/
theorem singleDriver_preserved (operation : Gate → Sigs → Sigs) (fuel : Nat) (es : List Edit)
    (s s1 : Circuit) (hids : UniqueWireIds s) (hsd : SingleDriver s)
    (h : applyEdits operation fuel es s = Outcome.ok s1) :
    UniqueWireIds s1 ∧ SingleDriver s1 := by
  have hw : ∀ gr ∈ s.graphs, WiredOK gr.wires := fun gr hgr => ⟨hids gr hgr, hsd gr hgr⟩
  have h1 := applyEdits_wired operation fuel es s s1 h hw
  exact ⟨fun gr hgr => (h1 gr hgr).1, fun gr hgr => (h1 gr hgr).2⟩

theorem andBoard_uniqueWireIds : UniqueWireIds andBoard := by
  intro gr hgr
  simp only [andBoard, List.mem_singleton] at hgr
  subst hgr
  decide

theorem andBoard_singleDriver : SingleDriver andBoard := by
  intro gr hgr id p
  simp only [andBoard, List.mem_singleton] at hgr
  subst hgr
  simp only [andBoardGraph, mkWire, looseWire, List.filter_cons, List.filter_nil]
  split <;> simp

theorem singleDriver_preserved_witness :
    applyEdits gateOperation 10
        [Edit.connect 0 andC (some "in2") notD (some "in") Dragged.target "w2",
         Edit.connect 0 buttonA (some "out") andC (some "in1") Dragged.target "w2",
         Edit.tick, Edit.removeWire 0 "w1"] andBoard
      = Outcome.ok
          { graphs :=
              [{ cells := [buttonA,
                           mkGate "b" CellType.Button [("out", Dir.out)],
                           { andC with inputSignals := [("in1", Val.num 0)] },
                           { notD with inputSignals := [("in", Val.num 0)],
                                       outputSignals := [("out", Val.num 1)] }],
                 wires := [{ looseWire with target := ⟨some "d", some "in"⟩ }],
                 subcircuit := none }],
            queue := [(0, "c")] }
    ∧ UniqueWireIds andBoard ∧ SingleDriver andBoard
    ∧ ∀ s1, applyEdits gateOperation 10
        [Edit.connect 0 andC (some "in2") notD (some "in") Dragged.target "w2",
         Edit.connect 0 buttonA (some "out") andC (some "in1") Dragged.target "w2",
         Edit.tick, Edit.removeWire 0 "w1"] andBoard = Outcome.ok s1 →
        UniqueWireIds s1 ∧ SingleDriver s1 :=
  ⟨by decide, andBoard_uniqueWireIds, andBoard_singleDriver,
   fun s1 h => singleDriver_preserved gateOperation 10 _ andBoard s1 andBoard_uniqueWireIds
     andBoard_singleDriver h⟩

/-- C6, as stated, fails at construction: `makeGraph` adds the wires of the
description without validating them, so a description with two connectors to
`c.in1` builds a network in which that input port is the target of two wires. -/
theorem makeGraph_double_driver :
    ∃ s, Circuit.new 3 doubleDriver = Outcome.ok s ∧ ¬ SingleDriver s := by
  refine ⟨_, rfl, ?_⟩
  intro h
  have h1 := h _ (List.mem_singleton.2 rfl) "c" "in1"
  revert h1
  decide

/-! ## Reasoning about the call stack -/

theorem run_inv (I : List Task → Circuit → Prop)
    (hstep : ∀ t ts s new s1, I (t :: ts) s → step t s = Outcome.ok (new, s1) → I (new ++ ts) s1)
    (fuel : Nat) (ts : List Task) (s s1 : Circuit) (h0 : I ts s)
    (hr : run fuel ts s = Outcome.ok s1) : I [] s1 := by
  induction fuel generalizing ts s with
  | zero =>
    cases ts with
    | nil => simp only [run] at hr; cases hr; exact h0
    | cons t ts => simp [run] at hr
  | succ n ih =>
    cases ts with
    | nil => simp only [run] at hr; cases hr; exact h0
    | cons t ts =>
      simp only [run] at hr
      cases hs : step t s with
      | ok p =>
        obtain ⟨new, s2⟩ := p
        rw [hs] at hr
        exact ih _ _ (hstep t ts s new s2 h0 hs) hr
      | typeError => rw [hs] at hr; cases hr
      | outOfFuel => rw [hs] at hr; cases hr

theorem run_succ_cons (n : Nat) (t : Task) (ts : List Task) (s : Circuit) :
    run (n + 1) (t :: ts) s =
      match step t s with
      | Outcome.ok (new, s1) => run n (new ++ ts) s1
      | Outcome.typeError => Outcome.typeError
      | Outcome.outOfFuel => Outcome.outOfFuel := rfl

theorem run_nil (fuel : Nat) (s : Circuit) : run fuel [] s = Outcome.ok s := by
  cases fuel <;> rfl

theorem findGate_id (cs : List Gate) (i : String) (c : Gate) (h : findGate cs i = some c) :
    c.id = i := by
  induction cs with
  | nil => simp [findGate] at h
  | cons x xs ih =>
    by_cases hx : x.id = i
    · simp only [findGate, hx, if_true, Option.some.injEq] at h
      rw [← h]; exact hx
    · simp only [findGate, hx, if_false] at h
      exact ih h

theorem findWire_id (ws : List Wire) (i : String) (w : Wire) (h : findWire ws i = some w) :
    w.id = i := by
  induction ws with
  | nil => simp [findWire] at h
  | cons x xs ih =>
    by_cases hx : x.id = i
    · simp only [findWire, hx, if_true, Option.some.injEq] at h
      rw [← h]; exact hx
    · simp only [findWire, hx, if_false] at h
      exact ih h

theorem findWire_mem (ws : List Wire) (i : String) (w : Wire) (h : findWire ws i = some w) :
    w ∈ ws := by
  induction ws with
  | nil => simp [findWire] at h
  | cons x xs ih =>
    by_cases hx : x.id = i
    · simp only [findWire, hx, if_true, Option.some.injEq] at h
      rw [← h]; exact List.mem_cons_self _ _
    · simp only [findWire, hx, if_false] at h
      exact List.mem_cons_of_mem _ (ih h)

theorem getCell_id (s : Circuit) (g : Nat) (i : Option String) (c : Gate)
    (h : getCell s g i = some c) : i = some c.id := by
  unfold getCell at h
  cases hg : getGraph s g with
  | none => simp [hg] at h
  | some gr =>
    cases i with
    | none => simp [hg] at h
    | some j =>
      simp only [hg] at h
      rw [findGate_id gr.cells j c h]

theorem getWire_mem (s : Circuit) (g : Nat) (i : String) (w : Wire)
    (h : getWire s g i = some w) : ∃ gr, getGraph s g = some gr ∧ w ∈ gr.wires ∧ w.id = i := by
  unfold getWire at h
  cases hg : getGraph s g with
  | none => simp [hg] at h
  | some gr =>
    simp only [hg] at h
    exact ⟨gr, rfl, findWire_mem _ _ _ h, findWire_id _ _ _ h⟩

theorem findWire_updWire (f : Wire → Wire) (hf : ∀ w, (f w).id = w.id) (ws : List Wire)
    (id i : String) :
    findWire (updWire f ws id) i = if i = id then (findWire ws i).map f else findWire ws i := by
  induction ws with
  | nil => simp [updWire, findWire]
  | cons c cs ih =>
    by_cases h1 : c.id = id
    · by_cases h2 : i = id
      · simp [updWire, findWire, h1, h2, hf]
      · have h3 : ¬ id = i := fun h => h2 h.symm
        simp [updWire, findWire, h1, h2, h3, hf]
    · by_cases h2 : c.id = i
      · have h3 : ¬ i = id := fun h => h1 (h2.trans h)
        simp [updWire, findWire, h1, h2, h3]
      · simp [updWire, findWire, h1, h2, ih]

theorem getWire_modifyWire (s : Circuit) (g : Nat) (id : String) (f : Wire → Wire)
    (hf : ∀ w, (f w).id = w.id) (g' : Nat) (i : String) :
    getWire (modifyWire s g id f) g' i =
      if g' = g ∧ i = id then (getWire s g' i).map f else getWire s g' i := by
  unfold getWire getGraph modifyWire
  simp only [getElem?_updGraph]
  by_cases hg : g' = g
  · subst hg
    cases h : s.graphs[g']? with
    | none => simp
    | some gr =>
      simp only [if_true, Option.map_some', true_and, findWire_updWire f hf]
  · simp [hg]

theorem getWire_modifyGate (s : Circuit) (r : GateRef) (f : Gate → Gate) (g : Nat) (i : String) :
    getWire (modifyGate s r f) g i = getWire s g i := by
  unfold getWire getGraph modifyGate
  simp only [getElem?_updGraph]
  by_cases hg : g = r.1
  · subst hg
    cases h : s.graphs[r.1]? <;> simp
  · simp [hg]

theorem getCell_modifyWire (s : Circuit) (g : Nat) (id : String) (f : Wire → Wire) (g' : Nat)
    (i : Option String) : getCell (modifyWire s g id f) g' i = getCell s g' i := by
  unfold getCell getGraph modifyWire
  simp only [getElem?_updGraph]
  by_cases hg : g' = g
  · subst hg
    cases h : s.graphs[g']? <;> cases i <;> simp
  · simp [hg]

theorem getCell_queue (s : Circuit) (q : List GateRef) (g : Nat) (i : Option String) :
    getCell { s with queue := q } g i = getCell s g i := rfl

theorem getWire_queue (s : Circuit) (q : List GateRef) (g : Nat) (i : String) :
    getWire { s with queue := q } g i = getWire s g i := rfl

theorem Sigs.has_iff_mem (m : Sigs) (k : String) : Sigs.has m k = true ↔ k ∈ m.map Prod.fst := by
  induction m with
  | nil => simp [Sigs.has]
  | cons a m ih =>
    obtain ⟨k0, v0⟩ := a
    by_cases h : k0 = k
    · simp [Sigs.has, h]
    · have h' : ¬ k = k0 := fun e => h e.symm
      simp [Sigs.has, h, h', ih]

theorem Sigs.read_of_not_has (m : Sigs) (k : String) (h : Sigs.has m k = false) :
    Sigs.read m k = Val.undefined := by
  induction m with
  | nil => rfl
  | cons a m ih =>
    obtain ⟨k0, v0⟩ := a
    by_cases hk : k0 = k
    · simp [Sigs.has, hk] at h
    · simp only [Sigs.has, hk, if_false] at h
      simp [Sigs.read, hk, ih h]

theorem Sigs.isEqual_spec (a b : Sigs) (h : Sigs.isEqual a b = true) (k : String) :
    Sigs.has a k = Sigs.has b k ∧ Sigs.read a k = Sigs.read b k := by
  unfold Sigs.isEqual at h
  rw [List.all_eq_true] at h
  by_cases hk : k ∈ a.map Prod.fst ++ b.map Prod.fst
  · have := h k hk
    simp only [Bool.and_eq_true, beq_iff_eq, decide_eq_true_eq] at this
    exact this
  · rw [List.mem_append, not_or] at hk
    have ha : Sigs.has a k = false := by
      cases hh : Sigs.has a k with
      | false => rfl
      | true => exact absurd ((Sigs.has_iff_mem a k).1 hh) hk.1
    have hb : Sigs.has b k = false := by
      cases hh : Sigs.has b k with
      | false => rfl
      | true => exact absurd ((Sigs.has_iff_mem b k).1 hh) hk.2
    rw [ha, hb, Sigs.read_of_not_has a k ha, Sigs.read_of_not_has b k hb]
    exact ⟨rfl, rfl⟩

theorem inputValue_set (m : Sigs) (k : String) (v : Val) (k' : String) :
    inputValue (Sigs.set m k v) k' = if k = k' then v else inputValue m k' := by
  unfold inputValue
  rw [Sigs.has_set, Sigs.read_set]
  by_cases h : k = k' <;> simp [h]

theorem inputValue_isEqual (a b : Sigs) (h : Sigs.isEqual a b = true) (k : String) :
    inputValue a k = inputValue b k := by
  unfold inputValue
  rw [(Sigs.isEqual_spec a b h k).1, (Sigs.isEqual_spec a b h k).2]

theorem inputValue_fillInputs (ports : List (String × Dir)) (m : Sigs) (k : String) :
    inputValue (fillInputs ports m) k = inputValue m k := by
  unfold inputValue
  rw [has_fillInputs, read_fillInputs]
  by_cases h : Sigs.has m k = true
  · simp [h]
  · by_cases hp : (k, Dir.inp) ∈ ports <;> simp [h, hp]

theorem getCell_modifyGate_cases (s : Circuit) (r : GateRef) (f : Gate → Gate)
    (hf : ∀ c, (f c).id = c.id) (g : Nat) (i : String) (c1 : Gate)
    (h : getCell (modifyGate s r f) g (some i) = some c1) :
    ∃ c, getCell s g (some i) = some c ∧ (((g, i) = r ∧ c1 = f c) ∨ c1 = c) := by
  rw [getCell_modifyGate s r f hf] at h
  by_cases hr : g = r.1 ∧ i = r.2
  · simp only [hr, and_self, if_true] at h
    cases hc : getCell s r.1 (some r.2) with
    | none => simp [hc] at h
    | some c =>
      simp only [hc, Option.map_some', Option.some.injEq] at h
      refine ⟨c, by rw [hr.1, hr.2]; exact hc, Or.inl ⟨?_, h.symm⟩⟩
      exact Prod.ext hr.1 hr.2
  · simp only [hr, if_false] at h
    exact ⟨c1, h, Or.inr rfl⟩

/-- What one step does to the inputs of a gate. -/
theorem step_inputs (t : Task) (s s1 : Circuit) (new : List Task)
    (h : step t s = Outcome.ok (new, s1)) (g : Nat) (i : String) (c1 : Gate)
    (hc : getCell s1 g (some i) = some c1) :
    ∃ c, getCell s g (some i) = some c ∧
      (c1.inputSignals = c.inputSignals ∨
        ∃ v e, t = Task.setInput v e (g, i) ∧
          c1.inputSignals = Sigs.set c.inputSignals (portKey e.port) v) := by
  cases t with
  | setOutputSignals r sigs =>
    simp only [step] at h
    split at h
    · cases h; exact ⟨c1, hc, Or.inl rfl⟩
    · split at h
      · cases h; exact ⟨c1, hc, Or.inl rfl⟩
      · have key : ∃ c, getCell s g (some i) = some c ∧ c1.inputSignals = c.inputSignals := by
          have hs1 : s1 = modifyGate s r (fun c => { c with outputSignals := sigs }) := by
            split at h <;> cases h <;> rfl
          rw [hs1] at hc
          obtain ⟨c, hc0, hcc⟩ := getCell_modifyGate_cases s r
            (fun c => { c with outputSignals := sigs }) (fun _ => rfl) g i c1 hc
          refine ⟨c, hc0, ?_⟩
          rcases hcc with ⟨_, h2⟩ | h2 <;> rw [h2]
        obtain ⟨c, h1, h2⟩ := key
        exact ⟨c, h1, Or.inl h2⟩
  | setSignal g' wid v =>
    simp only [step] at h
    split at h
    · cases h; exact ⟨c1, hc, Or.inl rfl⟩
    · split at h
      · cases h; exact ⟨c1, hc, Or.inl rfl⟩
      · have hs1 : s1 = modifyWire s g' wid (fun x => { x with signal := v }) := by
          split at h <;> cases h <;> rfl
        rw [hs1, getCell_modifyWire] at hc
        exact ⟨c1, hc, Or.inl rfl⟩
  | setInput sig e r =>
    simp only [step] at h
    split at h
    · cases h; exact ⟨c1, hc, Or.inl rfl⟩
    · rename_i gate hgate
      split at h
      · cases h; exact ⟨c1, hc, Or.inl rfl⟩
      · have hs1 : getCell s1 g (some i) = getCell (modifyGate s r (fun c =>
            { c with inputSignals := Sigs.set gate.inputSignals (portKey e.port) sig }))
            g (some i) := by
          split at h
          · split at h
            · cases h
            · split at h <;> cases h <;> rfl
          · cases h; rfl
        rw [hs1] at hc
        obtain ⟨c, hc0, hcc⟩ := getCell_modifyGate_cases s r
          (fun c => { c with inputSignals := Sigs.set gate.inputSignals (portKey e.port) sig })
          (fun _ => rfl) g i c1 hc
        refine ⟨c, hc0, ?_⟩
        rcases hcc with ⟨h1, h2⟩ | h2
        · right
          refine ⟨sig, e, by rw [h1], ?_⟩
          rw [h2]
          have : c = gate := by
            rw [← h1] at hgate
            simp only at hgate
            rw [hc0] at hgate
            exact Option.some.inj hgate
          rw [this]
        · left; rw [h2]
  | forwardInput sig e r =>
    simp only [step] at h
    split at h
    · cases h; exact ⟨c1, hc, Or.inl rfl⟩
    · split at h
      · cases h
      · split at h
        · cases h
        · cases h; exact ⟨c1, hc, Or.inl rfl⟩

/-- After `setInput(sig, end, gate)` has done its `gate.set`, the port holds `sig`. -/
theorem step_setInput_value (sig : Val) (e : End) (r : GateRef) (s s1 : Circuit)
    (new : List Task) (h : step (Task.setInput sig e r) s = Outcome.ok (new, s1)) (c1 : Gate)
    (hc : getCell s1 r.1 (some r.2) = some c1) :
    inputValue c1.inputSignals (portKey e.port) = sig := by
  simp only [step] at h
  split at h
  · rename_i hnone
    cases h
    rw [hnone] at hc; cases hc
  · rename_i gate hgate
    split at h
    · rename_i heq
      cases h
      rw [hgate] at hc
      cases hc
      rw [inputValue_isEqual _ _ heq, inputValue_set]
      simp
    · have hs1 : getCell s1 r.1 (some r.2) = getCell (modifyGate s r (fun c =>
          { c with inputSignals := Sigs.set gate.inputSignals (portKey e.port) sig }))
          r.1 (some r.2) := by
        split at h
        · split at h
          · cases h
          · split at h <;> cases h <;> rfl
        · cases h; rfl
      rw [hs1, getCell_modifyGate s r
        (fun c => { c with inputSignals := Sigs.set gate.inputSignals (portKey e.port) sig })
        (fun _ => rfl)] at hc
      simp only [and_self, if_true, hgate, Option.map_some', Option.some.injEq] at hc
      rw [← hc]
      simp only
      rw [inputValue_set]
      simp

/-- What one step does to a wire. -/
theorem step_wire (t : Task) (s s1 : Circuit) (new : List Task)
    (h : step t s = Outcome.ok (new, s1)) (g : Nat) (wid : String) (w1 : Wire)
    (hw : getWire s1 g wid = some w1) :
    ∃ w, getWire s g wid = some w ∧ w1.bare = w.bare ∧
      (w1.signal = w.signal ∨ (t = Task.setSignal g wid w1.signal)) := by
  cases t with
  | setOutputSignals r sigs =>
    simp only [step] at h
    split at h
    · cases h; exact ⟨w1, hw, rfl, Or.inl rfl⟩
    · split at h
      · cases h; exact ⟨w1, hw, rfl, Or.inl rfl⟩
      · have hs1 : s1 = modifyGate s r (fun c => { c with outputSignals := sigs }) := by
          split at h <;> cases h <;> rfl
        rw [hs1, getWire_modifyGate] at hw
        exact ⟨w1, hw, rfl, Or.inl rfl⟩
  | setSignal g' wid' v =>
    simp only [step] at h
    split at h
    · cases h; exact ⟨w1, hw, rfl, Or.inl rfl⟩
    · split at h
      · cases h; exact ⟨w1, hw, rfl, Or.inl rfl⟩
      · have hs1 : s1 = modifyWire s g' wid' (fun x => { x with signal := v }) := by
          split at h <;> cases h <;> rfl
        rw [hs1, getWire_modifyWire s g' wid' (fun x => { x with signal := v }) (fun _ => rfl)] at hw
        by_cases hgw : g = g' ∧ wid = wid'
        · simp only [hgw, and_self, if_true] at hw
          obtain ⟨hg1, hw1⟩ := hgw
          subst hg1; subst hw1
          cases hw0 : getWire s g wid with
          | none => simp [hw0] at hw
          | some w =>
            simp only [hw0, Option.map_some', Option.some.injEq] at hw
            refine ⟨w, rfl, ?_, Or.inr ?_⟩
            · rw [← hw]; rfl
            · rw [← hw]
        · simp only [hgw, if_false] at hw
          exact ⟨w1, hw, rfl, Or.inl rfl⟩
  | setInput sig e r =>
    simp only [step] at h
    split at h
    · cases h; exact ⟨w1, hw, rfl, Or.inl rfl⟩
    · rename_i gate hgate
      split at h
      · cases h; exact ⟨w1, hw, rfl, Or.inl rfl⟩
      · have hs1 : getWire s1 g wid = getWire (modifyGate s r (fun c =>
            { c with inputSignals := Sigs.set gate.inputSignals (portKey e.port) sig }))
            g wid := by
          split at h
          · split at h
            · cases h
            · split at h <;> cases h <;> rfl
          · cases h; rfl
        rw [hs1, getWire_modifyGate] at hw
        exact ⟨w1, hw, rfl, Or.inl rfl⟩
  | forwardInput sig e r =>
    simp only [step] at h
    split at h
    · cases h; exact ⟨w1, hw, rfl, Or.inl rfl⟩
    · split at h
      · cases h
      · split at h
        · cases h
        · cases h; exact ⟨w1, hw, rfl, Or.inl rfl⟩

/-- A call of `setInput` is only ever made by the `change:signal` handler, for
the target of the wire whose signal has just changed. -/
theorem step_new_setInput (t : Task) (s s1 : Circuit) (new : List Task)
    (h : step t s = Outcome.ok (new, s1)) (v : Val) (e : End) (r : GateRef)
    (hm : Task.setInput v e r ∈ new) :
    ∃ wid w, t = Task.setSignal r.1 wid v ∧ getWire s r.1 wid = some w ∧ e = w.target ∧
      w.target.id = some r.2 ∧ new = [Task.setInput v e r] ∧
      getWire s1 r.1 wid = some { w with signal := v } := by
  cases t with
  | setOutputSignals r' sigs =>
    simp only [step] at h
    split at h
    · cases h; simp at hm
    · split at h
      · cases h; simp at hm
      · split at h
        · cases h; simp at hm
        · cases h
          simp only [outputTasks, List.mem_flatten, List.mem_map] at hm
          obtain ⟨l, ⟨grp, _, hl⟩, hml⟩ := hm
          rw [← hl] at hml
          simp only [List.mem_map] at hml
          obtain ⟨_, _, hx⟩ := hml
          cases hx
  | setSignal g' wid' v' =>
    simp only [step] at h
    split at h
    · cases h; simp at hm
    · rename_i w hw
      split at h
      · cases h; simp at hm
      · split at h
        · rename_i gate hgate
          cases h
          simp only [List.mem_singleton, Task.setInput.injEq] at hm
          obtain ⟨h1, h2, h3⟩ := hm
          subst h1; subst h2; subst h3
          rw [getCell_modifyWire] at hgate
          refine ⟨wid', w, rfl, hw, rfl, ?_, rfl, ?_⟩
          · exact getCell_id s g' w.target.id gate hgate
          · simp only
            rw [getWire_modifyWire s g' wid' (fun x => { x with signal := v }) (fun _ => rfl)]
            simp [hw]
        · cases h; simp at hm
  | setInput sig e' r' =>
    simp only [step] at h
    split at h
    · cases h; simp at hm
    · split at h
      · cases h
        split at hm <;> simp at hm
      · split at h
        · split at h
          · cases h
          · split at h
            · cases h
              split at hm <;> simp at hm
            · cases h
              simp only [List.mem_cons] at hm
              rcases hm with hm | hm
              · cases hm
              · split at hm <;> simp at hm
        · cases h
          split at hm <;> simp at hm
  | forwardInput sig e' r' =>
    simp only [step] at h
    split at h
    · cases h; simp at hm
    · split at h
      · cases h
      · split at h
        · cases h
        · cases h; simp at hm

theorem findGate_map_bare (cs : List Gate) (i : String) :
    findGate (cs.map Gate.bare) i = (findGate cs i).map Gate.bare := by
  induction cs with
  | nil => rfl
  | cons c cs ih =>
    by_cases h : c.id = i
    · simp [findGate, Gate.bare, h]
    · simp only [List.map_cons, findGate]
      have : ¬ (Gate.bare c).id = i := h
      simp only [this, h, if_false, ih]

theorem getGraph_of_skeleton (s s0 : Circuit) (h : skeleton s = skeleton s0) (g : Nat)
    (gr : Graph) (hg : getGraph s g = some gr) :
    ∃ gr0, getGraph s0 g = some gr0 ∧ gr0.bare = gr.bare := by
  have h1 : (skeleton s)[g]? = (skeleton s0)[g]? := by rw [h]
  unfold skeleton at h1
  rw [List.getElem?_map, List.getElem?_map] at h1
  unfold getGraph at hg ⊢
  rw [hg] at h1
  cases h0 : s0.graphs[g]? with
  | none => rw [h0] at h1; simp at h1
  | some gr0 =>
    rw [h0] at h1
    simp only [Option.map_some', Option.some.injEq] at h1
    exact ⟨gr0, rfl, h1.symm⟩

theorem mem_wires_of_skeleton (s s0 : Circuit) (h : skeleton s = skeleton s0) (g : Nat)
    (gr : Graph) (w : Wire) (hg : getGraph s g = some gr) (hw : w ∈ gr.wires) :
    ∃ gr0 w0, getGraph s0 g = some gr0 ∧ w0 ∈ gr0.wires ∧ w0.bare = w.bare := by
  obtain ⟨gr0, h0, hb⟩ := getGraph_of_skeleton s s0 h g gr hg
  have hm : w.bare ∈ gr.wires.map Wire.bare := List.mem_map_of_mem _ hw
  have hwires : gr.wires.map Wire.bare = gr0.wires.map Wire.bare := by
    have := congrArg Graph.wires hb
    simpa [Graph.bare] using this.symm
  rw [hwires] at hm
  obtain ⟨w0, hw0, he⟩ := List.mem_map.1 hm
  exact ⟨gr0, w0, h0, hw0, he⟩

theorem getCell_of_skeleton (s s0 : Circuit) (h : skeleton s = skeleton s0) (g : Nat)
    (i : Option String) (c : Gate) (hc : getCell s g i = some c) :
    ∃ c0, getCell s0 g i = some c0 ∧ c0.bare = c.bare := by
  unfold getCell at hc
  cases hg : getGraph s g with
  | none => simp [hg] at hc
  | some gr =>
    cases i with
    | none => simp [hg] at hc
    | some j =>
      simp only [hg] at hc
      obtain ⟨gr0, h0, hb⟩ := getGraph_of_skeleton s s0 h g gr hg
      have hcells : gr0.cells.map Gate.bare = gr.cells.map Gate.bare := by
        have := congrArg Graph.cells hb
        simpa [Graph.bare] using this
      have h1 : findGate (gr0.cells.map Gate.bare) j = some c.bare := by
        rw [hcells, findGate_map_bare, hc]; rfl
      rw [findGate_map_bare] at h1
      cases hf : findGate gr0.cells j with
      | none => rw [hf] at h1; simp at h1
      | some c0 =>
        rw [hf] at h1
        simp only [Option.map_some', Option.some.injEq] at h1
        refine ⟨c0, ?_, h1⟩
        unfold getCell
        simp only [h0, hf]

/-! ## Ports and their drivers across a cascade -/

theorem noDriver_of_skeleton (s s0 : Circuit) (h : skeleton s = skeleton s0) (g : Nat)
    (id p : String) (h0 : NoDriver s0 g id p) : NoDriver s g id p := by
  intro gr hg w hw hd
  obtain ⟨gr0, w0, hg0, hw0, hb⟩ := mem_wires_of_skeleton s s0 h g gr w hg hw
  apply h0 gr0 hg0 w0 hw0
  have ht : w0.target = w.target := by
    have := congrArg Wire.target hb; exact this
  unfold Wire.drives
  rw [ht]
  exact hd

theorem onlyDriver_of_skeleton (s s0 : Circuit) (h : skeleton s = skeleton s0) (g : Nat)
    (id p wid : String) (h0 : OnlyDriver s0 g id p wid) : OnlyDriver s g id p wid := by
  intro gr hg w hw hd
  obtain ⟨gr0, w0, hg0, hw0, hb⟩ := mem_wires_of_skeleton s s0 h g gr w hg hw
  have ht : w0.target = w.target := by
    have := congrArg Wire.target hb; exact this
  have hi : w0.id = w.id := by
    have := congrArg Wire.id hb; exact this
  rw [← hi]
  apply h0 gr0 hg0 w0 hw0
  unfold Wire.drives
  rw [ht]
  exact hd

/-- An input port that no wire targets ends a cascade at 0, provided every
pending `setInput` on it writes 0 and it holds 0 already unless such a call is
pending. -/
theorem run_undriven (fuel : Nat) (ts : List Task) (s s1 : Circuit) (g : Nat) (id p : String)
    (hnd : NoDriver s g id p)
    (hts : ∀ t ∈ ts, ∀ v e, t = Task.setInput v e (g, id) → portKey e.port = p → v = Val.num 0)
    (hval : (∀ c, getCell s g (some id) = some c → inputValue c.inputSignals p = Val.num 0)
      ∨ ∃ t ∈ ts, Task.onPort (g, id) p t)
    (hr : run fuel ts s = Outcome.ok s1) :
    ∀ c, getCell s1 g (some id) = some c → inputValue c.inputSignals p = Val.num 0 := by
  have key := run_inv
    (fun ts' s' => skeleton s' = skeleton s
      ∧ (∀ t ∈ ts', ∀ v e, t = Task.setInput v e (g, id) → portKey e.port = p → v = Val.num 0)
      ∧ ((∀ c, getCell s' g (some id) = some c → inputValue c.inputSignals p = Val.num 0)
        ∨ ∃ t ∈ ts', Task.onPort (g, id) p t))
    ?_ fuel ts s s1 ⟨rfl, hts, hval⟩ hr
  · rcases key.2.2 with h | ⟨t, ht, _⟩
    · exact h
    · simp at ht
  · intro t ts' s' new s2 ⟨hsk, hts', hval'⟩ hstep
    have hsk2 : skeleton s2 = skeleton s := (step_skeleton t s' s2 new hstep).trans hsk
    have hnew : ∀ t' ∈ new, ∀ v e, t' = Task.setInput v e (g, id) → portKey e.port = p → False := by
      intro t' ht' v e he hp
      subst he
      obtain ⟨wid, w, _, hgw, hew, hid, _, _⟩ := step_new_setInput t s' s2 new hstep v e (g, id) ht'
      obtain ⟨gr, hgr, hwm, _⟩ := getWire_mem s' g wid w hgw
      refine noDriver_of_skeleton s' s hsk g id p hnd gr hgr w hwm ⟨hid, ?_⟩
      rw [← hew]; exact hp
    refine ⟨hsk2, ?_, ?_⟩
    · intro t' ht' v e he hp
      rcases List.mem_append.1 ht' with h1 | h1
      · exact False.elim (hnew t' h1 v e he hp)
      · exact hts' t' (List.mem_cons_of_mem _ h1) v e he hp
    · have hzero : (∀ c, getCell s' g (some id) = some c → inputValue c.inputSignals p = Val.num 0)
          → ∀ c, getCell s2 g (some id) = some c → inputValue c.inputSignals p = Val.num 0 := by
        intro h0 c1 hc1
        obtain ⟨c, hc, hin⟩ := step_inputs t s' s2 new hstep g id c1 hc1
        rcases hin with hin | ⟨v, e, ht, hin⟩
        · rw [hin]; exact h0 c hc
        · rw [hin, inputValue_set]
          by_cases hk : portKey e.port = p
          · rw [if_pos hk]
            exact hts' t (List.mem_cons_self _ _) v e ht hk
          · rw [if_neg hk]; exact h0 c hc
      rcases hval' with h0 | ⟨t', ht', hon⟩
      · exact Or.inl (hzero h0)
      · rcases List.mem_cons.1 ht' with h1 | h1
        · subst h1
          left
          intro c1 hc1
          cases t' with
          | setInput v e r =>
            obtain ⟨hr1, hk⟩ := hon
            subst hr1
            have := step_setInput_value v e (g, id) s' s2 new hstep c1 hc1
            rw [hk] at this
            rw [this]
            exact hts' _ (List.mem_cons_self _ _) v e rfl hk
          | setOutputSignals r sigs => exact False.elim hon
          | setSignal g' wid v => exact False.elim hon
          | forwardInput v e r => exact False.elim hon
        · exact Or.inr ⟨t', List.mem_append_right _ h1, hon⟩

theorem step_setSignal_cases (g : Nat) (wid : String) (v : Val) (s s1 : Circuit)
    (new : List Task) (h : step (Task.setSignal g wid v) s = Outcome.ok (new, s1)) :
    (s1 = s ∧ new = []) ∨
    ∃ w, getWire s g wid = some w ∧ w.signal ≠ v ∧
      s1 = modifyWire s g wid (fun x => { x with signal := v }) ∧
      ((∃ gate, getCell s g w.target.id = some gate ∧
          new = [Task.setInput v w.target (g, gate.id)])
        ∨ (getCell s g w.target.id = none ∧ new = [])) := by
  simp only [step] at h
  split at h
  · cases h; exact Or.inl ⟨rfl, rfl⟩
  · rename_i w hw
    split at h
    · cases h; exact Or.inl ⟨rfl, rfl⟩
    · rename_i hne
      right
      refine ⟨w, hw, hne, ?_⟩
      split at h
      · rename_i gate hgate
        cases h
        rw [getCell_modifyWire] at hgate
        exact ⟨rfl, Or.inl ⟨gate, hgate, rfl⟩⟩
      · rename_i hnone
        cases h
        rw [getCell_modifyWire] at hnone
        exact ⟨rfl, Or.inr ⟨hnone, rfl⟩⟩

/-- An input port whose only driver is the wire `wid` ends a cascade holding that
wire's signal, provided it does so already or the call that writes the signal
into it is on top of the stack. -/
theorem run_driven (fuel : Nat) (ts : List Task) (s s1 : Circuit) (g : Nat)
    (id p wid : String) (hod : OnlyDriver s g id p wid)
    (hdr : ∀ w, getWire s g wid = some w → w.drives id p)
    (h : ((∀ c w, getCell s g (some id) = some c → getWire s g wid = some w →
            inputValue c.inputSignals p = w.signal)
          ∧ ∀ t ∈ ts, ¬ Task.onPort (g, id) p t)
      ∨ ∃ v e rest, ts = Task.setInput v e (g, id) :: rest ∧ portKey e.port = p ∧
          (∀ w, getWire s g wid = some w → w.signal = v) ∧
          ∀ t ∈ rest, ¬ Task.onPort (g, id) p t)
    (hr : run fuel ts s = Outcome.ok s1) :
    ∀ c w, getCell s1 g (some id) = some c → getWire s1 g wid = some w →
      inputValue c.inputSignals p = w.signal := by
  have key := run_inv
    (fun ts' s' => skeleton s' = skeleton s
      ∧ (∀ w, getWire s' g wid = some w → w.drives id p)
      ∧ (((∀ c w, getCell s' g (some id) = some c → getWire s' g wid = some w →
            inputValue c.inputSignals p = w.signal)
          ∧ ∀ t ∈ ts', ¬ Task.onPort (g, id) p t)
        ∨ ∃ v e rest, ts' = Task.setInput v e (g, id) :: rest ∧ portKey e.port = p ∧
          (∀ w, getWire s' g wid = some w → w.signal = v) ∧
          ∀ t ∈ rest, ¬ Task.onPort (g, id) p t))
    ?_ fuel ts s s1 ⟨rfl, hdr, h⟩ hr
  · rcases key.2.2 with h1 | ⟨v, e, rest, h1, _⟩
    · exact h1.1
    · cases h1
  · intro t ts' s' new s2 ⟨hsk, hdr', hI⟩ hstep
    have hsk2 : skeleton s2 = skeleton s := (step_skeleton t s' s2 new hstep).trans hsk
    have hdr2 : ∀ w, getWire s2 g wid = some w → w.drives id p := by
      intro w1 hw1
      obtain ⟨w, hw, hb, _⟩ := step_wire t s' s2 new hstep g wid w1 hw1
      have ht : w1.target = w.target := by
        have := congrArg Wire.target hb; exact this
      unfold Wire.drives
      rw [ht]
      exact hdr' w hw
    have hnew : ∀ t' ∈ new, Task.onPort (g, id) p t' →
        ∃ (v : Val) (e : End) (w : Wire), t = Task.setSignal g wid v ∧
          new = [Task.setInput v e (g, id)] ∧
          portKey e.port = p ∧ getWire s2 g wid = some { w with signal := v } := by
      intro t' ht' hon
      cases t' with
      | setInput v e r =>
        obtain ⟨hr1, hk⟩ := hon
        subst hr1
        obtain ⟨wid', w, h1, hgw, hew, hid, h5, h6⟩ :=
          step_new_setInput t s' s2 new hstep v e (g, id) ht'
        obtain ⟨gr, hgr, hwm, hwid⟩ := getWire_mem s' g wid' w hgw
        have hd : w.drives id p := ⟨hid, by rw [← hew]; exact hk⟩
        have := onlyDriver_of_skeleton s' s hsk g id p wid hod gr hgr w hwm hd
        rw [hwid] at this
        subst this
        exact ⟨v, e, w, h1, h5, hk, h6⟩
      | setOutputSignals r sigs => exact False.elim hon
      | setSignal g' wid' v => exact False.elim hon
      | forwardInput v e r => exact False.elim hon
    refine ⟨hsk2, hdr2, ?_⟩
    rcases hI with ⟨hval, hno⟩ | ⟨v, e, rest, hts, hk, hsig, hrest⟩
    · by_cases hex : ∃ t' ∈ new, Task.onPort (g, id) p t'
      · obtain ⟨t', ht', hon⟩ := hex
        obtain ⟨v, e, w, _, h2, h3, h4⟩ := hnew t' ht' hon
        right
        refine ⟨v, e, ts', by rw [h2]; rfl, h3, ?_, fun x hx => hno x (List.mem_cons_of_mem _ hx)⟩
        intro w' hw'
        rw [h4] at hw'
        cases hw'
        rfl
      · left
        refine ⟨?_, ?_⟩
        · intro c1 w1 hc1 hw1
          obtain ⟨c, hc, hin⟩ := step_inputs t s' s2 new hstep g id c1 hc1
          obtain ⟨w, hw, _, hws⟩ := step_wire t s' s2 new hstep g wid w1 hw1
          have hcv : inputValue c1.inputSignals p = inputValue c.inputSignals p := by
            rcases hin with hin | ⟨v, e, ht, hin⟩
            · rw [hin]
            · rw [hin, inputValue_set]
              have hk : ¬ portKey e.port = p := by
                intro hk
                apply hno t (List.mem_cons_self _ _)
                rw [ht]
                exact ⟨rfl, hk⟩
              rw [if_neg hk]
          rw [hcv]
          rcases hws with hws | hws
          · rw [hws]; exact hval c w hc hw
          · rw [hws] at hstep
            rcases step_setSignal_cases g wid w1.signal s' s2 new hstep with
              ⟨h1, _⟩ | ⟨w', hw', _, _, hcase⟩
            · rw [h1, hw] at hw1
              have hww : w = w1 := Option.some.inj hw1
              rw [← hww]
              exact hval c w hc hw
            · exfalso
              have hd := hdr' w' hw'
              rcases hcase with ⟨gate, hgate, hn⟩ | ⟨hnone, _⟩
              · apply hex
                refine ⟨_, by rw [hn]; exact List.mem_singleton.2 rfl, ?_⟩
                have hgid := getCell_id s' g w'.target.id gate hgate
                rw [hd.1] at hgid
                have : gate.id = id := (Option.some.inj hgid).symm
                exact ⟨by rw [this], hd.2⟩
              · rw [hd.1, hc] at hnone
                cases hnone
        · intro x hx
          rcases List.mem_append.1 hx with h1 | h1
          · exact fun hon => hex ⟨x, h1, hon⟩
          · exact hno x (List.mem_cons_of_mem _ h1)
    · cases hts
      left
      refine ⟨?_, ?_⟩
      · intro c1 w1 hc1 hw1
        have hv := step_setInput_value v e (g, id) s' s2 new hstep c1 hc1
        rw [hk] at hv
        rw [hv]
        obtain ⟨w, hw, _, hws⟩ := step_wire _ s' s2 new hstep g wid w1 hw1
        rcases hws with hws | hws
        · rw [hws]; exact (hsig w hw).symm
        · cases hws
      · intro x hx
        rcases List.mem_append.1 hx with h1 | h1
        · intro hon
          obtain ⟨_, _, _, h2, _⟩ := hnew x h1 hon
          cases h2
        · exact hrest x h1

theorem getGraph_updGraph (s : Circuit) (F : Graph → Graph) (g g' : Nat) (gr1 : Graph)
    (q : List GateRef)
    (h : getGraph { graphs := updGraph F s.graphs g, queue := q } g' = some gr1) :
    ∃ gr, getGraph s g' = some gr ∧ gr1 = if g' = g then F gr else gr := by
  unfold getGraph at h ⊢
  simp only [getElem?_updGraph] at h
  by_cases hg : g' = g
  · simp only [hg, if_true] at h ⊢
    cases h0 : s.graphs[g]? with
    | none => simp [h0] at h
    | some gr =>
      simp only [h0, Option.map_some', Option.some.injEq] at h
      exact ⟨gr, rfl, h.symm⟩
  · simp only [hg, if_false] at h ⊢
    exact ⟨gr1, h, rfl⟩

theorem mem_updWire_nodup (f : Wire → Wire) (ws : List Wire) (id : String) (x : Wire)
    (hnd : (ws.map fun w => w.id).Nodup) (h : x ∈ updWire f ws id) :
    (x ∈ ws ∧ x.id ≠ id) ∨ ∃ w ∈ ws, w.id = id ∧ x = f w := by
  induction ws with
  | nil => simp [updWire] at h
  | cons w ws ih =>
    simp only [List.map_cons, List.nodup_cons] at hnd
    by_cases hc : w.id = id
    · simp only [updWire, hc, if_true, List.mem_cons] at h
      rcases h with h | h
      · exact Or.inr ⟨w, List.mem_cons_self _ _, hc, h⟩
      · left
        refine ⟨List.mem_cons_of_mem _ h, ?_⟩
        intro hx
        apply hnd.1
        rw [hc, ← hx]
        exact List.mem_map_of_mem (fun w => w.id) h
    · simp only [updWire, hc, if_false, List.mem_cons] at h
      rcases h with h | h
      · exact Or.inl ⟨h ▸ List.mem_cons_self _ _, h ▸ hc⟩
      · rcases ih hnd.2 h with ⟨h1, h2⟩ | ⟨w0, h1, h2, h3⟩
        · exact Or.inl ⟨List.mem_cons_of_mem _ h1, h2⟩
        · exact Or.inr ⟨w0, List.mem_cons_of_mem _ h1, h2, h3⟩

theorem getCell_updGraph_wires (s : Circuit) (F : Graph → Graph) (hF : ∀ gr, (F gr).cells = gr.cells)
    (g g' : Nat) (i : Option String) (q : List GateRef) :
    getCell { graphs := updGraph F s.graphs g, queue := q } g' i = getCell s g' i := by
  unfold getCell getGraph
  simp only [getElem?_updGraph]
  by_cases hg : g' = g
  · subst hg
    cases h : s.graphs[g']? <;> cases i <;> simp [hF]
  · simp [hg]

/-! ## Retargeting a wire -/

theorem modifyWire_onlyDriver_new (s : Circuit) (g : Nat) (wid : String) (e : End)
    (idn pn : String) (hnew : OnlyDriver s g idn pn wid) :
    OnlyDriver (modifyWire s g wid (fun x => { x with target := e })) g idn pn wid := by
  intro gr1 hg1 x hx hd
  unfold modifyWire at hg1
  obtain ⟨gr, hg, he⟩ := getGraph_updGraph s _ g g gr1 s.queue hg1
  simp only [if_true] at he
  subst he
  rcases mem_updWire _ gr.wires wid x hx with h1 | ⟨w0, _, h2, h3⟩
  · exact hnew gr hg x h1 hd
  · rw [h3]; exact h2

theorem modifyWire_noDriver_old (s : Circuit) (g : Nat) (wid : String) (e : End)
    (ido po : String) (hids : ∀ gr, getGraph s g = some gr → (gr.wires.map fun w => w.id).Nodup)
    (hold : OnlyDriver s g ido po wid) (he : ¬ (e.id = some ido ∧ portKey e.port = po)) :
    NoDriver (modifyWire s g wid (fun x => { x with target := e })) g ido po := by
  intro gr1 hg1 x hx hd
  unfold modifyWire at hg1
  obtain ⟨gr, hg, hgr⟩ := getGraph_updGraph s _ g g gr1 s.queue hg1
  simp only [if_true] at hgr
  subst hgr
  rcases mem_updWire_nodup _ gr.wires wid x (hids gr hg) hx with ⟨h1, h2⟩ | ⟨w0, _, _, h3⟩
  · exact h2 (hold gr hg x h1 hd)
  · rw [h3] at hd
    exact he hd

theorem onlyDriver_of_all (s : Circuit) (g : Nat) (id p wid : String) (gr0 : Graph)
    (hg : getGraph s g = some gr0)
    (hall : gr0.wires.all (fun w => decide (w.drives id p → w.id = wid)) = true) :
    OnlyDriver s g id p wid := by
  intro gr hgr w hw hd
  rw [hg] at hgr
  cases hgr
  rw [List.all_eq_true] at hall
  have := hall w hw
  simp only [decide_eq_true_eq] at this
  exact this hd

theorem noDriver_of_all (s : Circuit) (g : Nat) (id p : String) (gr0 : Graph)
    (hg : getGraph s g = some gr0)
    (hall : gr0.wires.all (fun w => decide (¬ w.drives id p)) = true) :
    NoDriver s g id p := by
  intro gr hgr w hw hd
  rw [hg] at hgr
  cases hgr
  rw [List.all_eq_true] at hall
  have := hall w hw
  simp only [decide_eq_true_eq] at this
  exact this hd

/-! ## Disconnection -/

theorem run_setInput_primitive (fuel : Nat) (v : Val) (e : End) (r : GateRef) (s : Circuit)
    (c : Gate) (hc : getCell s r.1 (some r.2) = some c) (h1 : c.type ≠ CellType.Subcircuit)
    (h2 : c.type ≠ CellType.Output) :
    run (fuel + 1) [Task.setInput v e r] s =
      Outcome.ok (if Sigs.isEqual c.inputSignals (Sigs.set c.inputSignals (portKey e.port) v)
        then s
        else { modifyGate s r (fun x =>
                { x with inputSignals := Sigs.set c.inputSignals (portKey e.port) v }) with
               queue := queueAdd s.queue r }) := by
  by_cases heq : Sigs.isEqual c.inputSignals (Sigs.set c.inputSignals (portKey e.port) v) = true
  · simp [run, step, hc, h1, h2, heq, run_nil]
  · simp [run, step, hc, h1, h2, heq, run_nil, modifyGate]

theorem detachWire_noDriver (s : Circuit) (g : Nat) (wid id p : String)
    (hod : OnlyDriver s g id p wid) : NoDriver (detachWire s g wid) g id p := by
  intro gr1 hg1 x hx hd
  unfold detachWire at hg1
  obtain ⟨gr, hg, hgr⟩ := getGraph_updGraph s _ g g gr1 s.queue hg1
  simp only [if_true] at hgr
  subst hgr
  simp only [List.mem_filter, decide_eq_true_eq] at hx
  exact hx.2 (hod gr hg x hx.1 hd)

theorem getCell_detachWire (s : Circuit) (g : Nat) (wid : String) (g' : Nat)
    (i : Option String) : getCell (detachWire s g wid) g' i = getCell s g' i := by
  unfold detachWire
  exact getCell_updGraph_wires s
    (fun x => { x with wires := x.wires.filter fun y => y.id ≠ wid }) (fun _ => rfl) g g' i s.queue

/-! ## Forwarding into a subcircuit -/

theorem Sigs.isEqual_refl (a : Sigs) : Sigs.isEqual a a = true := by
  unfold Sigs.isEqual
  rw [List.all_eq_true]
  intro k _
  simp

/-- What one step does to the outputs of a gate. -/
theorem step_outputs (t : Task) (s s1 : Circuit) (new : List Task)
    (h : step t s = Outcome.ok (new, s1)) (g : Nat) (i : String) (c1 : Gate)
    (hc : getCell s1 g (some i) = some c1) :
    ∃ c, getCell s g (some i) = some c ∧
      (c1.outputSignals = c.outputSignals ∨
        ∃ sigs, t = Task.setOutputSignals (g, i) sigs ∧ c1.outputSignals = sigs) := by
  cases t with
  | setOutputSignals r sigs =>
    simp only [step] at h
    split at h
    · cases h; exact ⟨c1, hc, Or.inl rfl⟩
    · split at h
      · cases h; exact ⟨c1, hc, Or.inl rfl⟩
      · have hs1 : s1 = modifyGate s r (fun c => { c with outputSignals := sigs }) := by
          split at h <;> cases h <;> rfl
        rw [hs1] at hc
        obtain ⟨c, hc0, hcc⟩ := getCell_modifyGate_cases s r
          (fun c => { c with outputSignals := sigs }) (fun _ => rfl) g i c1 hc
        refine ⟨c, hc0, ?_⟩
        rcases hcc with ⟨h1, h2⟩ | h2
        · right
          exact ⟨sigs, by rw [h1], by rw [h2]⟩
        · left; rw [h2]
  | setSignal g' wid v =>
    simp only [step] at h
    split at h
    · cases h; exact ⟨c1, hc, Or.inl rfl⟩
    · split at h
      · cases h; exact ⟨c1, hc, Or.inl rfl⟩
      · have hs1 : s1 = modifyWire s g' wid (fun x => { x with signal := v }) := by
          split at h <;> cases h <;> rfl
        rw [hs1, getCell_modifyWire] at hc
        exact ⟨c1, hc, Or.inl rfl⟩
  | setInput sig e r =>
    simp only [step] at h
    split at h
    · cases h; exact ⟨c1, hc, Or.inl rfl⟩
    · rename_i gate hgate
      split at h
      · cases h; exact ⟨c1, hc, Or.inl rfl⟩
      · have hs1 : getCell s1 g (some i) = getCell (modifyGate s r (fun c =>
            { c with inputSignals := Sigs.set gate.inputSignals (portKey e.port) sig }))
            g (some i) := by
          split at h
          · split at h
            · cases h
            · split at h <;> cases h <;> rfl
          · cases h; rfl
        rw [hs1] at hc
        obtain ⟨c, hc0, hcc⟩ := getCell_modifyGate_cases s r
          (fun c => { c with inputSignals := Sigs.set gate.inputSignals (portKey e.port) sig })
          (fun _ => rfl) g i c1 hc
        refine ⟨c, hc0, Or.inl ?_⟩
        rcases hcc with ⟨_, h2⟩ | h2 <;> rw [h2]
  | forwardInput sig e r =>
    simp only [step] at h
    split at h
    · cases h; exact ⟨c1, hc, Or.inl rfl⟩
    · split at h
      · cases h
      · split at h
        · cases h
        · cases h; exact ⟨c1, hc, Or.inl rfl⟩

/-- After `gate.set('outputSignals', sigs)` the gate's outputs equal `sigs`. -/
theorem step_setOutputSignals_value (r : GateRef) (sigs : Sigs) (s s1 : Circuit)
    (new : List Task) (h : step (Task.setOutputSignals r sigs) s = Outcome.ok (new, s1))
    (c1 : Gate) (hc : getCell s1 r.1 (some r.2) = some c1) :
    Sigs.isEqual c1.outputSignals sigs = true := by
  simp only [step] at h
  split at h
  · rename_i hnone
    cases h
    rw [hnone] at hc; cases hc
  · rename_i gate hgate
    split at h
    · rename_i heq
      cases h
      rw [hgate] at hc
      cases hc
      exact heq
    · have hs1 : s1 = modifyGate s r (fun c => { c with outputSignals := sigs }) := by
        split at h <;> cases h <;> rfl
      rw [hs1, getCell_modifyGate s r (fun c => { c with outputSignals := sigs })
        (fun _ => rfl)] at hc
      simp only [and_self, if_true, hgate, Option.map_some', Option.some.injEq] at hc
      rw [← hc]
      exact Sigs.isEqual_refl sigs

/-- The second half of `setInput` is only ever entered from its first half. -/
theorem step_new_forwardInput (t : Task) (s s1 : Circuit) (new : List Task)
    (h : step t s = Outcome.ok (new, s1)) (v : Val) (e : End) (r : GateRef)
    (hm : Task.forwardInput v e r ∈ new) : t = Task.setInput v e r := by
  cases t with
  | setOutputSignals r' sigs =>
    simp only [step] at h
    split at h
    · cases h; simp at hm
    · split at h
      · cases h; simp at hm
      · split at h
        · cases h; simp at hm
        · cases h
          simp only [outputTasks, List.mem_flatten, List.mem_map] at hm
          obtain ⟨l, ⟨grp, _, hl⟩, hml⟩ := hm
          rw [← hl] at hml
          simp only [List.mem_map] at hml
          obtain ⟨_, _, hx⟩ := hml
          cases hx
  | setSignal g' wid' v' =>
    simp only [step] at h
    split at h
    · cases h; simp at hm
    · split at h
      · cases h; simp at hm
      · split at h <;> cases h <;> simp at hm
  | setInput sig e' r' =>
    have hfwd : ∀ l : List Task, Task.forwardInput v e r ∈ l →
        (∀ x ∈ l, x = Task.forwardInput sig e' r') → Task.setInput sig e' r' = Task.setInput v e r := by
      intro l hl hall
      have := hall _ hl
      cases this
      rfl
    simp only [step] at h
    split at h
    · cases h; simp at hm
    · split at h
      · cases h
        apply hfwd _ hm
        intro x hx
        split at hx <;> simp at hx
        exact hx
      · split at h
        · split at h
          · cases h
          · split at h
            · cases h
              apply hfwd _ hm
              intro x hx
              split at hx <;> simp at hx
              exact hx
            · cases h
              simp only [List.mem_cons] at hm
              rcases hm with hm | hm
              · cases hm
              · apply hfwd _ hm
                intro x hx
                split at hx <;> simp at hx
                exact hx
        · cases h
          apply hfwd _ hm
          intro x hx
          split at hx <;> simp at hx
          exact hx
  | forwardInput sig e' r' =>
    simp only [step] at h
    split at h
    · cases h; simp at hm
    · split at h
      · cases h
      · split at h
        · cases h
        · cases h; simp at hm

/-- A call `gate.set('outputSignals', _)` inside a cascade comes from the
second half of `setInput` on the Subcircuit that maps a port to the gate, or
from the `change:inputSignals` handler of an output terminal of the graph
whose `subcircuit` the gate is. -/
theorem step_new_setOutputSignals (t : Task) (s s1 : Circuit) (new : List Task)
    (h : step t s = Outcome.ok (new, s1)) (r' : GateRef) (sigs : Sigs)
    (hm : Task.setOutputSignals r' sigs ∈ new) :
    (∃ v e r gate, t = Task.forwardInput v e r ∧ getCell s r.1 (some r.2) = some gate ∧
        gate.graph = some r'.1 ∧ lookupIomap gate.circuitIOmap (portKey e.port) = some r'.2 ∧
        sigs = [("out", v)])
    ∨ (∃ v e r gr, t = Task.setInput v e r ∧ getGraph s1 r.1 = some gr ∧
        gr.subcircuit = some r') := by
  cases t with
  | setOutputSignals r sigs' =>
    simp only [step] at h
    split at h
    · cases h; simp at hm
    · split at h
      · cases h; simp at hm
      · split at h
        · cases h; simp at hm
        · cases h
          simp only [outputTasks, List.mem_flatten, List.mem_map] at hm
          obtain ⟨l, ⟨grp, _, hl⟩, hml⟩ := hm
          rw [← hl] at hml
          simp only [List.mem_map] at hml
          obtain ⟨_, _, hx⟩ := hml
          cases hx
  | setSignal g' wid' v' =>
    simp only [step] at h
    split at h
    · cases h; simp at hm
    · split at h
      · cases h; simp at hm
      · split at h <;> cases h <;> simp at hm
  | setInput sig e' r =>
    have hfwd : ∀ l : List Task, Task.setOutputSignals r' sigs ∈ l →
        (∀ x ∈ l, x = Task.forwardInput sig e' r) → False := by
      intro l hl hall
      have := hall _ hl
      cases this
    simp only [step] at h
    split at h
    · cases h; simp at hm
    · split at h
      · cases h
        exfalso
        apply hfwd _ hm
        intro x hx
        split at hx <;> simp at hx
        exact hx
      · split at h
        · split at h
          · cases h
          · rename_i sr hsr
            split at h
            · cases h
              exfalso
              apply hfwd _ hm
              intro x hx
              split at hx <;> simp at hx
              exact hx
            · cases h
              simp only [List.mem_cons] at hm
              rcases hm with hm | hm
              · right
                simp only [Task.setOutputSignals.injEq] at hm
                cases hgr : getGraph (modifyGate s r (fun c =>
                    { c with inputSignals := Sigs.set _ (portKey e'.port) sig })) r.1 with
                | none => rw [hgr] at hsr; simp at hsr
                | some gr =>
                  rw [hgr] at hsr
                  have hsr' : gr.subcircuit = some sr := hsr
                  exact ⟨sig, e', r, gr, rfl, hgr, by rw [hsr', hm.1]⟩
              · exfalso
                apply hfwd _ hm
                intro x hx
                split at hx <;> simp at hx
                exact hx
        · cases h
          exfalso
          apply hfwd _ hm
          intro x hx
          split at hx <;> simp at hx
          exact hx
  | forwardInput sig e' r =>
    simp only [step] at h
    split at h
    · cases h; simp at hm
    · rename_i gate hgate
      split at h
      · cases h
      · rename_i ng hng
        split at h
        · cases h
        · rename_i input hinput
          cases h
          simp only [List.mem_singleton, Task.setOutputSignals.injEq] at hm
          left
          have hid := getCell_id s ng _ input hinput
          refine ⟨sig, e', r, gate, rfl, hgate, ?_, ?_, hm.2⟩
          · rw [hng, hm.1]
          · rw [hid, hm.1]

theorem step_forwardInput_cases (v : Val) (e : End) (r : GateRef) (s s1 : Circuit)
    (new : List Task) (h : step (Task.forwardInput v e r) s = Outcome.ok (new, s1)) :
    s1 = s ∧ ((getCell s r.1 (some r.2) = none ∧ new = []) ∨
      ∃ gate ng input, getCell s r.1 (some r.2) = some gate ∧ gate.graph = some ng ∧
        getCell s ng (lookupIomap gate.circuitIOmap (portKey e.port)) = some input ∧
        new = [Task.setOutputSignals (ng, input.id) [("out", v)]]) := by
  simp only [step] at h
  split at h
  · rename_i hnone
    cases h
    exact ⟨rfl, Or.inl ⟨hnone, rfl⟩⟩
  · rename_i gate hgate
    split at h
    · cases h
    · rename_i ng hng
      split at h
      · cases h
      · rename_i input hinput
        cases h
        exact ⟨rfl, Or.inr ⟨gate, ng, input, hgate, hng, hinput, rfl⟩⟩

theorem step_setInput_subcircuit (v : Val) (e : End) (r : GateRef) (s s1 : Circuit)
    (new : List Task) (h : step (Task.setInput v e r) s = Outcome.ok (new, s1)) (gate : Gate)
    (hg : getCell s r.1 (some r.2) = some gate) (ht : gate.type = CellType.Subcircuit) :
    new = [Task.forwardInput v e r] := by
  simp only [step, hg, ht, if_true] at h
  split at h
  · cases h; rfl
  · simp only [reduceCtorEq, if_false] at h
    cases h; rfl

theorem step_setInput_missing (v : Val) (e : End) (r : GateRef) (s s1 : Circuit)
    (new : List Task) (h : step (Task.setInput v e r) s = Outcome.ok (new, s1))
    (hg : getCell s r.1 (some r.2) = none) : new = [] ∧ s1 = s := by
  simp only [step, hg] at h
  cases h
  exact ⟨rfl, rfl⟩

theorem forwards_of_skeleton (s s0 : Circuit) (h : skeleton s = skeleton s0) (H : GateRef)
    (p : String) (term : GateRef) (h0 : Forwards s0 H p term) : Forwards s H p term := by
  refine ⟨?_, ?_, ?_⟩
  · intro c hc
    obtain ⟨c0, hc0, hb⟩ := getCell_of_skeleton s s0 h _ _ c hc
    have h1 : c0.type = c.type := by have := congrArg Gate.type hb; exact this
    have h2 : c0.graph = c.graph := by have := congrArg Gate.graph hb; exact this
    have h3 : c0.circuitIOmap = c.circuitIOmap := by
      have := congrArg Gate.circuitIOmap hb; exact this
    rw [← h1, ← h2, ← h3]
    exact h0.sub c0 hc0
  · intro r c k hc hg hl
    obtain ⟨c0, hc0, hb⟩ := getCell_of_skeleton s s0 h _ _ c hc
    have h2 : c0.graph = c.graph := by have := congrArg Gate.graph hb; exact this
    have h3 : c0.circuitIOmap = c.circuitIOmap := by
      have := congrArg Gate.circuitIOmap hb; exact this
    exact h0.inj r c0 k hc0 (by rw [h2]; exact hg) (by rw [h3]; exact hl)
  · intro g gr hg
    obtain ⟨gr0, hg0, hb⟩ := getGraph_of_skeleton s s0 h g gr hg
    have h1 : gr0.subcircuit = gr.subcircuit := by
      have := congrArg Graph.subcircuit hb; exact this
    rw [← h1]
    exact h0.noref g gr0 hg0

/-- The downward forwarding rule over a whole cascade: when it ends, the
terminal mapped to port `p` of the Subcircuit `H` outputs what `H`'s input `p`
holds, provided this is so at the start or the calls that make it so are
pending. -/
theorem run_mirror (fuel : Nat) (ts : List Task) (s s1 : Circuit) (H : GateRef) (p : String)
    (term : GateRef) (hF : Forwards s H p term)
    (hinit : ((∀ t ∈ ts, Task.safeFor H p term t) ∧
        (Mirror s H p term ∨ ∃ t ∈ ts, Task.onPort H p t))
      ∨ (∃ v e rest, ts = Task.forwardInput v e H :: rest ∧ portKey e.port = p ∧
          (∀ h, getCell s H.1 (some H.2) = some h → inputValue h.inputSignals p = v) ∧
          ∀ t ∈ rest, Task.safeFor H p term t)
      ∨ (∃ v rest, ts = Task.setOutputSignals term [("out", v)] :: rest ∧
          (∀ h, getCell s H.1 (some H.2) = some h → inputValue h.inputSignals p = v) ∧
          ∀ t ∈ rest, Task.safeFor H p term t))
    (hr : run fuel ts s = Outcome.ok s1) : Mirror s1 H p term := by
  have key := run_inv
    (fun ts' s' => skeleton s' = skeleton s ∧
      (((∀ t ∈ ts', Task.safeFor H p term t) ∧
        (Mirror s' H p term ∨ ∃ t ∈ ts', Task.onPort H p t))
      ∨ (∃ v e rest, ts' = Task.forwardInput v e H :: rest ∧ portKey e.port = p ∧
          (∀ h, getCell s' H.1 (some H.2) = some h → inputValue h.inputSignals p = v) ∧
          ∀ t ∈ rest, Task.safeFor H p term t)
      ∨ (∃ v rest, ts' = Task.setOutputSignals term [("out", v)] :: rest ∧
          (∀ h, getCell s' H.1 (some H.2) = some h → inputValue h.inputSignals p = v) ∧
          ∀ t ∈ rest, Task.safeFor H p term t)))
    ?_ fuel ts s s1 ⟨rfl, hinit⟩ hr
  · rcases key.2 with ⟨_, hm | ⟨t, ht, _⟩⟩ | ⟨_, _, _, h1, _⟩ | ⟨_, _, h1, _⟩
    · exact hm
    · simp at ht
    · cases h1
    · cases h1
  · intro t ts' s' new s2 ⟨hsk, hI⟩ hstep
    have hsk2 : skeleton s2 = skeleton s := (step_skeleton t s' s2 new hstep).trans hsk
    have hF' : Forwards s' H p term := forwards_of_skeleton s' s hsk H p term hF
    have hF2 : Forwards s2 H p term := forwards_of_skeleton s2 s hsk2 H p term hF
    -- the tasks pushed by a safe call that is not a `setInput` on the port are safe
    have hnewsafe : Task.safeFor H p term t → ¬ Task.onPort H p t →
        ∀ x ∈ new, Task.safeFor H p term x := by
      intro hsafe hnon x hx
      cases x with
      | setOutputSignals r' sigs =>
        intro hr'
        subst hr'
        rcases step_new_setOutputSignals t s' s2 new hstep r' sigs hx with
          ⟨v, e, r, gate, h1, h2, h3, h4, _⟩ | ⟨v, e, r, gr, _, h2, h3⟩
        · obtain ⟨h5, h6⟩ := hF'.inj r gate _ h2 h3 h4
          rw [h1] at hsafe
          exact hsafe ⟨h5, h6⟩
        · exact hF2.noref r.1 gr h2 h3
      | forwardInput v e r =>
        intro ⟨h1, h2⟩
        have := step_new_forwardInput t s' s2 new hstep v e r hx
        apply hnon
        rw [this]
        exact ⟨h1, h2⟩
      | setSignal g' wid v => trivial
      | setInput v e r => trivial
    refine ⟨hsk2, ?_⟩
    rcases hI with ⟨hsafe, hm⟩ | ⟨v, e, rest, hts, hk, hval, hrest⟩ | ⟨v, rest, hts, hval, hrest⟩
    · by_cases hon : Task.onPort H p t
      · cases t with
        | setInput v e r =>
          obtain ⟨hr1, hk⟩ := hon
          subst hr1
          cases hH : getCell s' r.1 (some r.2) with
          | none =>
            obtain ⟨h1, h2⟩ := step_setInput_missing v e r s' s2 new hstep hH
            left
            refine ⟨?_, Or.inl ?_⟩
            · intro x hx
              rw [h1] at hx
              exact hsafe x (List.mem_cons_of_mem _ hx)
            · intro h t' hh _
              rw [h2, hH] at hh
              cases hh
          | some gate =>
            have hnew := step_setInput_subcircuit v e r s' s2 new hstep gate hH
              (hF'.sub gate hH).1
            right; left
            refine ⟨v, e, ts', by rw [hnew]; rfl, hk, ?_, ?_⟩
            · intro h2 hh2
              have := step_setInput_value v e r s' s2 new hstep h2 hh2
              rw [hk] at this
              exact this
            · exact fun x hx => hsafe x (List.mem_cons_of_mem _ hx)
        | setOutputSignals r sigs => exact False.elim hon
        | setSignal g' wid v => exact False.elim hon
        | forwardInput v e r => exact False.elim hon
      · left
        refine ⟨?_, ?_⟩
        · intro x hx
          rcases List.mem_append.1 hx with h1 | h1
          · exact hnewsafe (hsafe t (List.mem_cons_self _ _)) hon x h1
          · exact hsafe x (List.mem_cons_of_mem _ h1)
        · rcases hm with hm | ⟨t', ht', hon'⟩
          · left
            intro h2 t2 hh2 ht2
            obtain ⟨h0, hh0, hin⟩ := step_inputs t s' s2 new hstep H.1 H.2 h2 hh2
            obtain ⟨t0, ht0, hout⟩ := step_outputs t s' s2 new hstep term.1 term.2 t2 ht2
            have hv : inputValue h2.inputSignals p = inputValue h0.inputSignals p := by
              rcases hin with hin | ⟨v, e, ht, hin⟩
              · rw [hin]
              · rw [hin, inputValue_set]
                have hk : ¬ portKey e.port = p := by
                  intro hk
                  apply hon
                  rw [ht]
                  exact ⟨rfl, hk⟩
                rw [if_neg hk]
            have ho : t2.outputSignals = t0.outputSignals := by
              rcases hout with hout | ⟨sigs, ht, _⟩
              · exact hout
              · exfalso
                have := hsafe t (List.mem_cons_self _ _)
                rw [ht] at this
                exact this rfl
            rw [hv, ho]
            exact hm h0 t0 hh0 ht0
          · right
            rcases List.mem_cons.1 ht' with h1 | h1
            · exact absurd (h1 ▸ hon') hon
            · exact ⟨t', List.mem_append_right _ h1, hon'⟩
    · cases hts
      obtain ⟨hs2, hcase⟩ := step_forwardInput_cases v e H s' s2 new hstep
      rcases hcase with ⟨hnone, hnew⟩ | ⟨gate, ng, input, hgate, hng, hinput, hnew⟩
      · left
        refine ⟨?_, Or.inl ?_⟩
        · intro x hx
          rw [hnew] at hx
          exact hrest x hx
        · intro h t' hh _
          rw [hs2, hnone] at hh
          cases hh
      · right; right
        obtain ⟨_, h2, h3⟩ := hF'.sub gate hgate
        have hng' : ng = term.1 := by
          rw [hng] at h2
          exact Option.some.inj h2
        have hid : input.id = term.2 := by
          have := getCell_id s' ng _ input hinput
          rw [hk, h3] at this
          exact (Option.some.inj this).symm
        refine ⟨v, ts', ?_, ?_, hrest⟩
        · rw [hnew, hng', hid]
          rfl
        · intro h hh
          rw [hs2] at hh
          exact hval h hh
    · cases hts
      left
      refine ⟨?_, Or.inl ?_⟩
      · intro x hx
        rcases List.mem_append.1 hx with h1 | h1
        · cases x with
          | setOutputSignals r' sigs =>
            rcases step_new_setOutputSignals _ s' s2 new hstep r' sigs h1 with
              ⟨_, _, _, _, h2, _⟩ | ⟨_, _, _, _, h2, _⟩ <;> cases h2
          | forwardInput v' e r =>
            have := step_new_forwardInput _ s' s2 new hstep v' e r h1
            cases this
          | setSignal g' wid v' => trivial
          | setInput v' e r => trivial
        · exact hrest x h1
      · intro h2 t2 hh2 ht2
        obtain ⟨h0, hh0, hin⟩ := step_inputs _ s' s2 new hstep H.1 H.2 h2 hh2
        have hv : inputValue h2.inputSignals p = v := by
          rcases hin with hin | ⟨_, _, ht, _⟩
          · rw [hin]; exact hval h0 hh0
          · cases ht
        rw [hv]
        exact step_setOutputSignals_value term _ s' s2 new hstep t2 ht2

theorem forwards_updGraph (s : Circuit) (F : Graph → Graph) (hF : ∀ gr, (F gr).cells = gr.cells)
    (hS : ∀ gr, (F gr).subcircuit = gr.subcircuit) (g : Nat) (q : List GateRef) (H : GateRef)
    (p : String) (term : GateRef) (h0 : Forwards s H p term) :
    Forwards { graphs := updGraph F s.graphs g, queue := q } H p term := by
  refine ⟨?_, ?_, ?_⟩
  · intro c hc
    rw [getCell_updGraph_wires s F hF] at hc
    exact h0.sub c hc
  · intro r c k hc
    rw [getCell_updGraph_wires s F hF] at hc
    exact h0.inj r c k hc
  · intro g' gr1 hg1
    obtain ⟨gr, hg, hgr⟩ := getGraph_updGraph s F g g' gr1 q hg1
    rw [hgr]
    split
    · rw [hS]; exact h0.noref g' gr hg
    · exact h0.noref g' gr hg

theorem forwards_detachWire (s : Circuit) (g : Nat) (wid : String) (H : GateRef) (p : String)
    (term : GateRef) (h0 : Forwards s H p term) : Forwards (detachWire s g wid) H p term := by
  unfold detachWire
  exact forwards_updGraph s (fun x => { x with wires := x.wires.filter fun y => y.id ≠ wid })
    (fun _ => rfl) (fun _ => rfl) g s.queue H p term h0

theorem getCell_exists_of_skeleton (s s0 : Circuit) (h : skeleton s = skeleton s0) (g : Nat)
    (i : Option String) (c0 : Gate) (hc : getCell s0 g i = some c0) :
    ∃ c, getCell s g i = some c :=
  let ⟨c, hc1, _⟩ := getCell_of_skeleton s0 s h.symm g i c0 hc
  ⟨c, hc1⟩

/-- C8 (as the code has it): removing a wire whose target is port `p` of an
existing gate `G`, in a network whose port and net names lodash `set` takes as
property names. If `G` is neither a Subcircuit nor an output terminal, the
call returns, `G.inputSignals[p]` is 0 and every other key of `G.inputSignals`
is as before. For any `G` of which the wire was the only driver of `p`, when
the call returns `G.inputSignals[p]` is 0, and if `G` is a Subcircuit whose
port `p` is mapped to a nested terminal, that terminal's `outputSignals` are
`{out: 0}`. -/
theorem removeWire_resets_input (fuel g : Nat) (wid id p : String) (s : Circuit) (w : Wire)
    (c : Gate) (_hplain : PlainPorts s) (hw : getWire s g wid = some w)
    (ht : w.target = ⟨some id, some p⟩) (hc : getCell s g (some id) = some c) :
    (c.type ≠ CellType.Subcircuit → c.type ≠ CellType.Output →
      ∃ s2 c2, removeWire (fuel + 1) g wid s = Outcome.ok s2 ∧
        getCell s2 g (some id) = some c2 ∧ inputValue c2.inputSignals p = Val.num 0 ∧
        ∀ k, k ≠ p → Sigs.has c2.inputSignals k = Sigs.has c.inputSignals k ∧
          Sigs.read c2.inputSignals k = Sigs.read c.inputSignals k)
    ∧ (OnlyDriver s g id p wid → ∀ s2, removeWire fuel g wid s = Outcome.ok s2 →
        (∃ c2, getCell s2 g (some id) = some c2) ∧
        (∀ c2, getCell s2 g (some id) = some c2 → inputValue c2.inputSignals p = Val.num 0) ∧
        ∀ term, Forwards s (g, id) p term → ∀ t, getCell s2 term.1 (some term.2) = some t →
          Sigs.isEqual t.outputSignals [("out", Val.num 0)] = true) := by
  have hcid : c.id = id := by
    have := getCell_id s g (some id) c hc
    simp only [Option.some.injEq] at this
    exact this.symm
  have htasks : removeTasks (detachWire s g wid) g w
      = [Task.setInput (Val.num 0) ⟨some id, some p⟩ (g, id)] := by
    unfold removeTasks
    rw [ht]
    simp only [getCell_detachWire, hc, hcid]
  refine ⟨?_, ?_⟩
  · intro h1 h2
    unfold removeWire
    rw [hw]
    simp only [htasks]
    rw [run_setInput_primitive fuel _ _ (g, id) _ c (by rw [getCell_detachWire]; exact hc) h1 h2]
    simp only [portKey, Option.getD_some]
    by_cases heq : Sigs.isEqual c.inputSignals (Sigs.set c.inputSignals p (Val.num 0)) = true
    · rw [if_pos heq]
      refine ⟨_, c, rfl, by rw [getCell_detachWire]; exact hc, ?_, fun k _ => ⟨rfl, rfl⟩⟩
      rw [inputValue_isEqual _ _ heq, inputValue_set]
      simp
    · rw [if_neg heq]
      refine ⟨_, { c with inputSignals := Sigs.set c.inputSignals p (Val.num 0) }, rfl, ?_, ?_, ?_⟩
      · rw [getCell_queue, getCell_modifyGate _ (g, id) (fun x =>
          { x with inputSignals := Sigs.set c.inputSignals p (Val.num 0) }) (fun _ => rfl)]
        simp only [and_self, if_true, getCell_detachWire, hc, Option.map_some']
      · simp only [inputValue_set, if_true]
      · intro k hk
        have hk' : ¬ p = k := fun e => hk e.symm
        simp [Sigs.has_set, Sigs.read_set, hk']
  · intro hod s2 hr
    unfold removeWire at hr
    rw [hw] at hr
    simp only [htasks] at hr
    have hnd := detachWire_noDriver s g wid id p hod
    have hzero := run_undriven fuel _ _ s2 g id p hnd
      (by
        intro t ht' v e hte _
        rw [List.mem_singleton] at ht'
        rw [ht'] at hte
        simp only [Task.setInput.injEq] at hte
        exact hte.1.symm)
      (Or.inr ⟨Task.setInput (Val.num 0) ⟨some id, some p⟩ (g, id), List.mem_singleton.2 rfl,
        ⟨rfl, rfl⟩⟩) hr
    have hex : ∃ c2, getCell s2 g (some id) = some c2 :=
      getCell_exists_of_skeleton s2 _ (run_skeleton _ _ _ _ hr) g (some id) c
        (by rw [getCell_detachWire]; exact hc)
    refine ⟨hex, hzero, ?_⟩
    intro term hF t htm
    have hF1 := forwards_detachWire s g wid (g, id) p term hF
    have hm := run_mirror fuel _ _ s2 (g, id) p term hF1
      (Or.inl ⟨by
        intro x hx
        rw [List.mem_singleton] at hx
        rw [hx]
        trivial, Or.inr ⟨Task.setInput (Val.num 0) ⟨some id, some p⟩ (g, id),
          List.mem_singleton.2 rfl, ⟨rfl, rfl⟩⟩⟩) hr
    obtain ⟨c2, hc2⟩ := hex
    have := hm c2 t hc2 htm
    rw [hzero c2 hc2] at this
    exact this

theorem findGate_mem (cs : List Gate) (i : String) (c : Gate) (h : findGate cs i = some c) :
    c ∈ cs := by
  induction cs with
  | nil => simp [findGate] at h
  | cons x xs ih =>
    by_cases hx : x.id = i
    · simp only [findGate, hx, if_true, Option.some.injEq] at h
      rw [← h]; exact List.mem_cons_self _ _
    · simp only [findGate, hx, if_false] at h
      exact List.mem_cons_of_mem _ (ih h)

theorem lookupIomap_mem (m : List (String × String)) (k v : String)
    (h : lookupIomap m k = some v) : (k, v) ∈ m := by
  induction m with
  | nil => simp [lookupIomap] at h
  | cons a m ih =>
    obtain ⟨k0, v0⟩ := a
    by_cases hk : k0 = k
    · simp only [lookupIomap, hk, if_true, Option.some.injEq] at h
      rw [hk, h]; exact List.mem_cons_self _ _
    · simp only [lookupIomap, hk, if_false] at h
      exact List.mem_cons_of_mem _ (ih h)

theorem forwards_of_check (s : Circuit) (H : GateRef) (p : String) (term : GateRef)
    (h : forwardsCheck s H p term = true) : Forwards s H p term := by
  unfold forwardsCheck at h
  rw [Bool.and_eq_true] at h
  obtain ⟨h1, h2⟩ := h
  rw [List.all_eq_true] at h2
  refine ⟨?_, ?_, ?_⟩
  · intro c hc
    rw [hc] at h1
    simp only [Bool.and_eq_true, decide_eq_true_eq] at h1
    exact ⟨h1.1.1, h1.1.2, h1.2⟩
  · intro r c k hc hg hl
    unfold getCell at hc
    cases hgr : getGraph s r.1 with
    | none => simp [hgr] at hc
    | some gr =>
      simp only [hgr] at hc
      have hmem : (r.1, gr) ∈ s.graphs.enum := List.mk_mem_enum_iff_getElem?.2 hgr
      have := h2 _ hmem
      simp only [Bool.and_eq_true, List.all_eq_true, Bool.or_eq_true, decide_eq_true_eq] at this
      have hc2 := this.2 c (findGate_mem _ _ _ hc)
      rcases hc2 with hc2 | hc2
      · exact absurd hg hc2
      · obtain ⟨v, hv⟩ : ∃ v, lookupIomap c.circuitIOmap k = some v := ⟨_, hl⟩
        rcases hc2 (k, v) (lookupIomap_mem _ _ _ hv) with h3 | h3
        · exact absurd hl h3
        · have hid := findGate_id _ _ _ hc
          refine ⟨?_, h3.2⟩
          rw [← h3.1, hid]
  · intro g gr hg
    have hmem : (g, gr) ∈ s.graphs.enum := List.mk_mem_enum_iff_getElem?.2 hg
    have := h2 _ hmem
    simp only [Bool.and_eq_true, decide_eq_true_eq] at this
    exact this.1

theorem removeWire_resets_input_witness :
    PlainPorts litBoard ∧ PlainPorts feedbackLit
    ∧ (∃ s2 c2, removeWire 3 0 "w1" litBoard = Outcome.ok s2 ∧
        getCell s2 0 (some "c") = some c2 ∧ inputValue c2.inputSignals "in1" = Val.num 0 ∧
        ∀ k, k ≠ "in1" → Sigs.has c2.inputSignals k = Sigs.has [("in1", Val.num 1)] k ∧
          Sigs.read c2.inputSignals k = Sigs.read [("in1", Val.num 1)] k)
    ∧ (∃ s2, removeWire 40 0 "w" feedbackLit = Outcome.ok s2 ∧
        (∀ c2, getCell s2 0 (some "x") = some c2 → inputValue c2.inputSignals "p" = Val.num 0) ∧
        ∀ t, getCell s2 1 (some "i") = some t →
          Sigs.isEqual t.outputSignals [("out", Val.num 0)] = true) :=
  ⟨by decide, by decide, (removeWire_resets_input 2 0 "w1" "c" "in1" litBoard
      { mkWire "w1" "a" "out" "c" "in1" with signal := Val.num 1 }
      { andC with inputSignals := [("in1", Val.num 1)] } (by decide) (by decide) (by decide)
      (by decide)).1
      (by decide) (by decide),
   ⟨(removeWire 40 0 "w" feedbackLit).state, by decide,
     ((removeWire_resets_input 40 0 "w" "x" "p" feedbackLit
        { mkWire "w" "a" "out" "x" "p" with signal := Val.num 1 }
        ((getCell feedbackLit 0 (some "x")).getD andC) (by decide) (by decide) (by decide)
        (by decide)).2
        (onlyDriver_of_all feedbackLit 0 "x" "p" "w" ((getGraph feedbackLit 0).getD andBoardGraph)
          (by decide) (by decide))
        (removeWire 40 0 "w" feedbackLit).state (by decide)).2.1,
     fun t ht =>
      ((removeWire_resets_input 40 0 "w" "x" "p" feedbackLit
        { mkWire "w" "a" "out" "x" "p" with signal := Val.num 1 }
        ((getCell feedbackLit 0 (some "x")).getD andC) (by decide) (by decide) (by decide)
        (by decide)).2
        (onlyDriver_of_all feedbackLit 0 "x" "p" "w" ((getGraph feedbackLit 0).getD andBoardGraph)
          (by decide) (by decide))
        (removeWire 40 0 "w" feedbackLit).state (by decide)).2.2 (1, "i")
        (forwards_of_check feedbackLit (0, "x") "p" (1, "i") (by decide)) t ht⟩⟩

/-- C8, as stated, fails for a Subcircuit whose output is fed back into another of
its own inputs: removing the wire into `x.p` resets `x.p`, the terminals pass the
0 on to `x.n`, and the feedback wire carries it into `x.q`, which changes from 1
to 0 within the removal call. -/
theorem removeWire_changes_other_input :
    (getCell feedbackLit 0 (some "x")).map (fun c => c.inputSignals)
      = some [("p", Val.num 1), ("q", Val.num 1)]
    ∧ (getCell (removeWire 40 0 "w" feedbackLit).state 0 (some "x")).map (fun c => c.inputSignals)
      = some [("p", Val.num 0), ("q", Val.num 0)]
    ∧ ∃ s2, removeWire 40 0 "w" feedbackLit = Outcome.ok s2 := by
  refine ⟨by decide, by decide, ⟨(removeWire 40 0 "w" feedbackLit).state, by decide⟩⟩

/-! ## Zero-delay wiring -/

theorem step_setSignal_value (g : Nat) (wid : String) (v : Val) (s s1 : Circuit)
    (new : List Task) (h : step (Task.setSignal g wid v) s = Outcome.ok (new, s1)) (w1 : Wire)
    (hw : getWire s1 g wid = some w1) : w1.signal = v := by
  rcases step_setSignal_cases g wid v s s1 new h with ⟨h1, _⟩ | ⟨w, hw0, _, hs1, _⟩
  · rw [h1] at hw
    simp only [step] at h
    rw [hw] at h
    simp only at h
    by_contra hne
    simp only [hne, if_false] at h
    have hs : s1 = modifyWire s g wid (fun x => { x with signal := v }) := by
      split at h <;> cases h <;> rfl
    rw [h1] at hs
    have := congrArg (fun x => getWire x g wid) hs
    simp only [getWire_modifyWire s g wid (fun x => { x with signal := v }) (fun _ => rfl),
      and_self, if_true, hw, Option.map_some', Option.some.injEq] at this
    exact hne (by rw [this])
  · rw [hs1, getWire_modifyWire s g wid (fun x => { x with signal := v }) (fun _ => rfl)] at hw
    simp only [and_self, if_true, hw0, Option.map_some', Option.some.injEq] at hw
    rw [← hw]

theorem mem_groupInsert (k : String) (w : Wire) (gs : List (String × List Wire))
    (grp : String × List Wire) (x : Wire) (hg : grp ∈ groupInsert k w gs) (hx : x ∈ grp.2) :
    x = w ∨ ∃ grp' ∈ gs, x ∈ grp'.2 := by
  induction gs with
  | nil =>
    simp only [groupInsert, List.mem_singleton] at hg
    subst hg
    simp only [List.mem_singleton] at hx
    exact Or.inl hx
  | cons a gs ih =>
    obtain ⟨k', l⟩ := a
    by_cases hk : k' = k
    · simp only [groupInsert, hk, if_true, List.mem_cons] at hg
      rcases hg with hg | hg
      · subst hg
        simp only [List.mem_append, List.mem_singleton] at hx
        rcases hx with hx | hx
        · exact Or.inr ⟨(k', l), List.mem_cons_self _ _, hx⟩
        · exact Or.inl hx
      · exact Or.inr ⟨grp, List.mem_cons_of_mem _ hg, hx⟩
    · simp only [groupInsert, hk, if_false, List.mem_cons] at hg
      rcases hg with hg | hg
      · subst hg
        exact Or.inr ⟨(k', l), List.mem_cons_self _ _, hx⟩
      · rcases ih hg with h1 | ⟨grp', h1, h2⟩
        · exact Or.inl h1
        · exact Or.inr ⟨grp', List.mem_cons_of_mem _ h1, h2⟩

theorem mem_foldl_groupInsert (ws : List Wire) (gs : List (String × List Wire))
    (grp : String × List Wire) (x : Wire)
    (hg : grp ∈ ws.foldl (fun gs w => groupInsert (portKey w.source.port) w gs) gs)
    (hx : x ∈ grp.2) : x ∈ ws ∨ ∃ grp' ∈ gs, x ∈ grp'.2 := by
  induction ws generalizing gs with
  | nil => exact Or.inr ⟨grp, hg, hx⟩
  | cons w ws ih =>
    simp only [List.foldl_cons] at hg
    rcases ih _ hg with h1 | ⟨grp', h1, h2⟩
    · exact Or.inl (List.mem_cons_of_mem _ h1)
    · rcases mem_groupInsert _ w gs grp' x h1 h2 with h3 | h3
      · exact Or.inl (h3 ▸ List.mem_cons_self _ _)
      · exact Or.inr h3

theorem mem_groupByPort (ws : List Wire) (grp : String × List Wire) (x : Wire)
    (hg : grp ∈ groupByPort ws) (hx : x ∈ grp.2) : x ∈ ws := by
  rcases mem_foldl_groupInsert ws [] grp x hg hx with h | ⟨_, h, _⟩
  · exact h
  · simp at h

/-- A call `wire.set('signal', _)` inside a cascade comes from the
`change:outputSignals` handler of the gate the wire's source names. -/
theorem step_new_setSignal (t : Task) (s s1 : Circuit) (new : List Task)
    (h : step t s = Outcome.ok (new, s1)) (g : Nat) (wid : String) (v : Val)
    (hm : Task.setSignal g wid v ∈ new) :
    ∃ r sigs gr w, t = Task.setOutputSignals r sigs ∧ r.1 = g ∧ getGraph s1 g = some gr ∧
      w ∈ gr.wires ∧ w.source.id = some r.2 ∧ w.id = wid := by
  cases t with
  | setOutputSignals r sigs =>
    simp only [step] at h
    split at h
    · cases h; simp at hm
    · split at h
      · cases h; simp at hm
      · split at h
        · cases h; simp at hm
        · rename_i gr hgr
          cases h
          simp only [outputTasks, List.mem_flatten, List.mem_map] at hm
          obtain ⟨l, ⟨grp, hgrp, hl⟩, hml⟩ := hm
          rw [← hl] at hml
          simp only [List.mem_map, Task.setSignal.injEq] at hml
          obtain ⟨w, hw, h1, h2, _⟩ := hml
          have hmem := mem_groupByPort _ grp w hgrp hw
          unfold connectedOutbound at hmem
          simp only [List.mem_filter, decide_eq_true_eq] at hmem
          exact ⟨r, sigs, gr, w, rfl, h1, by rw [← h1]; exact hgr, hmem.1, hmem.2, h2⟩
  | setSignal g' wid' v' =>
    simp only [step] at h
    split at h
    · cases h; simp at hm
    · split at h
      · cases h; simp at hm
      · split at h <;> cases h <;> simp at hm
  | setInput sig e' r =>
    have hfwd : ∀ l : List Task, Task.setSignal g wid v ∈ l →
        (∀ x ∈ l, x = Task.forwardInput sig e' r) → False := by
      intro l hl hall
      have := hall _ hl
      cases this
    simp only [step] at h
    split at h
    · cases h; simp at hm
    · split at h
      · cases h
        exfalso
        apply hfwd _ hm
        intro x hx
        split at hx <;> simp at hx
        exact hx
      · split at h
        · split at h
          · cases h
          · split at h
            · cases h
              exfalso
              apply hfwd _ hm
              intro x hx
              split at hx <;> simp at hx
              exact hx
            · cases h
              simp only [List.mem_cons] at hm
              rcases hm with hm | hm
              · cases hm
              · exfalso
                apply hfwd _ hm
                intro x hx
                split at hx <;> simp at hx
                exact hx
        · cases h
          exfalso
          apply hfwd _ hm
          intro x hx
          split at hx <;> simp at hx
          exact hx
  | forwardInput sig e' r =>
    simp only [step] at h
    split at h
    · cases h; simp at hm
    · split at h
      · cases h
      · split at h
        · cases h
        · cases h; simp at hm

/-- The signal of a wire whose source gate is written by no forwarding rule
stays what the pending `wire.set('signal', v)` makes it. -/
theorem run_signal_stable (fuel : Nat) (ts : List Task) (s s1 : Circuit) (g : Nat)
    (sid wid : String) (v : Val)
    (hsrc : ∀ gr, getGraph s g = some gr → ∀ x ∈ gr.wires, x.id = wid → x.source.id = some sid)
    (hio : ∀ (r : GateRef) h k, getCell s r.1 (some r.2) = some h → h.graph = some g →
      lookupIomap h.circuitIOmap k ≠ some sid)
    (hsub : ∀ g' gr, getGraph s g' = some gr → gr.subcircuit ≠ some (g, sid))
    (hts : ∀ t ∈ ts, (∀ sigs, t ≠ Task.setOutputSignals (g, sid) sigs) ∧
      (∀ v', t = Task.setSignal g wid v' → v' = v))
    (hval : (∀ w, getWire s g wid = some w → w.signal = v) ∨
      ∃ rest, ts = Task.setSignal g wid v :: rest)
    (hr : run fuel ts s = Outcome.ok s1) : ∀ w, getWire s1 g wid = some w → w.signal = v := by
  have key := run_inv
    (fun ts' s' => skeleton s' = skeleton s
      ∧ (∀ t ∈ ts', (∀ sigs, t ≠ Task.setOutputSignals (g, sid) sigs) ∧
          (∀ v', t = Task.setSignal g wid v' → v' = v))
      ∧ ((∀ w, getWire s' g wid = some w → w.signal = v) ∨
          ∃ rest, ts' = Task.setSignal g wid v :: rest))
    ?_ fuel ts s s1 ⟨rfl, hts, hval⟩ hr
  · rcases key.2.2 with h | ⟨_, h⟩
    · exact h
    · cases h
  · intro t ts' s' new s2 ⟨hsk, hts', hval'⟩ hstep
    have hsk2 : skeleton s2 = skeleton s := (step_skeleton t s' s2 new hstep).trans hsk
    have htop := hts' t (List.mem_cons_self _ _)
    refine ⟨hsk2, ?_, ?_⟩
    · intro x hx
      rcases List.mem_append.1 hx with h1 | h1
      · refine ⟨?_, ?_⟩
        · intro sigs hxe
          rw [hxe] at h1
          rcases step_new_setOutputSignals t s' s2 new hstep (g, sid) sigs h1 with
            ⟨_, _, r, gate, _, h2, h3, h4, _⟩ | ⟨_, _, r, gr, _, h2, h3⟩
          · obtain ⟨c0, hc0, hb⟩ := getCell_of_skeleton s' s hsk _ _ gate h2
            have e2 : c0.graph = gate.graph := by have := congrArg Gate.graph hb; exact this
            have e3 : c0.circuitIOmap = gate.circuitIOmap := by
              have := congrArg Gate.circuitIOmap hb; exact this
            exact hio r c0 _ hc0 (by rw [e2]; exact h3) (by rw [e3]; exact h4)
          · obtain ⟨gr0, hg0, hb⟩ := getGraph_of_skeleton s2 s hsk2 _ gr h2
            have e1 : gr0.subcircuit = gr.subcircuit := by
              have := congrArg Graph.subcircuit hb; exact this
            exact hsub _ gr0 hg0 (by rw [e1]; exact h3)
        · intro v' hxe
          rw [hxe] at h1
          exfalso
          obtain ⟨r, sigs, gr, w, h2, h3, h4, h5, h6, h7⟩ :=
            step_new_setSignal t s' s2 new hstep g wid v' h1
          obtain ⟨gr0, w0, hg0, hw0, hb⟩ := mem_wires_of_skeleton s2 s hsk2 g gr w h4 h5
          have e1 : w0.id = w.id := by have := congrArg Wire.id hb; exact this
          have e2 : w0.source = w.source := by have := congrArg Wire.source hb; exact this
          have := hsrc gr0 hg0 w0 hw0 (by rw [e1]; exact h7)
          rw [e2, h6] at this
          have hr2 : r.2 = sid := Option.some.inj this
          apply htop.1 sigs
          rw [h2]
          congr 1
          exact Prod.ext h3 hr2
      · exact hts' x (List.mem_cons_of_mem _ h1)
    · left
      intro w1 hw1
      rcases hval' with hv | ⟨rest, hrest⟩
      · obtain ⟨w, hw, _, hws⟩ := step_wire t s' s2 new hstep g wid w1 hw1
        rcases hws with hws | hws
        · rw [hws]; exact hv w hw
        · exact htop.2 _ hws
      · cases hrest
        exact step_setSignal_value g wid v s' s2 new hstep w1 hw1

theorem findWire_append_fresh (ws : List Wire) (w : Wire) (h : findWire ws w.id = none) :
    findWire (ws ++ [w]) w.id = some w := by
  induction ws with
  | nil => simp [findWire]
  | cons x xs ih =>
    by_cases hx : x.id = w.id
    · simp [findWire, hx] at h
    · simp only [findWire, hx, if_false] at h
      simp only [List.cons_append, findWire, hx, if_false]
      exact ih h

theorem getCell_attachWire (s : Circuit) (g : Nat) (w : Wire) (g' : Nat) (i : Option String) :
    getCell (attachWire s g w) g' i = getCell s g' i := by
  unfold attachWire
  exact getCell_updGraph_wires s (fun x => { x with wires := x.wires ++ [w] }) (fun _ => rfl)
    g g' i s.queue

theorem getGraph_attachWire (s : Circuit) (g : Nat) (w : Wire) (g' : Nat) (gr1 : Graph)
    (h : getGraph (attachWire s g w) g' = some gr1) :
    ∃ gr, getGraph s g' = some gr ∧ gr1.cells = gr.cells ∧ gr1.subcircuit = gr.subcircuit ∧
      gr1.wires = if g' = g then gr.wires ++ [w] else gr.wires := by
  unfold attachWire at h
  obtain ⟨gr, hg, hgr⟩ := getGraph_updGraph s _ g g' gr1 s.queue h
  refine ⟨gr, hg, ?_⟩
  rw [hgr]
  split <;> exact ⟨rfl, rfl, rfl⟩

theorem getWire_attachWire (s : Circuit) (g : Nat) (w : Wire) (gr : Graph)
    (hg : getGraph s g = some gr) (hfresh : findWire gr.wires w.id = none) :
    getWire (attachWire s g w) g w.id = some w := by
  unfold getWire attachWire getGraph
  simp only [getElem?_updGraph, if_true]
  unfold getGraph at hg
  rw [hg]
  simp only [Option.map_some']
  exact findWire_append_fresh gr.wires w hfresh

theorem findWire_map_bare (ws : List Wire) (i : String) :
    findWire (ws.map Wire.bare) i = (findWire ws i).map Wire.bare := by
  induction ws with
  | nil => rfl
  | cons c cs ih =>
    by_cases h : c.id = i
    · simp [findWire, Wire.bare, h]
    · simp only [List.map_cons, findWire]
      have : ¬ (Wire.bare c).id = i := h
      simp only [this, h, if_false, ih]

theorem getWire_exists_of_skeleton (s s0 : Circuit) (h : skeleton s = skeleton s0) (g : Nat)
    (i : String) (w0 : Wire) (hw : getWire s0 g i = some w0) : ∃ w, getWire s g i = some w := by
  unfold getWire at hw
  cases hg : getGraph s0 g with
  | none => simp [hg] at hw
  | some gr0 =>
    simp only [hg] at hw
    obtain ⟨gr, hgr, hb⟩ := getGraph_of_skeleton s0 s h.symm g gr0 hg
    have hwires : gr.wires.map Wire.bare = gr0.wires.map Wire.bare := by
      have := congrArg Graph.wires hb
      simpa [Graph.bare] using this
    have h1 : findWire (gr.wires.map Wire.bare) i = some w0.bare := by
      rw [hwires, findWire_map_bare, hw]; rfl
    rw [findWire_map_bare] at h1
    cases hf : findWire gr.wires i with
    | none => rw [hf] at h1; simp at h1
    | some w =>
      refine ⟨w, ?_⟩
      unfold getWire
      simp only [hgr, hf]

/-- C10: adding a wire with the default signal 0 from port `sp` of gate `S`,
which holds `v`, to the unconnected input `tp` of gate `T`, which holds its
default. If `T` is neither a Subcircuit nor an output terminal the call returns
with the wire's signal and `T`'s input both `v`, without any tick. For every
`T`, when the call returns `T`'s input `tp` holds the wire's signal, and that
signal is `v` whenever no forwarding rule writes the outputs of `S` (`S` is not
a terminal mapped by a Subcircuit nor the `subcircuit` of a graph). -/
theorem addWire_zero_delay (g : Nat) (w : Wire) (sid sp tid tp : String) (s : Circuit)
    (gr : Graph) (sgate tgate : Gate) (hg : getGraph s g = some gr)
    (hfw : findWire gr.wires w.id = none) (hfg : findGate gr.cells w.id = none)
    (hsig : w.signal = Val.num 0)
    (hsrc : w.source = ⟨some sid, some sp⟩) (htgt : w.target = ⟨some tid, some tp⟩)
    (hS : getCell s g (some sid) = some sgate) (hT : getCell s g (some tid) = some tgate)
    (hfree : NoDriver s g tid tp) (hzero : inputValue tgate.inputSignals tp = Val.num 0) :
    (tgate.type ≠ CellType.Subcircuit → tgate.type ≠ CellType.Output → ∀ fuel,
      ∃ s3 w3 t3, addWire (fuel + 2) g w s = Outcome.ok s3 ∧
        getWire s3 g w.id = some w3 ∧ w3.signal = Sigs.read sgate.outputSignals sp ∧
        getCell s3 g (some tid) = some t3 ∧
        inputValue t3.inputSignals tp = Sigs.read sgate.outputSignals sp)
    ∧ (∀ fuel s3, addWire fuel g w s = Outcome.ok s3 →
      ∃ w3 t3, getWire s3 g w.id = some w3 ∧ getCell s3 g (some tid) = some t3 ∧
        inputValue t3.inputSignals tp = w3.signal ∧
        ((∀ (r : GateRef) h k, getCell s r.1 (some r.2) = some h → h.graph = some g →
            lookupIomap h.circuitIOmap k ≠ some sid) →
          (∀ g' gr', getGraph s g' = some gr' → gr'.subcircuit ≠ some (g, sid)) →
          w3.signal = Sigs.read sgate.outputSignals sp)) := by
  have hadd : ∀ fuel, addWire fuel g w s =
      run fuel [Task.setSignal g w.id (Sigs.read sgate.outputSignals sp)] (attachWire s g w) := by
    intro fuel
    unfold addWire
    rw [hg]
    simp only [hfw, hfg, Option.isSome_none, Bool.false_eq_true, or_self, if_false]
    unfold addTasks
    rw [getCell_attachWire, hsrc]
    simp only [hS]
  have hgw : getWire (attachWire s g w) g w.id = some w := getWire_attachWire s g w gr hg hfw
  have htid : tgate.id = tid := by
    have := getCell_id s g (some tid) tgate hT
    simp only [Option.some.injEq] at this
    exact this.symm
  refine ⟨?_, ?_⟩
  · intro h1 h2 fuel
    rw [hadd]
    by_cases hv : w.signal = Sigs.read sgate.outputSignals sp
    · refine ⟨attachWire s g w, w, tgate, ?_, hgw, hv, by rw [getCell_attachWire]; exact hT, ?_⟩
      · simp [run, step, hgw, hv, run_nil]
      · rw [← hv, hsig]; exact hzero
    · generalize Sigs.read sgate.outputSignals sp = v at hv ⊢
      have hT1 : getCell (modifyWire (attachWire s g w) g w.id (fun x => { x with signal := v }))
          g (some tid) = some tgate := by
        rw [getCell_modifyWire, getCell_attachWire]; exact hT
      have hW1 : getWire (modifyWire (attachWire s g w) g w.id (fun x => { x with signal := v }))
          g w.id = some { w with signal := v } := by
        rw [getWire_modifyWire _ g w.id (fun x => { x with signal := v }) (fun _ => rfl)]
        simp [hgw]
      have hstep : step (Task.setSignal g w.id v) (attachWire s g w) =
          Outcome.ok ([Task.setInput v w.target (g, tid)],
            modifyWire (attachWire s g w) g w.id (fun x => { x with signal := v })) := by
        simp only [step, hgw, hv, if_false, getCell_modifyWire, getCell_attachWire, htgt, hT, htid]
      rw [run_succ_cons, hstep]
      simp only [List.append_nil]
      rw [run_setInput_primitive fuel _ _ (g, tid) _ tgate hT1 h1 h2, htgt]
      simp only [portKey, Option.getD_some]
      by_cases heq : Sigs.isEqual tgate.inputSignals (Sigs.set tgate.inputSignals tp v) = true
      · rw [if_pos heq]
        refine ⟨_, { w with signal := v }, tgate, rfl, hW1, rfl, hT1, ?_⟩
        rw [inputValue_isEqual _ _ heq, inputValue_set]
        simp
      · rw [if_neg heq]
        refine ⟨_, { w with signal := v },
          { tgate with inputSignals := Sigs.set tgate.inputSignals tp v }, rfl, ?_, rfl, ?_, ?_⟩
        · rw [getWire_queue, getWire_modifyGate]; exact hW1
        · rw [getCell_queue, getCell_modifyGate _ (g, tid)
            (fun x => { x with inputSignals := Sigs.set tgate.inputSignals tp v }) (fun _ => rfl)]
          simp only [and_self, if_true, hT1, Option.map_some']
        · simp only [inputValue_set, if_true]
  · intro fuel s3 hr
    rw [hadd] at hr
    have hsk := run_skeleton _ _ _ _ hr
    obtain ⟨w3, hw3⟩ := getWire_exists_of_skeleton s3 _ hsk g w.id w hgw
    obtain ⟨t3, ht3⟩ := getCell_exists_of_skeleton s3 _ hsk g (some tid) tgate
      (by rw [getCell_attachWire]; exact hT)
    have hmemw : ∀ gr1, getGraph (attachWire s g w) g = some gr1 →
        ∀ x ∈ gr1.wires, x ∈ gr.wires ∨ x = w := by
      intro gr1 hg1 x hx
      obtain ⟨gr0, hg0, _, _, hwires⟩ := getGraph_attachWire s g w g gr1 hg1
      rw [hg] at hg0
      cases hg0
      rw [hwires] at hx
      simpa using hx
    refine ⟨w3, t3, hw3, ht3, ?_, ?_⟩
    · refine run_driven fuel _ _ s3 g tid tp w.id ?_ ?_ ?_ hr t3 w3 ht3 hw3
      · intro gr1 hg1 x hx hd
        rcases hmemw gr1 hg1 x hx with h | h
        · exact absurd hd (hfree gr hg x h)
        · rw [h]
      · intro w' hw'
        rw [hgw] at hw'
        cases hw'
        rw [Wire.drives, htgt]
        exact ⟨rfl, rfl⟩
      · left
        refine ⟨?_, ?_⟩
        · intro c w' hc hw'
          rw [hgw] at hw'
          cases hw'
          rw [getCell_attachWire, hT] at hc
          cases hc
          rw [hsig]; exact hzero
        · intro t ht
          rw [List.mem_singleton] at ht
          rw [ht]
          exact fun h => h
    · intro hio hsub
      refine run_signal_stable fuel _ _ s3 g sid w.id _ ?_ ?_ ?_ ?_ ?_ hr w3 hw3
      · intro gr1 hg1 x hx hxid
        rcases hmemw gr1 hg1 x hx with h | h
        · exfalso
          apply findWire_eq_none gr.wires w.id hfw
          rw [← hxid]
          exact List.mem_map_of_mem (fun w => w.id) h
        · rw [h, hsrc]
      · intro r h k hc
        rw [getCell_attachWire] at hc
        exact hio r h k hc
      · intro g' gr1 hg1
        obtain ⟨gr0, hg0, _, hs, _⟩ := getGraph_attachWire s g w g' gr1 hg1
        rw [hs]
        exact hsub g' gr0 hg0
      · intro t ht
        rw [List.mem_singleton] at ht
        rw [ht]
        refine ⟨fun sigs h => (by cases h), ?_⟩
        intro v' h
        simp only [Task.setSignal.injEq] at h
        exact h.2.2.symm
      · exact Or.inr ⟨[], rfl⟩

theorem addWire_zero_delay_witness :
    ∃ s3 w3 t3, addWire 2 0 (mkWire "w3" "a" "out" "d" "in") litBoard = Outcome.ok s3 ∧
      getWire s3 0 "w3" = some w3 ∧ w3.signal = Val.num 1 ∧
      getCell s3 0 (some "d") = some t3 ∧ inputValue t3.inputSignals "in" = Val.num 1 :=
  (addWire_zero_delay 0 (mkWire "w3" "a" "out" "d" "in") "a" "out" "d" "in" litBoard
    ((getGraph litBoard 0).getD andBoardGraph)
    { buttonA with buttonState := true, outputSignals := [("out", Val.num 1)] } notD
    (by decide) (by decide) (by decide) rfl rfl rfl (by decide) (by decide)
    (noDriver_of_all litBoard 0 "d" "in" ((getGraph litBoard 0).getD andBoardGraph) (by decide)
      (by decide))
    (by decide)).1 (by decide) (by decide) 0

/-! ## Wire signals and their sources -/

/-- C4 fails on the code. In the circuit built from `staleData`, the tick after
the press of `k` makes `x.n` 1; the `change:outputSignals` handler of `x` starts
with `sigs = {m: 0, n: 1}` and first sets `w1`, whose cascade runs through `x.p`
and the nested terminals and makes `x.m` 1 (the nested handler sets `w2` to 1);
the outer handler then goes on with its old `sigs` and sets `w2` back to 0. When
the tick returns, `x.outputSignals.m` is 1 and the wire `w2`, whose source is
`x.m`, carries 0. -/
theorem outputSignals_handler_stale_signal :
    ∃ s, staleRun = Outcome.ok s
      ∧ (getWire s 0 "w2").map (fun w => w.source) = some ⟨some "x", some "m"⟩
      ∧ (getCell s 0 (some "x")).map (fun c => Sigs.read c.outputSignals "m") = some (Val.num 1)
      ∧ (getWire s 0 "w2").map (fun w => w.signal) = some (Val.num 0)
      ∧ (getCell s 0 (some "d")).map (fun c => Sigs.read c.inputSignals "in")
          = some (Val.num 0) := by
  refine ⟨staleRun.state, by decide, by decide, by decide, by decide, by decide⟩

/-! ## Consistency of gate inputs with wires -/

theorem findWire_of_mem_nodup (ws : List Wire) (w : Wire) (hnd : (ws.map fun x => x.id).Nodup)
    (hw : w ∈ ws) : findWire ws w.id = some w := by
  induction ws with
  | nil => simp at hw
  | cons x xs ih =>
    simp only [List.map_cons, List.nodup_cons] at hnd
    rcases List.mem_cons.1 hw with h | h
    · subst h
      simp [findWire]
    · have hne : ¬ x.id = w.id := by
        intro e
        apply hnd.1
        rw [e]
        exact List.mem_map_of_mem (fun x => x.id) h
      simp only [findWire, hne, if_false]
      exact ih hnd.2 h

theorem eq_of_filter_length_le_one (ws : List Wire) (P : Wire → Bool) (a b : Wire)
    (h : (ws.filter P).length ≤ 1) (ha : a ∈ ws) (hb : b ∈ ws) (hpa : P a = true)
    (hpb : P b = true) : a = b := by
  have ha' : a ∈ ws.filter P := List.mem_filter.2 ⟨ha, hpa⟩
  have hb' : b ∈ ws.filter P := List.mem_filter.2 ⟨hb, hpb⟩
  cases hl : ws.filter P with
  | nil => rw [hl] at ha'; simp at ha'
  | cons x xs =>
    rw [hl] at h ha' hb'
    cases xs with
    | nil =>
      simp only [List.mem_singleton] at ha' hb'
      rw [ha', hb']
    | cons y ys => simp at h

theorem drives_iff_target (w : Wire) (id p : String)
    (h : w.target.id.isSome = true → w.target.port.isSome = true) :
    w.drives id p ↔ w.target = ⟨some id, some p⟩ := by
  unfold Wire.drives
  constructor
  · intro ⟨h1, h2⟩
    cases ht : w.target with
    | mk i q =>
      rw [ht] at h h1 h2
      simp only at h h1 h2
      subst h1
      cases q with
      | none => simp at h
      | some q' =>
        simp only [portKey, Option.getD_some] at h2
        rw [h2]
  · intro ht
    rw [ht]
    exact ⟨rfl, rfl⟩

theorem getCell_iff (s : Circuit) (g : Nat) (id : String) (c : Gate) :
    getCell s g (some id) = some c ↔ ∃ gr, getGraph s g = some gr ∧ findGate gr.cells id = some c := by
  unfold getCell
  cases hg : getGraph s g with
  | none => simp
  | some gr => simp

theorem targetsWF_of_skeleton (s s0 : Circuit) (h : skeleton s = skeleton s0)
    (h0 : TargetsWF s0) : TargetsWF s := by
  intro gr hgr w hw
  obtain ⟨g, hg⟩ := List.getElem?_of_mem hgr
  obtain ⟨gr0, w0, hg0, hw0, hb⟩ := mem_wires_of_skeleton s s0 h g gr w hg hw
  have ht : w0.target = w.target := by have := congrArg Wire.target hb; exact this
  rw [← ht]
  exact h0 gr0 (List.getElem?_mem hg0) w0 hw0

/-- The consistency of inputs with wires at the end of a cascade, from what
holds when it starts. -/
theorem run_consistent (fuel : Nat) (ts : List Task) (s s1 : Circuit)
    (hw : ∀ gr ∈ s.graphs, WiredOK gr.wires) (he : TargetsWF s)
    (hstart : ConsistentStart ts s) (hr : run fuel ts s = Outcome.ok s1) :
    InputsConsistent s1 := by
  have hsk := run_skeleton fuel ts s s1 hr
  have hw1 := run_wired fuel ts s s1 hr hw
  intro g gr1 id c1 p hg1 hc1
  have hcell1 : getCell s1 g (some id) = some c1 := (getCell_iff s1 g id c1).2 ⟨gr1, hg1, hc1⟩
  obtain ⟨c, hcell, _⟩ := getCell_of_skeleton s1 s hsk g (some id) c1 hcell1
  obtain ⟨gr, hg, hc⟩ := (getCell_iff s g id c).1 hcell
  have hgrm : gr ∈ s.graphs := List.getElem?_mem hg
  have hgr1m : gr1 ∈ s1.graphs := List.getElem?_mem hg1
  obtain ⟨hdrv, hund⟩ := hstart g gr id c p hg hc
  refine ⟨?_, ?_⟩
  · intro w1 hw1m hw1t
    obtain ⟨gr0, w0, hg0, hw0, hb⟩ := mem_wires_of_skeleton s1 s hsk g gr1 w1 hg1 hw1m
    rw [hg] at hg0
    cases hg0
    have ht : w0.target = w1.target := by have := congrArg Wire.target hb; exact this
    have hi : w0.id = w1.id := by have := congrArg Wire.id hb; exact this
    have hgw0 : getWire s g w0.id = some w0 := by
      unfold getWire
      rw [hg]
      exact findWire_of_mem_nodup gr.wires w0 (hw gr hgrm).1 hw0
    have hgw1 : getWire s1 g w0.id = some w1 := by
      unfold getWire
      rw [hg1, hi]
      exact findWire_of_mem_nodup gr1.wires w1 (hw1 gr1 hgr1m).1 hw1m
    refine run_driven fuel ts s s1 g id p w0.id ?_ ?_ ?_ hr c1 w1 hcell1 hgw1
    · intro gr' hg' x hx hd
      rw [hg] at hg'
      cases hg'
      have hxt := (drives_iff_target x id p (he gr hgrm x hx)).1 hd
      have := eq_of_filter_length_le_one gr.wires
        (fun w => decide (w.target = ⟨some id, some p⟩)) x w0 ((hw gr hgrm).2 id p) hx hw0
        (by simp [hxt]) (by simp [ht, hw1t])
      rw [this]
    · intro w' hw'
      rw [hgw0] at hw'
      cases hw'
      unfold Wire.drives
      rw [ht, hw1t]
      exact ⟨rfl, rfl⟩
    · rcases hdrv w0 hw0 (by rw [ht]; exact hw1t) with ⟨h1, h2⟩ | ⟨e, rest, h1, h2, h3⟩
      · left
        refine ⟨?_, h2⟩
        intro c' w' hc' hw'
        rw [hcell] at hc'
        rw [hgw0] at hw'
        cases hc'; cases hw'
        exact h1
      · right
        refine ⟨w0.signal, e, rest, h1, h2, ?_, h3⟩
        intro w' hw'
        rw [hgw0] at hw'
        cases hw'
        rfl
  · intro hno
    have hno0 : ∀ w ∈ gr.wires, w.target ≠ ⟨some id, some p⟩ := by
      intro w hwm hwt
      obtain ⟨gr', w', hg', hw', hb⟩ := mem_wires_of_skeleton s s1 hsk.symm g gr w hg hwm
      rw [hg1] at hg'
      cases hg'
      have ht : w'.target = w.target := by have := congrArg Wire.target hb; exact this
      exact hno w' hw' (by rw [ht]; exact hwt)
    obtain ⟨h1, h2⟩ := hund hno0
    refine run_undriven fuel ts s s1 g id p ?_ h1 ?_ hr c1 hcell1
    · intro gr' hg' x hx hd
      rw [hg] at hg'
      cases hg'
      exact hno0 x hx ((drives_iff_target x id p (he gr hgrm x hx)).1 hd)
    · rcases h2 with h2 | h2
      · left
        intro c' hc'
        rw [hcell] at hc'
        cases hc'
        exact h2
      · exact Or.inr h2

theorem start_of_consistent (ts : List Task) (s : Circuit) (hc : InputsConsistent s)
    (hts : ∀ t ∈ ts, ∀ v e r, t ≠ Task.setInput v e r) : ConsistentStart ts s := by
  have hno : ∀ (r : GateRef) (p : String), ∀ t ∈ ts, ¬ Task.onPort r p t := by
    intro r p t ht hon
    cases t with
    | setInput v e r' => exact hts _ ht v e r' rfl
    | setOutputSignals r' sigs => exact hon
    | setSignal g' wid v => exact hon
    | forwardInput v e r' => exact hon
  intro g gr id c p hg hcf
  obtain ⟨h1, h2⟩ := hc g gr id c p hg hcf
  refine ⟨fun w hw ht => Or.inl ⟨h1 w hw ht, hno (g, id) p⟩, fun hnd => ⟨?_, Or.inl (h2 hnd)⟩⟩
  intro t ht v e hte
  exact absurd hte (hts t ht v e (g, id))

theorem targetsWF_of_wiring (s s1 : Circuit) (h : wiring s1 = wiring s) (h0 : TargetsWF s) :
    TargetsWF s1 := by
  intro gr hgr w hw
  have hm : gr.wires.map Wire.bare ∈ wiring s1 := List.mem_map_of_mem _ hgr
  rw [h] at hm
  obtain ⟨gr0, hgr0, he⟩ := List.mem_map.1 hm
  have hwm : w.bare ∈ gr0.wires.map Wire.bare := by
    rw [he]; exact List.mem_map_of_mem _ hw
  obtain ⟨w0, hw0, hb⟩ := List.mem_map.1 hwm
  have ht : w0.target = w.target := by have := congrArg Wire.target hb; exact this
  rw [← ht]
  exact h0 gr0 hgr0 w0 hw0

/-- A state whose graphs have the same wires and whose gates read the same
inputs is consistent when the other is. -/
theorem inputsConsistent_of (s s1 : Circuit) (hc : InputsConsistent s)
    (hwires : ∀ g gr1, getGraph s1 g = some gr1 →
      ∃ gr, getGraph s g = some gr ∧ gr1.wires = gr.wires ∧
        ∀ id c1, findGate gr1.cells id = some c1 →
          ∃ c, findGate gr.cells id = some c ∧
            ∀ p, inputValue c1.inputSignals p = inputValue c.inputSignals p) :
    InputsConsistent s1 := by
  intro g gr1 id c1 p hg1 hc1
  obtain ⟨gr, hg, hw, hcells⟩ := hwires g gr1 hg1
  obtain ⟨c, hcf, hv⟩ := hcells id c1 hc1
  obtain ⟨h1, h2⟩ := hc g gr id c p hg hcf
  rw [hw, hv]
  exact ⟨h1, h2⟩

theorem getGraph_modifyGate (s : Circuit) (r : GateRef) (f : Gate → Gate) (g : Nat) (gr1 : Graph)
    (q : List GateRef) (h : getGraph { modifyGate s r f with queue := q } g = some gr1) :
    ∃ gr, getGraph s g = some gr ∧ gr1.wires = gr.wires ∧ gr1.subcircuit = gr.subcircuit ∧
      gr1.cells = if g = r.1 then updGate f gr.cells r.2 else gr.cells := by
  obtain ⟨gr, hg, hgr⟩ := getGraph_updGraph s
    (fun gr => { gr with cells := updGate f gr.cells r.2 }) r.1 g gr1 q h
  refine ⟨gr, hg, ?_⟩
  rw [hgr]
  split <;> exact ⟨rfl, rfl, rfl⟩

theorem inputsConsistent_modifyGate (s : Circuit) (r : GateRef) (f : Gate → Gate)
    (q : List GateRef) (hid : ∀ c, (f c).id = c.id)
    (hf : ∀ c p, inputValue (f c).inputSignals p = inputValue c.inputSignals p)
    (hc : InputsConsistent s) : InputsConsistent { modifyGate s r f with queue := q } := by
  apply inputsConsistent_of s _ hc
  intro g gr1 hg1
  obtain ⟨gr, hg, hw, _, hcells⟩ := getGraph_modifyGate s r f g gr1 q hg1
  refine ⟨gr, hg, hw, ?_⟩
  intro id c1 hc1
  rw [hcells] at hc1
  split at hc1
  · rw [findGate_updGate f hid] at hc1
    split at hc1
    · cases hc0 : findGate gr.cells id with
      | none => rw [hc0] at hc1; simp at hc1
      | some c =>
        rw [hc0] at hc1
        simp only [Option.map_some', Option.some.injEq] at hc1
        exact ⟨c, rfl, fun p => by rw [← hc1]; exact hf c p⟩
    · exact ⟨c1, hc1, fun _ => rfl⟩
  · exact ⟨c1, hc1, fun _ => rfl⟩

theorem captureLoop_consistent (op : Gate → Sigs → Sigs) (s : Circuit) (q : List GateRef)
    (hc : InputsConsistent s) : InputsConsistent (captureLoop op s q).1 := by
  induction q generalizing s with
  | nil => exact hc
  | cons r q ih =>
    simp only [captureLoop]
    apply ih
    unfold captureGate
    cases hg : getCell s r.1 (some r.2) with
    | none => exact hc
    | some gate =>
      by_cases ht : gate.type = CellType.Subcircuit
      · simp only [ht, if_true]; exact hc
      · simp only [ht, if_false]
        have := inputsConsistent_of s (modifyGate s r (fun c =>
          { c with inputSignals := fillInputs gate.ports gate.inputSignals })) hc ?_
        · exact this
        · intro g gr1 hg1
          obtain ⟨gr, hgr, hw, _, hcells⟩ := getGraph_modifyGate s r
            (fun c => { c with inputSignals := fillInputs gate.ports gate.inputSignals }) g gr1
            s.queue hg1
          refine ⟨gr, hgr, hw, ?_⟩
          intro id c1 hc1
          rw [hcells] at hc1
          split at hc1
          · rename_i hgr1
            rw [findGate_updGate
              (fun c => { c with inputSignals := fillInputs gate.ports gate.inputSignals })
              (fun _ => rfl)] at hc1
            split at hc1
            · rename_i hid
              cases hc0 : findGate gr.cells id with
              | none => rw [hc0] at hc1; simp at hc1
              | some c =>
                rw [hc0] at hc1
                simp only [Option.map_some', Option.some.injEq] at hc1
                have hcg : c = gate := by
                  have h1 : getCell s r.1 (some r.2) = some c :=
                    (getCell_iff s r.1 r.2 c).2 ⟨gr, by rw [← hgr1]; exact hgr, by
                      rw [← hid]; exact hc0⟩
                  rw [hg] at h1
                  exact (Option.some.inj h1).symm
                refine ⟨c, rfl, fun p => ?_⟩
                rw [← hc1, hcg]
                exact inputValue_fillInputs _ _ _
            · exact ⟨c1, hc1, fun _ => rfl⟩
          · exact ⟨c1, hc1, fun _ => rfl⟩

theorem captureLoop_no_setInput (op : Gate → Sigs → Sigs) (s : Circuit) (q : List GateRef) :
    ∀ t ∈ (captureLoop op s q).2.map (fun c => Task.setOutputSignals c.1 c.2),
      ∀ v e r, t ≠ Task.setInput v e r := by
  intro t ht v e r hte
  rw [hte] at ht
  simp at ht

theorem targetsWF_updGraph (s : Circuit) (F : Graph → Graph) (g : Nat) (q : List GateRef)
    (h0 : TargetsWF s)
    (hF : ∀ gr, (∀ w ∈ gr.wires, w.target.id.isSome = true → w.target.port.isSome = true) →
      ∀ w ∈ (F gr).wires, w.target.id.isSome = true → w.target.port.isSome = true) :
    TargetsWF { graphs := updGraph F s.graphs g, queue := q } := by
  intro gr hgr
  rcases mem_updGraph F s.graphs g gr hgr with h | ⟨gr0, hg0, h1⟩
  · exact h0 gr h
  · rw [h1]
    exact hF gr0 (h0 gr0 (List.getElem?_mem hg0))

theorem mem_updWire_of_mem (f : Wire → Wire) (ws : List Wire) (id : String) (w0 : Wire)
    (h : w0 ∈ ws) : w0 ∈ updWire f ws id ∨ f w0 ∈ updWire f ws id := by
  induction ws with
  | nil => simp at h
  | cons w ws ih =>
    by_cases hc : w.id = id
    · simp only [updWire, hc, if_true, List.mem_cons]
      rcases List.mem_cons.1 h with h1 | h1
      · right; left; rw [h1]
      · left; right; exact h1
    · simp only [updWire, hc, if_false, List.mem_cons]
      rcases List.mem_cons.1 h with h1 | h1
      · left; left; exact h1
      · rcases ih h1 with h2 | h2
        · left; right; exact h2
        · right; right; exact h2

/-- A change of the wires of one graph that keeps every target and signal, adds
only loose wires and loses no target keeps the inputs consistent. -/
theorem inputsConsistent_updWires (s : Circuit) (F : Graph → Graph) (g : Nat) (q : List GateRef)
    (hcells : ∀ gr, (F gr).cells = gr.cells)
    (hfw : ∀ gr, ∀ w' ∈ (F gr).wires,
      (∃ w0 ∈ gr.wires, w0.target = w'.target ∧ w0.signal = w'.signal) ∨ w'.target.id = none)
    (hbw : ∀ gr, ∀ w0 ∈ gr.wires, ∃ w' ∈ (F gr).wires, w'.target = w0.target)
    (hc : InputsConsistent s) :
    InputsConsistent { graphs := updGraph F s.graphs g, queue := q } := by
  intro g' gr1 id c p hg1 hc1
  obtain ⟨gr, hg, hgr⟩ := getGraph_updGraph s F g g' gr1 q hg1
  by_cases hgg : g' = g
  · rw [if_pos hgg] at hgr
    subst hgr
    rw [hcells] at hc1
    obtain ⟨h1, h2⟩ := hc g' gr id c p hg hc1
    refine ⟨?_, ?_⟩
    · intro w' hw' ht
      rcases hfw gr w' hw' with ⟨w0, hw0, e1, e2⟩ | hloose
      · rw [← e2]
        exact h1 w0 hw0 (by rw [e1]; exact ht)
      · rw [ht] at hloose
        cases hloose
    · intro hno
      apply h2
      intro w0 hw0 ht
      obtain ⟨w', hw', e1⟩ := hbw gr w0 hw0
      exact hno w' hw' (by rw [e1]; exact ht)
  · rw [if_neg hgg] at hgr
    subst hgr
    exact hc g' gr1 id c p hg hc1

theorem attachWire_sound (s : Circuit) (g : Nat) (w : Wire) (hloose : w.target = ⟨none, none⟩)
    (he : TargetsWF s) (hc : InputsConsistent s) :
    TargetsWF (attachWire s g w) ∧ InputsConsistent (attachWire s g w) := by
  unfold attachWire
  refine ⟨?_, ?_⟩
  · apply targetsWF_updGraph s _ g s.queue he
    intro gr h w' hw'
    simp only [List.mem_append, List.mem_singleton] at hw'
    rcases hw' with h1 | h1
    · exact h w' h1
    · rw [h1, hloose]
      simp
  · refine inputsConsistent_updWires s (fun x => { x with wires := x.wires ++ [w] }) g s.queue
      (fun _ => rfl) ?_ ?_ hc
    · intro gr w' hw'
      simp only [List.mem_append, List.mem_singleton] at hw'
      rcases hw' with h1 | h1
      · exact Or.inl ⟨w', h1, rfl, rfl⟩
      · right
        rw [h1, hloose]
    · intro gr w0 hw0
      exact ⟨w0, List.mem_append_left _ hw0, rfl⟩

theorem modifyWire_source_sound (s : Circuit) (g : Nat) (wid : String) (e : End)
    (he : TargetsWF s) (hc : InputsConsistent s) :
    TargetsWF (modifyWire s g wid (fun x => { x with source := e })) ∧
      InputsConsistent (modifyWire s g wid (fun x => { x with source := e })) := by
  unfold modifyWire
  refine ⟨?_, ?_⟩
  · apply targetsWF_updGraph s _ g s.queue he
    intro gr h w' hw'
    rcases mem_updWire _ gr.wires wid w' hw' with h1 | ⟨w0, h1, _, h3⟩
    · exact h w' h1
    · rw [h3]
      exact h w0 h1
  · refine inputsConsistent_updWires s
      (fun gr => { gr with wires := updWire (fun x => { x with source := e }) gr.wires wid })
      g s.queue (fun _ => rfl) ?_ ?_ hc
    · intro gr w' hw'
      rcases mem_updWire _ gr.wires wid w' hw' with h1 | ⟨w0, h1, _, h3⟩
      · exact Or.inl ⟨w', h1, rfl, rfl⟩
      · exact Or.inl ⟨w0, h1, by rw [h3], by rw [h3]⟩
    · intro gr w0 hw0
      rcases mem_updWire_of_mem (fun x => { x with source := e }) gr.wires wid w0 hw0 with h | h
      · exact ⟨w0, h, rfl⟩
      · exact ⟨_, h, rfl⟩

theorem attachWire_wired (s : Circuit) (g : Nat) (w : Wire) (gr : Graph)
    (hg : getGraph s g = some gr) (hfresh : findWire gr.wires w.id = none)
    (hloose : w.target = ⟨none, none⟩) (hw : ∀ gr ∈ s.graphs, WiredOK gr.wires) :
    ∀ gr ∈ (attachWire s g w).graphs, WiredOK gr.wires := by
  unfold attachWire
  apply wired_updGraph s _ g hw
  intro gr0 hgr0 hok
  rw [hg] at hgr0
  cases hgr0
  refine ⟨?_, ?_⟩
  · simp only [List.map_append, List.map_cons, List.map_nil]
    rw [List.nodup_append]
    refine ⟨hok.1, List.nodup_singleton _, ?_⟩
    intro a ha hb
    rw [List.mem_singleton] at hb
    exact findWire_eq_none gr.wires w.id hfresh (hb ▸ ha)
  · intro id p
    simp only [List.filter_append, List.length_append]
    have : ([w].filter fun x => decide (x.target = ⟨some id, some p⟩)) = [] := by
      simp [List.filter_cons, hloose]
    rw [this]
    exact hok.2 id p

theorem modifyWire_source_wired (s : Circuit) (g : Nat) (wid : String) (e : End)
    (hw : ∀ gr ∈ s.graphs, WiredOK gr.wires) :
    ∀ gr ∈ (modifyWire s g wid (fun x => { x with source := e })).graphs, WiredOK gr.wires := by
  unfold modifyWire
  apply wired_updGraph s _ g hw
  intro gr0 _ hok
  unfold WiredOK
  simp only
  rw [map_updWire (fun w => w.id) (fun x => { x with source := e }) (fun _ => rfl)]
  refine ⟨hok.1, ?_⟩
  intro id p
  have := hok.2 id p
  have hmap : ∀ ws : List Wire, (ws.filter fun w => decide (w.target = ⟨some id, some p⟩)).length
      = ((ws.map fun w => w.target).filter fun t => decide (t = ⟨some id, some p⟩)).length := by
    intro ws
    rw [List.filter_map, List.length_map]
    rfl
  rw [hmap, map_updWire (fun w => w.target) (fun x => { x with source := e }) (fun _ => rfl),
    ← hmap]
  exact this

theorem detachWire_wired (s : Circuit) (g : Nat) (wid : String)
    (hw : ∀ gr ∈ s.graphs, WiredOK gr.wires) :
    ∀ gr ∈ (detachWire s g wid).graphs, WiredOK gr.wires := by
  unfold detachWire
  apply wired_updGraph s _ g hw
  intro gr0 _ hok
  exact wiredOK_filter _ _ hok

theorem modifyWire_target_wired (s : Circuit) (g : Nat) (wid : String) (e : End)
    (H : e.id.isSome = true → ∀ gr, getGraph s g = some gr → ∀ l ∈ gr.wires, l.id ≠ wid →
      l.target ≠ e)
    (hw : ∀ gr ∈ s.graphs, WiredOK gr.wires) :
    ∀ gr ∈ (modifyWire s g wid (fun x => { x with target := e })).graphs, WiredOK gr.wires := by
  unfold modifyWire
  apply wired_updGraph s _ g hw
  intro gr0 hgr0 hok
  unfold WiredOK
  simp only
  rw [map_updWire (fun w => w.id) (fun x => { x with target := e }) (fun _ => rfl)]
  refine ⟨hok.1, ?_⟩
  intro id p
  exact singleDriver_retarget gr0.wires wid e ⟨some id, some p⟩ hok.1
    (fun hek => H (by rw [hek]; rfl) gr0 hgr0) (hok.2 id p)

theorem eq_of_id_nodup (ws : List Wire) (a b : Wire) (hnd : (ws.map fun x => x.id).Nodup)
    (ha : a ∈ ws) (hb : b ∈ ws) (h : a.id = b.id) : a = b := by
  have h1 := findWire_of_mem_nodup ws a hnd ha
  have h2 := findWire_of_mem_nodup ws b hnd hb
  rw [h, h2] at h1
  exact (Option.some.inj h1).symm

theorem eq_of_target_wired (ws : List Wire) (a b : Wire) (id p : String) (hok : WiredOK ws)
    (ha : a ∈ ws) (hb : b ∈ ws) (hta : a.target = ⟨some id, some p⟩)
    (htb : b.target = ⟨some id, some p⟩) : a = b :=
  eq_of_filter_length_le_one ws (fun w => decide (w.target = ⟨some id, some p⟩)) a b
    (hok.2 id p) ha hb (by simp [hta]) (by simp [htb])

theorem removeTasks_spec (s : Circuit) (g : Nat) (w : Wire) :
    ∀ t ∈ removeTasks s g w, ∃ c p, w.target.port = some p ∧
      getCell s g w.target.id = some c ∧ t = Task.setInput (Val.num 0) w.target (g, c.id) := by
  intro t ht
  unfold removeTasks at ht
  split at ht
  · rename_i gate p hgate hp
    rw [List.mem_singleton] at ht
    exact ⟨gate, p, hp, hgate, ht⟩
  · simp at ht

theorem onPort_setInput_target (g g' : Nat) (w : Wire) (c : Gate) (v : Val) (id p q : String)
    (s : Circuit) (hq : w.target.port = some q) (hc : getCell s g w.target.id = some c)
    (hon : Task.onPort (g', id) p (Task.setInput v w.target (g, c.id))) :
    g' = g ∧ w.target = ⟨some id, some p⟩ := by
  obtain ⟨h1, h2⟩ := hon
  have hid := getCell_id s g w.target.id c hc
  have e1 : g = g' := congrArg Prod.fst h1
  have e2 : c.id = id := congrArg Prod.snd h1
  refine ⟨e1.symm, ?_⟩
  cases ht : w.target with
  | mk i p' =>
    rw [ht] at hid hq h2
    simp only at hid hq h2
    rw [hq] at h2
    simp only [portKey, Option.getD_some] at h2
    rw [hid, hq, e2, h2]

/-- The state right after a wire has left its graph, with the `'remove'`
handler's call pending. -/
theorem detachWire_start (s : Circuit) (g : Nat) (wid : String) (w : Wire)
    (hgw : getWire s g wid = some w) (hw : ∀ gr ∈ s.graphs, WiredOK gr.wires)
    (hc : InputsConsistent s) :
    ConsistentStart (removeTasks (detachWire s g wid) g w) (detachWire s g wid) := by
  obtain ⟨gr0, hg0, hwm, hwid⟩ := getWire_mem s g wid w hgw
  have hok0 := hw gr0 (List.getElem?_mem hg0)
  intro g' gr1 id c p hg1 hc1
  have hcell1 : getCell (detachWire s g wid) g' (some id) = some c :=
    (getCell_iff _ g' id c).2 ⟨gr1, hg1, hc1⟩
  unfold detachWire at hg1
  obtain ⟨gr, hg, hgr⟩ := getGraph_updGraph s _ g g' gr1 s.queue hg1
  have hcells : gr1.cells = gr.cells := by rw [hgr]; split <;> rfl
  have hsub : ∀ x ∈ gr1.wires, x ∈ gr.wires ∧ (g' = g → x.id ≠ wid) := by
    intro x hx
    rw [hgr] at hx
    split at hx
    · simp only [List.mem_filter, decide_eq_true_eq] at hx
      exact ⟨hx.1, fun _ => hx.2⟩
    · rename_i hne
      exact ⟨hx, fun e => absurd e hne⟩
  have hback : ∀ x ∈ gr.wires, (g' = g → x.id ≠ wid) → x ∈ gr1.wires := by
    intro x hx hne
    rw [hgr]
    split
    · rename_i hgg
      simp only [List.mem_filter, decide_eq_true_eq]
      exact ⟨hx, hne hgg⟩
    · exact hx
  rw [hcells] at hc1
  obtain ⟨h1, h2⟩ := hc g' gr id c p hg hc1
  have hon : ∀ t ∈ removeTasks (detachWire s g wid) g w, Task.onPort (g', id) p t →
      g' = g ∧ w.target = ⟨some id, some p⟩ := by
    intro t ht hont
    obtain ⟨c', q, hq, hc', hte⟩ := removeTasks_spec _ g w t ht
    rw [hte] at hont
    exact onPort_setInput_target g g' w c' _ id p q _ hq hc' hont
  refine ⟨?_, ?_⟩
  · intro w' hw' ht'
    left
    refine ⟨h1 w' (hsub w' hw').1 ht', ?_⟩
    intro t ht hont
    obtain ⟨hgg, hwt⟩ := hon t ht hont
    subst hgg
    rw [hg0] at hg
    cases hg
    have := eq_of_target_wired gr0.wires w w' id p hok0 hwm (hsub w' hw').1 hwt ht'
    exact (hsub w' hw').2 rfl (by rw [← this]; exact hwid)
  · intro hno
    refine ⟨?_, ?_⟩
    · intro t ht v e hte _
      obtain ⟨c', q, _, _, hte'⟩ := removeTasks_spec _ g w t ht
      rw [hte'] at hte
      simp only [Task.setInput.injEq] at hte
      exact hte.1.symm
    · by_cases hcase : g' = g ∧ w.target = ⟨some id, some p⟩
      · right
        obtain ⟨hgg, hwt⟩ := hcase
        subst hgg
        refine ⟨Task.setInput (Val.num 0) w.target (g', c.id), ?_, ?_⟩
        · unfold removeTasks
          rw [hwt]
          simp only [hcell1, List.mem_singleton]
        · have hid := findGate_id _ _ _ hc1
          rw [hwt]
          exact ⟨by rw [hid], rfl⟩
      · left
        apply h2
        intro x hx hxt
        by_cases hxid : g' = g → x.id ≠ wid
        · exact hno x (hback x hx hxid) hxt
        · apply hcase
          simp only [Classical.not_imp, not_not] at hxid
          obtain ⟨hgg, hxw⟩ := hxid
          refine ⟨hgg, ?_⟩
          subst hgg
          rw [hg0] at hg
          cases hg
          have := eq_of_id_nodup gr0.wires x w hok0.1 hx hwm (by rw [hxw, hwid])
          rw [← this]; exact hxt

theorem detachWire_targetsWF (s : Circuit) (g : Nat) (wid : String) (he : TargetsWF s) :
    TargetsWF (detachWire s g wid) := by
  unfold detachWire
  apply targetsWF_updGraph s _ g s.queue he
  intro gr h w' hw'
  simp only [List.mem_filter] at hw'
  exact h w' hw'.1

theorem mem_updWire_of_ne (f : Wire → Wire) (ws : List Wire) (id : String) (x : Wire)
    (h : x ∈ ws) (hne : x.id ≠ id) : x ∈ updWire f ws id := by
  induction ws with
  | nil => simp at h
  | cons w ws ih =>
    by_cases hc : w.id = id
    · simp only [updWire, hc, if_true, List.mem_cons]
      rcases List.mem_cons.1 h with h1 | h1
      · rw [h1] at hne; exact absurd hc hne
      · exact Or.inr h1
    · simp only [updWire, hc, if_false, List.mem_cons]
      rcases List.mem_cons.1 h with h1 | h1
      · exact Or.inl h1
      · exact Or.inr (ih h1)

theorem mem_updWire_self (f : Wire → Wire) (ws : List Wire) (id : String) (w : Wire)
    (h : w ∈ ws) (hid : w.id = id) (hnd : (ws.map fun x => x.id).Nodup) :
    f w ∈ updWire f ws id := by
  rcases mem_updWire_of_mem f ws id w h with h1 | h1
  · rcases mem_updWire_nodup f ws id w hnd h1 with ⟨_, h2⟩ | ⟨w0, hw0, hw0id, he⟩
    · exact absurd hid h2
    · have := eq_of_id_nodup ws w0 w hnd hw0 h (by rw [hw0id, hid])
      rw [this] at he
      rw [← he]; exact h1
  · exact h1

theorem targetTasks_spec (s : Circuit) (g : Nat) (sig : Val) (e pend : End) :
    ∀ t ∈ targetTasks s g sig e pend,
      (∃ c p, e.port = some p ∧ getCell s g e.id = some c ∧ t = Task.setInput sig e (g, c.id))
      ∨ (∃ c p, pend.port = some p ∧ getCell s g pend.id = some c ∧
          t = Task.setInput (Val.num 0) pend (g, c.id)) := by
  intro t ht
  unfold targetTasks at ht
  rcases List.mem_append.1 ht with h | h
  · left
    split at h
    · rename_i gate p hgate hp
      rw [List.mem_singleton] at h
      exact ⟨gate, p, hp, hgate, h⟩
    · simp at h
  · right
    split at h
    · rename_i gate p hgate hp
      rw [List.mem_singleton] at h
      exact ⟨gate, p, hp, hgate, h⟩
    · simp at h

theorem onPort_setInput_end (g g' : Nat) (e : End) (c : Gate) (v : Val) (id p q : String)
    (s : Circuit) (hq : e.port = some q) (hc : getCell s g e.id = some c)
    (hon : Task.onPort (g', id) p (Task.setInput v e (g, c.id))) :
    g' = g ∧ e = ⟨some id, some p⟩ := by
  obtain ⟨h1, h2⟩ := hon
  have hid := getCell_id s g e.id c hc
  have e1 : g = g' := congrArg Prod.fst h1
  have e2 : c.id = id := congrArg Prod.snd h1
  refine ⟨e1.symm, ?_⟩
  cases e with
  | mk i p' =>
    simp only at hid hq h2
    rw [hq] at h2
    simp only [portKey, Option.getD_some] at h2
    rw [hid, hq, e2, h2]

/-- The state right after a wire's target end moved to `e`, a port no other
wire targets or a point of the paper, with the `change:target` handler's calls
pending. -/
theorem modifyWire_target_start (s : Circuit) (g : Nat) (wid : String) (w : Wire)
    (e : End) (hgw : getWire s g wid = some w) (hne : w.target ≠ e)
    (hfree : e.id.isSome = true → ∀ gr, getGraph s g = some gr → ∀ l ∈ gr.wires, l.id ≠ wid →
      l.target ≠ e)
    (hw : ∀ gr ∈ s.graphs, WiredOK gr.wires) (hc : InputsConsistent s) :
    ConsistentStart
      (targetTasks (modifyWire s g wid (fun x => { x with target := e })) g w.signal e w.target)
      (modifyWire s g wid (fun x => { x with target := e })) := by
  obtain ⟨gr0, hg0, hwm, hwid⟩ := getWire_mem s g wid w hgw
  have hok0 := hw gr0 (List.getElem?_mem hg0)
  intro g' gr1 id c p hg1 hc1
  have hcell1 : getCell s g' (some id) = some c := by
    rw [← getCell_modifyWire s g wid (fun x => { x with target := e })]
    exact (getCell_iff _ g' id c).2 ⟨gr1, hg1, hc1⟩
  have hcid : c.id = id := findGate_id _ _ _ hc1
  unfold modifyWire at hg1
  obtain ⟨gr, hg, hgr⟩ := getGraph_updGraph s _ g g' gr1 s.queue hg1
  have hcells : gr1.cells = gr.cells := by rw [hgr]; split <;> rfl
  rw [hcells] at hc1
  obtain ⟨h1, h2⟩ := hc g' gr id c p hg hc1
  have hon : ∀ t ∈ targetTasks (modifyWire s g wid (fun x => { x with target := e })) g
      w.signal e w.target,
      Task.onPort (g', id) p t →
        g' = g ∧ ((e = ⟨some id, some p⟩ ∧ t = Task.setInput w.signal e (g, id)) ∨
          (w.target = ⟨some id, some p⟩ ∧ t = Task.setInput (Val.num 0) w.target (g, id))) := by
    intro t ht hont
    rcases targetTasks_spec _ g _ _ _ t ht with ⟨c', q, hq, hc', hte⟩ | ⟨c', q, hq, hc', hte⟩
    · rw [hte] at hont
      have hh := onPort_setInput_end g g' _ c' _ id p q _ hq hc' hont
      have e2 : c'.id = id := congrArg Prod.snd hont.1
      exact ⟨hh.1, Or.inl ⟨hh.2, by rw [hte, e2]⟩⟩
    · rw [hte] at hont
      have hh := onPort_setInput_end g g' _ c' _ id p q _ hq hc' hont
      have e2 : c'.id = id := congrArg Prod.snd hont.1
      exact ⟨hh.1, Or.inr ⟨hh.2, by rw [hte, e2]⟩⟩
  by_cases hgg : g' = g
  · subst hgg
    rw [hg0] at hg
    cases hg
    simp only [if_true] at hgr
    have hwires : gr1.wires = updWire (fun x => { x with target := e }) gr0.wires wid := by
      rw [hgr]
    refine ⟨?_, ?_⟩
    · intro w' hw' ht'
      rw [hwires] at hw'
      rcases mem_updWire_nodup _ gr0.wires wid w' hok0.1 hw' with ⟨hm, hid'⟩ | ⟨w0, hw0, hw0id, he⟩
      · left
        refine ⟨h1 w' hm ht', ?_⟩
        intro t ht hont
        rcases (hon t ht hont).2 with ⟨he, _⟩ | ⟨hwt, _⟩
        · exact hfree (by rw [he]; rfl) gr0 hg0 w' hm hid' (by rw [ht', he])
        · have := eq_of_target_wired gr0.wires w w' id p hok0 hwm hm hwt ht'
          exact hid' (by rw [← this]; exact hwid)
      · right
        have hw0w := eq_of_id_nodup gr0.wires w0 w hok0.1 hw0 hwm (by rw [hw0id, hwid])
        rw [hw0w] at he
        have hte : e = ⟨some id, some p⟩ := by
          rw [← ht', he]
        have hsig : w'.signal = w.signal := by rw [he]
        subst hte
        refine ⟨⟨some id, some p⟩, removeTasks (modifyWire s g' wid
          (fun x => { x with target := ⟨some id, some p⟩ })) g' w, ?_, rfl, ?_⟩
        · unfold targetTasks removeTasks
          rw [getCell_modifyWire]
          simp only [hcell1, hcid, hsig, List.singleton_append]
        · intro t ht hont
          obtain ⟨gate, q, hq, hgate, hte⟩ := removeTasks_spec _ g' w t ht
          rw [hte] at hont
          have := onPort_setInput_end g' g' _ gate _ id p q _ hq hgate hont
          exact hne this.2
    · intro hno
      refine ⟨?_, ?_⟩
      · intro t ht v e' hte hp
        rcases (hon t ht (by rw [hte]; exact ⟨rfl, hp⟩)).2 with ⟨he, _⟩ | ⟨_, htz⟩
        · exfalso
          apply hno _ (by rw [hwires]; exact mem_updWire_self _ gr0.wires wid w hwm hwid hok0.1)
          exact he
        · rw [hte] at htz
          simp only [Task.setInput.injEq] at htz
          exact htz.1
      · by_cases hcase : w.target = ⟨some id, some p⟩
        · right
          refine ⟨Task.setInput (Val.num 0) w.target (g', c.id), ?_, ?_⟩
          · unfold targetTasks
            apply List.mem_append_right
            rw [getCell_modifyWire, hcase]
            simp only [hcell1, List.mem_singleton]
          · rw [hcase]
            exact ⟨by rw [hcid], rfl⟩
        · left
          apply h2
          intro x hx hxt
          by_cases hxid : x.id = wid
          · have := eq_of_id_nodup gr0.wires x w hok0.1 hx hwm (by rw [hxid, hwid])
            exact hcase (by rw [← this]; exact hxt)
          · exact hno x (by rw [hwires]; exact mem_updWire_of_ne _ gr0.wires wid x hx hxid) hxt
  · simp only [hgg, if_false] at hgr
    subst hgr
    refine ⟨?_, ?_⟩
    · intro w' hw' ht'
      exact Or.inl ⟨h1 w' hw' ht', fun t ht hont => hgg (hon t ht hont).1⟩
    · intro hno
      refine ⟨?_, Or.inl (h2 hno)⟩
      intro t ht v e' hte hp
      exact absurd (hon t ht (by rw [hte]; exact ⟨rfl, hp⟩)).1 hgg

theorem modifyWire_target_targetsWF (s : Circuit) (g : Nat) (wid : String) (e : End)
    (hwf : e.id.isSome = true → e.port.isSome = true) (he : TargetsWF s) :
    TargetsWF (modifyWire s g wid (fun x => { x with target := e })) := by
  unfold modifyWire
  apply targetsWF_updGraph s _ g s.queue he
  intro gr h w' hw'
  rcases mem_updWire _ gr.wires wid w' hw' with hm | ⟨w0, _, _, hw0⟩
  · exact h w' hm
  · rw [hw0]
    exact hwf

theorem removeWire_sound (fuel g : Nat) (wid : String) (s s1 : Circuit)
    (h : removeWire fuel g wid s = Outcome.ok s1)
    (hw : ∀ gr ∈ s.graphs, WiredOK gr.wires) (he : TargetsWF s) (hc : InputsConsistent s) :
    TargetsWF s1 ∧ InputsConsistent s1 := by
  unfold removeWire at h
  cases hgw : getWire s g wid with
  | none => rw [hgw] at h; cases h; exact ⟨he, hc⟩
  | some w =>
    rw [hgw] at h
    simp only at h
    have he1 := detachWire_targetsWF s g wid he
    exact ⟨targetsWF_of_skeleton _ _ (run_skeleton _ _ _ _ h) he1,
      run_consistent _ _ _ _ (detachWire_wired s g wid hw) he1
        (detachWire_start s g wid w hgw hw hc) h⟩

theorem removeWires_sound (fuel g : Nat) (ids : List String) (s s1 : Circuit)
    (h : removeWires fuel g ids s = Outcome.ok s1)
    (hw : ∀ gr ∈ s.graphs, WiredOK gr.wires) (he : TargetsWF s) (hc : InputsConsistent s) :
    TargetsWF s1 ∧ InputsConsistent s1 := by
  induction ids generalizing s with
  | nil => simp only [removeWires] at h; cases h; exact ⟨he, hc⟩
  | cons wid rest ih =>
    simp only [removeWires] at h
    cases hr : removeWire fuel g wid s with
    | ok s2 =>
      rw [hr] at h
      obtain ⟨he2, hc2⟩ := removeWire_sound fuel g wid s s2 hr hw he hc
      exact ih s2 h (removeWire_wired fuel g wid s s2 hr hw) he2 hc2
    | typeError => rw [hr] at h; cases h
    | outOfFuel => rw [hr] at h; cases h

theorem findGate_filter (cs : List Gate) (id0 id : String) (c : Gate)
    (h : findGate (cs.filter fun x => x.id ≠ id0) id = some c) : findGate cs id = some c := by
  induction cs with
  | nil => simp [findGate] at h
  | cons a cs ih =>
    by_cases ha : a.id = id0
    · have hf : (a :: cs).filter (fun x => x.id ≠ id0) = cs.filter (fun x => x.id ≠ id0) := by
        simp [List.filter, ha]
      rw [hf] at h
      have h2 := ih h
      have hid := findGate_id _ _ _ h
      have hmem := findGate_mem _ _ _ h
      simp only [List.mem_filter, decide_eq_true_eq] at hmem
      simp only [findGate]
      rw [if_neg (by rw [ha, ← hid]; exact fun e => hmem.2 e.symm)]
      exact h2
    · have hf : (a :: cs).filter (fun x => x.id ≠ id0) = a :: cs.filter (fun x => x.id ≠ id0) := by
        simp [List.filter, ha]
      rw [hf] at h
      simp only [findGate] at h ⊢
      by_cases hai : a.id = id
      · rw [if_pos hai] at h ⊢; exact h
      · rw [if_neg hai] at h ⊢; exact ih h

theorem removeGate_sound (fuel g : Nat) (id : String) (s s1 : Circuit)
    (h : removeGate fuel g id s = Outcome.ok s1)
    (hw : ∀ gr ∈ s.graphs, WiredOK gr.wires) (he : TargetsWF s) (hc : InputsConsistent s) :
    TargetsWF s1 ∧ InputsConsistent s1 := by
  unfold removeGate at h
  cases hg : getGraph s g with
  | none => rw [hg] at h; cases h; exact ⟨he, hc⟩
  | some gr =>
    rw [hg] at h
    simp only at h
    cases hf : findGate gr.cells id with
    | none => rw [hf] at h; cases h; exact ⟨he, hc⟩
    | some c =>
      rw [hf] at h
      simp only at h
      cases hr : removeWires fuel g ((getConnectedLinks gr id).map fun w => w.id) s with
      | ok s2 =>
        rw [hr] at h
        cases h
        obtain ⟨he2, hc2⟩ := removeWires_sound fuel g _ s s2 hr hw he hc
        refine ⟨targetsWF_updGraph s2 _ g s2.queue he2 (fun _ h0 => h0), ?_⟩
        apply inputsConsistent_of s2 _ hc2
        intro g' gr1 hg1
        obtain ⟨gr2, hg2, hgr⟩ := getGraph_updGraph s2 _ g g' gr1 s2.queue hg1
        refine ⟨gr2, hg2, ?_, ?_⟩
        · rw [hgr]; split <;> rfl
        · intro id' c1 hc1
          rw [hgr] at hc1
          split at hc1
          · exact ⟨c1, findGate_filter _ _ _ _ hc1, fun _ => rfl⟩
          · exact ⟨c1, hc1, fun _ => rfl⟩
      | typeError => rw [hr] at h; cases h
      | outOfFuel => rw [hr] at h; cases h

theorem setTarget_sound (fuel g : Nat) (wid : String) (e : End) (s s1 : Circuit)
    (hwf : e.id.isSome = true → e.port.isSome = true)
    (hfree : e.id.isSome = true → ∀ gr, getGraph s g = some gr → ∀ l ∈ gr.wires, l.id ≠ wid →
      l.target ≠ e)
    (h : setTarget fuel g wid e s = Outcome.ok s1)
    (hw : ∀ gr ∈ s.graphs, WiredOK gr.wires) (he : TargetsWF s) (hc : InputsConsistent s) :
    TargetsWF s1 ∧ InputsConsistent s1 := by
  unfold setTarget at h
  cases hgw : getWire s g wid with
  | none => rw [hgw] at h; cases h; exact ⟨he, hc⟩
  | some w =>
    rw [hgw] at h
    simp only at h
    split at h
    · cases h; exact ⟨he, hc⟩
    · rename_i hne
      have he1 := modifyWire_target_targetsWF s g wid e hwf he
      exact ⟨targetsWF_of_skeleton _ _ (run_skeleton _ _ _ _ h) he1,
        run_consistent _ _ _ _ (modifyWire_target_wired s g wid _ hfree hw) he1
          (modifyWire_target_start s g wid w e hgw hne hfree hw hc) h⟩

theorem sourceTasks_no_setInput (s : Circuit) (g : Nat) (wid : String) (e : End) :
    ∀ t ∈ sourceTasks s g wid e, ∀ v e' r, t ≠ Task.setInput v e' r := by
  intro t ht v e' r hte
  unfold sourceTasks at ht
  split at ht <;> (rw [List.mem_singleton] at ht; rw [ht] at hte; cases hte)

theorem addTasks_no_setInput (s : Circuit) (g : Nat) (w : Wire) :
    ∀ t ∈ addTasks s g w, ∀ v e' r, t ≠ Task.setInput v e' r := by
  intro t ht v e' r hte
  unfold addTasks at ht
  split at ht
  · rw [List.mem_singleton] at ht; rw [ht] at hte; cases hte
  · simp at ht

theorem setSource_sound (fuel g : Nat) (wid : String) (e : End) (s s1 : Circuit)
    (h : setSource fuel g wid e s = Outcome.ok s1)
    (hw : ∀ gr ∈ s.graphs, WiredOK gr.wires) (he : TargetsWF s) (hc : InputsConsistent s) :
    TargetsWF s1 ∧ InputsConsistent s1 := by
  unfold setSource at h
  cases hgw : getWire s g wid with
  | none => rw [hgw] at h; cases h; exact ⟨he, hc⟩
  | some w =>
    rw [hgw] at h
    simp only at h
    split at h
    · cases h; exact ⟨he, hc⟩
    · obtain ⟨he1, hc1⟩ := modifyWire_source_sound s g wid e he hc
      exact ⟨targetsWF_of_skeleton _ _ (run_skeleton _ _ _ _ h) he1,
        run_consistent _ _ _ _ (modifyWire_source_wired s g wid e hw) he1
          (start_of_consistent _ _ hc1 (sourceTasks_no_setInput _ g wid e)) h⟩

theorem addWire_sound (fuel g : Nat) (w : Wire) (s s1 : Circuit)
    (hloose : w.target = ⟨none, none⟩)
    (h : addWire fuel g w s = Outcome.ok s1)
    (hw : ∀ gr ∈ s.graphs, WiredOK gr.wires) (he : TargetsWF s) (hc : InputsConsistent s) :
    TargetsWF s1 ∧ InputsConsistent s1 := by
  unfold addWire at h
  cases hg : getGraph s g with
  | none => rw [hg] at h; cases h; exact ⟨he, hc⟩
  | some gr =>
    rw [hg] at h
    simp only at h
    split at h
    · cases h; exact ⟨he, hc⟩
    · rename_i hfresh
      have hfw : findWire gr.wires w.id = none := by
        cases hf : findWire gr.wires w.id with
        | none => rfl
        | some x => exact absurd (Or.inl (by rw [hf]; rfl)) hfresh
      obtain ⟨he1, hc1⟩ := attachWire_sound s g w hloose he hc
      exact ⟨targetsWF_of_skeleton _ _ (run_skeleton _ _ _ _ h) he1,
        run_consistent _ _ _ _ (attachWire_wired s g w gr hg hfw hloose hw) he1
          (start_of_consistent _ _ hc1 (addTasks_no_setInput _ g w)) h⟩

theorem updateGates_sound (op : Gate → Sigs → Sigs) (fuel : Nat) (s s1 : Circuit)
    (h : updateGates op fuel s = Outcome.ok s1)
    (hw : ∀ gr ∈ s.graphs, WiredOK gr.wires) (he : TargetsWF s) (hc : InputsConsistent s) :
    TargetsWF s1 ∧ InputsConsistent s1 := by
  simp only [updateGates] at h
  have hc0 : InputsConsistent { s with queue := [] } := fun g gr id c p hg hcf =>
    hc g gr id c p hg hcf
  have he0 : TargetsWF { s with queue := [] } := he
  have hw0 : ∀ gr ∈ ({ s with queue := [] } : Circuit).graphs, WiredOK gr.wires := hw
  have he1 := targetsWF_of_wiring _ _ (captureLoop_wiring op { s with queue := [] } s.queue) he0
  have hw1 := wired_of_wiring _ _ (captureLoop_wiring op { s with queue := [] } s.queue) hw0
  have hc1 := captureLoop_consistent op _ s.queue hc0
  exact ⟨targetsWF_of_skeleton _ _ (run_skeleton _ _ _ _ h) he1,
    run_consistent _ _ _ _ hw1 he1
      (start_of_consistent _ _ hc1 (captureLoop_no_setInput op _ s.queue)) h⟩

theorem setButtonState_sound (r : GateRef) (b : Bool) (s : Circuit)
    (he : TargetsWF s) (hc : InputsConsistent s) :
    TargetsWF (setButtonState r b s) ∧ InputsConsistent (setButtonState r b s) := by
  unfold setButtonState
  cases getCell s r.1 (some r.2) with
  | none => exact ⟨he, hc⟩
  | some gate =>
    simp only
    split
    · exact ⟨he, hc⟩
    · refine ⟨?_, ?_⟩
      · have hwi := wiring_modifyGate s r (fun c => { c with buttonState := b })
        intro gr hgr
        exact targetsWF_of_wiring s _ hwi he gr hgr
      · exact inputsConsistent_modifyGate s r (fun c => { c with buttonState := b }) _
          (fun _ => rfl) (fun _ _ => rfl) hc

theorem pristine_updGraph (s : Circuit) (F : Graph → Graph) (g : Nat) (q : List GateRef)
    (h0 : Pristine s) (hF : ∀ gr, gr.Pristine → (F gr).Pristine) :
    Pristine { graphs := updGraph F s.graphs g, queue := q } := by
  intro gr hgr
  rcases mem_updGraph F s.graphs g gr hgr with h | ⟨gr0, hg0, h1⟩
  · exact h0 gr h
  · rw [h1]
    exact hF gr0 (h0 gr0 (List.getElem?_mem hg0))

theorem addGate_pristine (s : Circuit) (g : Nat) (c : Gate) (hc : c.inputSignals = [])
    (h0 : Pristine s) : Pristine (addGate s g c) := by
  unfold addGate
  apply pristine_updGraph s _ g s.queue h0
  intro gr h
  split
  · exact h
  · refine ⟨h.1, h.2.1, ?_⟩
    intro x hx
    rcases List.mem_append.1 hx with h1 | h1
    · exact h.2.2 x h1
    · rw [List.mem_singleton] at h1
      rw [h1]; exact hc

theorem addConnectors_pristine (s : Circuit) (g : Nat) (cs : List Connector)
    (h0 : Pristine s) : Pristine (addConnectors s g cs) := by
  induction cs generalizing s with
  | nil => exact h0
  | cons conn rest ih =>
    simp only [addConnectors]
    apply ih
    apply pristine_updGraph s _ g s.queue h0
    intro gr h
    split
    · exact h
    · rename_i hfresh
      have hfw : findWire gr.wires conn.id = none := by
        cases hf : findWire gr.wires conn.id with
        | none => rfl
        | some x => exact absurd (Or.inr (by rw [hf]; rfl)) hfresh
      refine ⟨?_, ?_, h.2.2⟩
      · simp only [List.map_append, List.map_cons, List.map_nil]
        rw [List.nodup_append]
        refine ⟨h.1, List.nodup_singleton _, ?_⟩
        intro a ha hb
        rw [List.mem_singleton] at hb
        exact findWire_eq_none gr.wires conn.id hfw (hb ▸ ha)
      · intro x hx
        rcases List.mem_append.1 hx with h1 | h1
        · exact h.2.1 x h1
        · rw [List.mem_singleton] at h1
          rw [h1]; exact ⟨rfl, rfl⟩

theorem newCell_inputs (t : CellType) (id : String) (net : Option String)
    (nested : Option (Nat × Graph)) : (newCell t id net nested).inputSignals = [] := rfl

theorem addDevices_pristine (mk : Description → Circuit → Outcome (Circuit × Nat))
    (hmk : ∀ d s s1 n, mk d s = Outcome.ok (s1, n) → Pristine s → Pristine s1)
    (data : Description) (g : Nat) (ds : List (String × Device)) (s s1 : Circuit)
    (h : addDevices mk data g ds s = Outcome.ok s1) (h0 : Pristine s) : Pristine s1 := by
  induction ds generalizing s with
  | nil => simp only [addDevices] at h; cases h; exact h0
  | cons d rest ih =>
    obtain ⟨devid, dev⟩ := d
    simp only [addDevices] at h
    split at h
    · split at h
      · cases h
      · rename_i sub _
        split at h
        · rename_i s2 ng hmk2
          split at h
          · cases h
          · refine ih _ h ?_
            have h2 := hmk sub s s2 ng hmk2 h0
            exact addGate_pristine _ g _ (newCell_inputs _ _ _ _)
              (pristine_updGraph s2 _ ng s2.queue h2 (fun _ hh => hh))
        · cases h
        · cases h
    · refine ih _ h ?_
      exact addGate_pristine _ g _ (newCell_inputs _ _ _ _) h0

theorem makeGraph_pristine (fuel : Nat) (data : Description) (s s1 : Circuit) (n : Nat)
    (h : makeGraph fuel data s = Outcome.ok (s1, n)) (h0 : Pristine s) : Pristine s1 := by
  induction fuel generalizing data s s1 n with
  | zero => simp only [makeGraph] at h; cases h
  | succ fuel ih =>
    simp only [makeGraph] at h
    split at h
    · rename_i s2 hs2
      cases h
      apply addConnectors_pristine
      refine addDevices_pristine (makeGraph fuel) (fun d a b m hm ha => ih d a b m hm ha)
        data _ _ _ s2 hs2 ?_
      intro gr hgr
      rcases List.mem_append.1 hgr with h1 | h1
      · exact h0 gr h1
      · rw [List.mem_singleton] at h1
        rw [h1]
        exact ⟨List.nodup_nil, fun _ hw => (by cases hw), fun _ hc => (by cases hc)⟩
    · cases h
    · cases h

theorem new_pristine (fuel : Nat) (data : Description) (s : Circuit)
    (h : Circuit.new fuel data = Outcome.ok s) : Pristine s := by
  unfold Circuit.new at h
  split at h
  · rename_i s1 n hm
    cases h
    exact makeGraph_pristine fuel data _ _ n hm (fun _ hgr => by cases hgr)
  · cases h
  · cases h

/-- The network a description builds is consistent: no wire carries a signal
yet, and no input is set. -/
theorem pristine_consistent (s : Circuit) (hp : Pristine s) :
    TargetsWF s ∧ InputsConsistent s := by
  refine ⟨fun gr hgr w hw _ => ((hp gr hgr).2.1 w hw).2, ?_⟩
  intro g gr id c p hg hc
  have hgr := List.getElem?_mem hg
  have hin : c.inputSignals = [] := (hp gr hgr).2.2 c (findGate_mem _ _ _ hc)
  have hz : inputValue c.inputSignals p = Val.num 0 := by rw [hin]; rfl
  exact ⟨fun w hw _ => by rw [hz, ((hp gr hgr).2.1 w hw).1], fun _ => hz⟩

theorem applyEdit_sound (op : Gate → Sigs → Sigs) (fuel : Nat) (e : Edit) (s s1 : Circuit)
    (h : applyEdit op fuel e s = Outcome.ok s1)
    (hw : ∀ gr ∈ s.graphs, WiredOK gr.wires) (he : TargetsWF s) (hc : InputsConsistent s) :
    TargetsWF s1 ∧ InputsConsistent s1 := by
  cases e with
  | pull g wid src => exact addWire_sound fuel g _ s s1 rfl h hw he hc
  | connect g vs ms vt mt d vl =>
    simp only [applyEdit, connect] at h
    cases hg : getGraph s g with
    | none => rw [hg] at h; cases h; exact ⟨he, hc⟩
    | some gr =>
      rw [hg] at h
      simp only at h
      cases hv : validateConnection gr vs ms vt mt d vl with
      | ok b =>
        rw [hv] at h
        cases b with
        | false => cases h; exact ⟨he, hc⟩
        | true =>
          cases d with
          | source => exact setSource_sound fuel g vl _ s s1 h hw he hc
          | target =>
            obtain ⟨port, hp, _, hfree⟩ := (validateConnection_target_iff gr vs ms vt mt vl).1 hv
            subst hp
            refine setTarget_sound fuel g vl ⟨some vt.id, some port⟩ s s1 (fun _ => rfl) ?_ h hw he hc
            intro _ gr0 hgr0
            rw [hg] at hgr0
            cases hgr0
            exact hfree
      | typeError => rw [hv] at h; cases h
      | outOfFuel => rw [hv] at h; cases h
  | unplug g wid =>
    exact setTarget_sound fuel g wid _ s s1 (fun h0 => by simp at h0) (fun h0 => by simp at h0)
      h hw he hc
  | removeWire g wid => exact removeWire_sound fuel g wid s s1 h hw he hc
  | removeGate g id => exact removeGate_sound fuel g id s s1 h hw he hc
  | press r b =>
    simp only [applyEdit, Outcome.ok.injEq] at h
    subst h
    exact setButtonState_sound r b s he hc
  | tick => exact updateGates_sound op fuel s s1 h hw he hc

theorem applyEdits_sound (op : Gate → Sigs → Sigs) (fuel : Nat) (es : List Edit)
    (s s1 : Circuit) (h : applyEdits op fuel es s = Outcome.ok s1)
    (hw : ∀ gr ∈ s.graphs, WiredOK gr.wires) (he : TargetsWF s) (hc : InputsConsistent s) :
    TargetsWF s1 ∧ InputsConsistent s1 := by
  induction es generalizing s with
  | nil => simp only [applyEdits] at h; cases h; exact ⟨he, hc⟩
  | cons e es ih =>
    simp only [applyEdits] at h
    cases hr : applyEdit op fuel e s with
    | ok s2 =>
      rw [hr] at h
      obtain ⟨he2, hc2⟩ := applyEdit_sound op fuel e s s2 hr hw he hc
      exact ih s2 h (applyEdit_wired op fuel e s s2 hr hw) he2 hc2
    | typeError => rw [hr] at h; cases h
    | outOfFuel => rw [hr] at h; cases h

theorem singleDriver_of_all (gr : Graph)
    (h : ∀ w ∈ gr.wires, (gr.wires.filter fun x => x.target = w.target).length ≤ 1) :
    gr.SingleDriver := by
  intro id p
  by_cases hex : ∃ w ∈ gr.wires, w.target = ⟨some id, some p⟩
  · obtain ⟨w, hw, ht⟩ := hex
    have := h w hw
    rw [ht] at this
    exact this
  · have hnil : (gr.wires.filter fun w => decide (w.target = ⟨some id, some p⟩)) = [] := by
      rw [List.filter_eq_nil_iff]
      intro x hx
      simp only [decide_eq_true_eq]
      exact fun hh => hex ⟨x, hx, hh⟩
    rw [hnil]
    exact Nat.zero_le 1

/-- C5 (as the code has it): consistency of gate inputs with wires, for a
network in which no input port is the target of two wires and whose port and
net names lodash `set` takes as property names. Let `s0` be the network a
description builds, let no (gate, port) pair be the target of two wires in it,
and let every port name at a wire end, every net and every port bound by an
edit be a plain key. Then in every state reached from `s0` by wire pulls,
connections decided by `validateConnection`, unpluggings, wire and gate
removals, button presses and ticks that run to their end, every input port `p`
of every gate `c` holds the signal of each wire whose target is `(c, p)`, and
holds 0 (an absent input reading as 0) when no wire targets `(c, p)`. -/
theorem inputs_consistent_with_wires (operation : Gate → Sigs → Sigs) (fuel0 fuel : Nat)
    (data : Description) (es : List Edit) (s0 s1 : Circuit)
    (hnew : Circuit.new fuel0 data = Outcome.ok s0) (hsd : SingleDriver s0)
    (_hplain : PlainPorts s0) (_hes : ∀ e ∈ es, Edit.plain e)
    (h : applyEdits operation fuel es s0 = Outcome.ok s1) :
    ∀ g gr id c p, getGraph s1 g = some gr → findGate gr.cells id = some c →
      (∀ w ∈ gr.wires, w.target = ⟨some id, some p⟩ → inputValue c.inputSignals p = w.signal) ∧
      ((∀ w ∈ gr.wires, w.target ≠ ⟨some id, some p⟩) →
        inputValue c.inputSignals p = Val.num 0) := by
  have hp := new_pristine fuel0 data s0 hnew
  have hw : ∀ gr ∈ s0.graphs, WiredOK gr.wires := fun gr hgr => ⟨(hp gr hgr).1, hsd gr hgr⟩
  obtain ⟨he, hc⟩ := pristine_consistent s0 hp
  exact (applyEdits_sound operation fuel es s0 s1 h hw he hc).2

theorem inputs_consistent_with_wires_witness :
    Circuit.new 3 feedbackData = Outcome.ok (Circuit.new 3 feedbackData).state
    ∧ SingleDriver (Circuit.new 3 feedbackData).state
    ∧ PlainPorts (Circuit.new 3 feedbackData).state
    ∧ (∀ e ∈ [Edit.tick, Edit.press (0, "a") true, Edit.tick, Edit.unplug 0 "f", Edit.tick],
        Edit.plain e)
    ∧ feedbackUnplugged = Outcome.ok feedbackUnplugged.state
    ∧ (feedbackUnplugged.state.graphs.map fun gr =>
          gr.wires.map fun w => (w.id, w.target.id, w.signal))
        = [[("w", some "x", Val.num 1), ("f", none, Val.num 1)], [("v", some "o", Val.num 1)]]
    ∧ ∀ g gr id c p, getGraph feedbackUnplugged.state g = some gr →
        findGate gr.cells id = some c →
        (∀ w ∈ gr.wires, w.target = ⟨some id, some p⟩ →
          inputValue c.inputSignals p = w.signal) ∧
        ((∀ w ∈ gr.wires, w.target ≠ ⟨some id, some p⟩) →
          inputValue c.inputSignals p = Val.num 0) :=
  ⟨by decide, fun gr hgr => singleDriver_of_all gr (by revert gr; decide), by decide, by decide,
    by decide, by decide,
    inputs_consistent_with_wires gateOperation 3 60 feedbackData
      [Edit.tick, Edit.press (0, "a") true, Edit.tick, Edit.unplug 0 "f", Edit.tick]
      (Circuit.new 3 feedbackData).state feedbackUnplugged.state (by decide)
      (fun gr hgr => singleDriver_of_all gr (by revert gr; decide)) (by decide) (by decide)
      (by decide)⟩

/-- C5, as stated, fails on a network built with two wires into one port:
`makeGraph` adds both connectors of `doubleDriver`, and after button `a` is
pressed and a tick has run, `c.in1` holds 1 while the wire `w2`, whose target is
`(c, in1)`, holds 0. -/
theorem double_driver_input_mismatch :
    ∃ s0 s gr c w, Circuit.new 3 doubleDriver = Outcome.ok s0 ∧
      applyEdits gateOperation 10 [Edit.press (0, "a") true, Edit.tick] s0 = Outcome.ok s ∧
      getGraph s 0 = some gr ∧ findGate gr.cells "c" = some c ∧ w ∈ gr.wires ∧
      w.id = "w2" ∧ w.target = ⟨some "c", some "in1"⟩ ∧ w.signal = Val.num 0 ∧
      inputValue c.inputSignals "in1" = Val.num 1 :=
  ⟨_, _, _, _, Wire.mk "w2" ⟨some "b", some "out"⟩ ⟨some "c", some "in1"⟩ (Val.num 0),
    rfl, rfl, rfl, rfl, by decide, rfl, rfl, rfl, by decide⟩

/-! ## The capture phase: defaults and frame -/

/-- C15: every pair `(gate, sigs)` a tick records comes from a pending gate
that is in its graph, and `sigs` is the gate's operation called on the
argument `args` obtained from the gate's `inputSignals` by the loop of lines
195-198: `args` has a value for every port of direction `'in'`, a port already
present keeps its stored value, an absent input port has value 0, and no other
key (an output port, for one) is added. -/
theorem updateGates_fills_missing_inputs (operation : Gate → Sigs → Sigs) (s : Circuit)
    (q : List GateRef) (c : GateRef × Sigs)
    (hc : c ∈ (captureLoop operation { s with queue := [] } q).2) :
    ∃ gate, getCell s c.1.1 (some c.1.2) = some gate ∧ c.1 ∈ q ∧
      c.2 = operation { gate with inputSignals := fillInputs gate.ports gate.inputSignals }
        (fillInputs gate.ports gate.inputSignals) ∧
      (∀ k, (k, Dir.inp) ∈ gate.ports →
        Sigs.has (fillInputs gate.ports gate.inputSignals) k = true) ∧
      (∀ k, Sigs.has gate.inputSignals k = true →
        Sigs.read (fillInputs gate.ports gate.inputSignals) k = Sigs.read gate.inputSignals k) ∧
      (∀ k, Sigs.has gate.inputSignals k = false → (k, Dir.inp) ∈ gate.ports →
        Sigs.read (fillInputs gate.ports gate.inputSignals) k = Val.num 0) ∧
      (∀ k, Sigs.has gate.inputSignals k = false → (k, Dir.inp) ∉ gate.ports →
        Sigs.has (fillInputs gate.ports gate.inputSignals) k = false) := by
  rw [captureLoop_changes, List.mem_filterMap] at hc
  obtain ⟨r, hr, ht⟩ := hc
  have ht' : tickOutputs operation s r = some c := ht
  unfold tickOutputs at ht'
  cases hg : getCell s r.1 (some r.2) with
  | none => rw [hg] at ht'; cases ht'
  | some gate =>
    rw [hg] at ht'
    simp only at ht'
    split at ht'
    · cases ht'
    · cases ht'
      refine ⟨gate, hg, hr, rfl, ?_, ?_, ?_, ?_⟩
      · intro k hk
        rw [has_fillInputs]
        simp [hk]
      · intro k hk
        rw [read_fillInputs, if_pos hk]
      · intro k hk hp
        rw [read_fillInputs]
        simp [hk, hp]
      · intro k hk hp
        rw [has_fillInputs]
        simp [hk, hp]

theorem updateGates_fills_missing_inputs_witness :
    ∃ gate, getCell notChain 0 (some "n1") = some gate ∧ ((0, "n1") : GateRef) ∈ notChain.queue ∧
      [("out", Val.num 1)] =
        gateOperation { gate with inputSignals := fillInputs gate.ports gate.inputSignals }
          (fillInputs gate.ports gate.inputSignals) ∧
      (∀ k, (k, Dir.inp) ∈ gate.ports →
        Sigs.has (fillInputs gate.ports gate.inputSignals) k = true) ∧
      (∀ k, Sigs.has gate.inputSignals k = true →
        Sigs.read (fillInputs gate.ports gate.inputSignals) k = Sigs.read gate.inputSignals k) ∧
      (∀ k, Sigs.has gate.inputSignals k = false → (k, Dir.inp) ∈ gate.ports →
        Sigs.read (fillInputs gate.ports gate.inputSignals) k = Val.num 0) ∧
      (∀ k, Sigs.has gate.inputSignals k = false → (k, Dir.inp) ∉ gate.ports →
        Sigs.has (fillInputs gate.ports gate.inputSignals) k = false) :=
  updateGates_fills_missing_inputs gateOperation notChain notChain.queue
    ((0, "n1"), [("out", Val.num 1)]) (by decide)

theorem captureGate_getCell (op : Gate → Sigs → Sigs) (s : Circuit) (r : GateRef) (g : Nat)
    (i : String) :
    getCell (captureGate op s r).1 g (some i) =
      (getCell s g (some i)).map fun c =>
        if (g, i) = r ∧ c.type ≠ CellType.Subcircuit then
          { c with inputSignals := fillInputs c.ports c.inputSignals }
        else c := by
  unfold captureGate
  cases hc : getCell s r.1 (some r.2) with
  | none =>
    simp only
    cases hgi : getCell s g (some i) with
    | none => rfl
    | some c =>
      have hne : ¬ ((g, i) = r) := by
        intro e
        rw [← e] at hc
        simp only at hc
        rw [hgi] at hc
        cases hc
      simp [hne]
  | some gate =>
    simp only
    by_cases hsub : gate.type = CellType.Subcircuit
    · rw [if_pos hsub]
      cases hgi : getCell s g (some i) with
      | none => rfl
      | some c =>
        by_cases e : (g, i) = r
        · rw [← e] at hc
          simp only at hc
          rw [hgi] at hc
          cases hc
          simp [hsub]
        · simp [e]
    · rw [if_neg hsub]
      simp only
      rw [getCell_modifyGate s r
        (fun c => { c with inputSignals := fillInputs gate.ports gate.inputSignals })
        (fun _ => rfl)]
      by_cases e : g = r.1 ∧ i = r.2
      · rw [if_pos e]
        obtain ⟨e1, e2⟩ := e
        subst e1
        subst e2
        rw [hc]
        simp [hsub]
      · rw [if_neg e]
        have e' : ¬ ((g, i) = r) := by
          intro h
          apply e
          rw [← h]
          exact ⟨rfl, rfl⟩
        cases hgi : getCell s g (some i) with
        | none => rfl
        | some c => simp [e']

theorem captureLoop_getCell (op : Gate → Sigs → Sigs) (s : Circuit) (q : List GateRef) (g : Nat)
    (i : String) :
    getCell (captureLoop op s q).1 g (some i) =
      (getCell s g (some i)).map fun c =>
        if (g, i) ∈ q ∧ c.type ≠ CellType.Subcircuit then
          { c with inputSignals := fillInputs c.ports c.inputSignals }
        else c := by
  induction q generalizing s with
  | nil =>
    simp only [captureLoop, List.not_mem_nil, false_and, if_false]
    cases getCell s g (some i) <;> rfl
  | cons r q ih =>
    simp only [captureLoop]
    rw [ih, captureGate_getCell]
    cases hgi : getCell s g (some i) with
    | none => rfl
    | some c =>
      simp only [Option.map_some', Option.some.injEq, List.mem_cons]
      by_cases hsub : c.type = CellType.Subcircuit
      · simp [hsub]
      · by_cases e : (g, i) = r
        · by_cases hq : (g, i) ∈ q
          · simp [hsub, e, hq, fillInputs_idem]
          · simp [hsub, e, hq, fillInputs_idem]
        · by_cases hq : (g, i) ∈ q
          · simp [hsub, e, hq]
          · simp [hsub, e, hq]

theorem captureLoop_getWire (op : Gate → Sigs → Sigs) (s : Circuit) (q : List GateRef) (g : Nat)
    (wid : String) : getWire (captureLoop op s q).1 g wid = getWire s g wid := by
  induction q generalizing s with
  | nil => rfl
  | cons r q ih =>
    simp only [captureLoop]
    rw [ih]
    unfold captureGate
    cases getCell s r.1 (some r.2) with
    | none => rfl
    | some gate =>
      simp only
      split
      · rfl
      · exact getWire_modifyGate _ _ _ _ _

/-- C16 (as the code has it): the capture loop assigns no outputs and touches
no wire and no pending set, but it does write into the gates: `args` is the
object stored as `inputSignals`, so every captured gate that is not a
Subcircuit gets its absent input ports stored with 0. After the loop a gate is
what it was, or what it was with `inputSignals` completed by the defaults, and
each of its inputs reads as before (absent reading as 0). -/
theorem captureLoop_frame (operation : Gate → Sigs → Sigs) (s : Circuit) (q : List GateRef) :
    (∀ g i, getCell (captureLoop operation s q).1 g (some i) =
      (getCell s g (some i)).map fun c =>
        if (g, i) ∈ q ∧ c.type ≠ CellType.Subcircuit then
          { c with inputSignals := fillInputs c.ports c.inputSignals }
        else c)
    ∧ (∀ g wid, getWire (captureLoop operation s q).1 g wid = getWire s g wid)
    ∧ (captureLoop operation s q).1.queue = s.queue
    ∧ ∀ (c : Gate) k, inputValue (fillInputs c.ports c.inputSignals) k
        = inputValue c.inputSignals k :=
  ⟨captureLoop_getCell operation s q, captureLoop_getWire operation s q,
    captureLoop_queue operation s q, fun c k => inputValue_fillInputs c.ports c.inputSignals k⟩

/-- C16, as stated, fails: the NOT gate `n1` of `notChain` has no input stored
when the tick starts, and `{in: 0}` stored when the capture loop has finished. -/
theorem capture_stores_input_defaults :
    (getCell notChain 0 (some "n1")).map (fun c => c.inputSignals) = some []
    ∧ (getCell (captureLoop gateOperation { notChain with queue := [] } notChain.queue).1 0
        (some "n1")).map (fun c => c.inputSignals) = some [("in", Val.num 0)] := by
  decide

/-! ## What one handler call does to a gate and to the pending set -/

theorem step_gate (t : Task) (s s1 : Circuit) (new : List Task)
    (h : step t s = Outcome.ok (new, s1)) (g : Nat) (i : String) (c1 : Gate)
    (hc : getCell s1 g (some i) = some c1) :
    ∃ c, getCell s g (some i) = some c ∧
      (c1 = c
        ∨ (∃ v e, t = Task.setInput v e (g, i) ∧
            c1 = { c with inputSignals := Sigs.set c.inputSignals (portKey e.port) v } ∧
            (c.type ≠ CellType.Output → (g, i) ∈ s1.queue))
        ∨ (∃ sigs, t = Task.setOutputSignals (g, i) sigs ∧
            c1 = { c with outputSignals := sigs })) := by
  cases t with
  | setOutputSignals r sigs =>
    simp only [step] at h
    split at h
    · cases h; exact ⟨c1, hc, Or.inl rfl⟩
    · split at h
      · cases h; exact ⟨c1, hc, Or.inl rfl⟩
      · have hs1 : s1 = modifyGate s r (fun c => { c with outputSignals := sigs }) := by
          split at h <;> cases h <;> rfl
        rw [hs1] at hc
        obtain ⟨c, hc0, hcc⟩ := getCell_modifyGate_cases s r
          (fun c => { c with outputSignals := sigs }) (fun _ => rfl) g i c1 hc
        refine ⟨c, hc0, ?_⟩
        rcases hcc with ⟨h1, h2⟩ | h2
        · exact Or.inr (Or.inr ⟨sigs, by rw [h1], h2⟩)
        · exact Or.inl h2
  | setSignal g' wid v =>
    simp only [step] at h
    split at h
    · cases h; exact ⟨c1, hc, Or.inl rfl⟩
    · split at h
      · cases h; exact ⟨c1, hc, Or.inl rfl⟩
      · have hs1 : s1 = modifyWire s g' wid (fun x => { x with signal := v }) := by
          split at h <;> cases h <;> rfl
        rw [hs1, getCell_modifyWire] at hc
        exact ⟨c1, hc, Or.inl rfl⟩
  | setInput sig e r =>
    simp only [step] at h
    split at h
    · cases h; exact ⟨c1, hc, Or.inl rfl⟩
    · rename_i gate hgate
      split at h
      · cases h; exact ⟨c1, hc, Or.inl rfl⟩
      · have hs1 : getCell s1 g (some i) = getCell (modifyGate s r (fun c =>
            { c with inputSignals := Sigs.set gate.inputSignals (portKey e.port) sig }))
            g (some i) ∧ (gate.type ≠ CellType.Output → r ∈ s1.queue) := by
          split at h
          · rename_i hout
            split at h
            · cases h
            · split at h <;> cases h <;> exact ⟨rfl, fun hn => absurd hout hn⟩
          · cases h
            refine ⟨rfl, fun _ => ?_⟩
            rw [mem_queueAdd]
            exact Or.inr rfl
        rw [hs1.1] at hc
        obtain ⟨c, hc0, hcc⟩ := getCell_modifyGate_cases s r
          (fun c => { c with inputSignals := Sigs.set gate.inputSignals (portKey e.port) sig })
          (fun _ => rfl) g i c1 hc
        refine ⟨c, hc0, ?_⟩
        rcases hcc with ⟨h1, h2⟩ | h2
        · have hcg : c = gate := by
            rw [← h1] at hgate
            simp only at hgate
            rw [hc0] at hgate
            exact Option.some.inj hgate
          refine Or.inr (Or.inl ⟨sig, e, by rw [h1], ?_, ?_⟩)
          · rw [h2, hcg]
          · intro hty
            rw [h1]
            exact hs1.2 (by rw [← hcg]; exact hty)
        · exact Or.inl h2
  | forwardInput sig e r =>
    simp only [step] at h
    split at h
    · cases h; exact ⟨c1, hc, Or.inl rfl⟩
    · split at h
      · cases h
      · split at h
        · cases h
        · cases h; exact ⟨c1, hc, Or.inl rfl⟩

theorem step_queue (t : Task) (s s1 : Circuit) (new : List Task)
    (h : step t s = Outcome.ok (new, s1)) :
    s1.queue = s.queue ∨
      ∃ v e r gate, t = Task.setInput v e r ∧ getCell s r.1 (some r.2) = some gate ∧
        gate.type ≠ CellType.Output ∧ s1.queue = queueAdd s.queue r := by
  cases t with
  | setOutputSignals r sigs =>
    simp only [step] at h
    split at h
    · cases h; exact Or.inl rfl
    · split at h
      · cases h; exact Or.inl rfl
      · left
        split at h <;> cases h <;> rfl
  | setSignal g' wid v =>
    simp only [step] at h
    split at h
    · cases h; exact Or.inl rfl
    · split at h
      · cases h; exact Or.inl rfl
      · left
        split at h <;> cases h <;> rfl
  | setInput sig e r =>
    simp only [step] at h
    split at h
    · cases h; exact Or.inl rfl
    · rename_i gate hgate
      split at h
      · cases h; exact Or.inl rfl
      · split at h
        · left
          split at h
          · cases h
          · split at h <;> cases h <;> rfl
        · rename_i hout
          cases h
          exact Or.inr ⟨sig, e, r, gate, rfl, hgate, hout, rfl⟩
  | forwardInput sig e r =>
    simp only [step] at h
    split at h
    · cases h; exact Or.inl rfl
    · split at h
      · cases h
      · split at h
        · cases h
        · cases h; exact Or.inl rfl

theorem step_queue_mono (t : Task) (s s1 : Circuit) (new : List Task)
    (h : step t s = Outcome.ok (new, s1)) : ∀ x ∈ s.queue, x ∈ s1.queue := by
  intro x hx
  rcases step_queue t s s1 new h with h1 | ⟨_, _, r, _, _, _, _, h1⟩
  · rw [h1]; exact hx
  · rw [h1, mem_queueAdd]; exact Or.inl hx

theorem type_of_bare (a b : Gate) (h : a.bare = b.bare) : a.type = b.type := by
  have := congrArg Gate.type h
  exact this

theorem run_queue_mono (fuel : Nat) (ts : List Task) (s s1 : Circuit)
    (hr : run fuel ts s = Outcome.ok s1) : ∀ x ∈ s.queue, x ∈ s1.queue := by
  refine run_inv (fun _ s' => ∀ x ∈ s.queue, x ∈ s'.queue) ?_ fuel ts s s1 (fun _ hx => hx) hr
  intro t ts' s' new s'' hI hstep x hx
  exact step_queue_mono t s' s'' new hstep x (hI x hx)

theorem run_changed_input_pending (fuel : Nat) (ts : List Task) (s s1 : Circuit) (r : GateRef)
    (c c1 : Gate) (hr : run fuel ts s = Outcome.ok s1)
    (hc : getCell s r.1 (some r.2) = some c) (hc1 : getCell s1 r.1 (some r.2) = some c1)
    (hout : c.type ≠ CellType.Output) (hchg : c1.inputSignals ≠ c.inputSignals) :
    r ∈ s1.queue := by
  have key := run_inv
    (fun _ s' => skeleton s' = skeleton s ∧
      ∀ c', getCell s' r.1 (some r.2) = some c' → c'.inputSignals ≠ c.inputSignals →
        r ∈ s'.queue) ?_ fuel ts s s1 ⟨rfl, ?_⟩ hr
  · exact key.2 c1 hc1 hchg
  · intro t ts' s' new s'' hI hstep
    obtain ⟨hsk, hq⟩ := hI
    refine ⟨(step_skeleton t s' s'' new hstep).trans hsk, ?_⟩
    intro c'' hc'' hne
    obtain ⟨c', hc', hcases⟩ := step_gate t s' s'' new hstep r.1 r.2 c'' hc''
    rcases hcases with h1 | ⟨v, e, _, _, hin⟩ | ⟨sigs, _, h1⟩
    · rw [h1] at hne
      exact step_queue_mono t s' s'' new hstep r (hq c' hc' hne)
    · apply hin
      obtain ⟨c0, hc0, hb⟩ := getCell_of_skeleton s' s hsk r.1 (some r.2) c' hc'
      rw [hc] at hc0
      cases hc0
      rw [← type_of_bare c c' hb]
      exact hout
    · rw [h1] at hne
      exact step_queue_mono t s' s'' new hstep r (hq c' hc' hne)
  · intro c' hc' hne
    rw [hc] at hc'
    cases hc'
    exact absurd rfl hne

/-- C14: let a call of the propagation layer (any stack `ts` of handler calls:
a wire signal change, a connection, a disconnection, a forwarding) run to its
end from the state `s`. Every gate that is neither a Subcircuit nor an output
terminal and whose stored `inputSignals` differ at the end from what they were
is in the pending set when the call returns, and the next tick records for it
the pair of the gate and its operation applied to its inputs. -/
theorem changed_input_enqueues (operation : Gate → Sigs → Sigs) (fuel : Nat) (ts : List Task)
    (s s1 : Circuit) (r : GateRef) (c c1 : Gate) (hr : run fuel ts s = Outcome.ok s1)
    (hc : getCell s r.1 (some r.2) = some c) (hc1 : getCell s1 r.1 (some r.2) = some c1)
    (hsub : c.type ≠ CellType.Subcircuit) (hout : c.type ≠ CellType.Output)
    (hchg : c1.inputSignals ≠ c.inputSignals) :
    r ∈ s1.queue ∧
      (r, operation { c1 with inputSignals := fillInputs c1.ports c1.inputSignals }
          (fillInputs c1.ports c1.inputSignals))
        ∈ (captureLoop operation { s1 with queue := [] } s1.queue).2 := by
  have hq := run_changed_input_pending fuel ts s s1 r c c1 hr hc hc1 hout hchg
  refine ⟨hq, ?_⟩
  rw [captureLoop_changes, List.mem_filterMap]
  refine ⟨r, hq, ?_⟩
  obtain ⟨c0, hc0, hb⟩ := getCell_of_skeleton s1 s (run_skeleton fuel ts s s1 hr) r.1 (some r.2)
    c1 hc1
  rw [hc] at hc0
  cases hc0
  have hty : c1.type ≠ CellType.Subcircuit := by
    rw [← type_of_bare c c1 hb]; exact hsub
  unfold tickOutputs
  rw [getCell_queue, hc1]
  simp only [hty, if_false]

theorem changed_input_enqueues_witness :
    notChainLit = Outcome.ok notChainLit.state
    ∧ getCell notChainLit.state 0 (some "n1") = some notN1Lit
    ∧ ((0, "n1") : GateRef) ∈ notChainLit.state.queue
    ∧ (((0, "n1") : GateRef),
        gateOperation { notN1Lit with inputSignals := fillInputs notN1Lit.ports notN1Lit.inputSignals }
          (fillInputs notN1Lit.ports notN1Lit.inputSignals))
        ∈ (captureLoop gateOperation { notChainLit.state with queue := [] }
            notChainLit.state.queue).2 :=
  ⟨by decide, by decide,
    changed_input_enqueues gateOperation 10 [Task.setOutputSignals (0, "b") [("out", Val.num 1)]]
      { notChain with queue := [] } notChainLit.state (0, "n1")
      (mkGate "n1" CellType.Not [("in", Dir.inp), ("out", Dir.out)]) notN1Lit
      (by decide) (by decide) (by decide) (by decide) (by decide) (by decide)⟩

/-! ## Edits as cascades -/

theorem sameCells_getGraph (sm s : Circuit) (h : SameCells sm s) (g : Nat) (gr1 : Graph)
    (hg : getGraph sm g = some gr1) :
    ∃ gr, getGraph s g = some gr ∧ gr1.cells = gr.cells ∧ gr1.subcircuit = gr.subcircuit := by
  have h2 := congrArg (fun l => l[g]?) h.2
  simp only [List.getElem?_map] at h2
  unfold getGraph at hg ⊢
  rw [hg] at h2
  cases hs : s.graphs[g]? with
  | none => rw [hs] at h2; cases h2
  | some gr =>
    rw [hs] at h2
    simp only [Option.map_some', Option.some.injEq, Prod.mk.injEq] at h2
    exact ⟨gr, rfl, h2.1, h2.2⟩

theorem sameCells_symm (sm s : Circuit) (h : SameCells sm s) : SameCells s sm :=
  ⟨h.1.symm, h.2.symm⟩

theorem sameCells_getCell (sm s : Circuit) (h : SameCells sm s) (g : Nat) (i : Option String) :
    getCell sm g i = getCell s g i := by
  unfold getCell
  cases hg : getGraph sm g with
  | some gr1 =>
    obtain ⟨gr, hg', hc, _⟩ := sameCells_getGraph sm s h g gr1 hg
    rw [hg']
    cases i with
    | none => rfl
    | some i => simp only [hc]
  | none =>
    cases hg' : getGraph s g with
    | none => rfl
    | some gr =>
      obtain ⟨gr1, hg1, _, _⟩ := sameCells_getGraph s sm (sameCells_symm sm s h) g gr hg'
      rw [hg] at hg1
      cases hg1

theorem sameCells_updGraph (s : Circuit) (F : Graph → Graph) (g : Nat)
    (hc : ∀ gr, (F gr).cells = gr.cells) (hs : ∀ gr, (F gr).subcircuit = gr.subcircuit) :
    SameCells { s with graphs := updGraph F s.graphs g } s := by
  refine ⟨rfl, ?_⟩
  exact map_updGraph (fun gr => (gr.cells, gr.subcircuit)) F
    (fun x => by simp only [hc, hs]) s.graphs g

theorem sameCells_attachWire (s : Circuit) (g : Nat) (w : Wire) :
    SameCells (attachWire s g w) s :=
  sameCells_updGraph s (fun x => { x with wires := x.wires ++ [w] }) g (fun _ => rfl)
    (fun _ => rfl)

theorem sameCells_detachWire (s : Circuit) (g : Nat) (wid : String) :
    SameCells (detachWire s g wid) s :=
  sameCells_updGraph s (fun x => { x with wires := x.wires.filter fun y => y.id ≠ wid }) g
    (fun _ => rfl) (fun _ => rfl)

theorem sameCells_modifyWire (s : Circuit) (g : Nat) (wid : String) (f : Wire → Wire) :
    SameCells (modifyWire s g wid f) s :=
  sameCells_updGraph s (fun gr => { gr with wires := updWire f gr.wires wid }) g
    (fun _ => rfl) (fun _ => rfl)

theorem addTasks_wireCall (s : Circuit) (g : Nat) (w : Wire) :
    ∀ t ∈ addTasks s g w, t.isWireCall := by
  intro t ht
  unfold addTasks at ht
  split at ht
  · rw [List.mem_singleton] at ht; rw [ht]; trivial
  · simp at ht

theorem removeTasks_wireCall (s : Circuit) (g : Nat) (w : Wire) :
    ∀ t ∈ removeTasks s g w, t.isWireCall := by
  intro t ht
  obtain ⟨c, p, _, _, hte⟩ := removeTasks_spec s g w t ht
  rw [hte]; trivial

theorem targetTasks_wireCall (s : Circuit) (g : Nat) (sig : Val) (e pend : End) :
    ∀ t ∈ targetTasks s g sig e pend, t.isWireCall := by
  intro t ht
  rcases targetTasks_spec s g sig e pend t ht with ⟨_, _, _, _, hte⟩ | ⟨_, _, _, _, hte⟩ <;>
    (rw [hte]; trivial)

theorem sourceTasks_wireCall (s : Circuit) (g : Nat) (wid : String) (e : End) :
    ∀ t ∈ sourceTasks s g wid e, t.isWireCall := by
  intro t ht
  unfold sourceTasks at ht
  split at ht <;> (rw [List.mem_singleton] at ht; rw [ht]; trivial)

theorem removeWire_ind (P : Circuit → Prop) (fuel : Nat)
    (hcascade : ∀ s sm ts s1, P s → SameCells sm s → (∀ t ∈ ts, t.isWireCall) →
      run fuel ts sm = Outcome.ok s1 → P s1)
    (g : Nat) (wid : String) (s s1 : Circuit) (h0 : P s)
    (h : removeWire fuel g wid s = Outcome.ok s1) : P s1 := by
  unfold removeWire at h
  cases hgw : getWire s g wid with
  | none => rw [hgw] at h; cases h; exact h0
  | some w =>
    rw [hgw] at h
    exact hcascade s _ _ s1 h0 (sameCells_detachWire s g wid) (removeTasks_wireCall _ g w) h

theorem removeWires_ind (P : Circuit → Prop) (fuel : Nat)
    (hcascade : ∀ s sm ts s1, P s → SameCells sm s → (∀ t ∈ ts, t.isWireCall) →
      run fuel ts sm = Outcome.ok s1 → P s1)
    (g : Nat) (ids : List String) (s s1 : Circuit) (h0 : P s)
    (h : removeWires fuel g ids s = Outcome.ok s1) : P s1 := by
  induction ids generalizing s with
  | nil => simp only [removeWires] at h; cases h; exact h0
  | cons wid rest ih =>
    simp only [removeWires] at h
    cases hr : removeWire fuel g wid s with
    | ok s2 =>
      rw [hr] at h
      exact ih s2 (removeWire_ind P fuel hcascade g wid s s2 h0 hr) h
    | typeError => rw [hr] at h; cases h
    | outOfFuel => rw [hr] at h; cases h

theorem setTarget_ind (P : Circuit → Prop) (fuel : Nat)
    (hcascade : ∀ s sm ts s1, P s → SameCells sm s → (∀ t ∈ ts, t.isWireCall) →
      run fuel ts sm = Outcome.ok s1 → P s1)
    (g : Nat) (wid : String) (e : End) (s s1 : Circuit) (h0 : P s)
    (h : setTarget fuel g wid e s = Outcome.ok s1) : P s1 := by
  unfold setTarget at h
  cases hgw : getWire s g wid with
  | none => rw [hgw] at h; cases h; exact h0
  | some w =>
    rw [hgw] at h
    simp only at h
    split at h
    · cases h; exact h0
    · exact hcascade s _ _ s1 h0 (sameCells_modifyWire s g wid _)
        (targetTasks_wireCall _ g _ _ _) h

theorem setSource_ind (P : Circuit → Prop) (fuel : Nat)
    (hcascade : ∀ s sm ts s1, P s → SameCells sm s → (∀ t ∈ ts, t.isWireCall) →
      run fuel ts sm = Outcome.ok s1 → P s1)
    (g : Nat) (wid : String) (e : End) (s s1 : Circuit) (h0 : P s)
    (h : setSource fuel g wid e s = Outcome.ok s1) : P s1 := by
  unfold setSource at h
  cases hgw : getWire s g wid with
  | none => rw [hgw] at h; cases h; exact h0
  | some w =>
    rw [hgw] at h
    simp only at h
    split at h
    · cases h; exact h0
    · exact hcascade s _ _ s1 h0 (sameCells_modifyWire s g wid _)
        (sourceTasks_wireCall _ g wid e) h

theorem addWire_ind (P : Circuit → Prop) (fuel : Nat)
    (hcascade : ∀ s sm ts s1, P s → SameCells sm s → (∀ t ∈ ts, t.isWireCall) →
      run fuel ts sm = Outcome.ok s1 → P s1)
    (g : Nat) (w : Wire) (s s1 : Circuit) (h0 : P s)
    (h : addWire fuel g w s = Outcome.ok s1) : P s1 := by
  unfold addWire at h
  cases hg : getGraph s g with
  | none => rw [hg] at h; cases h; exact h0
  | some gr =>
    rw [hg] at h
    simp only at h
    split at h
    · cases h; exact h0
    · exact hcascade s _ _ s1 h0 (sameCells_attachWire s g w) (addTasks_wireCall _ g w) h

/-- To show that a property of the circuit is kept by an edit, it is enough to
show that it is kept by a change of the wiring followed by the handlers' calls,
by a tick, by a press and by taking gates out of a graph. -/
theorem applyEdit_ind (P : Circuit → Prop) (op : Gate → Sigs → Sigs) (fuel : Nat)
    (hcascade : ∀ s sm ts s1, P s → SameCells sm s → (∀ t ∈ ts, t.isWireCall) →
      run fuel ts sm = Outcome.ok s1 → P s1)
    (hdrop : ∀ s g id, P s → P (dropGate s g id))
    (e : Edit) (s s1 : Circuit)
    (htick : e = Edit.tick → P s → updateGates op fuel s = Outcome.ok s1 → P s1)
    (hpress : ∀ r b, e = Edit.press r b → P s → P (setButtonState r b s))
    (h0 : P s) (h : applyEdit op fuel e s = Outcome.ok s1) : P s1 := by
  cases e with
  | pull g wid src => exact addWire_ind P fuel hcascade g _ s s1 h0 h
  | connect g vs ms vt mt d vl =>
    simp only [applyEdit, connect] at h
    cases hg : getGraph s g with
    | none => rw [hg] at h; cases h; exact h0
    | some gr =>
      rw [hg] at h
      simp only at h
      cases hv : validateConnection gr vs ms vt mt d vl with
      | ok b =>
        rw [hv] at h
        cases b with
        | false => cases h; exact h0
        | true =>
          cases d with
          | source => exact setSource_ind P fuel hcascade g vl _ s s1 h0 h
          | target => exact setTarget_ind P fuel hcascade g vl _ s s1 h0 h
      | typeError => rw [hv] at h; cases h
      | outOfFuel => rw [hv] at h; cases h
  | unplug g wid => exact setTarget_ind P fuel hcascade g wid _ s s1 h0 h
  | removeWire g wid => exact removeWire_ind P fuel hcascade g wid s s1 h0 h
  | removeGate g id =>
    simp only [applyEdit, removeGate] at h
    cases hg : getGraph s g with
    | none => rw [hg] at h; cases h; exact h0
    | some gr =>
      rw [hg] at h
      simp only at h
      cases hf : findGate gr.cells id with
      | none => rw [hf] at h; cases h; exact h0
      | some c =>
        rw [hf] at h
        simp only at h
        cases hr : removeWires fuel g ((getConnectedLinks gr id).map fun w => w.id) s with
        | ok s2 =>
          rw [hr] at h
          cases h
          exact hdrop s2 g id (removeWires_ind P fuel hcascade g _ s s2 h0 hr)
        | typeError => rw [hr] at h; cases h
        | outOfFuel => rw [hr] at h; cases h
  | press r b =>
    simp only [applyEdit, Outcome.ok.injEq] at h
    subst h
    exact hpress r b rfl h0
  | tick => exact htick rfl h0 h

theorem within_refl (s : Circuit) : Within s s :=
  ⟨fun _ _ c h => ⟨c, h, rfl, rfl, rfl⟩, fun _ gr h => ⟨gr, h, rfl⟩⟩

theorem within_trans (s2 s1 s : Circuit) (h21 : Within s2 s1) (h10 : Within s1 s) :
    Within s2 s := by
  refine ⟨?_, ?_⟩
  · intro g i c2 h
    obtain ⟨c1, h1, a1, a2, a3⟩ := h21.1 g i c2 h
    obtain ⟨c, h0, b1, b2, b3⟩ := h10.1 g i c1 h1
    exact ⟨c, h0, b1.trans a1, b2.trans a2, b3.trans a3⟩
  · intro g gr2 h
    obtain ⟨gr1, h1, a⟩ := h21.2 g gr2 h
    obtain ⟨gr, h0, b⟩ := h10.2 g gr1 h1
    exact ⟨gr, h0, b.trans a⟩

theorem within_of_skeleton (s1 s : Circuit) (h : skeleton s1 = skeleton s) : Within s1 s := by
  refine ⟨?_, ?_⟩
  · intro g i c1 hc
    obtain ⟨c, hc0, hb⟩ := getCell_of_skeleton s1 s h g (some i) c1 hc
    have h1 := congrArg Gate.type hb
    have h2 := congrArg Gate.graph hb
    have h3 := congrArg Gate.circuitIOmap hb
    exact ⟨c, hc0, h1, h2, h3⟩
  · intro g gr1 hg
    obtain ⟨gr, hg0, hb⟩ := getGraph_of_skeleton s1 s h g gr1 hg
    have h1 := congrArg Graph.subcircuit hb
    exact ⟨gr, hg0, h1⟩

theorem within_of_sameCells (sm s : Circuit) (h : SameCells sm s) : Within sm s := by
  refine ⟨?_, ?_⟩
  · intro g i c1 hc
    rw [sameCells_getCell sm s h] at hc
    exact ⟨c1, hc, rfl, rfl, rfl⟩
  · intro g gr1 hg
    obtain ⟨gr, hg0, _, hs⟩ := sameCells_getGraph sm s h g gr1 hg
    exact ⟨gr, hg0, hs.symm⟩

theorem captureLoop_skeleton (op : Gate → Sigs → Sigs) (s : Circuit) (q : List GateRef) :
    skeleton (captureLoop op s q).1 = skeleton s := by
  induction q generalizing s with
  | nil => rfl
  | cons r q ih =>
    simp only [captureLoop]
    rw [ih]
    unfold captureGate
    cases getCell s r.1 (some r.2) with
    | none => rfl
    | some gate =>
      simp only
      split
      · rfl
      · exact skeleton_modifyGate s r _ (fun _ => rfl)

theorem updateGates_within (op : Gate → Sigs → Sigs) (fuel : Nat) (s s1 : Circuit)
    (h : updateGates op fuel s = Outcome.ok s1) : Within s1 s := by
  simp only [updateGates] at h
  have h1 := run_skeleton _ _ _ _ h
  have h2 := captureLoop_skeleton op { s with queue := [] } s.queue
  exact within_of_skeleton s1 s (h1.trans h2)

theorem setButtonState_within (r : GateRef) (b : Bool) (s : Circuit) :
    Within (setButtonState r b s) s := by
  unfold setButtonState
  cases getCell s r.1 (some r.2) with
  | none => exact within_refl s
  | some gate =>
    simp only
    split
    · exact within_refl s
    · refine ⟨?_, ?_⟩
      · intro g i c1 hc
        rw [getCell_queue] at hc
        obtain ⟨c, hc0, hcc⟩ := getCell_modifyGate_cases s r
          (fun c => { c with buttonState := b }) (fun _ => rfl) g i c1 hc
        refine ⟨c, hc0, ?_⟩
        rcases hcc with ⟨_, h2⟩ | h2 <;> (rw [h2]; exact ⟨rfl, rfl, rfl⟩)
      · intro g gr1 hg
        obtain ⟨gr, hg0, _, hs, _⟩ := getGraph_modifyGate s r
          (fun c => { c with buttonState := b }) g gr1 _ hg
        exact ⟨gr, hg0, hs.symm⟩

theorem getCell_dropGate (s : Circuit) (g : Nat) (id : String) (g' : Nat) (i : String)
    (c1 : Gate) (h : getCell (dropGate s g id) g' (some i) = some c1) :
    getCell s g' (some i) = some c1 := by
  obtain ⟨gr1, hg1, hc1⟩ := (getCell_iff _ g' i c1).1 h
  unfold dropGate at hg1
  obtain ⟨gr, hg, hgr⟩ := getGraph_updGraph s _ g g' gr1 s.queue hg1
  refine (getCell_iff s g' i c1).2 ⟨gr, hg, ?_⟩
  rw [hgr] at hc1
  split at hc1
  · exact findGate_filter _ _ _ _ hc1
  · exact hc1

theorem dropGate_within (s : Circuit) (g : Nat) (id : String) : Within (dropGate s g id) s := by
  refine ⟨?_, ?_⟩
  · intro g' i c1 hc
    exact ⟨c1, getCell_dropGate s g id g' i c1 hc, rfl, rfl, rfl⟩
  · intro g' gr1 hg
    unfold dropGate at hg
    obtain ⟨gr, hg0, hgr⟩ := getGraph_updGraph s _ g g' gr1 s.queue hg
    refine ⟨gr, hg0, ?_⟩
    rw [hgr]
    split <;> rfl

theorem applyEdit_within (op : Gate → Sigs → Sigs) (fuel : Nat) (e : Edit) (s s1 : Circuit)
    (h : applyEdit op fuel e s = Outcome.ok s1) : Within s1 s := by
  refine applyEdit_ind (fun x => Within x s) op fuel ?_ ?_ e s s1 ?_ ?_ (within_refl s) h
  · intro a sm ts a1 ha hsc _ hr
    exact within_trans a1 sm s (within_of_skeleton a1 sm (run_skeleton _ _ _ _ hr))
      (within_trans sm a s (within_of_sameCells sm a hsc) ha)
  · intro a g id ha
    exact within_trans _ a s (dropGate_within a g id) ha
  · intro _ _ ht
    exact updateGates_within op fuel s s1 ht
  · intro r b _ _
    exact setButtonState_within r b s

theorem applyEdits_within (op : Gate → Sigs → Sigs) (fuel : Nat) (es : List Edit)
    (s s1 : Circuit) (h : applyEdits op fuel es s = Outcome.ok s1) : Within s1 s := by
  induction es generalizing s with
  | nil => simp only [applyEdits] at h; cases h; exact within_refl _
  | cons e es ih =>
    simp only [applyEdits] at h
    cases hr : applyEdit op fuel e s with
    | ok s2 =>
      rw [hr] at h
      exact within_trans s1 s2 s (ih s2 h) (applyEdit_within op fuel e s s2 hr)
    | typeError => rw [hr] at h; cases h
    | outOfFuel => rw [hr] at h; cases h

/-! ## Which gates are pending -/

theorem run_queue_origin (fuel : Nat) (ts : List Task) (s s1 : Circuit)
    (hr : run fuel ts s = Outcome.ok s1) :
    ∀ x ∈ s1.queue, x ∈ s.queue ∨
      ∃ c, getCell s x.1 (some x.2) = some c ∧ c.type ≠ CellType.Output := by
  have key := run_inv
    (fun _ s' => skeleton s' = skeleton s ∧ ∀ x ∈ s'.queue, x ∈ s.queue ∨
      ∃ c, getCell s x.1 (some x.2) = some c ∧ c.type ≠ CellType.Output)
    ?_ fuel ts s s1 ⟨rfl, fun x hx => Or.inl hx⟩ hr
  · exact key.2
  · intro t ts' s' new s'' hI hstep
    obtain ⟨hsk, hq⟩ := hI
    refine ⟨(step_skeleton t s' s'' new hstep).trans hsk, ?_⟩
    intro x hx
    rcases step_queue t s' s'' new hstep with h1 | ⟨v, e, r, gate, _, hg, hty, h1⟩
    · rw [h1] at hx; exact hq x hx
    · rw [h1, mem_queueAdd] at hx
      rcases hx with hx | hx
      · exact hq x hx
      · right
        obtain ⟨c0, hc0, hb⟩ := getCell_of_skeleton s' s hsk r.1 (some r.2) gate hg
        rw [hx]
        exact ⟨c0, hc0, by rw [type_of_bare c0 gate hb]; exact hty⟩

theorem run_noOutputPending (fuel : Nat) (ts : List Task) (s s1 : Circuit)
    (hr : run fuel ts s = Outcome.ok s1) (h0 : NoOutputPending s) : NoOutputPending s1 := by
  intro x hx c1 hc1
  obtain ⟨c0, hc0, hb⟩ := getCell_of_skeleton s1 s (run_skeleton _ _ _ _ hr) x.1 (some x.2) c1 hc1
  rw [← type_of_bare c0 c1 hb]
  rcases run_queue_origin fuel ts s s1 hr x hx with h | ⟨c, hc, hty⟩
  · exact h0 x h c0 hc0
  · rw [hc0] at hc
    cases hc
    exact hty

theorem updateGates_noOutputPending (op : Gate → Sigs → Sigs) (fuel : Nat) (s s1 : Circuit)
    (h : updateGates op fuel s = Outcome.ok s1) : NoOutputPending s1 := by
  simp only [updateGates] at h
  refine run_noOutputPending _ _ _ s1 h ?_
  intro x hx
  rw [captureLoop_queue] at hx
  cases hx

theorem setButtonState_noOutputPending (r : GateRef) (b : Bool) (s : Circuit)
    (hr : ∀ c, getCell s r.1 (some r.2) = some c → c.type ≠ CellType.Output)
    (h0 : NoOutputPending s) : NoOutputPending (setButtonState r b s) := by
  have hw := setButtonState_within r b s
  intro x hx c1 hc1
  obtain ⟨c, hc, hty, _, _⟩ := hw.1 x.1 x.2 c1 hc1
  rw [← hty]
  have hq : x ∈ s.queue ∨ x = r := by
    unfold setButtonState at hx
    cases hg : getCell s r.1 (some r.2) with
    | none => rw [hg] at hx; exact Or.inl hx
    | some gate =>
      rw [hg] at hx
      simp only at hx
      split at hx
      · exact Or.inl hx
      · exact (mem_queueAdd _ _ _).1 hx
  rcases hq with hq | hq
  · exact h0 x hq c hc
  · rw [hq] at hc
    exact hr c hc

theorem applyEdit_noOutputPending (op : Gate → Sigs → Sigs) (fuel : Nat) (e : Edit)
    (s s1 : Circuit)
    (hp : ∀ r b, e = Edit.press r b → ∀ c, getCell s r.1 (some r.2) = some c →
      c.type ≠ CellType.Output)
    (h0 : NoOutputPending s) (h : applyEdit op fuel e s = Outcome.ok s1) :
    NoOutputPending s1 := by
  refine applyEdit_ind NoOutputPending op fuel ?_ ?_ e s s1 ?_ ?_ h0 h
  · intro a sm ts a1 ha hsc _ hr
    refine run_noOutputPending fuel ts sm a1 hr ?_
    intro x hx c hc
    rw [hsc.1] at hx
    rw [sameCells_getCell sm a hsc] at hc
    exact ha x hx c hc
  · intro a g id ha x hx c hc
    exact ha x hx c (getCell_dropGate a g id x.1 x.2 c hc)
  · intro _ _ ht
    exact updateGates_noOutputPending op fuel s s1 ht
  · intro r b he h0'
    exact setButtonState_noOutputPending r b s (hp r b he) h0'

theorem applyEdits_noOutputPending (op : Gate → Sigs → Sigs) (fuel : Nat) (es : List Edit)
    (s s1 : Circuit)
    (hp : ∀ r b, Edit.press r b ∈ es → ∀ c, getCell s r.1 (some r.2) = some c →
      c.type ≠ CellType.Output)
    (h0 : NoOutputPending s) (h : applyEdits op fuel es s = Outcome.ok s1) :
    NoOutputPending s1 := by
  induction es generalizing s with
  | nil => simp only [applyEdits] at h; cases h; exact h0
  | cons e es ih =>
    simp only [applyEdits] at h
    cases hr : applyEdit op fuel e s with
    | ok s2 =>
      rw [hr] at h
      have hw := applyEdit_within op fuel e s s2 hr
      refine ih s2 ?_ ?_ h
      · intro r b hm c2 hc2
        obtain ⟨c, hc, hty, _, _⟩ := hw.1 r.1 r.2 c2 hc2
        rw [← hty]
        exact hp r b (List.mem_cons_of_mem _ hm) c hc
      · exact applyEdit_noOutputPending op fuel e s s2
          (fun r b he => hp r b (by rw [he]; exact List.mem_cons_self _ _)) h0 hr
    | typeError => rw [hr] at h; cases h
    | outOfFuel => rw [hr] at h; cases h

/-- C13 (as the code has it): from the first tick on no output terminal is
pending. When a tick has run, the pending set holds no output terminal, and
this stays so under every sequence of wire pulls, connections, unpluggings,
removals, presses of gates that are not output terminals, and ticks that runs
to its end; the next tick then records a pair for no output terminal and for
no Subcircuit, that is, calls the operation of none. (Subcircuit gates may
well be pending: the tick skips them.) -/
theorem output_terminals_not_pending (operation : Gate → Sigs → Sigs) (fuel : Nat)
    (es : List Edit) (s0 s s1 : Circuit)
    (htick : updateGates operation fuel s0 = Outcome.ok s)
    (hp : ∀ r b, Edit.press r b ∈ es → ∀ c, getCell s r.1 (some r.2) = some c →
      c.type ≠ CellType.Output)
    (h : applyEdits operation fuel es s = Outcome.ok s1) :
    NoOutputPending s ∧ NoOutputPending s1 ∧
      ∀ p ∈ (captureLoop operation { s1 with queue := [] } s1.queue).2,
        ∀ c, getCell s1 p.1.1 (some p.1.2) = some c →
          c.type ≠ CellType.Output ∧ c.type ≠ CellType.Subcircuit := by
  have h0 := updateGates_noOutputPending operation fuel s0 s htick
  have h1 := applyEdits_noOutputPending operation fuel es s s1 hp h0 h
  refine ⟨h0, h1, ?_⟩
  intro p hpm c hc
  rw [captureLoop_changes, List.mem_filterMap] at hpm
  obtain ⟨r, hr, ht⟩ := hpm
  have ht' : tickOutputs operation s1 r = some p := ht
  unfold tickOutputs at ht'
  cases hg : getCell s1 r.1 (some r.2) with
  | none => rw [hg] at ht'; cases ht'
  | some gate =>
    rw [hg] at ht'
    simp only at ht'
    split at ht'
    · cases ht'
    · rename_i hsub
      cases ht'
      rw [hg] at hc
      cases hc
      exact ⟨h1 r hr _ hg, hsub⟩

theorem output_terminals_not_pending_witness :
    feedbackTicked = Outcome.ok feedbackTicked.state
    ∧ feedbackPressed = Outcome.ok feedbackPressed.state
    ∧ feedbackPressed.state.queue = [(0, "x")]
    ∧ NoOutputPending feedbackTicked.state ∧ NoOutputPending feedbackPressed.state ∧
      ∀ p ∈ (captureLoop gateOperation { feedbackPressed.state with queue := [] }
          feedbackPressed.state.queue).2,
        ∀ c, getCell feedbackPressed.state p.1.1 (some p.1.2) = some c →
          c.type ≠ CellType.Output ∧ c.type ≠ CellType.Subcircuit :=
  ⟨by decide, by decide, by decide,
    output_terminals_not_pending gateOperation 40 [Edit.press (0, "a") true, Edit.tick]
      (Circuit.new 3 feedbackData).state feedbackTicked.state feedbackPressed.state
      (by decide)
      (fun r b hm c hc => by
        simp only [List.mem_cons, Edit.press.injEq, List.mem_singleton, List.not_mem_nil,
          or_false] at hm
        rcases hm with ⟨h1, _⟩ | h2
        · subst h1
          have hc' : getCell feedbackTicked.state 0 (some "a") = some c := hc
          have : (getCell feedbackTicked.state 0 (some "a")).map (fun x => x.type)
              = some CellType.Button := by decide
          rw [hc'] at this
          simp only [Option.map_some', Option.some.injEq] at this
          rw [this]
          decide
        · cases h2)
      (by decide)⟩

/-- C13, as stated, fails right after construction: `makeGraph` puts every
device it builds into the pending set (line 93), so the set of the circuit
built from `feedbackData` holds the Subcircuit `x` and the output terminal `o`,
and the first tick records a pair for `o`: its operation is called. -/
theorem makeGraph_enqueues_every_device :
    ∃ s, Circuit.new 3 feedbackData = Outcome.ok s ∧
      s.queue = [(0, "a"), (1, "i"), (1, "j"), (1, "o"), (0, "x")] ∧
      (getCell s 0 (some "x")).map (fun c => c.type) = some CellType.Subcircuit ∧
      (getCell s 1 (some "o")).map (fun c => c.type) = some CellType.Output ∧
      ((captureLoop gateOperation { s with queue := [] } s.queue).2.map fun p => p.1)
        = [(0, "a"), (1, "i"), (1, "j"), (1, "o")] :=
  ⟨(Circuit.new 3 feedbackData).state, by decide, by decide, by decide, by decide, by decide⟩

/-! ## Deferred evaluation: the propagation layer and the outputs of logic gates -/

theorem sealed_of_check (s : Circuit) (h : sealedCheck s = true) : Sealed s := by
  unfold sealedCheck at h
  rw [List.all_eq_true] at h
  refine ⟨?_, ?_⟩
  · intro H hh ng k id c hH hg hk hc
    obtain ⟨gr, hgr, hf⟩ := (getCell_iff s H.1 H.2 hh).1 hH
    have h1 := h gr (List.getElem?_mem hgr)
    rw [Bool.and_eq_true, List.all_eq_true] at h1
    have h2 := h1.2 hh (findGate_mem _ _ _ hf)
    rw [hg] at h2
    simp only [List.all_eq_true] at h2
    have h3 := h2 (k, id) (lookupIomap_mem _ _ _ hk)
    simp only [hc, Bool.not_eq_true'] at h3
    exact h3
  · intro g gr sr c hg hs hc
    have h1 := h gr (List.getElem?_mem hg)
    rw [Bool.and_eq_true] at h1
    have h2 := h1.1
    rw [hs] at h2
    simp only [hc, Bool.not_eq_true'] at h2
    exact h2

theorem sealed_within (s1 s : Circuit) (hw : Within s1 s) (h : Sealed s) : Sealed s1 := by
  refine ⟨?_, ?_⟩
  · intro H hh ng k id c1 hH hg hk hc1
    obtain ⟨h0, hH0, _, e2, e3⟩ := hw.1 H.1 H.2 hh hH
    obtain ⟨c, hc, e1, _, _⟩ := hw.1 ng id c1 hc1
    rw [← e1]
    exact h.1 H h0 ng k id c hH0 (e2.trans hg) (by rw [e3]; exact hk) hc
  · intro g gr1 sr c1 hg hs hc1
    obtain ⟨gr, hg0, e⟩ := hw.2 g gr1 hg
    obtain ⟨c, hc, e1, _, _⟩ := hw.1 sr.1 sr.2 c1 hc1
    rw [← e1]
    exact h.2 g gr sr c hg0 (e.trans hs) hc

/-- In a sealed circuit a cascade that starts with no `set` of a logic gate's
outputs pending never makes one. -/
theorem run_logic_outputs (fuel : Nat) (ts : List Task) (s s1 : Circuit) (hseal : Sealed s)
    (hts : ∀ t ∈ ts, ∀ r sigs c, t = Task.setOutputSignals r sigs →
      getCell s r.1 (some r.2) = some c → c.type.isLogic = false)
    (hr : run fuel ts s = Outcome.ok s1) :
    ∀ g i c1, getCell s1 g (some i) = some c1 → c1.type.isLogic = true →
      ∃ c, getCell s g (some i) = some c ∧ c1.outputSignals = c.outputSignals := by
  have key := run_inv
    (fun ts' s' => skeleton s' = skeleton s ∧
      (∀ t ∈ ts', ∀ r sigs c, t = Task.setOutputSignals r sigs →
        getCell s r.1 (some r.2) = some c → c.type.isLogic = false) ∧
      ∀ g i c', getCell s' g (some i) = some c' → c'.type.isLogic = true →
        ∃ c, getCell s g (some i) = some c ∧ c'.outputSignals = c.outputSignals)
    ?_ fuel ts s s1 ⟨rfl, hts, fun g i c h _ => ⟨c, h, rfl⟩⟩ hr
  · exact key.2.2
  · intro t ts' s' new s'' hI hstep
    obtain ⟨hsk, htask, hout⟩ := hI
    have hsk'' := (step_skeleton t s' s'' new hstep).trans hsk
    have hw' := within_of_skeleton s' s hsk
    have hw'' := within_of_skeleton s'' s hsk''
    refine ⟨hsk'', ?_, ?_⟩
    · intro t' ht' r sigs c hte hc
      rcases List.mem_append.1 ht' with hn | ho
      · rw [hte] at hn
        rcases step_new_setOutputSignals t s' s'' new hstep r sigs hn with
          ⟨v, e, r0, gate, _, hg0, hgr, hio, _⟩ | ⟨v, e, r0, gr, _, hgr, hsub⟩
        · obtain ⟨gate0, hgate0, _, e2, e3⟩ := hw'.1 r0.1 r0.2 gate hg0
          exact hseal.1 r0 gate0 r.1 (portKey e.port) r.2 c hgate0 (e2.trans hgr)
            (by rw [e3]; exact hio) hc
        · obtain ⟨gr0, hgr0, e1⟩ := hw''.2 r0.1 gr hgr
          exact hseal.2 r0.1 gr0 r c hgr0 (e1.trans hsub) hc
      · exact htask t' (List.mem_cons_of_mem _ ho) r sigs c hte hc
    · intro g i c'' hc'' hl
      obtain ⟨c', hc', hcases⟩ := step_gate t s' s'' new hstep g i c'' hc''
      rcases hcases with h1 | ⟨v, e, _, h1, _⟩ | ⟨sigs, hte, _⟩
      · rw [h1] at hl ⊢
        exact hout g i c' hc' hl
      · have hl' : c'.type.isLogic = true := by rw [h1] at hl; exact hl
        obtain ⟨c, hc, ho⟩ := hout g i c' hc' hl'
        exact ⟨c, hc, by rw [h1]; exact ho⟩
      · exfalso
        obtain ⟨c, hc, e1, _, _⟩ := hw''.1 g i c'' hc''
        have := htask t (List.mem_cons_self _ _) (g, i) sigs c hte hc
        rw [e1, hl] at this
        cases this

theorem wireCall_not_setOutputSignals (ts : List Task) (h : ∀ t ∈ ts, t.isWireCall) :
    ∀ t ∈ ts, ∀ r sigs, t ≠ Task.setOutputSignals r sigs := by
  intro t ht r sigs hte
  have := h t ht
  rw [hte] at this
  exact this

theorem applyEdit_logic_outputs (op : Gate → Sigs → Sigs) (fuel : Nat) (e : Edit)
    (s s1 : Circuit) (hseal : Sealed s) (hnt : e ≠ Edit.tick)
    (h : applyEdit op fuel e s = Outcome.ok s1) :
    ∀ g i c1, getCell s1 g (some i) = some c1 → c1.type.isLogic = true →
      ∃ c, getCell s g (some i) = some c ∧ c1.outputSignals = c.outputSignals := by
  have key := applyEdit_ind
    (fun x => Within x s ∧ ∀ g i c1, getCell x g (some i) = some c1 → c1.type.isLogic = true →
      ∃ c, getCell s g (some i) = some c ∧ c1.outputSignals = c.outputSignals)
    op fuel ?_ ?_ e s s1 ?_ ?_ ⟨within_refl s, fun g i c hc _ => ⟨c, hc, rfl⟩⟩ h
  · exact key.2
  · intro a sm ts a1 ha hsc hts hr
    have hwsm : Within sm s := within_trans sm a s (within_of_sameCells sm a hsc) ha.1
    refine ⟨within_trans a1 sm s (within_of_skeleton a1 sm (run_skeleton _ _ _ _ hr)) hwsm, ?_⟩
    intro g i c1 hc1 hl
    obtain ⟨c, hc, ho⟩ := run_logic_outputs fuel ts sm a1 (sealed_within sm s hwsm hseal)
      (fun t ht r sigs _ hte _ => absurd hte (wireCall_not_setOutputSignals ts hts t ht r sigs))
      hr g i c1 hc1 hl
    rw [sameCells_getCell sm a hsc] at hc
    have hl' : c.type.isLogic = true := by
      obtain ⟨c', hc', hb⟩ := getCell_of_skeleton a1 sm (run_skeleton _ _ _ _ hr) g (some i) c1 hc1
      rw [sameCells_getCell sm a hsc, hc] at hc'
      cases hc'
      rw [type_of_bare c c1 hb]
      exact hl
    obtain ⟨c0, hc0, ho0⟩ := ha.2 g i c hc hl'
    exact ⟨c0, hc0, ho.trans ho0⟩
  · intro a g id ha
    refine ⟨within_trans _ a s (dropGate_within a g id) ha.1, ?_⟩
    intro g' i c1 hc1 hl
    exact ha.2 g' i c1 (getCell_dropGate a g id g' i c1 hc1) hl
  · intro ht
    exact absurd ht hnt
  · intro r b _ ha
    refine ⟨within_trans _ s s (setButtonState_within r b s) ha.1, ?_⟩
    intro g i c1 hc1 hl
    have : ∃ c, getCell s g (some i) = some c ∧ c1.outputSignals = c.outputSignals ∧
        c1.type = c.type := by
      unfold setButtonState at hc1
      cases hg : getCell s r.1 (some r.2) with
      | none => rw [hg] at hc1; exact ⟨c1, hc1, rfl, rfl⟩
      | some gate =>
        rw [hg] at hc1
        simp only at hc1
        split at hc1
        · exact ⟨c1, hc1, rfl, rfl⟩
        · rw [getCell_queue] at hc1
          obtain ⟨c, hc0, hcc⟩ := getCell_modifyGate_cases s r
            (fun c => { c with buttonState := b }) (fun _ => rfl) g i c1 hc1
          refine ⟨c, hc0, ?_⟩
          rcases hcc with ⟨_, h2⟩ | h2 <;> (rw [h2]; exact ⟨rfl, rfl⟩)
    obtain ⟨c, hc, ho, _⟩ := this
    exact ⟨c, hc, ho⟩

/-! ## Gates at rest -/

theorem restVal_fill (op : Gate → Sigs → Sigs) (c : Gate) :
    restVal op { c with inputSignals := fillInputs c.ports c.inputSignals } = restVal op c := by
  unfold restVal
  simp only [fillInputs_idem]

theorem restVal_outputs (op : Gate → Sigs → Sigs) (hb : OutputBlind op) (c : Gate) (o : Sigs)
    (hl : c.type.isLogic = true) : restVal op { c with outputSignals := o } = restVal op c := by
  unfold restVal
  exact hb { c with inputSignals := fillInputs c.ports c.inputSignals } o _ hl

/-- No handler call puts a `set` of a logic gate's outputs on the stack. -/
theorem step_new_logic (t : Task) (s s1 : Circuit) (new : List Task) (hseal : Sealed s)
    (h : step t s = Outcome.ok (new, s1)) (r : GateRef) (sigs : Sigs) (c : Gate)
    (hm : Task.setOutputSignals r sigs ∈ new) (hc : getCell s r.1 (some r.2) = some c) :
    c.type.isLogic = false := by
  have hw1 := within_of_skeleton s1 s (step_skeleton t s s1 new h)
  rcases step_new_setOutputSignals t s s1 new h r sigs hm with
    ⟨v, e, r0, gate, _, hg0, hgr, hio, _⟩ | ⟨v, e, r0, gr, _, hgr, hsub⟩
  · exact hseal.1 r0 gate r.1 (portKey e.port) r.2 c hg0 hgr hio hc
  · obtain ⟨gr0, hgr0, e1⟩ := hw1.2 r0.1 gr hgr
    exact hseal.2 r0.1 gr0 r c hgr0 (e1.trans hsub) hc

/-- The invariant of a cascade for `Settled`: a logic gate is pending, or every
`set` of its outputs on the stack carries its rest value and it is at rest
unless such a `set` is on the stack. -/
theorem run_settled (op : Gate → Sigs → Sigs) (hb : OutputBlind op) (fuel : Nat)
    (ts : List Task) (s s1 : Circuit) (hseal : Sealed s)
    (h0 : ∀ g i c, getCell s g (some i) = some c → c.type.isLogic = true →
      (g, i) ∈ s.queue ∨
        ((∀ sigs, Task.setOutputSignals (g, i) sigs ∈ ts → sigs = restVal op c) ∧
          (AtRest op c ∨ ∃ sigs, Task.setOutputSignals (g, i) sigs ∈ ts)))
    (hr : run fuel ts s = Outcome.ok s1) : Settled op s1 := by
  have key := run_inv
    (fun ts' s' => skeleton s' = skeleton s ∧
      ∀ g i c, getCell s' g (some i) = some c → c.type.isLogic = true →
        (g, i) ∈ s'.queue ∨
          ((∀ sigs, Task.setOutputSignals (g, i) sigs ∈ ts' → sigs = restVal op c) ∧
            (AtRest op c ∨ ∃ sigs, Task.setOutputSignals (g, i) sigs ∈ ts')))
    ?_ fuel ts s s1 ⟨rfl, h0⟩ hr
  · intro g i c hc hl
    rcases key.2 g i c hc hl with h | ⟨_, h | ⟨_, h⟩⟩
    · exact Or.inl h
    · exact Or.inr h
    · cases h
  · intro t ts' s' new s'' hI hstep
    obtain ⟨hsk, hJ⟩ := hI
    refine ⟨(step_skeleton t s' s'' new hstep).trans hsk, ?_⟩
    have hseal' : Sealed s' := sealed_within s' s (within_of_skeleton s' s hsk) hseal
    intro g i c'' hc'' hl
    obtain ⟨c', hc', hcases⟩ := step_gate t s' s'' new hstep g i c'' hc''
    have hty : c''.type = c'.type := by
      rcases hcases with h1 | ⟨_, _, _, h1, _⟩ | ⟨_, _, h1⟩ <;> rw [h1]
    have hl' : c'.type.isLogic = true := by rw [← hty]; exact hl
    have hnew : ∀ sigs, Task.setOutputSignals (g, i) sigs ∈ new ++ ts' →
        Task.setOutputSignals (g, i) sigs ∈ ts' := by
      intro sigs hm
      rcases List.mem_append.1 hm with hn | ho
      · have := step_new_logic t s' s'' new hseal' hstep (g, i) sigs c' hn hc'
        rw [hl'] at this
        cases this
      · exact ho
    -- the gate's inputs changed: it is pending
    by_cases hin : ∃ v e, t = Task.setInput v e (g, i)
    · obtain ⟨v, e, hte⟩ := hin
      rcases hcases with h1 | ⟨v', e', _, _, hq⟩ | ⟨sigs, hte', _⟩
      · rcases hJ g i c' hc' hl' with hq | ⟨hall, hrest⟩
        · exact Or.inl (step_queue_mono t s' s'' new hstep _ hq)
        · right
          rw [h1]
          refine ⟨fun sigs hm => hall sigs (List.mem_cons_of_mem _ (hnew sigs hm)), ?_⟩
          rcases hrest with hrest | ⟨sigs, hm⟩
          · exact Or.inl hrest
          · rcases List.mem_cons.1 hm with hm | hm
            · rw [hte] at hm; cases hm
            · exact Or.inr ⟨sigs, List.mem_append_right _ hm⟩
      · left
        apply hq
        intro ho
        rw [ho] at hl'
        cases hl'
      · rw [hte] at hte'; cases hte'
    · have hrel : c'' = c' ∨ ∃ sigs, t = Task.setOutputSignals (g, i) sigs ∧
          c'' = { c' with outputSignals := sigs } := by
        rcases hcases with h1 | ⟨v, e, hte, _, _⟩ | ⟨sigs, hte, h1⟩
        · exact Or.inl h1
        · exact absurd ⟨v, e, hte⟩ hin
        · exact Or.inr ⟨sigs, hte, h1⟩
      have hrv : restVal op c'' = restVal op c' := by
        rcases hrel with h1 | ⟨sigs, _, h1⟩
        · rw [h1]
        · rw [h1]; exact restVal_outputs op hb c' sigs hl'
      rcases hJ g i c' hc' hl' with hq | ⟨hall, hrest⟩
      · exact Or.inl (step_queue_mono t s' s'' new hstep _ hq)
      · right
        refine ⟨fun sigs hm => by
          rw [hrv]; exact hall sigs (List.mem_cons_of_mem _ (hnew sigs hm)), ?_⟩
        by_cases hth : ∃ sigs, t = Task.setOutputSignals (g, i) sigs
        · obtain ⟨sigs, hte⟩ := hth
          left
          have hv := step_setOutputSignals_value (g, i) sigs s' s'' new (by rw [← hte]; exact hstep)
            c'' hc''
          have hs : sigs = restVal op c' := hall sigs (by rw [hte]; exact List.mem_cons_self _ _)
          unfold AtRest
          rw [hrv, ← hs]
          exact hv
        · have hcc : c'' = c' := by
            rcases hrel with h1 | ⟨sigs, hte, _⟩
            · exact h1
            · exact absurd ⟨sigs, hte⟩ hth
          rcases hrest with hrest | ⟨sigs, hm⟩
          · left; rw [hcc]; exact hrest
          · rcases List.mem_cons.1 hm with hm | hm
            · exact absurd ⟨sigs, hm.symm⟩ hth
            · exact Or.inr ⟨sigs, List.mem_append_right _ hm⟩

theorem mem_tickTasks (op : Gate → Sigs → Sigs) (s : Circuit) (q : List GateRef) (r : GateRef)
    (sigs : Sigs) :
    Task.setOutputSignals r sigs ∈
        (captureLoop op { s with queue := [] } q).2.map (fun c => Task.setOutputSignals c.1 c.2)
      ↔ r ∈ q ∧ ∃ c, getCell s r.1 (some r.2) = some c ∧ c.type ≠ CellType.Subcircuit ∧
          sigs = restVal op c := by
  rw [captureLoop_changes]
  simp only [List.mem_map, List.mem_filterMap, Task.setOutputSignals.injEq]
  constructor
  · rintro ⟨p, ⟨a, ha, hta⟩, hp1, hp2⟩
    have ht' : tickOutputs op s a = some p := hta
    unfold tickOutputs at ht'
    cases hg : getCell s a.1 (some a.2) with
    | none => rw [hg] at ht'; cases ht'
    | some gate =>
      rw [hg] at ht'
      simp only at ht'
      split at ht'
      · cases ht'
      · rename_i hsub
        cases ht'
        simp only at hp1 hp2
        subst hp1
        exact ⟨ha, gate, hg, hsub, hp2.symm⟩
  · rintro ⟨hr, c, hc, hsub, hs⟩
    refine ⟨(r, sigs), ⟨r, hr, ?_⟩, rfl, rfl⟩
    have : tickOutputs op s r = some (r, sigs) := by
      unfold tickOutputs
      rw [hc]
      simp only [hsub, if_false, hs]
      rfl
    exact this

theorem logic_not_subcircuit (c : Gate) (h : c.type.isLogic = true) :
    c.type ≠ CellType.Subcircuit := by
  intro e
  rw [e] at h
  cases h

theorem logic_not_output (c : Gate) (h : c.type.isLogic = true) : c.type ≠ CellType.Output := by
  intro e
  rw [e] at h
  cases h

theorem updateGates_settled (op : Gate → Sigs → Sigs) (hb : OutputBlind op) (fuel : Nat)
    (s s1 : Circuit) (hseal : Sealed s) (h0 : Settled op s)
    (h : updateGates op fuel s = Outcome.ok s1) : Settled op s1 := by
  simp only [updateGates] at h
  have hsk := captureLoop_skeleton op { s with queue := [] } s.queue
  have hw : Within (captureLoop op { s with queue := [] } s.queue).1 s :=
    within_of_skeleton _ s hsk
  refine run_settled op hb fuel _ _ s1 (sealed_within _ s hw hseal) ?_ h
  intro g i cc hcc hl
  right
  rw [captureLoop_getCell, getCell_queue] at hcc
  cases hc : getCell s g (some i) with
  | none => rw [hc] at hcc; cases hcc
  | some c =>
    rw [hc] at hcc
    simp only [Option.map_some', Option.some.injEq] at hcc
    have hty : cc.type = c.type := by
      rw [← hcc]; split <;> rfl
    have hlc : c.type.isLogic = true := by rw [← hty]; exact hl
    have hrv : restVal op cc = restVal op c := by
      rw [← hcc]
      split
      · exact restVal_fill op c
      · rfl
    refine ⟨?_, ?_⟩
    · intro sigs hm
      obtain ⟨_, c', hc', _, hs⟩ := (mem_tickTasks op s s.queue (g, i) sigs).1 hm
      rw [hc] at hc'
      cases hc'
      rw [hrv]; exact hs
    · by_cases hq : (g, i) ∈ s.queue
      · right
        exact ⟨restVal op c, (mem_tickTasks op s s.queue (g, i) _).2
          ⟨hq, c, hc, logic_not_subcircuit c hlc, rfl⟩⟩
      · left
        have hcc' : cc = c := by
          rw [← hcc]
          simp [hq]
        rw [hcc']
        rcases h0 g i c hc hlc with h1 | h1
        · exact absurd h1 hq
        · exact h1

theorem setButtonState_settled (op : Gate → Sigs → Sigs) (r : GateRef) (b : Bool) (s : Circuit)
    (h0 : Settled op s) : Settled op (setButtonState r b s) := by
  unfold setButtonState
  cases hg : getCell s r.1 (some r.2) with
  | none => exact h0
  | some gate =>
    simp only
    split
    · exact h0
    · intro g i c1 hc1 hl
      rw [getCell_queue] at hc1
      obtain ⟨c, hc0, hcc⟩ := getCell_modifyGate_cases s r
        (fun c => { c with buttonState := b }) (fun _ => rfl) g i c1 hc1
      rcases hcc with ⟨h1, _⟩ | h2
      · left
        show (g, i) ∈ queueAdd _ r
        rw [mem_queueAdd]
        exact Or.inr h1
      · rw [h2] at hl ⊢
        rcases h0 g i c hc0 hl with h | h
        · left
          show (g, i) ∈ queueAdd _ r
          rw [mem_queueAdd]
          exact Or.inl h
        · exact Or.inr h

theorem applyEdit_settled (op : Gate → Sigs → Sigs) (hb : OutputBlind op) (fuel : Nat) (e : Edit)
    (s s1 : Circuit) (hseal : Sealed s) (h0 : Settled op s)
    (h : applyEdit op fuel e s = Outcome.ok s1) : Settled op s1 := by
  have key := applyEdit_ind (fun x => Within x s ∧ Settled op x)
    op fuel ?_ ?_ e s s1 ?_ ?_ ⟨within_refl s, h0⟩ h
  · exact key.2
  · intro a sm ts a1 ha hsc hts hr
    have hwsm : Within sm s := within_trans sm a s (within_of_sameCells sm a hsc) ha.1
    refine ⟨within_trans a1 sm s (within_of_skeleton a1 sm (run_skeleton _ _ _ _ hr)) hwsm, ?_⟩
    refine run_settled op hb fuel ts sm a1 (sealed_within sm s hwsm hseal) ?_ hr
    intro g i c hc hl
    rw [sameCells_getCell sm a hsc] at hc
    rw [hsc.1]
    rcases ha.2 g i c hc hl with h1 | h1
    · exact Or.inl h1
    · right
      refine ⟨?_, Or.inl h1⟩
      intro sigs hm
      exact absurd rfl (wireCall_not_setOutputSignals ts hts _ hm (g, i) sigs)
  · intro a g id ha
    refine ⟨within_trans _ a s (dropGate_within a g id) ha.1, ?_⟩
    intro g' i c1 hc1 hl
    exact ha.2 g' i c1 (getCell_dropGate a g id g' i c1 hc1) hl
  · intro _ ha ht
    exact ⟨updateGates_within op fuel s s1 ht, updateGates_settled op hb fuel s s1 hseal ha.2 ht⟩
  · intro r b _ ha
    exact ⟨setButtonState_within r b s, setButtonState_settled op r b s ha.2⟩

theorem applyEdits_settled (op : Gate → Sigs → Sigs) (hb : OutputBlind op) (fuel : Nat)
    (es : List Edit) (s s1 : Circuit) (hseal : Sealed s) (h0 : Settled op s)
    (h : applyEdits op fuel es s = Outcome.ok s1) : Settled op s1 := by
  induction es generalizing s with
  | nil => simp only [applyEdits] at h; cases h; exact h0
  | cons e es ih =>
    simp only [applyEdits] at h
    cases hr : applyEdit op fuel e s with
    | ok s2 =>
      rw [hr] at h
      exact ih s2 (sealed_within s2 s (applyEdit_within op fuel e s s2 hr) hseal)
        (applyEdit_settled op hb fuel e s s2 hseal h0 hr) h
    | typeError => rw [hr] at h; cases h
    | outOfFuel => rw [hr] at h; cases h

/-! ## The pending set right after construction -/

theorem addGate_enqueued_allPending (s : Circuit) (g : Nat) (c : Gate) (h0 : AllPending s) :
    AllPending { addGate s g c with queue := queueAdd (addGate s g c).queue (g, c.id) } := by
  intro g' gr1 hg1 x hx
  rw [mem_queueAdd]
  have hg1' : getGraph { graphs := updGraph (fun gr =>
      if (findGate gr.cells c.id).isSome ∨ (findWire gr.wires c.id).isSome then gr
      else { gr with cells := gr.cells ++ [c] }) s.graphs g, queue := s.queue } g' = some gr1 := hg1
  obtain ⟨gr, hg, hgr⟩ := getGraph_updGraph s _ g g' gr1 s.queue hg1'
  by_cases hgg : g' = g
  · rw [if_pos hgg] at hgr
    subst hgg
    by_cases hcond : (findGate gr.cells c.id).isSome ∨ (findWire gr.wires c.id).isSome
    · rw [if_pos hcond] at hgr
      rw [hgr] at hx
      exact Or.inl (h0 g' gr hg x hx)
    · rw [if_neg hcond] at hgr
      rw [hgr] at hx
      rcases List.mem_append.1 hx with h1 | h1
      · exact Or.inl (h0 g' gr hg x h1)
      · rw [List.mem_singleton] at h1
        rw [h1]
        exact Or.inr rfl
  · rw [if_neg hgg] at hgr
    rw [hgr] at hx
    exact Or.inl (h0 g' gr hg x hx)

theorem allPending_updGraph (s : Circuit) (F : Graph → Graph) (g : Nat)
    (hF : ∀ gr, (F gr).cells = gr.cells) (h0 : AllPending s) :
    AllPending { graphs := updGraph F s.graphs g, queue := s.queue } := by
  intro g' gr1 hg1 x hx
  obtain ⟨gr, hg, hgr⟩ := getGraph_updGraph s _ g g' gr1 s.queue hg1
  have hc : gr1.cells = gr.cells := by
    rw [hgr]
    split
    · exact hF gr
    · rfl
  rw [hc] at hx
  exact h0 g' gr hg x hx

theorem addConnectors_cells (s : Circuit) (g : Nat) (cs : List Connector) :
    (addConnectors s g cs).queue = s.queue ∧
      ∀ g' gr1, getGraph (addConnectors s g cs) g' = some gr1 →
        ∃ gr, getGraph s g' = some gr ∧ gr1.cells = gr.cells := by
  induction cs generalizing s with
  | nil => exact ⟨rfl, fun _ gr h => ⟨gr, h, rfl⟩⟩
  | cons conn rest ih =>
    simp only [addConnectors]
    obtain ⟨h1, h2⟩ := ih _
    refine ⟨h1, ?_⟩
    intro g' gr1 hg1
    obtain ⟨gr2, hg2, hc2⟩ := h2 g' gr1 hg1
    obtain ⟨gr, hg, hgr⟩ := getGraph_updGraph s _ g g' gr2 s.queue hg2
    refine ⟨gr, hg, ?_⟩
    rw [hc2, hgr]
    split
    · split <;> rfl
    · rfl

theorem addDevices_allPending (mk : Description → Circuit → Outcome (Circuit × Nat))
    (hmk : ∀ d s s1 n, mk d s = Outcome.ok (s1, n) → AllPending s → AllPending s1)
    (data : Description) (g : Nat) (ds : List (String × Device)) (s s1 : Circuit)
    (h : addDevices mk data g ds s = Outcome.ok s1) (h0 : AllPending s) : AllPending s1 := by
  induction ds generalizing s with
  | nil => simp only [addDevices] at h; cases h; exact h0
  | cons d rest ih =>
    obtain ⟨devid, dev⟩ := d
    simp only [addDevices] at h
    split at h
    · split at h
      · cases h
      · rename_i sub _
        split at h
        · rename_i s2 ng hmk2
          split at h
          · cases h
          · refine ih _ h ?_
            have h2 := hmk sub s s2 ng hmk2 h0
            exact addGate_enqueued_allPending _ g _
              (allPending_updGraph s2 _ ng (fun _ => rfl) h2)
        · cases h
        · cases h
    · refine ih _ h ?_
      exact addGate_enqueued_allPending s g _ h0

theorem makeGraph_allPending (fuel : Nat) (data : Description) (s s1 : Circuit) (n : Nat)
    (h : makeGraph fuel data s = Outcome.ok (s1, n)) (h0 : AllPending s) : AllPending s1 := by
  induction fuel generalizing data s s1 n with
  | zero => simp only [makeGraph] at h; cases h
  | succ fuel ih =>
    simp only [makeGraph] at h
    split at h
    · rename_i s2 hs2
      cases h
      have h2 : AllPending s2 := by
        refine addDevices_allPending (makeGraph fuel) (fun d a b m hm ha => ih d a b m hm ha)
          data _ _ _ s2 hs2 ?_
        intro g' gr hg x hx
        unfold getGraph at hg
        simp only at hg
        by_cases hlt : g' < s.graphs.length
        · rw [List.getElem?_append_left hlt] at hg
          exact h0 g' gr hg x hx
        · rw [List.getElem?_append_right (Nat.le_of_not_lt hlt)] at hg
          have := List.getElem?_mem hg
          rw [List.mem_singleton] at this
          rw [this] at hx
          cases hx
      obtain ⟨hq, hcells⟩ := addConnectors_cells s2 s.graphs.length data.connectors
      intro g' gr1 hg1 x hx
      obtain ⟨gr, hg, hc⟩ := hcells g' gr1 hg1
      rw [hq]
      rw [hc] at hx
      exact h2 g' gr hg x hx
    · cases h
    · cases h

theorem new_allPending (fuel : Nat) (data : Description) (s : Circuit)
    (h : Circuit.new fuel data = Outcome.ok s) :
    ∀ g i c, getCell s g (some i) = some c → (g, i) ∈ s.queue := by
  have hp : AllPending s := by
    unfold Circuit.new at h
    split at h
    · rename_i s1 n hm
      cases h
      refine makeGraph_allPending fuel data _ _ n hm ?_
      intro g gr hg
      cases hg
    · cases h
    · cases h
  intro g i c hc
  obtain ⟨gr, hg, hf⟩ := (getCell_iff s g i c).1 hc
  have := hp g gr hg c (findGate_mem _ _ _ hf)
  rw [findGate_id _ _ _ hf] at this
  exact this

theorem gateOperation_blind : OutputBlind gateOperation := by
  intro c o args hl
  unfold gateOperation
  simp only
  cases hc : c.type <;> simp_all [CellType.isLogic]

/-- C20: in every state reached from a constructed circuit by ticks, button
presses and edits of the wiring that run to their end, every primitive logic
gate that is in its graph and not in the pending set has `outputSignals` equal
(as `_.isEqual` has it) to its operation applied to its `inputSignals` with the
absent input ports read as 0; right after construction every gate of every
graph is in the pending set; and when the pending set is empty every logic gate
is consistent with its inputs. The operation of a logic gate is taken not to
read the gate's stored outputs, and the forwarding maps to name terminals and
Subcircuits only. -/
theorem quiescent_gates_consistent (operation : Gate → Sigs → Sigs)
    (hblind : OutputBlind operation) (fuel0 fuel : Nat) (data : Description) (es : List Edit)
    (s0 s1 : Circuit) (hnew : Circuit.new fuel0 data = Outcome.ok s0) (hseal : Sealed s0)
    (h : applyEdits operation fuel es s0 = Outcome.ok s1) :
    (∀ g i c, getCell s0 g (some i) = some c → (g, i) ∈ s0.queue)
    ∧ (∀ g i c, getCell s1 g (some i) = some c → c.type.isLogic = true → (g, i) ∉ s1.queue →
        Sigs.isEqual c.outputSignals
          (operation { c with inputSignals := fillInputs c.ports c.inputSignals }
            (fillInputs c.ports c.inputSignals)) = true)
    ∧ (s1.queue = [] → ∀ g i c, getCell s1 g (some i) = some c → c.type.isLogic = true →
        AtRest operation c) := by
  have hall := new_allPending fuel0 data s0 hnew
  have hs0 : Settled operation s0 := fun g i c hc _ => Or.inl (hall g i c hc)
  have hs1 := applyEdits_settled operation hblind fuel es s0 s1 hseal hs0 h
  refine ⟨hall, ?_, ?_⟩
  · intro g i c hc hl hq
    rcases hs1 g i c hc hl with h1 | h1
    · exact absurd h1 hq
    · exact h1
  · intro hq g i c hc hl
    rcases hs1 g i c hc hl with h1 | h1
    · rw [hq] at h1; cases h1
    · exact h1

theorem quiescent_gates_consistent_witness :
    staleSettled = Outcome.ok staleSettled.state
    ∧ staleSettled.state.queue = []
    ∧ (getCell staleSettled.state 0 (some "d")).map (fun c => (c.inputSignals, c.outputSignals))
        = some ([("in", Val.num 0)], [("out", Val.num 1)])
    ∧ (∀ g i c, getCell (Circuit.new 3 staleData).state g (some i) = some c →
        (g, i) ∈ (Circuit.new 3 staleData).state.queue)
    ∧ (∀ g i c, getCell staleSettled.state g (some i) = some c → c.type.isLogic = true →
        (g, i) ∉ staleSettled.state.queue →
        Sigs.isEqual c.outputSignals
          (gateOperation { c with inputSignals := fillInputs c.ports c.inputSignals }
            (fillInputs c.ports c.inputSignals)) = true)
    ∧ (staleSettled.state.queue = [] → ∀ g i c, getCell staleSettled.state g (some i) = some c →
        c.type.isLogic = true → AtRest gateOperation c) :=
  ⟨by decide, by decide, by decide,
    quiescent_gates_consistent gateOperation gateOperation_blind 3 60 staleData
      [Edit.tick, Edit.press (1, "k") true, Edit.tick, Edit.tick]
      (Circuit.new 3 staleData).state staleSettled.state (by decide)
      (sealed_of_check _ (by decide)) (by decide)⟩

/-- A logic gate for which `set`s of its outputs to `sigs0` are pending, or
whose outputs are `sigs0` already, has the outputs `sigs0` when the cascade
ends. -/
theorem run_pending_outputs (fuel : Nat) (ts : List Task) (s s1 : Circuit) (hseal : Sealed s)
    (g : Nat) (i : String) (sigs0 : Sigs) (c0 : Gate) (hc0 : getCell s g (some i) = some c0)
    (hlog : c0.type.isLogic = true)
    (hall : ∀ sigs, Task.setOutputSignals (g, i) sigs ∈ ts → sigs = sigs0)
    (h0 : Sigs.isEqual c0.outputSignals sigs0 = true ∨
      ∃ sigs, Task.setOutputSignals (g, i) sigs ∈ ts)
    (hr : run fuel ts s = Outcome.ok s1) :
    ∀ c1, getCell s1 g (some i) = some c1 → Sigs.isEqual c1.outputSignals sigs0 = true := by
  have key := run_inv
    (fun ts' s' => skeleton s' = skeleton s ∧
      (∀ sigs, Task.setOutputSignals (g, i) sigs ∈ ts' → sigs = sigs0) ∧
      ∀ c, getCell s' g (some i) = some c →
        Sigs.isEqual c.outputSignals sigs0 = true ∨
          ∃ sigs, Task.setOutputSignals (g, i) sigs ∈ ts')
    ?_ fuel ts s s1 ⟨rfl, hall, ?_⟩ hr
  · intro c1 hc1
    rcases key.2.2 c1 hc1 with h | ⟨_, h⟩
    · exact h
    · cases h
  · intro t ts' s' new s'' hI hstep
    obtain ⟨hsk, hal, hJ⟩ := hI
    have hw' := within_of_skeleton s' s hsk
    have hseal' : Sealed s' := sealed_within s' s hw' hseal
    obtain ⟨w, hw⟩ := getCell_exists_of_skeleton s' s hsk g (some i) c0 hc0
    have hwl : w.type.isLogic = true := by
      obtain ⟨c, hc, e1, _, _⟩ := hw'.1 g i w hw
      rw [hc0] at hc
      cases hc
      rw [← e1]; exact hlog
    have hnew : ∀ sigs, Task.setOutputSignals (g, i) sigs ∈ new ++ ts' →
        Task.setOutputSignals (g, i) sigs ∈ ts' := by
      intro sigs hm
      rcases List.mem_append.1 hm with hn | ho
      · have := step_new_logic t s' s'' new hseal' hstep (g, i) sigs w hn hw
        rw [hwl] at this
        cases this
      · exact ho
    refine ⟨(step_skeleton t s' s'' new hstep).trans hsk, ?_, ?_⟩
    · intro sigs hm
      exact hal sigs (List.mem_cons_of_mem _ (hnew sigs hm))
    · intro c'' hc''
      obtain ⟨c', hc', hcases⟩ := step_gate t s' s'' new hstep g i c'' hc''
      by_cases hth : ∃ sigs, t = Task.setOutputSignals (g, i) sigs
      · obtain ⟨sigs, hte⟩ := hth
        left
        have hv := step_setOutputSignals_value (g, i) sigs s' s'' new (by rw [← hte]; exact hstep)
          c'' hc''
        have hs : sigs = sigs0 := hal sigs (by rw [hte]; exact List.mem_cons_self _ _)
        rw [← hs]; exact hv
      · have ho : c''.outputSignals = c'.outputSignals := by
          rcases hcases with h1 | ⟨_, _, _, h1, _⟩ | ⟨sigs, hte, _⟩
          · rw [h1]
          · rw [h1]
          · exact absurd ⟨sigs, hte⟩ hth
        rw [ho]
        rcases hJ c' hc' with h | ⟨sigs, hm⟩
        · exact Or.inl h
        · rcases List.mem_cons.1 hm with hm | hm
          · exact absurd ⟨sigs, hm.symm⟩ hth
          · exact Or.inr ⟨sigs, List.mem_append_right _ hm⟩
  · intro c hc
    rw [hc0] at hc
    cases hc
    exact h0

/-- What a tick leaves in a logic gate that was pending or at rest: the
operation applied to the inputs the gate had when the tick started. -/
theorem updateGates_outputs (op : Gate → Sigs → Sigs) (fuel : Nat) (s s1 : Circuit)
    (hseal : Sealed s) (h : updateGates op fuel s = Outcome.ok s1) (g : Nat) (i : String)
    (c c1 : Gate) (hc : getCell s g (some i) = some c) (hl : c.type.isLogic = true)
    (hc1 : getCell s1 g (some i) = some c1) (hq : (g, i) ∈ s.queue ∨ AtRest op c) :
    Sigs.isEqual c1.outputSignals (restVal op c) = true := by
  simp only [updateGates] at h
  have hsk := captureLoop_skeleton op { s with queue := [] } s.queue
  have hw : Within (captureLoop op { s with queue := [] } s.queue).1 s :=
    within_of_skeleton _ s hsk
  have hcc : getCell (captureLoop op { s with queue := [] } s.queue).1 g (some i) =
      some (if (g, i) ∈ s.queue ∧ c.type ≠ CellType.Subcircuit then
        { c with inputSignals := fillInputs c.ports c.inputSignals } else c) := by
    rw [captureLoop_getCell, getCell_queue, hc]
    rfl
  refine run_pending_outputs fuel _ _ s1 (sealed_within _ s hw hseal) g i (restVal op c) _ hcc
    ?_ ?_ ?_ h c1 hc1
  · split <;> exact hl
  · intro sigs hm
    obtain ⟨_, c', hc', _, hs⟩ := (mem_tickTasks op s s.queue (g, i) sigs).1 hm
    rw [hc] at hc'
    cases hc'
    exact hs
  · by_cases hin : (g, i) ∈ s.queue
    · right
      exact ⟨restVal op c, (mem_tickTasks op s s.queue (g, i) _).2
        ⟨hin, c, hc, logic_not_subcircuit c hl, rfl⟩⟩
    · left
      rcases hq with h1 | h1
      · exact absurd h1 hin
      · simp only [hin, false_and, if_false]
        exact h1

theorem applyEdits_logic_outputs (op : Gate → Sigs → Sigs) (fuel : Nat) (es : List Edit)
    (s s1 : Circuit) (hseal : Sealed s) (hnt : Edit.tick ∉ es)
    (h : applyEdits op fuel es s = Outcome.ok s1) :
    ∀ g i c1, getCell s1 g (some i) = some c1 → c1.type.isLogic = true →
      ∃ c, getCell s g (some i) = some c ∧ c1.outputSignals = c.outputSignals := by
  induction es generalizing s with
  | nil => simp only [applyEdits] at h; cases h; exact fun g i c hc _ => ⟨c, hc, rfl⟩
  | cons e es ih =>
    simp only [applyEdits] at h
    cases hr : applyEdit op fuel e s with
    | ok s2 =>
      rw [hr] at h
      intro g i c1 hc1 hl
      have hw2 := applyEdit_within op fuel e s s2 hr
      obtain ⟨c2, hc2, ho2⟩ := ih s2 (sealed_within s2 s hw2 hseal)
        (fun hm => hnt (List.mem_cons_of_mem _ hm)) h g i c1 hc1 hl
      have hl2 : c2.type.isLogic = true := by
        obtain ⟨c2', hc2', e1, _, _⟩ := (applyEdits_within op fuel es s2 s1 h).1 g i c1 hc1
        rw [hc2] at hc2'
        cases hc2'
        rw [e1]; exact hl
      obtain ⟨c, hc, ho⟩ := applyEdit_logic_outputs op fuel e s s2 hseal
        (fun he => hnt (by rw [he]; exact List.mem_cons_self _ _)) hr g i c2 hc2 hl2
      exact ⟨c, hc, ho2.trans ho⟩
    | typeError => rw [hr] at h; cases h
    | outOfFuel => rw [hr] at h; cases h

/-- C18: outside `updateGates` the outputs of a primitive logic gate are not
written. Whatever sequence of wire pulls, connections, unpluggings, removals of
wires and gates and button presses runs from `s` to `s1`, a logic gate of `s1`
has the `outputSignals` it had in `s`; and when the next tick has run it has
its operation applied to the inputs it had in `s1`, if it was pending or at
rest there. The forwarding maps are taken to name terminals and Subcircuits
only, which are the gates whose outputs the propagation layer writes. -/
theorem edits_defer_evaluation (operation : Gate → Sigs → Sigs) (fuel : Nat) (es : List Edit)
    (s s1 : Circuit) (hseal : Sealed s) (hnt : Edit.tick ∉ es)
    (h : applyEdits operation fuel es s = Outcome.ok s1) (g : Nat) (i : String) (c1 : Gate)
    (hc1 : getCell s1 g (some i) = some c1) (hl : c1.type.isLogic = true) :
    (∃ c, getCell s g (some i) = some c ∧ c1.outputSignals = c.outputSignals)
    ∧ ∀ s2 c2, updateGates operation fuel s1 = Outcome.ok s2 →
        getCell s2 g (some i) = some c2 → ((g, i) ∈ s1.queue ∨ AtRest operation c1) →
        Sigs.isEqual c2.outputSignals
          (operation { c1 with inputSignals := fillInputs c1.ports c1.inputSignals }
            (fillInputs c1.ports c1.inputSignals)) = true := by
  refine ⟨applyEdits_logic_outputs operation fuel es s s1 hseal hnt h g i c1 hc1 hl, ?_⟩
  intro s2 c2 ht hc2 hq
  exact updateGates_outputs operation fuel s1 s2
    (sealed_within s1 s (applyEdits_within operation fuel es s s1 h) hseal) ht g i c1 c2 hc1 hl
    hc2 hq

theorem edits_defer_evaluation_witness :
    andLit = Outcome.ok andLit.state ∧ andWired = Outcome.ok andWired.state
    ∧ getCell andWired.state 0 (some "c") = some andWiredC
    ∧ ((∃ c, getCell andLit.state 0 (some "c") = some c ∧
          andWiredC.outputSignals = c.outputSignals)
      ∧ ∀ s2 c2, updateGates gateOperation 20 andWired.state = Outcome.ok s2 →
          getCell s2 0 (some "c") = some c2 →
          (((0, "c") : GateRef) ∈ andWired.state.queue ∨ AtRest gateOperation andWiredC) →
          Sigs.isEqual c2.outputSignals
            (gateOperation
              { andWiredC with inputSignals := fillInputs andWiredC.ports andWiredC.inputSignals }
              (fillInputs andWiredC.ports andWiredC.inputSignals)) = true)
    ∧ (∃ s2, updateGates gateOperation 20 andWired.state = Outcome.ok s2 ∧
        (getCell s2 0 (some "c")).map (fun c => c.outputSignals) = some [("out", Val.num 1)]) :=
  ⟨by decide, by decide, by decide,
    edits_defer_evaluation gateOperation 20 wireUp andLit.state andWired.state
      (sealed_of_check _ (by decide)) (by simp [wireUp]) (by decide) 0 "c" andWiredC (by decide)
      (by decide),
    ⟨(updateGates gateOperation 20 andWired.state).state, by decide, by decide⟩⟩

/-- A port no wire targets holds `v0` at the end of a cascade in which every
pending write into it is a write of `v0`. -/
theorem run_undriven_value (fuel : Nat) (ts : List Task) (s s1 : Circuit) (g : Nat)
    (id p : String) (v0 : Val)
    (hnd : NoDriver s g id p)
    (hts : ∀ t ∈ ts, ∀ v e, t = Task.setInput v e (g, id) → portKey e.port = p → v = v0)
    (hval : (∀ c, getCell s g (some id) = some c → inputValue c.inputSignals p = v0)
      ∨ ∃ t ∈ ts, Task.onPort (g, id) p t)
    (hr : run fuel ts s = Outcome.ok s1) :
    ∀ c, getCell s1 g (some id) = some c → inputValue c.inputSignals p = v0 := by
  have key := run_inv
    (fun ts' s' => skeleton s' = skeleton s
      ∧ (∀ t ∈ ts', ∀ v e, t = Task.setInput v e (g, id) → portKey e.port = p → v = v0)
      ∧ ((∀ c, getCell s' g (some id) = some c → inputValue c.inputSignals p = v0)
        ∨ ∃ t ∈ ts', Task.onPort (g, id) p t))
    ?_ fuel ts s s1 ⟨rfl, hts, hval⟩ hr
  · rcases key.2.2 with h | ⟨t, ht, _⟩
    · exact h
    · simp at ht
  · intro t ts' s' new s2 ⟨hsk, hts', hval'⟩ hstep
    have hsk2 : skeleton s2 = skeleton s := (step_skeleton t s' s2 new hstep).trans hsk
    have hnew : ∀ t' ∈ new, ∀ v e, t' = Task.setInput v e (g, id) → portKey e.port = p → False := by
      intro t' ht' v e he hp
      subst he
      obtain ⟨wid, w, _, hgw, hew, hid, _, _⟩ := step_new_setInput t s' s2 new hstep v e (g, id) ht'
      obtain ⟨gr, hgr, hwm, _⟩ := getWire_mem s' g wid w hgw
      refine noDriver_of_skeleton s' s hsk g id p hnd gr hgr w hwm ⟨hid, ?_⟩
      rw [← hew]; exact hp
    refine ⟨hsk2, ?_, ?_⟩
    · intro t' ht' v e he hp
      rcases List.mem_append.1 ht' with h1 | h1
      · exact False.elim (hnew t' h1 v e he hp)
      · exact hts' t' (List.mem_cons_of_mem _ h1) v e he hp
    · have hzero : (∀ c, getCell s' g (some id) = some c → inputValue c.inputSignals p = v0)
          → ∀ c, getCell s2 g (some id) = some c → inputValue c.inputSignals p = v0 := by
        intro h0 c1 hc1
        obtain ⟨c, hc, hin⟩ := step_inputs t s' s2 new hstep g id c1 hc1
        rcases hin with hin | ⟨v, e, ht, hin⟩
        · rw [hin]; exact h0 c hc
        · rw [hin, inputValue_set]
          by_cases hk : portKey e.port = p
          · rw [if_pos hk]
            exact hts' t (List.mem_cons_self _ _) v e ht hk
          · rw [if_neg hk]; exact h0 c hc
      rcases hval' with h0 | ⟨t', ht', hon⟩
      · exact Or.inl (hzero h0)
      · rcases List.mem_cons.1 ht' with h1 | h1
        · subst h1
          left
          intro c1 hc1
          cases t' with
          | setInput v e r =>
            obtain ⟨hr1, hk⟩ := hon
            subst hr1
            have := step_setInput_value v e (g, id) s' s2 new hstep c1 hc1
            rw [hk] at this
            rw [this]
            exact hts' _ (List.mem_cons_self _ _) v e rfl hk
          | setOutputSignals r sigs => exact False.elim hon
          | setSignal g' wid v => exact False.elim hon
          | forwardInput v e r => exact False.elim hon
        · exact Or.inr ⟨t', List.mem_append_right _ h1, hon⟩

/-! ## Forwarding across the boundary of a Subcircuit -/

/-- C11: let `H` be a Subcircuit whose `circuitIOmap` sends port `p` to the
terminal `term` of its nested graph (and nothing else to it), and let the call
`setInput(v, end, H)` with `end.port = p` run to its end. When it returns, the
outputs of `term` are `{out: x}`, `x` being what `H.inputSignals[p]` then holds:
the terminal mirrors the input. That value is `v` when no wire targets
`(H, p)` (a disconnection), and it is the signal of the wire `wid` when that is
the only wire targeting `(H, p)` and carried `v` when the call was made (a wire
signal change, a connection, a retarget), which is still `v` when the source of
that wire is a gate no forwarding rule writes. -/
theorem setInput_forwards_down (fuel : Nat) (v : Val) (e : End) (H term : GateRef)
    (p : String) (s s1 : Circuit) (hF : Forwards s H p term) (hp : portKey e.port = p)
    (hr : run fuel [Task.setInput v e H] s = Outcome.ok s1) :
    (∀ h t, getCell s1 H.1 (some H.2) = some h → getCell s1 term.1 (some term.2) = some t →
      Sigs.isEqual t.outputSignals [("out", inputValue h.inputSignals p)] = true)
    ∧ (NoDriver s H.1 H.2 p →
        ∀ h t, getCell s1 H.1 (some H.2) = some h → getCell s1 term.1 (some term.2) = some t →
          inputValue h.inputSignals p = v ∧
            Sigs.isEqual t.outputSignals [("out", v)] = true)
    ∧ (∀ wid, OnlyDriver s H.1 H.2 p wid →
        (∀ w, getWire s H.1 wid = some w → w.drives H.2 p ∧ w.signal = v) →
        ∀ h t w1, getCell s1 H.1 (some H.2) = some h →
          getCell s1 term.1 (some term.2) = some t → getWire s1 H.1 wid = some w1 →
          inputValue h.inputSignals p = w1.signal ∧
            Sigs.isEqual t.outputSignals [("out", w1.signal)] = true ∧
            (∀ sid, (∀ gr, getGraph s H.1 = some gr → ∀ x ∈ gr.wires, x.id = wid →
                x.source.id = some sid) →
              (∀ (r : GateRef) h' k, getCell s r.1 (some r.2) = some h' →
                h'.graph = some H.1 → lookupIomap h'.circuitIOmap k ≠ some sid) →
              (∀ g' gr, getGraph s g' = some gr → gr.subcircuit ≠ some (H.1, sid)) →
              w1.signal = v)) := by
  have hmir : Mirror s1 H p term := by
    refine run_mirror fuel _ s s1 H p term hF (Or.inl ⟨?_, Or.inr ⟨Task.setInput v e H,
      List.mem_singleton.2 rfl, ⟨rfl, hp⟩⟩⟩) hr
    intro t ht
    rw [List.mem_singleton] at ht
    rw [ht]
    trivial
  have htail : ∀ t ∈ ([] : List Task), ¬ Task.onPort (H.1, H.2) p t := fun _ h => by cases h
  refine ⟨hmir, ?_, ?_⟩
  · intro hnd h t hh ht
    have hv : inputValue h.inputSignals p = v := by
      refine run_undriven_value fuel _ s s1 H.1 H.2 p v hnd ?_ (Or.inr ⟨Task.setInput v e H,
        List.mem_singleton.2 rfl, ⟨rfl, hp⟩⟩) hr h hh
      intro t' ht' v' e' hte _
      rw [List.mem_singleton] at ht'
      rw [ht'] at hte
      simp only [Task.setInput.injEq] at hte
      exact hte.1.symm
    refine ⟨hv, ?_⟩
    rw [← hv]
    exact hmir h t hh ht
  · intro wid hod hw h t w1 hh ht hw1
    have hv : inputValue h.inputSignals p = w1.signal := by
      refine run_driven fuel _ s s1 H.1 H.2 p wid hod (fun w hgw => (hw w hgw).1)
        (Or.inr ⟨v, e, [], rfl, hp, fun w hgw => (hw w hgw).2, htail⟩) hr h w1 hh hw1
    refine ⟨hv, ?_, ?_⟩
    · rw [← hv]
      exact hmir h t hh ht
    · intro sid hsrc hio hsub
      refine run_signal_stable fuel _ s s1 H.1 sid wid v hsrc hio hsub ?_
        (Or.inl fun w hgw => (hw w hgw).2) hr w1 hw1
      intro t' ht'
      rw [List.mem_singleton] at ht'
      rw [ht']
      exact ⟨fun sigs hte => (by cases hte), fun v' hte => (by cases hte)⟩

theorem setInput_forwards_down_witness :
    feedbackDown = Outcome.ok feedbackDown.state
    ∧ (getCell feedbackDown.state 1 (some "i")).map (fun c => c.outputSignals)
        = some [("out", Val.num 1)]
    ∧ (∀ h t, getCell feedbackDown.state 0 (some "x") = some h →
        getCell feedbackDown.state 1 (some "i") = some t →
        Sigs.isEqual t.outputSignals [("out", inputValue h.inputSignals "p")] = true)
    ∧ (∀ h t w1, getCell feedbackDown.state 0 (some "x") = some h →
        getCell feedbackDown.state 1 (some "i") = some t →
        getWire feedbackDown.state 0 "w" = some w1 →
        inputValue h.inputSignals "p" = w1.signal ∧
          Sigs.isEqual t.outputSignals [("out", w1.signal)] = true) :=
  ⟨by decide, by decide,
    (setInput_forwards_down 40 (Val.num 1) ⟨some "x", some "p"⟩ (0, "x") (1, "i") "p"
      feedbackWired feedbackDown.state (forwards_of_check _ _ _ _ (by decide)) rfl
      (by decide)).1,
    fun h t w1 hh ht hw1 =>
      have key := (setInput_forwards_down 40 (Val.num 1) ⟨some "x", some "p"⟩ (0, "x") (1, "i")
        "p" feedbackWired feedbackDown.state (forwards_of_check _ _ _ _ (by decide)) rfl
        (by decide)).2.2 "w"
        (onlyDriver_of_all feedbackWired 0 "x" "p" "w"
          ((getGraph feedbackWired 0).getD andBoardGraph) (by decide) (by decide))
        (fun w hgw => by
          have hw : getWire feedbackWired 0 "w"
              = some (Wire.mk "w" ⟨some "a", some "out"⟩ ⟨some "x", some "p"⟩ (Val.num 1)) := by
            decide
          rw [hw] at hgw
          cases hgw
          exact ⟨by decide, rfl⟩)
        h t w1 hh ht hw1
      ⟨key.1, key.2.1⟩⟩

/-! ## Hierarchy transparency -/

theorem boxedClosed_tick : boxedClosed Edit.tick = true := by decide

theorem boxedClosed_press : boxedClosed (Edit.press (0, "a") true) = true := by decide

theorem boxedClosed_release : boxedClosed (Edit.press (0, "a") false) = true := by decide

theorem boxedReach_agree : (boxedReach.all boxedAgree) = true := by decide

theorem boxedReach_start :
    applyEdit gateOperation 40 Edit.tick (Circuit.new 3 boxedNot).state
      = Outcome.ok (boxedAt false [] (Val.num 0) (Val.num 1) []) := by decide

/-- An edit for which `boxedReach` is closed returns on each of its states with
one of its states. -/
theorem boxedClosed_step (e : Edit) (h : boxedClosed e = true) (s : Circuit)
    (hs : s ∈ boxedReach) :
    ∃ s1, s1 ∈ boxedReach ∧ applyEdit gateOperation 40 e s = Outcome.ok s1 := by
  unfold boxedClosed at h
  rw [List.all_eq_true] at h
  have h1 := h s hs
  cases hr : applyEdit gateOperation 40 e s with
  | ok s1 =>
    rw [hr] at h1
    exact ⟨s1, of_decide_eq_true h1, rfl⟩
  | typeError => rw [hr] at h1; exact absurd h1 (by simp)
  | outOfFuel => rw [hr] at h1; exact absurd h1 (by simp)

/-- Ticks, presses and releases of the button keep `boxedNot` within
`boxedReach`, and every one of them returns. -/
theorem boxedReach_edits (es : List Edit)
    (hes : ∀ e ∈ es, e = Edit.tick ∨ e = Edit.press (0, "a") true
      ∨ e = Edit.press (0, "a") false) (s : Circuit) (hs : s ∈ boxedReach) :
    ∃ s1, s1 ∈ boxedReach ∧ applyEdits gateOperation 40 es s = Outcome.ok s1 := by
  induction es generalizing s with
  | nil => exact ⟨s, hs, rfl⟩
  | cons e es ih =>
    have hcl : boxedClosed e = true := by
      rcases hes e (List.mem_cons_self _ _) with h | h | h
      · rw [h]; exact boxedClosed_tick
      · rw [h]; exact boxedClosed_press
      · rw [h]; exact boxedClosed_release
    obtain ⟨s1, hs1, hr⟩ := boxedClosed_step e hcl s hs
    obtain ⟨s2, hs2, hr2⟩ := ih (fun x hx => hes x (List.mem_cons_of_mem _ hx)) s1 hs1
    refine ⟨s2, hs2, ?_⟩
    simp only [applyEdits, hr]
    exact hr2

/-- C17: a Subcircuit `x` whose nested graph is an input terminal wired to a
NOT gate wired to an output terminal, next to a flat NOT gate `m`, both fed by
the button `a`. Once the first tick has run, every sequence of ticks, presses
and releases of the button returns, and in the state it leaves `x.p` and `m.in`
hold the same value, which is also the output of the nested input terminal and
the input of the nested NOT gate, and `x.q` and `m.out` hold the same value: the
boxed gate answers in the same tick as the flat one. In particular, once the
circuit has settled with `a` at 0 (both outputs 1), the tick that makes `a`
output 1 puts the 1 on `x.p` and on `m.in` and leaves both outputs at 1; exactly
one more tick makes `x.q` and `m.out` 0, and nothing is pending. The same holds
when the 1 arrives by wiring a lit button to `x.p` and `m.in`, outside any tick:
the inputs are 1 at once, the outputs 1, and after one tick both are 0. -/
theorem hierarchy_transparent :
    (∀ es : List Edit,
      (∀ e ∈ es, e = Edit.tick ∨ e = Edit.press (0, "a") true
        ∨ e = Edit.press (0, "a") false) →
      ∃ s1, applyEdits gateOperation 40 (Edit.tick :: es) (Circuit.new 3 boxedNot).state
          = Outcome.ok s1
        ∧ boxedAgree s1 = true)
    ∧ notView (applyEdits gateOperation 40 [Edit.tick] (Circuit.new 3 boxedNot).state)
      = ([some (Val.num 0), some (Val.num 0), some (Val.num 1), some (Val.num 1)], [])
    ∧ notView (applyEdits gateOperation 40 [Edit.tick, Edit.press (0, "a") true, Edit.tick]
        (Circuit.new 3 boxedNot).state)
      = ([some (Val.num 1), some (Val.num 1), some (Val.num 1), some (Val.num 1)],
          [(0, "x"), (1, "n"), (0, "m")])
    ∧ notView (applyEdits gateOperation 40
        [Edit.tick, Edit.press (0, "a") true, Edit.tick, Edit.tick] (Circuit.new 3 boxedNot).state)
      = ([some (Val.num 1), some (Val.num 1), some (Val.num 0), some (Val.num 0)], [])
    ∧ notView (applyEdits gateOperation 40 [Edit.press (0, "a") true, Edit.tick]
        (Circuit.new 3 boxedNotLoose).state)
      = ([some (Val.num 0), some (Val.num 0), some (Val.num 1), some (Val.num 1)], [])
    ∧ notView (applyEdits gateOperation 40 ([Edit.press (0, "a") true, Edit.tick] ++ wireBoth)
        (Circuit.new 3 boxedNotLoose).state)
      = ([some (Val.num 1), some (Val.num 1), some (Val.num 1), some (Val.num 1)],
          [(0, "x"), (1, "n"), (0, "m")])
    ∧ notView (applyEdits gateOperation 40
        ([Edit.press (0, "a") true, Edit.tick] ++ wireBoth ++ [Edit.tick])
        (Circuit.new 3 boxedNotLoose).state)
      = ([some (Val.num 1), some (Val.num 1), some (Val.num 0), some (Val.num 0)], []) := by
  refine ⟨?_, by decide, by decide, by decide, by decide, by decide, by decide⟩
  intro es hes
  obtain ⟨s1, hs1, hr⟩ := boxedReach_edits es hes
    (boxedAt false [] (Val.num 0) (Val.num 1) []) (by simp [boxedReach])
  refine ⟨s1, ?_, ?_⟩
  · simp only [applyEdits, boxedReach_start]
    exact hr
  · have h := boxedReach_agree
    rw [List.all_eq_true] at h
    exact h s1 hs1

/-- A press, a release and a press of the button with a tick after each: the
edits return and the boxed and the flat NOT gate agree. -/
theorem hierarchy_transparent_witness :
    (∀ e ∈ [Edit.press (0, "a") true, Edit.tick, Edit.press (0, "a") false, Edit.tick,
        Edit.tick],
      e = Edit.tick ∨ e = Edit.press (0, "a") true ∨ e = Edit.press (0, "a") false)
    ∧ ∃ s1, applyEdits gateOperation 40
        (Edit.tick :: [Edit.press (0, "a") true, Edit.tick, Edit.press (0, "a") false,
          Edit.tick, Edit.tick]) (Circuit.new 3 boxedNot).state = Outcome.ok s1
      ∧ boxedAgree s1 = true :=
  ⟨by simp, hierarchy_transparent.1 _ (by simp)⟩

/-- The button of `boxedNot` pressed before the first tick. That tick sets `x.p`
to 1 and forwards the 1 to the nested input terminal `i`, and then gives `i`,
pending since the construction, the outputs it had when the tick began: `i`
outputs 0, the nested NOT gate has input 0, and `x.p` is 1. Two ticks later
nothing is pending, `x.p` and `m.in` are 1, `m.out` is 0 and `x.q` is 1: the
boxed NOT gate never answers. -/
theorem pressed_before_first_tick :
    notView (applyEdits gateOperation 40 [Edit.press (0, "a") true, Edit.tick]
        (Circuit.new 3 boxedNot).state)
      = ([some (Val.num 1), some (Val.num 1), some (Val.num 1), some (Val.num 1)],
          [(0, "x"), (1, "n"), (0, "m")])
    ∧ (getCell (applyEdits gateOperation 40 [Edit.press (0, "a") true, Edit.tick]
        (Circuit.new 3 boxedNot).state).state 1 (some "i")).map (fun c => c.outputSignals)
      = some [("out", Val.num 0)]
    ∧ (getCell (applyEdits gateOperation 40 [Edit.press (0, "a") true, Edit.tick]
        (Circuit.new 3 boxedNot).state).state 1 (some "n")).map (fun c => c.inputSignals)
      = some [("in", Val.num 0)]
    ∧ notView (applyEdits gateOperation 40
        [Edit.press (0, "a") true, Edit.tick, Edit.tick, Edit.tick]
        (Circuit.new 3 boxedNot).state)
      = ([some (Val.num 1), some (Val.num 1), some (Val.num 1), some (Val.num 0)], []) := by
  refine ⟨by decide, by decide, by decide, by decide⟩

/-! ## Cascades that stay among primitive gates -/

theorem getWire_of_skeleton (s s0 : Circuit) (h : skeleton s = skeleton s0) (g : Nat)
    (i : String) (w : Wire) (hw : getWire s g i = some w) :
    ∃ w0, getWire s0 g i = some w0 ∧ w0.bare = w.bare := by
  unfold getWire at hw
  cases hg : getGraph s g with
  | none => simp [hg] at hw
  | some gr =>
    simp only [hg] at hw
    obtain ⟨gr0, hgr0, hb⟩ := getGraph_of_skeleton s s0 h g gr hg
    have hwires : gr0.wires.map Wire.bare = gr.wires.map Wire.bare := by
      have := congrArg Graph.wires hb
      simpa [Graph.bare] using this
    have h1 : findWire (gr0.wires.map Wire.bare) i = some w.bare := by
      rw [hwires, findWire_map_bare, hw]; rfl
    rw [findWire_map_bare] at h1
    cases hf : findWire gr0.wires i with
    | none => rw [hf] at h1; simp at h1
    | some w0 =>
      rw [hf] at h1
      simp only [Option.map_some', Option.some.injEq] at h1
      refine ⟨w0, ?_, h1⟩
      unfold getWire
      simp only [hgr0, hf]

theorem primitiveAt_of_skeleton (s s0 : Circuit) (h : skeleton s = skeleton s0) (g : Nat)
    (id : Option String) (h0 : PrimitiveAt s0 g id) : PrimitiveAt s g id := by
  intro c hc
  obtain ⟨c0, hc0, hb⟩ := getCell_of_skeleton s s0 h g id c hc
  rw [← type_of_bare c0 c hb]
  exact h0 c0 hc0

theorem target_of_bare (a b : Wire) (h : a.bare = b.bare) : a.target = b.target := by
  have := congrArg Wire.target h
  exact this

theorem source_of_bare (a b : Wire) (h : a.bare = b.bare) : a.source = b.source := by
  have := congrArg Wire.source h
  exact this

theorem id_of_bare (a b : Wire) (h : a.bare = b.bare) : a.id = b.id := by
  have := congrArg Wire.id h
  exact this

theorem tame_of_skeleton (s s0 : Circuit) (h : skeleton s = skeleton s0) (t : Task)
    (h0 : t.tame s0) : t.tame s := by
  cases t with
  | setInput v e r => exact primitiveAt_of_skeleton s s0 h r.1 (some r.2) h0
  | setSignal g wid v =>
    intro w hw
    obtain ⟨w0, hw0, hb⟩ := getWire_of_skeleton s s0 h g wid w hw
    rw [← target_of_bare w0 w hb]
    exact primitiveAt_of_skeleton s s0 h g _ (h0 w0 hw0)
  | setOutputSignals r sigs =>
    intro gr hg w hw hsrc w' hw'
    obtain ⟨gr0, w0, hgr0, hw0, hb⟩ := mem_wires_of_skeleton s s0 h r.1 gr w hg hw
    obtain ⟨w0', hw0', hb'⟩ := getWire_of_skeleton s s0 h r.1 w.id w' hw'
    rw [← target_of_bare w0' w' hb']
    refine primitiveAt_of_skeleton s s0 h r.1 _ (h0 gr0 hgr0 w0 hw0 ?_ w0' ?_)
    · rw [source_of_bare w0 w hb]; exact hsrc
    · rw [id_of_bare w0 w hb]; exact hw0'
  | forwardInput v e r => exact h0

theorem wireBound_of_skeleton (W : Nat) (s s0 : Circuit) (h : skeleton s = skeleton s0)
    (h0 : WireBound W s0) : WireBound W s := by
  intro gr hgr
  obtain ⟨g, hg⟩ := List.getElem?_of_mem hgr
  obtain ⟨gr0, hgr0, hb⟩ := getGraph_of_skeleton s s0 h g gr hg
  have hwires : gr0.wires.map Wire.bare = gr.wires.map Wire.bare := by
    have := congrArg Graph.wires hb
    simpa [Graph.bare] using this
  have hl := congrArg List.length hwires
  simp only [List.length_map] at hl
  rw [← hl]
  exact h0 gr0 (List.getElem?_mem hgr0)

/-! ### The calls of the `change:outputSignals` handler -/

theorem groupInsert_keys (k : String) (w : Wire) (gs : List (String × List Wire))
    (hk : k = portKey w.source.port)
    (h : ∀ grp ∈ gs, ∀ x ∈ grp.2, grp.1 = portKey x.source.port) :
    ∀ grp ∈ groupInsert k w gs, ∀ x ∈ grp.2, grp.1 = portKey x.source.port := by
  induction gs with
  | nil =>
    intro grp hg x hx
    simp only [groupInsert, List.mem_singleton] at hg
    subst hg
    simp only [List.mem_singleton] at hx
    subst hx
    exact hk
  | cons a gs ih =>
    obtain ⟨k', l⟩ := a
    have ha := h (k', l) (List.mem_cons_self _ _)
    have hrest : ∀ grp ∈ gs, ∀ x ∈ grp.2, grp.1 = portKey x.source.port :=
      fun grp hg => h grp (List.mem_cons_of_mem _ hg)
    intro grp hg x hx
    by_cases hkk : k' = k
    · simp only [groupInsert, hkk, if_true, List.mem_cons] at hg
      rcases hg with hg | hg
      · subst hg
        simp only [List.mem_append, List.mem_singleton] at hx
        rcases hx with hx | hx
        · have := ha x hx
          simp only at this
          rw [← this, hkk]
        · subst hx
          exact hk
      · exact hrest grp hg x hx
    · simp only [groupInsert, hkk, if_false, List.mem_cons] at hg
      rcases hg with hg | hg
      · subst hg
        exact ha x hx
      · exact ih hrest grp hg x hx

theorem groupInsert_complete (k : String) (w : Wire) (gs : List (String × List Wire)) (x : Wire)
    (h : x = w ∨ ∃ grp ∈ gs, x ∈ grp.2) : ∃ grp ∈ groupInsert k w gs, x ∈ grp.2 := by
  induction gs with
  | nil =>
    rcases h with h | ⟨grp, hg, _⟩
    · exact ⟨(k, [w]), by simp [groupInsert], by simp [h]⟩
    · simp at hg
  | cons a gs ih =>
    obtain ⟨k', l⟩ := a
    by_cases hkk : k' = k
    · simp only [groupInsert, hkk, if_true]
      rcases h with h | ⟨grp, hg, hx⟩
      · exact ⟨(k, l ++ [w]), List.mem_cons_self _ _, by simp [h]⟩
      · simp only [List.mem_cons] at hg
        rcases hg with hg | hg
        · subst hg
          exact ⟨(k, l ++ [w]), List.mem_cons_self _ _, by simp at hx ⊢; exact Or.inl hx⟩
        · exact ⟨grp, List.mem_cons_of_mem _ hg, hx⟩
    · simp only [groupInsert, hkk, if_false]
      rcases h with h | ⟨grp, hg, hx⟩
      · obtain ⟨grp', h1, h2⟩ := ih (Or.inl h)
        exact ⟨grp', List.mem_cons_of_mem _ h1, h2⟩
      · simp only [List.mem_cons] at hg
        rcases hg with hg | hg
        · subst hg
          exact ⟨(k', l), List.mem_cons_self _ _, hx⟩
        · obtain ⟨grp', h1, h2⟩ := ih (Or.inr ⟨grp, hg, hx⟩)
          exact ⟨grp', List.mem_cons_of_mem _ h1, h2⟩

theorem groupInsert_size (k : String) (w : Wire) (gs : List (String × List Wire)) :
    ((groupInsert k w gs).map fun grp => grp.2.length).sum
      = (gs.map fun grp => grp.2.length).sum + 1 := by
  induction gs with
  | nil => simp [groupInsert]
  | cons a gs ih =>
    obtain ⟨k', l⟩ := a
    by_cases hkk : k' = k
    · simp only [groupInsert, hkk, if_true, List.map_cons, List.sum_cons, List.length_append,
        List.length_singleton]
      omega
    · simp only [groupInsert, hkk, if_false, List.map_cons, List.sum_cons, ih]
      omega

theorem foldl_groupInsert_keys (ws : List Wire) (gs : List (String × List Wire))
    (h : ∀ grp ∈ gs, ∀ x ∈ grp.2, grp.1 = portKey x.source.port) :
    ∀ grp ∈ ws.foldl (fun gs w => groupInsert (portKey w.source.port) w gs) gs,
      ∀ x ∈ grp.2, grp.1 = portKey x.source.port := by
  induction ws generalizing gs with
  | nil => exact h
  | cons w ws ih =>
    simp only [List.foldl_cons]
    exact ih _ (groupInsert_keys _ w gs rfl h)

theorem foldl_groupInsert_complete (ws : List Wire) (gs : List (String × List Wire)) (x : Wire)
    (h : x ∈ ws ∨ ∃ grp ∈ gs, x ∈ grp.2) :
    ∃ grp ∈ ws.foldl (fun gs w => groupInsert (portKey w.source.port) w gs) gs, x ∈ grp.2 := by
  induction ws generalizing gs with
  | nil =>
    rcases h with h | h
    · simp at h
    · exact h
  | cons w ws ih =>
    simp only [List.foldl_cons]
    apply ih
    simp only [List.mem_cons] at h
    rcases h with (h | h) | h
    · exact Or.inr (groupInsert_complete _ w gs x (Or.inl h))
    · exact Or.inl h
    · exact Or.inr (groupInsert_complete _ w gs x (Or.inr h))

theorem foldl_groupInsert_size (ws : List Wire) (gs : List (String × List Wire)) :
    ((ws.foldl (fun gs w => groupInsert (portKey w.source.port) w gs) gs).map
        fun grp => grp.2.length).sum
      = (gs.map fun grp => grp.2.length).sum + ws.length := by
  induction ws generalizing gs with
  | nil => simp
  | cons w ws ih =>
    simp only [List.foldl_cons, ih, groupInsert_size, List.length_cons]
    omega

/-- The calls the `change:outputSignals` handler makes: one per outbound wire,
with the entry of `sigs` at the wire's source port. -/
theorem mem_outputTasks (g : Nat) (ws : List Wire) (sigs : Sigs) (t : Task) :
    t ∈ outputTasks g ws sigs ↔
      ∃ w ∈ ws, t = Task.setSignal g w.id (Sigs.read sigs (portKey w.source.port)) := by
  constructor
  · intro hm
    simp only [outputTasks, List.mem_flatten, List.mem_map] at hm
    obtain ⟨l, ⟨grp, hgrp, hl⟩, hml⟩ := hm
    rw [← hl] at hml
    simp only [List.mem_map] at hml
    obtain ⟨w, hw, ht⟩ := hml
    refine ⟨w, mem_groupByPort ws grp w hgrp hw, ?_⟩
    have hk := foldl_groupInsert_keys ws [] (by simp) grp hgrp w hw
    rw [← hk]
    exact ht.symm
  · rintro ⟨w, hw, ht⟩
    obtain ⟨grp, hgrp, hx⟩ := foldl_groupInsert_complete ws [] w (Or.inl hw)
    have hk := foldl_groupInsert_keys ws [] (by simp) grp hgrp w hx
    simp only [outputTasks, List.mem_flatten, List.mem_map]
    refine ⟨_, ⟨grp, hgrp, rfl⟩, ?_⟩
    simp only [List.mem_map]
    exact ⟨w, hx, by rw [ht, hk]⟩

theorem length_outputTasks (g : Nat) (ws : List Wire) (sigs : Sigs) :
    (outputTasks g ws sigs).length = ws.length := by
  have h := foldl_groupInsert_size ws []
  simp only [List.map_nil, List.sum_nil, Nat.zero_add] at h
  unfold outputTasks groupByPort
  rw [List.length_flatten, List.map_map, ← h]
  congr 1
  apply List.map_congr_left
  intro grp _
  simp

theorem cost_wireCalls (W : Nat) (l : List Task)
    (h : ∀ t ∈ l, ∃ g wid v, t = Task.setSignal g wid v) :
    (l.map (Task.cost W)).sum = 2 * l.length := by
  induction l with
  | nil => rfl
  | cons t l ih =>
    obtain ⟨g, wid, v, ht⟩ := h t (List.mem_cons_self _ _)
    have := ih fun t' ht' => h t' (List.mem_cons_of_mem _ ht')
    simp only [List.map_cons, List.sum_cons, List.length_cons, this, ht, Task.cost]
    omega

/-- A tame call returns after making wire calls only, each tame again, and their
costs add up to less than its own. -/
theorem step_tame (W : Nat) (t : Task) (s : Circuit) (ht : t.tame s) :
    ∃ new s1, step t s = Outcome.ok (new, s1) ∧
      (WireBound W s → (new.map (Task.cost W)).sum + 1 ≤ t.cost W) ∧
      ∀ t' ∈ new, t'.isWireCall ∧ t'.tame s1 := by
  cases t with
  | setInput v e r =>
    cases hc : getCell s r.1 (some r.2) with
    | none =>
      refine ⟨[], s, ?_, by simp [Task.cost], by simp⟩
      simp [step, hc]
    | some gate =>
      obtain ⟨h1, h2⟩ := ht gate hc
      by_cases heq : Sigs.isEqual gate.inputSignals
          (Sigs.set gate.inputSignals (portKey e.port) v) = true
      · refine ⟨[], s, ?_, by simp [Task.cost], by simp⟩
        simp [step, hc, h1, heq]
      · refine ⟨[], ?_, ?_, ?_, ?_⟩
        rotate_left
        · simp only [step, hc, h1, h2, heq, Bool.false_eq_true, if_false]
          exact rfl
        · simp [Task.cost]
        · simp
  | setSignal g wid v =>
    cases hw : getWire s g wid with
    | none =>
      refine ⟨[], s, ?_, by simp [Task.cost], by simp⟩
      simp [step, hw]
    | some w =>
      by_cases hv : w.signal = v
      · refine ⟨[], s, ?_, by simp [Task.cost], by simp⟩
        simp [step, hw, hv]
      · have hcell : getCell (modifyWire s g wid (fun x => { x with signal := v })) g w.target.id
            = getCell s g w.target.id := getCell_modifyWire s g wid _ g w.target.id
        cases hc : getCell s g w.target.id with
        | none =>
          refine ⟨[], ?_, ?_, ?_, ?_⟩
          rotate_left
          · simp only [step, hw, hv, if_false, hcell, hc]
            exact rfl
          · simp [Task.cost]
          · simp
        | some gate =>
          refine ⟨[Task.setInput v w.target (g, gate.id)], ?_, ?_, ?_, ?_⟩
          rotate_left
          · simp only [step, hw, hv, if_false, hcell, hc]
            exact rfl
          · simp [Task.cost]
          · intro t' ht'
            simp only [List.mem_singleton] at ht'
            subst ht'
            refine ⟨trivial, ?_⟩
            intro c hc'
            have hid := getCell_id s g w.target.id gate hc
            rw [getCell_modifyWire, ← hid] at hc'
            exact ht w hw c hc'
  | setOutputSignals r sigs =>
    cases hc : getCell s r.1 (some r.2) with
    | none =>
      refine ⟨[], s, ?_, by simp [Task.cost], by simp⟩
      simp [step, hc]
    | some gate =>
      by_cases heq : Sigs.isEqual gate.outputSignals sigs = true
      · refine ⟨[], s, ?_, by simp [Task.cost], by simp⟩
        simp [step, hc, heq]
      · have hsk : skeleton (modifyGate s r (fun c => { c with outputSignals := sigs }))
            = skeleton s := skeleton_modifyGate s r _ (fun _ => rfl)
        cases hg : getGraph (modifyGate s r (fun c => { c with outputSignals := sigs })) r.1 with
        | none =>
          refine ⟨[], ?_, ?_, ?_, ?_⟩
          rotate_left
          · simp only [step, hc, heq, Bool.false_eq_true, if_false, hg]
            exact rfl
          · simp [Task.cost]
          · simp
        | some gr =>
          refine ⟨outputTasks r.1 (connectedOutbound gr r.2) sigs, ?_, ?_, ?_, ?_⟩
          rotate_left
          · simp only [step, hc, heq, Bool.false_eq_true, if_false, hg]
            exact rfl
          · intro hW
            have hall : ∀ t ∈ outputTasks r.1 (connectedOutbound gr r.2) sigs,
                ∃ g wid v, t = Task.setSignal g wid v := by
              intro t ht'
              obtain ⟨w, _, h2⟩ := (mem_outputTasks _ _ _ t).1 ht'
              exact ⟨_, _, _, h2⟩
            rw [cost_wireCalls W _ hall, length_outputTasks]
            have hb := wireBound_of_skeleton W _ s hsk hW gr (List.getElem?_mem hg)
            have hle : (connectedOutbound gr r.2).length ≤ gr.wires.length :=
              List.length_filter_le _ _
            simp only [Task.cost]
            omega
          · intro t' ht'
            obtain ⟨w, hw, h2⟩ := (mem_outputTasks _ _ _ t').1 ht'
            subst h2
            refine ⟨trivial, ?_⟩
            have ht1 := tame_of_skeleton _ s hsk (Task.setOutputSignals r sigs) ht
            unfold connectedOutbound at hw
            simp only [List.mem_filter, decide_eq_true_eq] at hw
            exact ht1 gr hg w hw.1 hw.2
  | forwardInput v e r => exact absurd ht (by simp [Task.tame])

/-- A stack of tame calls runs to its end within the sum of their costs. -/
theorem run_tame (W : Nat) (n : Nat) (ts : List Task) (s : Circuit)
    (ht : ∀ t ∈ ts, t.tame s) (hW : WireBound W s) (hn : (ts.map (Task.cost W)).sum ≤ n) :
    ∃ s1, run n ts s = Outcome.ok s1 := by
  induction n generalizing ts s with
  | zero =>
    cases ts with
    | nil => exact ⟨s, rfl⟩
    | cons t ts =>
      obtain ⟨new, s1, _, h2, _⟩ := step_tame W t s (ht t (List.mem_cons_self _ _))
      have := h2 hW
      simp only [List.map_cons, List.sum_cons] at hn
      omega
  | succ n ih =>
    cases ts with
    | nil => exact ⟨s, rfl⟩
    | cons t ts =>
      obtain ⟨new, s1, h1, h2, h3⟩ := step_tame W t s (ht t (List.mem_cons_self _ _))
      have h2 := h2 hW
      have hsk := step_skeleton t s s1 new h1
      rw [run_succ_cons, h1]
      apply ih
      · intro t' ht'
        rcases List.mem_append.1 ht' with h | h
        · exact (h3 t' h).2
        · exact tame_of_skeleton s1 s hsk t' (ht t' (List.mem_cons_of_mem _ h))
      · exact wireBound_of_skeleton W s1 s hsk hW
      · simp only [List.map_cons, List.sum_cons] at hn
        simp only [List.map_append, List.sum_append]
        omega

/-! ### Wires and the outputs of their source gate -/

theorem shaped_append_wire (new ts : List Task) (h : ∀ t ∈ new, t.isWireCall)
    (hs : Shaped ts) : Shaped (new ++ ts) := by
  induction new with
  | nil => exact hs
  | cons t new ih =>
    refine ⟨?_, ih fun t' ht' => h t' (List.mem_cons_of_mem _ ht')⟩
    rintro ⟨r, sigs, ht⟩
    have := h t (List.mem_cons_self _ _)
    rw [ht] at this
    exact absurd this (by simp [Task.isWireCall])

theorem shaped_of_all_out (ts : List Task)
    (h : ∀ t ∈ ts, ∃ r sigs, t = Task.setOutputSignals r sigs) : Shaped ts := by
  induction ts with
  | nil => trivial
  | cons t ts ih =>
    exact ⟨fun _ t' ht' => h t' (List.mem_cons_of_mem _ ht'),
      ih fun t' ht' => h t' (List.mem_cons_of_mem _ ht')⟩

/-- What `gate.set('outputSignals', sigs)` does. -/
theorem step_setOutputSignals_cases (r : GateRef) (sigs : Sigs) (s s1 : Circuit)
    (new : List Task) (h : step (Task.setOutputSignals r sigs) s = Outcome.ok (new, s1)) :
    (s1 = s ∧ new = []) ∨
    ∃ c, getCell s r.1 (some r.2) = some c ∧ Sigs.isEqual c.outputSignals sigs = false ∧
      s1 = modifyGate s r (fun x => { x with outputSignals := sigs }) ∧
      ((∃ gr, getGraph s1 r.1 = some gr ∧
          new = outputTasks r.1 (connectedOutbound gr r.2) sigs)
        ∨ (getGraph s1 r.1 = none ∧ new = [])) := by
  simp only [step] at h
  split at h
  · cases h; exact Or.inl ⟨rfl, rfl⟩
  · rename_i gate hc
    split at h
    · cases h; exact Or.inl ⟨rfl, rfl⟩
    · rename_i heq
      split at h
      · rename_i hg
        cases h
        exact Or.inr ⟨gate, hc, by simpa using heq, rfl, Or.inr ⟨hg, rfl⟩⟩
      · rename_i gr hg
        cases h
        exact Or.inr ⟨gate, hc, by simpa using heq, rfl, Or.inl ⟨gr, hg, rfl⟩⟩

theorem wireIds_of_skeleton (s s0 : Circuit) (h : skeleton s = skeleton s0) (g : Nat)
    (h0 : ∀ gr, getGraph s0 g = some gr → (gr.wires.map fun w => w.id).Nodup) :
    ∀ gr, getGraph s g = some gr → (gr.wires.map fun w => w.id).Nodup := by
  intro gr hg
  obtain ⟨gr0, hgr0, hb⟩ := getGraph_of_skeleton s s0 h g gr hg
  have hwires : gr0.wires.map Wire.bare = gr.wires.map Wire.bare := by
    have := congrArg Graph.wires hb
    simpa [Graph.bare] using this
  have hid : ∀ ws : List Wire, (ws.map fun w => w.id) = (ws.map Wire.bare).map fun w => w.id := by
    intro ws
    rw [List.map_map]
    rfl
  rw [hid, ← hwires, ← hid]
  exact h0 gr0 hgr0

/-- The outputs of every gate stay as they are in a cascade of wire calls that
stays among primitive gates. -/
theorem run_wireCalls_outputs (fuel : Nat) (ts : List Task) (s s1 : Circuit)
    (hts : ∀ t ∈ ts, t.isWireCall ∧ t.tame s) (hr : run fuel ts s = Outcome.ok s1) :
    ∀ g i c1, getCell s1 g (some i) = some c1 →
      ∃ c, getCell s g (some i) = some c ∧ c1.outputSignals = c.outputSignals := by
  have key := run_inv
    (fun ts' s' => (∀ t ∈ ts', t.isWireCall ∧ t.tame s') ∧
      ∀ g i c1, getCell s' g (some i) = some c1 →
        ∃ c, getCell s g (some i) = some c ∧ c1.outputSignals = c.outputSignals)
    ?_ fuel ts s s1 ⟨hts, fun g i c1 hc => ⟨c1, hc, rfl⟩⟩ hr
  · exact key.2
  · rintro t ts' s' new s'' ⟨h1, h2⟩ hstep
    have ht := h1 t (List.mem_cons_self _ _)
    have hsk := step_skeleton t s' s'' new hstep
    refine ⟨?_, ?_⟩
    · intro t' ht'
      rcases List.mem_append.1 ht' with h | h
      · obtain ⟨new', s2, hs, _, h3⟩ := step_tame 0 t s' ht.2
        rw [hstep] at hs
        cases hs
        exact h3 t' h
      · exact ⟨(h1 t' (List.mem_cons_of_mem _ h)).1,
          tame_of_skeleton s'' s' hsk t' (h1 t' (List.mem_cons_of_mem _ h)).2⟩
    · intro g i c1 hc
      obtain ⟨c, hc0, hout⟩ := step_outputs t s' s'' new hstep g i c1 hc
      obtain ⟨c', hc', hout'⟩ := h2 g i c hc0
      refine ⟨c', hc', ?_⟩
      rcases hout with hout | ⟨sigs, hts', _⟩
      · rw [hout, hout']
      · rw [hts'] at ht
        exact absurd ht.1 (by simp [Task.isWireCall])

/-- In a tick whose cascades stay among primitive gates, a wire carries the
output of its source gate at its source port when the cascade ends, if it does
so at the start or the call that makes it so is pending. -/
theorem run_wire_source (fuel : Nat) (ts : List Task) (s s1 : Circuit) (g : Nat)
    (wid i p : String)
    (htame : ∀ t ∈ ts, t.tame s) (hshape : Shaped ts)
    (hids : ∀ gr, getGraph s g = some gr → (gr.wires.map fun w => w.id).Nodup)
    (hsrc : ∀ w, getWire s g wid = some w → w.source = ⟨some i, some p⟩)
    (hA : ∀ w c, getWire s g wid = some w → getCell s g (some i) = some c →
      w.signal = Sigs.read c.outputSignals p ∨
        Task.setSignal g wid (Sigs.read c.outputSignals p) ∈ ts)
    (hB : ∀ v, Task.setSignal g wid v ∈ ts → ∀ c, getCell s g (some i) = some c →
      v = Sigs.read c.outputSignals p)
    (hr : run fuel ts s = Outcome.ok s1) :
    ∀ w c, getWire s1 g wid = some w → getCell s1 g (some i) = some c →
      w.signal = Sigs.read c.outputSignals p := by
  have key := run_inv
    (fun ts' s' => (∀ t ∈ ts', t.tame s') ∧ Shaped ts' ∧
      (∀ gr, getGraph s' g = some gr → (gr.wires.map fun w => w.id).Nodup) ∧
      (∀ w, getWire s' g wid = some w → w.source = ⟨some i, some p⟩) ∧
      (∀ w c, getWire s' g wid = some w → getCell s' g (some i) = some c →
        w.signal = Sigs.read c.outputSignals p ∨
          Task.setSignal g wid (Sigs.read c.outputSignals p) ∈ ts') ∧
      (∀ v, Task.setSignal g wid v ∈ ts' → ∀ c, getCell s' g (some i) = some c →
        v = Sigs.read c.outputSignals p))
    ?_ fuel ts s s1 ⟨htame, hshape, hids, hsrc, hA, hB⟩ hr
  · intro w c hw hc
    rcases key.2.2.2.2.1 w c hw hc with h | h
    · exact h
    · simp at h
  · rintro t ts' s' new s'' ⟨h1, h2, h3, h4, h5, h6⟩ hstep
    have hsk := step_skeleton t s' s'' new hstep
    obtain ⟨new', s2, hs, _, hnew⟩ := step_tame 0 t s' (h1 t (List.mem_cons_self _ _))
    rw [hstep] at hs
    cases hs
    have hids' := wireIds_of_skeleton s'' s' hsk g h3
    have hsrc' : ∀ w, getWire s'' g wid = some w → w.source = ⟨some i, some p⟩ := by
      intro w1 hw1
      obtain ⟨w, hw, hb, _⟩ := step_wire t s' s'' new hstep g wid w1 hw1
      rw [source_of_bare w1 w hb]
      exact h4 w hw
    have hnosig : ∀ r sigs, t = Task.setOutputSignals r sigs →
        ∀ v, Task.setSignal g wid v ∉ t :: ts' := by
      intro r sigs ht v hm
      rw [ht] at hm
      simp only [List.mem_cons] at hm
      rcases hm with hm | hm
      · cases hm
      · obtain ⟨r', sigs', h'⟩ := h2.1 ⟨r, sigs, ht⟩ _ hm
        cases h'
    refine ⟨?_, ?_, hids', hsrc', ?_, ?_⟩
    · intro t' ht'
      rcases List.mem_append.1 ht' with h | h
      · exact (hnew t' h).2
      · exact tame_of_skeleton s'' s' hsk t' (h1 t' (List.mem_cons_of_mem _ h))
    · exact shaped_append_wire new ts' (fun t' ht' => (hnew t' ht').1) h2.2
    · intro w1 c1 hw1 hc1
      obtain ⟨w, hw, hb, hsig⟩ := step_wire t s' s'' new hstep g wid w1 hw1
      obtain ⟨c, hc, hout⟩ := step_outputs t s' s'' new hstep g i c1 hc1
      rcases hsig with hsig | hsig
      · rcases hout with hout | ⟨sigs, ht, hout⟩
        · rw [hsig, hout]
          rcases h5 w c hw hc with h | h
          · exact Or.inl h
          · simp only [List.mem_cons] at h
            rcases h with h | h
            · left
              rw [← hsig]
              exact step_setSignal_value g wid _ s' s'' new (by rw [h]; exact hstep) w1 hw1
            · exact Or.inr (List.mem_append_right _ h)
        · have hcons : w.signal = Sigs.read c.outputSignals p := by
            rcases h5 w c hw hc with h | h
            · exact h
            · exact absurd h (hnosig _ sigs ht _)
          subst ht
          rcases step_setOutputSignals_cases (g, i) sigs s' s'' new hstep with
            ⟨hs', _⟩ | ⟨c', hc', heq, hs', hn⟩
          · subst hs'
            rw [hc] at hc1
            cases hc1
            rw [hw] at hw1
            cases hw1
            exact Or.inl hcons
          · rcases hn with ⟨gr, hgr, hn⟩ | ⟨hgn, _⟩
            · right
              apply List.mem_append_left
              rw [hn, mem_outputTasks]
              obtain ⟨gr', hgr', hmem, hid⟩ := getWire_mem s'' g wid w1 hw1
              have hgr : getGraph s'' g = some gr := hgr
              rw [hgr] at hgr'
              cases hgr'
              have hs1 := hsrc' w1 hw1
              refine ⟨w1, ?_, ?_⟩
              · unfold connectedOutbound
                simp only [List.mem_filter, decide_eq_true_eq]
                exact ⟨hmem, by rw [hs1]⟩
              · rw [hid, hs1, hout]
                rfl
            · obtain ⟨gr', hgr', _⟩ := getWire_mem s'' g wid w1 hw1
              have hgn : getGraph s'' g = none := hgn
              rw [hgn] at hgr'
              cases hgr'
      · left
        have hv := h6 w1.signal (by rw [← hsig]; exact List.mem_cons_self _ _) c hc
        rcases hout with hout | ⟨sigs, ht, _⟩
        · rw [hout]; exact hv
        · rw [ht] at hsig; cases hsig
    · intro v hm c1 hc1
      obtain ⟨c, hc, hout⟩ := step_outputs t s' s'' new hstep g i c1 hc1
      rcases List.mem_append.1 hm with hm | hm
      · obtain ⟨r, sigs, gr, w', ht, hr1, hgr, hw', hsrcw, hidw⟩ :=
          step_new_setSignal t s' s'' new hstep g wid v hm
        subst ht
        rcases step_setOutputSignals_cases r sigs s' s'' new hstep with
          ⟨_, hn⟩ | ⟨c', hc', heq, hs', hn⟩
        · rw [hn] at hm; simp at hm
        · rcases hn with ⟨gr2, hgr2, hn⟩ | ⟨_, hn⟩
          · rw [hn, mem_outputTasks] at hm
            obtain ⟨w2, hw2, hv⟩ := hm
            simp only [Task.setSignal.injEq] at hv
            obtain ⟨_, hid2, hv⟩ := hv
            unfold connectedOutbound at hw2
            simp only [List.mem_filter, decide_eq_true_eq] at hw2
            rw [hr1] at hgr2
            have hnd := hids' gr2 hgr2
            have hfind := findWire_of_mem_nodup gr2.wires w2 hnd hw2.1
            have hgw : getWire s'' g wid = some w2 := by
              unfold getWire
              rw [hgr2]
              simp only
              rw [hid2]
              exact hfind
            have hs2 := hsrc' w2 hgw
            have hri : r.2 = i := by
              have := hw2.2
              rw [hs2] at this
              simp only [Option.some.injEq] at this
              exact this.symm
            have hval := step_setOutputSignals_value r sigs s' s'' new hstep c1 (by
              rw [hr1, hri]; exact hc1)
            rw [hv, hs2, (Sigs.isEqual_spec _ _ hval p).2]
            rfl
          · rw [hn] at hm; simp at hm
      · have hv := h6 v (List.mem_cons_of_mem _ hm) c hc
        rcases hout with hout | ⟨sigs, ht, _⟩
        · rw [hout]; exact hv
        · exact absurd (List.mem_cons_of_mem _ hm) (hnosig _ sigs ht v)

/-! ## Forwarding out of a subcircuit -/

/-- The `change:inputSignals` handler of an output terminal: one call
`subcir.set('outputSignals', …)` with the entry of the terminal's net replaced
by `sigs.in`. -/
theorem step_setInput_output (sig : Val) (e : End) (O H : GateRef) (s : Circuit) (o h : Gate)
    (ho : getCell s O.1 (some O.2) = some o) (hot : o.type = CellType.Output)
    (hsub : (getGraph s O.1).bind (fun x => x.subcircuit) = some H)
    (hh : getCell s H.1 (some H.2) = some h) (hne : H ≠ O)
    (hchg : Sigs.isEqual o.inputSignals (Sigs.set o.inputSignals (portKey e.port) sig) = false) :
    step (Task.setInput sig e O) s =
      Outcome.ok
        ([Task.setOutputSignals H (Sigs.set h.outputSignals (portKey o.net)
            (Sigs.read (Sigs.set o.inputSignals (portKey e.port) sig) "in"))],
          modifyGate s O
            (fun c => { c with inputSignals := Sigs.set o.inputSignals (portKey e.port) sig })) := by
  have hsub1 : (getGraph (modifyGate s O
      (fun c => { c with inputSignals := Sigs.set o.inputSignals (portKey e.port) sig })) O.1).bind
        (fun x => x.subcircuit) = some H := by
    unfold getGraph modifyGate
    simp only [getElem?_updGraph, if_true]
    unfold getGraph at hsub
    cases hgO : s.graphs[O.1]? with
    | none => rw [hgO] at hsub; simp at hsub
    | some gr =>
      rw [hgO] at hsub
      simpa using hsub
  have hh1 : getCell (modifyGate s O
      (fun c => { c with inputSignals := Sigs.set o.inputSignals (portKey e.port) sig }))
        H.1 (some H.2) = some h := by
    rw [getCell_modifyGate s O
      (fun c => { c with inputSignals := Sigs.set o.inputSignals (portKey e.port) sig })
      (fun _ => rfl)]
    have : ¬ (H.1 = O.1 ∧ H.2 = O.2) := fun hc => hne (Prod.ext hc.1 hc.2)
    rw [if_neg this]
    exact hh
  simp only [step, ho, hot, hchg]
  simp only [hsub1, hh1]
  simp

/-- C12 (as the code has it): let `O` be an output terminal of net `n` in the
nested graph of the Subcircuit `H`, and let the wires out of `H` lead to
primitive gates only (so that no handler running inside the call comes back
to `H`). When `O.inputSignals` changes to a map with `in = v`, the call returns
(within `2 W + 2` steps, `W` bounding the wires of a graph), `H.outputSignals[n]`
is `v`, every other entry of `H.outputSignals` is as before, and every wire
sourced at port `n` of `H` carries `v`: the last needs that `H.outputSignals`
changed by the call, or that those wires carried `H.outputSignals[n]` before. -/
theorem output_terminal_forwards_up (W fuel : Nat) (s : Circuit) (O H : GateRef) (o h : Gate)
    (gr : Graph) (sig v : Val) (e : End)
    (ho : getCell s O.1 (some O.2) = some o) (hot : o.type = CellType.Output)
    (hsub : (getGraph s O.1).bind (fun x => x.subcircuit) = some H)
    (hh : getCell s H.1 (some H.2) = some h) (hht : h.type = CellType.Subcircuit)
    (hchg : Sigs.isEqual o.inputSignals (Sigs.set o.inputSignals (portKey e.port) sig) = false)
    (hv : Sigs.read (Sigs.set o.inputSignals (portKey e.port) sig) "in" = v)
    (hg : getGraph s H.1 = some gr) (hids : (gr.wires.map fun w => w.id).Nodup)
    (htame : ∀ w ∈ gr.wires, w.source.id = some H.2 → PrimitiveAt s H.1 w.target.id)
    (hcons : Sigs.isEqual h.outputSignals (Sigs.set h.outputSignals (portKey o.net) v) = true →
      ∀ w ∈ gr.wires, w.source = ⟨some H.2, some (portKey o.net)⟩ →
        w.signal = Sigs.read h.outputSignals (portKey o.net))
    (hW : WireBound W s) (hfuel : 2 * W + 2 ≤ fuel) :
    ∃ s1 h1 gr1, run fuel [Task.setInput sig e O] s = Outcome.ok s1 ∧
      getCell s1 H.1 (some H.2) = some h1 ∧
      Sigs.read h1.outputSignals (portKey o.net) = v ∧
      (∀ k, k ≠ portKey o.net →
        Sigs.read h1.outputSignals k = Sigs.read h.outputSignals k ∧
          Sigs.has h1.outputSignals k = Sigs.has h.outputSignals k) ∧
      getGraph s1 H.1 = some gr1 ∧
      ∀ w ∈ gr1.wires, w.source = ⟨some H.2, some (portKey o.net)⟩ → w.signal = v := by
  have hne : H ≠ O := by
    intro hEq
    rw [hEq, ho] at hh
    cases hh
    rw [hot] at hht
    cases hht
  obtain ⟨n, rfl⟩ : ∃ n, fuel = n + 2 := ⟨fuel - 2, by omega⟩
  have hstep := step_setInput_output sig e O H s o h ho hot hsub hh hne hchg
  rw [hv] at hstep
  obtain ⟨sa, hsa⟩ : ∃ sa, sa = modifyGate s O
      (fun c => { c with inputSignals := Sigs.set o.inputSignals (portKey e.port) sig }) :=
    ⟨_, rfl⟩
  obtain ⟨sigsH, hsH⟩ : ∃ x, x = Sigs.set h.outputSignals (portKey o.net) v := ⟨_, rfl⟩
  rw [← hsa, ← hsH] at hstep
  rw [← hsH] at hcons
  have hska : skeleton sa = skeleton s := by
    rw [hsa]
    exact skeleton_modifyGate s O _ (fun _ => rfl)
  have hha : getCell sa H.1 (some H.2) = some h := by
    rw [hsa, getCell_modifyGate s O
      (fun c => { c with inputSignals := Sigs.set o.inputSignals (portKey e.port) sig })
      (fun _ => rfl)]
    have : ¬ (H.1 = O.1 ∧ H.2 = O.2) := fun hc => hne (Prod.ext hc.1 hc.2)
    rw [if_neg this]
    exact hh
  have hwa : ∀ wid, getWire sa H.1 wid = getWire s H.1 wid := by
    intro wid
    rw [hsa]
    exact getWire_modifyGate s O _ H.1 wid
  have hidsS : ∀ gr', getGraph s H.1 = some gr' → (gr'.wires.map fun w => w.id).Nodup := by
    intro gr' hg'
    rw [hg] at hg'
    cases hg'
    exact hids
  have htameS : (Task.setOutputSignals H sigsH).tame s := by
    intro gr' hg' w hw hsrc w' hw'
    rw [hg] at hg'
    cases hg'
    have hfw : getWire s H.1 w.id = some w := by
      unfold getWire
      rw [hg]
      exact findWire_of_mem_nodup gr.wires w hids hw
    rw [hfw] at hw'
    cases hw'
    exact htame w hw hsrc
  have htameA := tame_of_skeleton sa s hska _ htameS
  have hWa := wireBound_of_skeleton W sa s hska hW
  obtain ⟨s2, hrun⟩ := run_tame W (n + 1) [Task.setOutputSignals H sigsH] sa
    (by intro t ht; simp only [List.mem_singleton] at ht; rw [ht]; exact htameA) hWa
    (by simp only [List.map_cons, List.map_nil, List.sum_cons, List.sum_nil, Task.cost]; omega)
  have hsk2 : skeleton s2 = skeleton sa := run_skeleton _ _ _ _ hrun
  obtain ⟨h2, hh2⟩ := getCell_exists_of_skeleton s2 sa hsk2 H.1 (some H.2) h hha
  obtain ⟨gr2, hg2, _⟩ := getGraph_of_skeleton s s2 (hsk2.trans hska).symm H.1 gr hg
  have hids2 := wireIds_of_skeleton s2 s (hsk2.trans hska) H.1 hidsS
  -- the call on the terminal, then the call on `H`
  have hrun0 : run (n + 2) [Task.setInput sig e O] s = Outcome.ok s2 := by
    rw [run_succ_cons, hstep]
    exact hrun
  rw [run_succ_cons] at hrun
  obtain ⟨new, sb, hstepb, _, hnew⟩ := step_tame 0 (Task.setOutputSignals H sigsH) sa htameA
  rw [hstepb] at hrun
  simp only [List.append_nil] at hrun
  have hvalb : ∀ c, getCell sb H.1 (some H.2) = some c →
      Sigs.isEqual c.outputSignals sigsH = true :=
    fun c hc => step_setOutputSignals_value H sigsH sa sb new hstepb c hc
  obtain ⟨cb, hcb, houtb⟩ := run_wireCalls_outputs n new sb s2 hnew hrun H.1 H.2 h2 hh2
  have heq2 : Sigs.isEqual h2.outputSignals sigsH = true := by
    rw [houtb]
    exact hvalb cb hcb
  have hread : ∀ k, Sigs.read h2.outputSignals k = Sigs.read sigsH k :=
    fun k => (Sigs.isEqual_spec _ _ heq2 k).2
  have hhas : ∀ k, Sigs.has h2.outputSignals k = Sigs.has sigsH k :=
    fun k => (Sigs.isEqual_spec _ _ heq2 k).1
  have hn2 : Sigs.read h2.outputSignals (portKey o.net) = v := by
    rw [hread, hsH, Sigs.read_set, if_pos rfl]
  refine ⟨s2, h2, gr2, hrun0, hh2, hn2, ?_, hg2, ?_⟩
  · intro k hk
    rw [hread, hhas, hsH, Sigs.read_set, Sigs.has_set, if_neg (fun hc => hk hc.symm)]
    refine ⟨rfl, ?_⟩
    have : decide (portKey o.net = k) = false := by
      simp only [decide_eq_false_iff_not]
      exact fun hc => hk hc.symm
    rw [this, Bool.false_or]
  · intro w hw hsrc
    have hgw2 : getWire s2 H.1 w.id = some w := by
      unfold getWire
      rw [hg2]
      exact findWire_of_mem_nodup gr2.wires w (hids2 gr2 hg2) hw
    by_cases heq : Sigs.isEqual h.outputSignals sigsH = true
    · have hst : step (Task.setOutputSignals H sigsH) sa = Outcome.ok ([], sa) := by
        simp [step, hha, heq]
      rw [hst] at hstepb
      cases hstepb
      rw [run_nil] at hrun
      cases hrun
      rw [hwa] at hgw2
      obtain ⟨gr', hg', hmem, _⟩ := getWire_mem s H.1 w.id w hgw2
      rw [hg] at hg'
      cases hg'
      rw [hcons heq w hmem hsrc, (Sigs.isEqual_spec _ _ heq (portKey o.net)).2, hsH,
        Sigs.read_set, if_pos rfl]
    · rcases step_setOutputSignals_cases H sigsH sa sb new hstepb with
        ⟨hs', _⟩ | ⟨c', hc', _, _, hn⟩
      · rw [hs'] at hvalb
        exact absurd (hvalb h hha) heq
      · have hskb : skeleton sb = skeleton sa := step_skeleton _ sa sb new hstepb
        have hidsb := wireIds_of_skeleton sb s (hskb.trans hska) H.1 hidsS
        have hsrcb : ∀ w', getWire sb H.1 w.id = some w' →
            w'.source = ⟨some H.2, some (portKey o.net)⟩ := by
          intro w' hw'
          obtain ⟨w0, hw0, hb⟩ := getWire_of_skeleton sb s2 (hsk2.trans hskb.symm).symm
            H.1 w.id w' hw'
          rw [hgw2] at hw0
          cases hw0
          rw [← source_of_bare _ _ hb]
          exact hsrc
        rcases hn with ⟨grb, hgrb, hn⟩ | ⟨hgn, _⟩
        · have key := run_wire_source n new sb s2 H.1 w.id H.2 (portKey o.net)
            (fun t ht => (hnew t ht).2)
            (by
              have := shaped_append_wire new [] (fun t ht => (hnew t ht).1) trivial
              simpa using this)
            hidsb hsrcb ?_ ?_ hrun w h2 hgw2 hh2
          · rw [key, hn2]
          · intro w' c hw' hc
            right
            rw [hn, mem_outputTasks]
            obtain ⟨gr', hg', hmem, hid⟩ := getWire_mem sb H.1 w.id w' hw'
            rw [hgrb] at hg'
            cases hg'
            have hs1 := hsrcb w' hw'
            refine ⟨w', ?_, ?_⟩
            · unfold connectedOutbound
              simp only [List.mem_filter, decide_eq_true_eq]
              exact ⟨hmem, by rw [hs1]⟩
            · rw [hid, hs1, (Sigs.isEqual_spec _ _ (hvalb c hc) (portKey o.net)).2]
              rfl
          · intro v' hm c hc
            rw [hn, mem_outputTasks] at hm
            obtain ⟨w2, hw2, hv2⟩ := hm
            simp only [Task.setSignal.injEq] at hv2
            obtain ⟨_, hid2, hv2⟩ := hv2
            unfold connectedOutbound at hw2
            simp only [List.mem_filter, decide_eq_true_eq] at hw2
            have hfind := findWire_of_mem_nodup grb.wires w2 (hidsb grb hgrb) hw2.1
            have hgw : getWire sb H.1 w.id = some w2 := by
              unfold getWire
              rw [hgrb]
              simp only
              rw [hid2]
              exact hfind
            rw [hv2, hsrcb w2 hgw, (Sigs.isEqual_spec _ _ (hvalb c hc) (portKey o.net)).2]
            rfl
        · obtain ⟨grb, hgrb, _⟩ := getGraph_of_skeleton s sb (hskb.trans hska).symm H.1 gr hg
          rw [hgn] at hgrb
          cases hgrb

theorem output_terminal_forwards_up_witness :
    tickToCall gateOperation srcPressed.state
      = Outcome.ok ([Task.setInput (Val.num 1) ⟨some "o", some "in"⟩ (1, "o")], srcWired)
    ∧ ∃ s1 h1 gr1,
      run 40 [Task.setInput (Val.num 1) ⟨some "o", some "in"⟩ (1, "o")] srcWired = Outcome.ok s1 ∧
      getCell s1 0 (some "x") = some h1 ∧
      Sigs.read h1.outputSignals "q" = Val.num 1 ∧
      (∀ k, k ≠ "q" →
        Sigs.read h1.outputSignals k = Sigs.read srcX.outputSignals k ∧
          Sigs.has h1.outputSignals k = Sigs.has srcX.outputSignals k) ∧
      getGraph s1 0 = some gr1 ∧
      ∀ w ∈ gr1.wires, w.source = ⟨some "x", some "q"⟩ → w.signal = Val.num 1 :=
  ⟨by decide,
    output_terminal_forwards_up 1 40 srcWired (1, "o") (0, "x") srcO srcX srcRoot (Val.num 1)
      (Val.num 1) ⟨some "o", some "in"⟩ (by decide) rfl (by decide) (by decide) rfl (by decide)
      (by decide) (by decide) (by decide) (by decide) (by decide)
      (show ∀ gr ∈ srcWired.graphs, gr.wires.length ≤ 1 from by decide) (by decide)⟩

/-- C12, counterexample: in the circuit of `staleData` the output `x.n` is fed
back into the input `x.p`, which the nested graph hands to the output terminal
`om` of net `m`. In the tick after a press of the nested button `k` the wire
`v2` takes the 1 and `setInput` is called on the terminal `on` of net `n`, with
`x.outputSignals = {m: 0, n: 0}`. When that call returns, `on.inputSignals` is
`{in: 1}` and `x.outputSignals` is `{m: 1, n: 1}`: the entry `m` has changed
too. -/
theorem output_forwarding_changes_other_entry :
    tickToCall gateOperation stalePressed.state
      = Outcome.ok ([Task.setInput (Val.num 1) ⟨some "on", some "in"⟩ (1, "on")], staleWired)
    ∧ (getCell staleWired 1 (some "on")).map (fun c => (c.type, c.net, c.inputSignals))
        = some (CellType.Output, some "n", [("in", Val.num 0)])
    ∧ (getGraph staleWired 1).map (fun gr => gr.subcircuit) = some (some (0, "x"))
    ∧ (getCell staleWired 0 (some "x")).map (fun c => c.outputSignals)
        = some [("m", Val.num 0), ("n", Val.num 0)]
    ∧ staleUp = Outcome.ok staleUp.state
    ∧ (getCell staleUp.state 1 (some "on")).map (fun c => c.inputSignals)
        = some [("in", Val.num 1)]
    ∧ (getCell staleUp.state 0 (some "x")).map (fun c => c.outputSignals)
        = some [("m", Val.num 1), ("n", Val.num 1)] := by
  decide

/-! ## Flat circuits -/

theorem flat_getCell (s : Circuit) (h : Flat s) (g : Nat) (id : Option String) (c : Gate)
    (hc : getCell s g id = some c) :
    c.type ≠ CellType.Subcircuit ∧ c.type ≠ CellType.Output ∧ c.graph = none := by
  have hid := getCell_id s g id c hc
  rw [hid] at hc
  obtain ⟨gr, hg, hf⟩ := (getCell_iff s g c.id c).1 hc
  exact (h gr (List.getElem?_mem hg)).2 c (findGate_mem _ _ _ hf)

theorem flat_of_skeleton (s s0 : Circuit) (h : skeleton s = skeleton s0) (h0 : Flat s0) :
    Flat s := by
  intro gr hgr
  obtain ⟨g, hg⟩ := List.getElem?_of_mem hgr
  obtain ⟨gr0, hgr0, hb⟩ := getGraph_of_skeleton s s0 h g gr hg
  have h1 := h0 gr0 (List.getElem?_mem hgr0)
  have hsub : gr0.subcircuit = gr.subcircuit := by
    have := congrArg Graph.subcircuit hb
    exact this
  have hcells : gr0.cells.map Gate.bare = gr.cells.map Gate.bare := by
    have := congrArg Graph.cells hb
    exact this
  refine ⟨by rw [← hsub]; exact h1.1, ?_⟩
  intro c hc
  have hm : c.bare ∈ gr.cells.map Gate.bare := List.mem_map_of_mem _ hc
  rw [← hcells] at hm
  obtain ⟨c0, hc0, hbc⟩ := List.mem_map.1 hm
  have h2 := h1.2 c0 hc0
  have ht := type_of_bare c0 c hbc
  have hgr : c0.graph = c.graph := by
    have := congrArg Gate.graph hbc
    exact this
  rw [← ht, ← hgr]
  exact h2

theorem primitiveAt_of_flat (s : Circuit) (h : Flat s) (g : Nat) (id : Option String) :
    PrimitiveAt s g id := by
  intro c hc
  have := flat_getCell s h g id c hc
  exact ⟨this.1, this.2.1⟩

theorem tame_of_flat (s : Circuit) (h : Flat s) (t : Task)
    (ht : ∀ v e r, t ≠ Task.forwardInput v e r) : t.tame s := by
  cases t with
  | setInput v e r => exact primitiveAt_of_flat s h _ _
  | setSignal g wid v => exact fun w _ => primitiveAt_of_flat s h _ _
  | setOutputSignals r sigs => exact fun _ _ _ _ _ w' _ => primitiveAt_of_flat s h _ _
  | forwardInput v e r => exact absurd rfl (ht v e r)

theorem sealed_of_flat (s : Circuit) (h : Flat s) : Sealed s := by
  refine ⟨?_, ?_⟩
  · intro H hh ng k id c hH hgr _ _
    have := (flat_getCell s h H.1 (some H.2) hh hH).2.2
    rw [this] at hgr
    cases hgr
  · intro g gr sr c hg hsub _
    have := (h gr (List.getElem?_mem hg)).1
    rw [this] at hsub
    cases hsub

theorem mem_le_sum (l : List Nat) (x : Nat) (h : x ∈ l) : x ≤ l.sum := by
  induction l with
  | nil => simp at h
  | cons a l ih =>
    simp only [List.mem_cons] at h
    simp only [List.sum_cons]
    rcases h with h | h
    · omega
    · have := ih h
      omega

/-- A tick of a flat circuit returns: no cascade leaves the primitive gates. -/
theorem updateGates_flat (op : Gate → Sigs → Sigs) (s : Circuit) (h : Flat s) :
    ∃ fuel0, ∀ fuel, fuel0 ≤ fuel → ∃ s1, updateGates op fuel s = Outcome.ok s1 := by
  have hsk : skeleton (captureLoop op { s with queue := [] } s.queue).1 = skeleton s :=
    captureLoop_skeleton op { s with queue := [] } s.queue
  have hflat := flat_of_skeleton _ s hsk h
  have hW : WireBound (s.graphs.map fun gr => gr.wires.length).sum s := by
    intro gr hgr
    exact mem_le_sum _ _ (List.mem_map_of_mem _ hgr)
  have hW1 := wireBound_of_skeleton _ _ s hsk hW
  refine ⟨(((captureLoop op { s with queue := [] } s.queue).2.map
    fun c => Task.setOutputSignals c.1 c.2).map
      (Task.cost (s.graphs.map fun gr => gr.wires.length).sum)).sum, ?_⟩
  intro fuel hfuel
  simp only [updateGates]
  apply run_tame _ fuel _ _ _ hW1 hfuel
  intro t ht
  apply tame_of_flat _ hflat
  intro v e r hc
  rw [hc] at ht
  simp at ht

/-! ## Chains of gates -/

theorem ports_of_bare (a b : Gate) (h : a.bare = b.bare) : a.ports = b.ports := by
  have := congrArg Gate.ports h
  exact this

theorem read_fill_in (c : Gate) (p : String) (hp : (p, Dir.inp) ∈ c.ports) :
    Sigs.read (fillInputs c.ports c.inputSignals) p = inputValue c.inputSignals p := by
  rw [read_fillInputs]
  unfold inputValue
  simp [hp]

theorem chain_node (op : Gate → Sigs → Sigs) (s : Circuit) (g : Nat) (ids wids : Nat → String)
    (fs : Nat → Val → Val) (v : Val) (D : Nat) (h : ChainAt op s g ids wids fs v D) (j : Nat)
    (hj : j ≤ D) : ∃ c, getCell s g (some (ids j)) = some c ∧ c.type.isLogic = true := by
  cases j with
  | zero =>
    obtain ⟨c, hc, hl, _⟩ := h.driver
    exact ⟨c, hc, hl⟩
  | succ j =>
    obtain ⟨c, hc, hl, _⟩ := h.gate (j + 1) (by omega) hj
    exact ⟨c, hc, hl⟩

/-- A cascade that returns within a budget returns the same within a larger one. -/
theorem run_fuel_mono (n m : Nat) (ts : List Task) (s s1 : Circuit)
    (h : run n ts s = Outcome.ok s1) (hnm : n ≤ m) : run m ts s = Outcome.ok s1 := by
  induction n generalizing m ts s with
  | zero =>
    cases ts with
    | nil =>
      rw [run_nil] at h ⊢
      exact h
    | cons t ts => simp [run] at h
  | succ n ih =>
    cases ts with
    | nil =>
      rw [run_nil] at h ⊢
      exact h
    | cons t ts =>
      obtain ⟨m', rfl⟩ : ∃ m', m = m' + 1 := ⟨m - 1, by omega⟩
      rw [run_succ_cons] at h ⊢
      cases hs : step t s with
      | ok p =>
        obtain ⟨new, s'⟩ := p
        rw [hs] at h
        exact ih _ _ _ h (by omega)
      | typeError => rw [hs] at h; cases h
      | outOfFuel => rw [hs] at h; cases h

/-- One tick along a chain: it returns, the chain is as before, and every gate
of the chain outputs what its operation makes of the output its predecessor
had when the tick started. -/
theorem tick_chain (op : Gate → Sigs → Sigs) (hb : OutputBlind op) (s : Circuit) (g : Nat)
    (ids wids : Nat → String) (fs : Nat → Val → Val) (v : Val) (D : Nat)
    (h : ChainAt op s g ids wids fs v D) :
    ∃ fuel0 s1, (∀ fuel, fuel0 ≤ fuel → updateGates op fuel s = Outcome.ok s1) ∧
      ChainAt op s1 g ids wids fs v D ∧
      ∀ j, 1 ≤ j → j ≤ D →
        outputOf s1 g (ids j) "out" = (outputOf s g (ids (j - 1)) "out").map (fs j) := by
  obtain ⟨fuel, hf0⟩ := updateGates_flat op s h.flat
  obtain ⟨s1, hupd⟩ := hf0 fuel (Nat.le_refl _)
  refine ⟨fuel, s1, ?_, ?_⟩
  · intro fuel' hf'
    simp only [updateGates] at hupd ⊢
    exact run_fuel_mono fuel fuel' _ _ _ hupd hf'
  have hseal := sealed_of_flat s h.flat
  have hrun : run fuel ((captureLoop op { s with queue := [] } s.queue).2.map
      fun c => Task.setOutputSignals c.1 c.2)
      (captureLoop op { s with queue := [] } s.queue).1 = Outcome.ok s1 := hupd
  obtain ⟨sc, hsc⟩ : ∃ sc, sc = (captureLoop op { s with queue := [] } s.queue).1 := ⟨_, rfl⟩
  obtain ⟨ts, hts⟩ : ∃ ts, ts = (captureLoop op { s with queue := [] } s.queue).2.map
      fun c => Task.setOutputSignals c.1 c.2 := ⟨_, rfl⟩
  rw [← hsc, ← hts] at hrun
  have hskc : skeleton sc = skeleton s := by
    rw [hsc]
    exact captureLoop_skeleton op { s with queue := [] } s.queue
  have hsk1 : skeleton s1 = skeleton s := (run_skeleton fuel ts sc s1 hrun).trans hskc
  have hallout : ∀ t ∈ ts, ∃ r sigs, t = Task.setOutputSignals r sigs := by
    intro t ht
    rw [hts] at ht
    simp only [List.mem_map] at ht
    obtain ⟨c, _, hc⟩ := ht
    exact ⟨_, _, hc.symm⟩
  have hflatc := flat_of_skeleton sc s hskc h.flat
  have htame : ∀ t ∈ ts, t.tame sc := by
    intro t ht
    apply tame_of_flat sc hflatc
    intro v' e r hc
    obtain ⟨r', sigs, h'⟩ := hallout t ht
    rw [hc] at h'
    cases h'
  have hwc : ∀ wid, getWire sc g wid = getWire s g wid := by
    intro wid
    rw [hsc, captureLoop_getWire]
    rfl
  have hcc : ∀ i c c', getCell s g (some i) = some c → getCell sc g (some i) = some c' →
      c'.outputSignals = c.outputSignals ∧
        ∀ p, inputValue c'.inputSignals p = inputValue c.inputSignals p := by
    intro i c c' hc hc'
    rw [hsc, captureLoop_getCell, getCell_queue, hc] at hc'
    simp only [Option.map_some', Option.some.injEq] at hc'
    rw [← hc']
    split
    · exact ⟨rfl, fun p => inputValue_fillInputs _ _ _⟩
    · exact ⟨rfl, fun p => rfl⟩
  have houts : ∀ i c c1, getCell s g (some i) = some c → c.type.isLogic = true →
      getCell s1 g (some i) = some c1 → ∀ p, Sigs.read c1.outputSignals p =
        Sigs.read (op { c with inputSignals := fillInputs c.ports c.inputSignals }
          (fillInputs c.ports c.inputSignals)) p := by
    intro i c c1 hc hl hc1 p
    have := updateGates_outputs op fuel s s1 hseal hupd g i c c1 hc hl hc1
      (h.settled g i c hc hl)
    exact (Sigs.isEqual_spec _ _ this p).2
  have hnosig : ∀ g' wid v', Task.setSignal g' wid v' ∉ ts := by
    intro g' wid v' hm
    obtain ⟨r', sigs, h'⟩ := hallout _ hm
    cases h'
  refine ⟨⟨flat_of_skeleton s1 s hsk1 h.flat, wireIds_of_skeleton s1 s hsk1 g h.nodup,
    updateGates_settled op hb fuel s s1 hseal h.settled hupd, ?_, ?_, ?_⟩, ?_⟩
  · obtain ⟨c, hc, hl, hv, hop⟩ := h.driver
    obtain ⟨c1, hc1, hb1⟩ := getCell_of_skeleton s s1 hsk1.symm g _ c hc
    refine ⟨c1, hc1, by rw [type_of_bare c1 c hb1]; exact hl, ?_,
      fun c' args hc' => hop c' args (hc'.trans hb1)⟩
    rw [houts _ c c1 hc hl hc1]
    exact hop _ _ rfl
  · intro j h1 hD
    obtain ⟨c, hc, hl, hp, hop⟩ := h.gate j h1 hD
    obtain ⟨c1, hc1, hb1⟩ := getCell_of_skeleton s s1 hsk1.symm g _ c hc
    exact ⟨c1, hc1, by rw [type_of_bare c1 c hb1]; exact hl,
      by rw [ports_of_bare c1 c hb1]; exact hp,
      fun c' args hc' => hop c' args (hc'.trans hb1)⟩
  · intro j h1 hD
    obtain ⟨hod, w, hw, hs, ht, hsrc, hin⟩ := h.wire j h1 hD
    obtain ⟨w1, hw1, hbw⟩ := getWire_of_skeleton s s1 hsk1.symm g _ w hw
    obtain ⟨cp, hcp, _⟩ := chain_node op s g ids wids fs v D h (j - 1) (by omega)
    obtain ⟨c, hc, _⟩ := chain_node op s g ids wids fs v D h j hD
    refine ⟨onlyDriver_of_skeleton s1 s hsk1 g _ _ _ hod, w1, hw1,
      by rw [source_of_bare w1 w hbw]; exact hs, by rw [target_of_bare w1 w hbw]; exact ht,
      ?_, ?_⟩
    · intro c1 hc1
      refine run_wire_source fuel ts sc s1 g (wids j) (ids (j - 1)) "out" htame
        (shaped_of_all_out ts hallout) (wireIds_of_skeleton sc s hskc g h.nodup)
        ?_ ?_ ?_ hrun w1 c1 hw1 hc1
      · intro w' hw'
        rw [hwc, hw] at hw'
        cases hw'
        exact hs
      · intro w' c' hw' hc'
        left
        rw [hwc, hw] at hw'
        cases hw'
        rw [(hcc _ cp c' hcp hc').1]
        exact hsrc cp hcp
      · intro v' hm
        exact absurd hm (hnosig _ _ _)
    · intro c1 hc1
      refine run_driven fuel ts sc s1 g (ids j) "in" (wids j)
        (onlyDriver_of_skeleton sc s hskc g _ _ _ hod) ?_ (Or.inl ⟨?_, ?_⟩) hrun c1 w1 hc1 hw1
      · intro w' hw'
        rw [hwc, hw] at hw'
        cases hw'
        unfold Wire.drives
        rw [ht]
        exact ⟨rfl, rfl⟩
      · intro c' w' hc' hw'
        rw [hwc, hw] at hw'
        cases hw'
        rw [(hcc _ c c' hc hc').2]
        exact hin c hc
      · intro t ht' hp
        obtain ⟨r, sigs, h'⟩ := hallout t ht'
        rw [h'] at hp
        exact hp
  · intro j h1 hD
    obtain ⟨c, hc, hl, hp, hop⟩ := h.gate j h1 hD
    obtain ⟨c1, hc1, _⟩ := getCell_of_skeleton s s1 hsk1.symm g _ c hc
    obtain ⟨cp, hcp, _⟩ := chain_node op s g ids wids fs v D h (j - 1) (by omega)
    obtain ⟨_, w, hw, _, _, hsrc, hin⟩ := h.wire j h1 hD
    unfold outputOf
    rw [hc1, hcp]
    simp only [Option.map_some', Option.some.injEq]
    rw [houts _ c c1 hc hl hc1,
      hop { c with inputSignals := fillInputs c.ports c.inputSignals }
        (fillInputs c.ports c.inputSignals) rfl,
      read_fill_in c "in" hp, hin c hc, hsrc cp hcp]

/-- Ticks along a chain: when the first `m` gates hold their settled values, the
first `m + k` do after `k` ticks, and a gate further down that was at rest with
its predecessor still outputs what it did. -/
theorem chain_ticks (op : Gate → Sigs → Sigs) (hb : OutputBlind op) (g : Nat)
    (ids wids : Nat → String) (fs : Nat → Val → Val) (v : Val) (D k : Nat) :
    ∀ (s : Circuit) (m : Nat), ChainAt op s g ids wids fs v D →
      (∀ j, j ≤ m → j ≤ D → outputOf s g (ids j) "out" = some (chainValue fs v j)) →
      ∃ fuel0 s1,
        (∀ fuel, fuel0 ≤ fuel →
          applyEdits op fuel (List.replicate k Edit.tick) s = Outcome.ok s1) ∧
        ChainAt op s1 g ids wids fs v D ∧
        (∀ j, j ≤ m + k → j ≤ D → outputOf s1 g (ids j) "out" = some (chainValue fs v j)) ∧
        ((∀ j, m + 2 ≤ j → j ≤ D →
            outputOf s g (ids j) "out" = (outputOf s g (ids (j - 1)) "out").map (fs j)) →
          ∀ j, m + k < j → j ≤ D →
            outputOf s1 g (ids j) "out" = outputOf s g (ids j) "out") := by
  induction k with
  | zero =>
    intro s m h hP
    exact ⟨0, s, fun fuel _ => rfl, h, fun j hj hD => hP j (by omega) hD, fun _ j _ _ => rfl⟩
  | succ k ih =>
    intro s m h hP
    obtain ⟨fa, sa, hfa, hca, hrec⟩ := tick_chain op hb s g ids wids fs v D h
    have hPa : ∀ j, j ≤ m + 1 → j ≤ D →
        outputOf sa g (ids j) "out" = some (chainValue fs v j) := by
      intro j hj hD
      cases j with
      | zero =>
        obtain ⟨c, hc, _, hv, _⟩ := hca.driver
        unfold outputOf
        rw [hc]
        simp only [Option.map_some', chainValue, hv]
      | succ j =>
        rw [hrec (j + 1) (by omega) hD]
        simp only [Nat.add_sub_cancel]
        rw [hP j (by omega) (by omega)]
        rfl
    obtain ⟨fb, sb, hfb, hcb, hPb, hLb⟩ := ih sa (m + 1) hca hPa
    refine ⟨max fa fb, sb, ?_, hcb, ?_, ?_⟩
    · intro fuel hfuel
      have h1 := hfa fuel (le_trans (le_max_left _ _) hfuel)
      have h2 := hfb fuel (le_trans (le_max_right _ _) hfuel)
      simp only [List.replicate_succ, applyEdits, applyEdit, h1]
      exact h2
    · intro j hj hD
      exact hPb j (by omega) hD
    · intro hrest j hj hD
      have hsame : ∀ i, m + 2 ≤ i → i ≤ D →
          outputOf sa g (ids i) "out" = outputOf s g (ids i) "out" := by
        intro i hi hiD
        rw [hrec i (by omega) hiD, hrest i hi hiD]
      rw [hLb ?_ j (by omega) hD, hsame j (by omega) hD]
      intro i hi hiD
      rw [hsame i (by omega) hiD, hsame (i - 1) (by omega) (by omega), hrest i (by omega) hiD]

/-- C19 (as the code has it): in a flat circuit take a source gate that outputs
`v` (and whose operation yields `v` whatever its inputs, such as a pressed
button) and a chain of `D` logic gates `g_1 … g_D` behind it, `g_j` with the
operation `f_j` from its input `in` to its output `out`, wired in series by
wires that are the only ones into those inputs and agree with both their ends,
every logic gate of the circuit being pending or at rest (as it is in every
state the program reaches). Then `k` ticks return, and after them `g_j` outputs
`f_j(… f_1(v))` for every `j ≤ k`: the chain is settled after `D` ticks. If
moreover `g_2 … g_D` were at rest with their predecessors' outputs at the
start, then after `k` ticks every `g_j` with `j > k` still outputs what it did
at the start: a change of the last output does not come before tick `D`. -/
theorem chain_settles_in_depth_ticks (operation : Gate → Sigs → Sigs)
    (hblind : OutputBlind operation) (s : Circuit) (g : Nat) (ids wids : Nat → String)
    (fs : Nat → Val → Val) (v : Val) (D k : Nat)
    (h : ChainAt operation s g ids wids fs v D) :
    ∃ fuel0 s1,
      (∀ fuel, fuel0 ≤ fuel →
        applyEdits operation fuel (List.replicate k Edit.tick) s = Outcome.ok s1) ∧
      (∀ j, j ≤ k → j ≤ D → outputOf s1 g (ids j) "out" = some (chainValue fs v j)) ∧
      ((∀ j, 2 ≤ j → j ≤ D →
          outputOf s g (ids j) "out" = (outputOf s g (ids (j - 1)) "out").map (fs j)) →
        ∀ j, k < j → j ≤ D → outputOf s1 g (ids j) "out" = outputOf s g (ids j) "out") := by
  obtain ⟨fuel0, s1, h1, _, h2, h3⟩ := chain_ticks operation hblind g ids wids fs v D k s 0 h
    (by
      intro j hj _
      obtain ⟨c, hc, _, hv, _⟩ := h.driver
      have hj0 : j = 0 := by omega
      subst hj0
      unfold outputOf
      rw [hc]
      simp only [Option.map_some', chainValue, hv])
  refine ⟨fuel0, s1, h1, ?_, ?_⟩
  · intro j hj hD
    exact h2 j (by omega) hD
  · intro hrest j hj hD
    exact h3 (fun i hi hiD => hrest i (by omega) hiD) j (by omega) hD

theorem not_operation (c c' : Gate) (args : Sigs) (hc : c.type = CellType.Not)
    (hb : c'.bare = c.bare) (j : Nat) :
    Sigs.read (gateOperation c' args) "out" = notOp j (Sigs.read args "in") := by
  have ht : c'.type = CellType.Not := by rw [type_of_bare c' c hb]; exact hc
  simp [gateOperation, ht, notOp, Sigs.read]

/-- The circuit `chainSet` holds a chain of two NOT gates behind a button that
outputs 1. -/
theorem chainSet_chain :
    ChainAt gateOperation chainSet.state 0 chainIds chainWids notOp (Val.num 1) 2 := by
  have hgr : getGraph chainSet.state 0 = some ((getGraph chainSet.state 0).getD andBoardGraph) := by
    decide
  have hB : getCell chainSet.state 0 (some "b") = some chainB := by decide
  have h1 : getCell chainSet.state 0 (some "n1") = some chainN1 := by decide
  have h2 : getCell chainSet.state 0 (some "n2") = some chainN2 := by decide
  refine ⟨by decide, ?_, ?_, ?_, ?_, ?_⟩
  · intro gr hg
    rw [hgr] at hg
    cases hg
    decide
  · exact applyEdits_settled gateOperation gateOperation_blind 20
      [Edit.tick, Edit.tick, Edit.press (0, "b") true, Edit.tick]
      (Circuit.new 3 chainData).state chainSet.state (sealed_of_check _ (by decide))
      (fun g i c hc _ => Or.inl (new_allPending 3 chainData _ (by decide) g i c hc))
      (by decide)
  · refine ⟨chainB, hB, rfl, rfl, ?_⟩
    intro c' args hb
    have ht : c'.type = CellType.Button := type_of_bare c' chainB hb
    have hs : c'.buttonState = true := by
      have := congrArg Gate.buttonState hb
      exact this
    simp [gateOperation, ht, hs, ofBool, Sigs.read]
  · intro j hj1 hj2
    have hj : j = 1 ∨ j = 2 := by omega
    rcases hj with rfl | rfl
    · exact ⟨chainN1, h1, rfl, by decide, fun c' args hb => not_operation chainN1 c' args rfl hb 1⟩
    · exact ⟨chainN2, h2, rfl, by decide, fun c' args hb => not_operation chainN2 c' args rfl hb 2⟩
  · intro j hj1 hj2
    have hj : j = 1 ∨ j = 2 := by omega
    rcases hj with rfl | rfl
    · refine ⟨onlyDriver_of_all chainSet.state 0 "n1" "in" "w1" _ hgr (by decide),
        Wire.mk "w1" ⟨some "b", some "out"⟩ ⟨some "n1", some "in"⟩ (Val.num 1),
        by decide, rfl, rfl, ?_, ?_⟩
      · intro c hc
        have hc' : getCell chainSet.state 0 (some "b") = some c := hc
        rw [hB] at hc'
        cases hc'
        rfl
      · intro c hc
        have hc' : getCell chainSet.state 0 (some "n1") = some c := hc
        rw [h1] at hc'
        cases hc'
        rfl
    · refine ⟨onlyDriver_of_all chainSet.state 0 "n2" "in" "w2" _ hgr (by decide),
        Wire.mk "w2" ⟨some "n1", some "out"⟩ ⟨some "n2", some "in"⟩ (Val.num 1),
        by decide, rfl, rfl, ?_, ?_⟩
      · intro c hc
        have hc' : getCell chainSet.state 0 (some "n1") = some c := hc
        rw [h1] at hc'
        cases hc'
        rfl
      · intro c hc
        have hc' : getCell chainSet.state 0 (some "n2") = some c := hc
        rw [h2] at hc'
        cases hc'
        rfl

theorem chain_settles_in_depth_ticks_witness :
    (["b", "n1", "n2"].map fun i => outputOf chainSet.state 0 i "out")
      = [some (Val.num 1), some (Val.num 1), some (Val.num 0)]
    ∧ chainSet.state.queue = [(0, "n1")]
    ∧ (["b", "n1", "n2"].map fun i =>
        outputOf (applyEdits gateOperation 20 [Edit.tick] chainSet.state).state 0 i "out")
      = [some (Val.num 1), some (Val.num 0), some (Val.num 0)]
    ∧ (["b", "n1", "n2"].map fun i =>
        outputOf (applyEdits gateOperation 20 [Edit.tick, Edit.tick] chainSet.state).state 0 i
          "out")
      = [some (Val.num 1), some (Val.num 0), some (Val.num 1)]
    ∧ [chainValue notOp (Val.num 1) 1, chainValue notOp (Val.num 1) 2] = [Val.num 0, Val.num 1]
    ∧ (∃ fuel0 s1,
        (∀ fuel, fuel0 ≤ fuel →
          applyEdits gateOperation fuel (List.replicate 2 Edit.tick) chainSet.state
            = Outcome.ok s1) ∧
        ∀ j, j ≤ 2 → j ≤ 2 →
          outputOf s1 0 (chainIds j) "out" = some (chainValue notOp (Val.num 1) j))
    ∧ ∃ fuel0 s1,
        (∀ fuel, fuel0 ≤ fuel →
          applyEdits gateOperation fuel (List.replicate 1 Edit.tick) chainSet.state
            = Outcome.ok s1) ∧
        outputOf s1 0 "n1" "out" = some (Val.num 0) ∧
        outputOf s1 0 "n2" "out" = outputOf chainSet.state 0 "n2" "out" :=
  ⟨by decide, by decide, by decide, by decide, by decide,
    let ⟨f, s1, h1, h2, _⟩ := chain_settles_in_depth_ticks gateOperation gateOperation_blind
      chainSet.state 0 chainIds chainWids notOp (Val.num 1) 2 2 chainSet_chain
    ⟨f, s1, h1, h2⟩,
    let ⟨f, s1, h1, h2, h3⟩ := chain_settles_in_depth_ticks gateOperation gateOperation_blind
      chainSet.state 0 chainIds chainWids notOp (Val.num 1) 2 1 chainSet_chain
    ⟨f, s1, h1, h2 1 (Nat.le_refl 1) (by decide),
      h3 (fun j hj1 hj2 => by
        have hj : j = 2 := by omega
        subst hj
        decide) 2 (by decide) (Nat.le_refl 2)⟩⟩

/-- C19, counterexample: a pressed button outputs 1 into two NOT gates in
series that both output 0; the first NOT's input holds the 1 and the gate is
pending. `NOT(NOT(1))` is 1. If the second NOT is not pending, the first tick
computes `NOT(1) = 0` for the first gate, which is what it outputs already: no
event is fired, the second gate is never evaluated and still outputs 0 after
two ticks. If the second NOT is pending as well (as every gate is before the
first tick), it outputs 1 after the first tick already. -/
theorem chain_from_zero_outputs :
    (["n1", "n2"].map fun i => outputOf (zeroChain [(0, "n1")]) 0 i "out")
      = [some (Val.num 0), some (Val.num 0)]
    ∧ (getCell (zeroChain [(0, "n1")]) 0 (some "n1")).map (fun c => c.inputSignals)
        = some [("in", Val.num 1)]
    ∧ chainValue notOp (Val.num 1) 2 = Val.num 1
    ∧ applyEdits gateOperation 20 [Edit.tick, Edit.tick] (zeroChain [(0, "n1")])
        = Outcome.ok (applyEdits gateOperation 20 [Edit.tick, Edit.tick]
            (zeroChain [(0, "n1")])).state
    ∧ outputOf (applyEdits gateOperation 20 [Edit.tick, Edit.tick] (zeroChain [(0, "n1")])).state
        0 "n2" "out" = some (Val.num 0)
    ∧ applyEdits gateOperation 20 [Edit.tick] (zeroChain [(0, "n1"), (0, "n2")])
        = Outcome.ok (applyEdits gateOperation 20 [Edit.tick]
            (zeroChain [(0, "n1"), (0, "n2")])).state
    ∧ outputOf (applyEdits gateOperation 20 [Edit.tick] (zeroChain [(0, "n1"), (0, "n2")])).state
        0 "n2" "out" = some (Val.num 1) := by
  decide

/-! ## Lodash `set` on plain keys, and cascades that never end -/

theorem hasBracketPair_false (l : List Char) (h : l.contains '[' = false) :
    hasBracketPair l = false := by
  induction l with
  | nil => rfl
  | cons c cs ih =>
    simp only [List.contains_cons, Bool.or_eq_false_iff] at h
    simp only [hasBracketPair, Bool.or_eq_false_iff, Bool.and_eq_false_imp]
    refine ⟨?_, ih h.2⟩
    intro hc
    have h1 := h.1
    simp only [beq_iff_eq] at hc
    rw [hc] at h1
    simp at h1

theorem plainKey_not_deep (k : String) (h : plainKey k = true) : deepProp k = false := by
  unfold plainKey at h
  simp only [Bool.and_eq_true, Bool.not_eq_true'] at h
  unfold deepProp
  rw [h.1.1, hasBracketPair_false _ h.1.2]
  rfl

theorem plainKey_not_reserved (k : String) (h : plainKey k = true) :
    ¬ (k = "__proto__" ∨ k = "constructor" ∨ k = "prototype") := by
  unfold plainKey at h
  simp only [Bool.and_eq_true, Bool.not_eq_true'] at h
  have h2 := h.2
  intro hk
  rcases hk with hk | hk | hk <;> (rw [hk] at h2; revert h2; decide)

theorem putAssoc_toJ (m : Sigs) (k : String) (v : Val) :
    putAssoc (m.map fun kv => (kv.1, kv.2.toJ)) k v.toJ
      = (Sigs.set m k v).map fun kv => (kv.1, kv.2.toJ) := by
  induction m with
  | nil => rfl
  | cons a m ih =>
    obtain ⟨k', v'⟩ := a
    simp only [List.map_cons, putAssoc, Sigs.set]
    by_cases hk : k' = k
    · simp [hk]
    · simp [hk, ih]

/-- On a key that is a plain property name, lodash `set` is the write of a
property that `Sigs.set` models. -/
theorem lodashSet_plain (m : Sigs) (k : String) (v : Val) (h : plainKey k = true) :
    lodashSet m.toJ k v.toJ = (Sigs.set m k v).toJ := by
  unfold lodashSet
  rw [plainKey_not_deep k h]
  simp only [Bool.not_false, Bool.true_or, if_true]
  unfold setPath
  rw [if_neg (plainKey_not_reserved k h)]
  simp only [Sigs.toJ, JVal.putField, putAssoc_toJ]

theorem callsFor_run (n m : Nat) (ts ts1 : List Task) (s s1 : Circuit)
    (h : callsFor n ts s = some (ts1, s1)) : run (n + m) ts s = run m ts1 s1 := by
  induction n generalizing ts s with
  | zero =>
    simp only [callsFor, Option.some.injEq, Prod.mk.injEq] at h
    rw [h.1, h.2, Nat.zero_add]
  | succ n ih =>
    cases ts with
    | nil => simp [callsFor] at h
    | cons t ts =>
      simp only [callsFor] at h
      rw [Nat.succ_add]
      cases hs : step t s with
      | ok r =>
        obtain ⟨new, s2⟩ := r
        rw [hs] at h
        simp only [run, hs]
        exact ih _ _ h
      | typeError => rw [hs] at h; simp at h
      | outOfFuel => rw [hs] at h; simp at h

theorem callsFor_short (n : Nat) (ts ts1 : List Task) (s s1 : Circuit)
    (h : callsFor n ts s = some (ts1, s1)) (hne : ts1 ≠ []) (fuel : Nat) (hf : fuel ≤ n) :
    run fuel ts s = Outcome.outOfFuel := by
  induction n generalizing ts s fuel with
  | zero =>
    simp only [callsFor, Option.some.injEq, Prod.mk.injEq] at h
    have hf0 : fuel = 0 := by omega
    rw [hf0, h.1]
    cases ts1 with
    | nil => exact absurd rfl hne
    | cons t r => rfl
  | succ n ih =>
    cases ts with
    | nil => simp [callsFor] at h
    | cons t ts =>
      simp only [callsFor] at h
      cases fuel with
      | zero => rfl
      | succ f =>
        cases hs : step t s with
        | ok r =>
          obtain ⟨new, s2⟩ := r
          rw [hs] at h
          simp only [run, hs]
          exact ih _ _ h f (by omega)
        | typeError => rw [hs] at h; simp at h
        | outOfFuel => rw [hs] at h; simp at h

theorem callsFor_frame (n : Nat) (ts ts1 rest : List Task) (s s1 : Circuit)
    (h : callsFor n ts s = some (ts1, s1)) :
    callsFor n (ts ++ rest) s = some (ts1 ++ rest, s1) := by
  induction n generalizing ts s with
  | zero =>
    simp only [callsFor, Option.some.injEq, Prod.mk.injEq] at h
    simp only [callsFor, h.1, h.2]
  | succ n ih =>
    cases ts with
    | nil => simp [callsFor] at h
    | cons t ts =>
      simp only [callsFor] at h
      simp only [List.cons_append, callsFor]
      cases hs : step t s with
      | ok r =>
        obtain ⟨new, s2⟩ := r
        rw [hs] at h
        have h2 := ih _ _ h
        rw [List.append_assoc] at h2
        exact h2
      | typeError => rw [hs] at h; simp at h
      | outOfFuel => rw [hs] at h; simp at h

/-- A call that is on top of the stack again, in the same state, before the
calls below it are reached, is made over and over: no budget of calls is
enough. -/
theorem loop_diverges (n : Nat) (t : Task) (extra : List Task) (sc : Circuit)
    (hloop : callsFor (n + 1) [t] sc = some (t :: extra, sc)) (fuel : Nat) :
    ∀ rest, run fuel (t :: rest) sc = Outcome.outOfFuel := by
  induction fuel using Nat.strong_induction_on with
  | _ fuel ih =>
    intro rest
    have hfr := callsFor_frame (n + 1) [t] (t :: extra) rest sc sc hloop
    simp only [List.singleton_append, List.cons_append, List.nil_append] at hfr
    by_cases hf : fuel ≤ n + 1
    · exact callsFor_short (n + 1) _ _ sc sc hfr (by simp) fuel hf
    · have hsplit : fuel = (n + 1) + (fuel - (n + 1)) := by omega
      rw [hsplit]
      rw [callsFor_run (n + 1) (fuel - (n + 1)) _ _ sc sc hfr]
      exact ih (fuel - (n + 1)) (by omega) (extra ++ rest)

theorem cycle_diverges (n0 n : Nat) (ts : List Task) (s : Circuit)
    (h : cycleCheck n0 n ts s = true) (fuel : Nat) : run fuel ts s = Outcome.outOfFuel := by
  unfold cycleCheck at h
  cases h0 : callsFor n0 ts s with
  | none => rw [h0] at h; simp at h
  | some r =>
    obtain ⟨st, sc⟩ := r
    rw [h0] at h
    cases st with
    | nil => simp at h
    | cons t rest =>
      simp only [] at h
      cases h1 : callsFor (n + 1) [t] sc with
      | none => rw [h1] at h; simp at h
      | some r2 =>
        obtain ⟨st2, s2⟩ := r2
        rw [h1] at h
        cases st2 with
        | nil => simp at h
        | cons t2 extra =>
          simp only [Bool.and_eq_true, decide_eq_true_eq] at h
          rw [h.1, h.2] at h1
          by_cases hf : fuel ≤ n0
          · exact callsFor_short n0 ts (t :: rest) s sc h0 (by simp) fuel hf
          · have hsplit : fuel = n0 + (fuel - n0) := by omega
            rw [hsplit, callsFor_run n0 (fuel - n0) ts _ s sc h0]
            exact loop_diverges n t extra sc h1 _ rest

/-! ## Retargeting a wire -/

theorem run_cons_done (n : Nat) (t : Task) (ts : List Task) (s s1 : Circuit)
    (h : step t s = Outcome.ok ([], s1)) : run (n + 1) (t :: ts) s = run n ts s1 := by
  rw [run_succ_cons, h]
  rfl

/-- A `setInput` on a gate that is neither a Subcircuit nor an output terminal is
one call: the gate's input is written, nothing else changes but the pending
set. -/
theorem setInput_primitive_effect (v : Val) (e : End) (r : GateRef) (s : Circuit) (c : Gate)
    (hc : getCell s r.1 (some r.2) = some c) (h1 : c.type ≠ CellType.Subcircuit)
    (h2 : c.type ≠ CellType.Output) :
    ∃ s1 c1, step (Task.setInput v e r) s = Outcome.ok ([], s1) ∧
      (∀ g i, getWire s1 g i = getWire s g i) ∧
      (∀ g i, (g, i) ≠ r → getCell s1 g (some i) = getCell s g (some i)) ∧
      getCell s1 r.1 (some r.2) = some c1 ∧ c1.type = c.type ∧
      inputValue c1.inputSignals (portKey e.port) = v ∧
      ∀ k, k ≠ portKey e.port → inputValue c1.inputSignals k = inputValue c.inputSignals k := by
  by_cases heq : Sigs.isEqual c.inputSignals (Sigs.set c.inputSignals (portKey e.port) v) = true
  · refine ⟨s, c, ?_, fun _ _ => rfl, fun _ _ _ => rfl, hc, rfl, ?_, fun _ _ => rfl⟩
    · simp [step, hc, h1, h2, heq]
    · rw [inputValue_isEqual _ _ heq, inputValue_set]
      simp
  · refine ⟨{ modifyGate s r (fun x =>
        { x with inputSignals := Sigs.set c.inputSignals (portKey e.port) v }) with
        queue := queueAdd s.queue r },
      { c with inputSignals := Sigs.set c.inputSignals (portKey e.port) v }, ?_, ?_, ?_, ?_, rfl,
      ?_, ?_⟩
    · simp [step, hc, h1, h2, heq, modifyGate]
    · intro g i
      rw [getWire_queue, getWire_modifyGate]
    · intro g i hne
      rw [getCell_queue, getCell_modifyGate _ r
        (fun x => { x with inputSignals := Sigs.set c.inputSignals (portKey e.port) v })
        (fun _ => rfl)]
      have : ¬ (g = r.1 ∧ i = r.2) := fun h => hne (Prod.ext h.1 h.2)
      rw [if_neg this]
    · rw [getCell_queue, getCell_modifyGate _ r
        (fun x => { x with inputSignals := Sigs.set c.inputSignals (portKey e.port) v })
        (fun _ => rfl)]
      simp only [and_self, if_true, hc, Option.map_some']
    · simp only [inputValue_set, if_true]
    · intro k hk
      simp only [inputValue_set]
      rw [if_neg (fun h => hk h.symm)]

theorem getCell_none (s : Circuit) (g : Nat) : getCell s g none = none := by
  unfold getCell
  cases getGraph s g <;> rfl

/-- The call a handler makes for an end depends on the state only through the
presence of the gate the end names. -/
theorem setInput_tasks_congr (s s1 : Circuit) (g : Nat) (v : Val) (e : End)
    (h : ∀ i, (getCell s g i).isSome = (getCell s1 g i).isSome) :
    (match getCell s g e.id, e.port with
      | some gate, some _ => [Task.setInput v e (g, gate.id)]
      | _, _ => [])
    = (match getCell s1 g e.id, e.port with
      | some gate, some _ => [Task.setInput v e (g, gate.id)]
      | _, _ => []) := by
  have hi := h e.id
  cases hc : getCell s g e.id with
  | none =>
    rw [hc] at hi
    cases hc1 : getCell s1 g e.id with
    | none => rfl
    | some c1 => rw [hc1] at hi; cases hi
  | some c =>
    rw [hc] at hi
    cases hc1 : getCell s1 g e.id with
    | none => rw [hc1] at hi; cases hi
    | some c1 =>
      have h1 := getCell_id s g e.id c hc
      have h2 := getCell_id s1 g e.id c1 hc1
      have : c.id = c1.id := by
        rw [h1] at h2
        simp only [Option.some.injEq] at h2
        exact h2
      cases e.port with
      | none => rfl
      | some p =>
        show [Task.setInput v e (g, c.id)] = [Task.setInput v e (g, c1.id)]
        rw [this]

/-- The call `setInput(v, end, gate)` a handler makes when the end names a gate
and has a port, on a gate that is neither a Subcircuit nor an output terminal:
at most one call, after which the port holds `v` and nothing else has changed
but the pending set. -/
theorem run_optional_setInput (s : Circuit) (g : Nat) (e : End) (v : Val)
    (hprim : PrimitiveAt s g e.id) :
    ∃ s1 k, k ≤ 1 ∧
      (∀ n rest, run (n + k) ((match getCell s g e.id, e.port with
          | some gate, some _ => [Task.setInput v e (g, gate.id)]
          | _, _ => []) ++ rest) s = run n rest s1) ∧
      (∀ g' i, getWire s1 g' i = getWire s g' i) ∧
      (∀ i, (getCell s1 g i).isSome = (getCell s g i).isSome) ∧
      (∀ g' i, ((g' = g ∧ some i = e.id) → e.port = none) →
        getCell s1 g' (some i) = getCell s g' (some i)) ∧
      (∀ i c1, getCell s1 g (some i) = some c1 →
        ∃ c0, getCell s g (some i) = some c0 ∧ c1.type = c0.type ∧
          (∀ p, e.id = some i → e.port = some p → inputValue c1.inputSignals p = v) ∧
          (∀ k', (e.id = some i → ∀ p, e.port = some p → k' ≠ p) →
            inputValue c1.inputSignals k' = inputValue c0.inputSignals k')) := by
  cases hc : getCell s g e.id with
  | none =>
    refine ⟨s, 0, by omega, ?_, fun _ _ => rfl, fun _ => rfl, fun _ _ _ => rfl, ?_⟩
    · intro n rest
      simp
    · intro i c1 hc1
      refine ⟨c1, hc1, rfl, ?_, fun _ _ => rfl⟩
      intro p hid
      rw [hid, hc1] at hc
      cases hc
  | some c =>
    cases hp : e.port with
    | none =>
      refine ⟨s, 0, by omega, ?_, fun _ _ => rfl, fun _ => rfl, fun _ _ _ => rfl, ?_⟩
      · intro n rest
        simp
      · intro i c1 hc1
        refine ⟨c1, hc1, rfl, ?_, fun _ _ => rfl⟩
        intro p _ h
        cases h
    | some p =>
      cases hi : e.id with
      | none => rw [hi, getCell_none] at hc; cases hc
      | some i0 =>
        rw [hi] at hc
        have hcid : c.id = i0 := by
          have := getCell_id s g (some i0) c hc
          simp only [Option.some.injEq] at this
          exact this.symm
        have hpr := hprim c (by rw [hi]; exact hc)
        obtain ⟨s1, c1, hstep, hwires, hother, hself, htype, hval, hrest⟩ :=
          setInput_primitive_effect v e (g, i0) s c hc hpr.1 hpr.2
        have hkey : portKey e.port = p := by rw [hp]; rfl
        refine ⟨s1, 1, by omega, ?_, hwires, ?_, ?_, ?_⟩
        · intro n rest
          simp only [List.singleton_append, hcid]
          exact run_cons_done n _ rest s s1 hstep
        · intro i
          cases i with
          | none => simp [getCell_none]
          | some i =>
            by_cases hii : i = i0
            · subst hii
              have hself' : getCell s1 g (some i) = some c1 := hself
              rw [hself', hc]
              rfl
            · rw [hother g i (fun h => hii (by simp only [Prod.mk.injEq] at h; exact h.2))]
        · intro g' i hcond
          apply hother
          intro h
          simp only [Prod.mk.injEq] at h
          have := hcond ⟨h.1, by rw [h.2]⟩
          cases this
        · intro i c1' hc1'
          by_cases hii : i = i0
          · subst hii
            have hself' : getCell s1 g (some i) = some c1 := hself
            rw [hself'] at hc1'
            cases hc1'
            refine ⟨c, hc, htype, ?_, ?_⟩
            · intro p' _ hp'
              cases hp'
              rw [← hkey]
              exact hval
            · intro k' hk'
              apply hrest
              rw [hkey]
              exact hk' rfl p rfl
          · have := hother g i (fun h => hii (by simp only [Prod.mk.injEq] at h; exact h.2))
            rw [this] at hc1'
            refine ⟨c1', hc1', rfl, ?_, fun _ _ => rfl⟩
            intro p' hid
            simp only [Option.some.injEq] at hid
            exact absurd hid.symm hii

/-- C9 (as the code has it): the target of a wire changes to port `pn` of gate
`idn`, in a network whose port and net names lodash `set` takes as property
names. If neither the new gate nor the gate of the previous end is a Subcircuit
or an output terminal, the `change:target` handler returns, the wire's signal
is as before, the new gate's input `pn` holds it and, if the previous end named
a gate `ido` and a port `po`, that gate's input `po` holds 0; `idn` and `ido`
may be the same gate. For gates of any kind, when the handler returns: the new
gate's input `pn` holds the wire's signal if no other wire targets that port;
and the input `po` of the previous gate holds 0 if no other wire targeted that
port. An input absent from `inputSignals` reads 0. -/
theorem setTarget_inputs (fuel g : Nat) (wid idn pn : String) (s : Circuit) (w : Wire)
    (_hplain : PlainPorts s) (_hpn : plainKey pn = true)
    (hw : getWire s g wid = some w) (hne : w.target ≠ ⟨some idn, some pn⟩) :
    (PrimitiveAt s g (some idn) → PrimitiveAt s g w.target.id →
      ∃ s2, setTarget (fuel + 2) g wid ⟨some idn, some pn⟩ s = Outcome.ok s2 ∧
        (∀ c w2, getCell s2 g (some idn) = some c → getWire s2 g wid = some w2 →
          w2.signal = w.signal ∧ inputValue c.inputSignals pn = w2.signal) ∧
        (∀ ido po c, w.target = ⟨some ido, some po⟩ → getCell s2 g (some ido) = some c →
          inputValue c.inputSignals po = Val.num 0))
    ∧ (OnlyDriver s g idn pn wid →
        ∀ s2, setTarget fuel g wid ⟨some idn, some pn⟩ s = Outcome.ok s2 →
        ∀ c w2, getCell s2 g (some idn) = some c → getWire s2 g wid = some w2 →
          inputValue c.inputSignals pn = w2.signal)
    ∧ ((∀ gr, getGraph s g = some gr → (gr.wires.map fun x => x.id).Nodup) →
        ∀ ido po, w.target = ⟨some ido, some po⟩ → OnlyDriver s g ido po wid →
        ∀ s2, setTarget fuel g wid ⟨some idn, some pn⟩ s = Outcome.ok s2 →
        ∀ c, getCell s2 g (some ido) = some c →
          inputValue c.inputSignals po = Val.num 0) := by
  have hgw1 : getWire (modifyWire s g wid (fun x => { x with target := ⟨some idn, some pn⟩ })) g wid
      = some { w with target := ⟨some idn, some pn⟩ } := by
    rw [getWire_modifyWire s g wid (fun x => { x with target := ⟨some idn, some pn⟩ })
      (fun _ => rfl)]
    simp [hw]
  have hunf : ∀ fuel', setTarget fuel' g wid ⟨some idn, some pn⟩ s
      = run fuel' (targetTasks (modifyWire s g wid
          (fun x => { x with target := ⟨some idn, some pn⟩ })) g w.signal
          ⟨some idn, some pn⟩ w.target)
        (modifyWire s g wid (fun x => { x with target := ⟨some idn, some pn⟩ })) := by
    intro fuel'
    unfold setTarget
    rw [hw]
    simp only [hne, if_false]
  have hnotold : ∀ (x : Val) (c : Gate), getCell s g w.target.id = some c → w.target.port.isSome →
      ¬ Task.onPort (g, idn) pn (Task.setInput x w.target (g, c.id)) := by
    intro x c hc hp hon
    apply hne
    obtain ⟨h1, h2⟩ := hon
    have hid := getCell_id s g w.target.id c hc
    cases ht : w.target with
    | mk i p =>
      rw [ht] at hid h2 hp
      simp only at hid h2 hp
      cases p with
      | none => simp at hp
      | some p' =>
        simp only [portKey, Option.getD_some] at h2
        have : c.id = idn := congrArg Prod.snd h1
        rw [hid, this, h2]
  refine ⟨?_, ?_, ?_⟩
  · intro hpn hpo
    generalize hs1 : modifyWire s g wid (fun x => { x with target := ⟨some idn, some pn⟩ }) = s1
      at hgw1 hunf
    have hcell1 : ∀ i, getCell s1 g i = getCell s g i := by
      intro i
      rw [← hs1, getCell_modifyWire]
    have hpA : PrimitiveAt s1 g (⟨some idn, some pn⟩ : End).id := by
      intro c hc
      rw [hcell1] at hc
      exact hpn c hc
    obtain ⟨sA, kA, hkA, hrunA, hwA, hsomeA, hothA, hcA⟩ :=
      run_optional_setInput s1 g ⟨some idn, some pn⟩ w.signal hpA
    have hpB : PrimitiveAt sA g w.target.id := by
      intro c hc
      cases hti : w.target.id with
      | none => rw [hti, getCell_none] at hc; cases hc
      | some i =>
        rw [hti] at hc
        obtain ⟨c0, hc0, ht0, _⟩ := hcA i c hc
        rw [hcell1] at hc0
        rw [ht0]
        exact hpo c0 (by rw [hti]; exact hc0)
    obtain ⟨sB, kB, hkB, hrunB, hwB, hsomeB, hothB, hcB⟩ :=
      run_optional_setInput sA g w.target (Val.num 0) hpB
    have hrun : run (kB + kA) (targetTasks s1 g w.signal ⟨some idn, some pn⟩ w.target) s1
        = Outcome.ok sB := by
      unfold targetTasks
      rw [hrunA kB, setInput_tasks_congr s1 sA g (Val.num 0) w.target (fun i => (hsomeA i).symm)]
      have := hrunB 0 []
      simp only [Nat.zero_add, List.append_nil] at this
      rw [this, run_nil]
    refine ⟨sB, ?_, ?_, ?_⟩
    · rw [hunf]
      exact run_fuel_mono _ _ _ _ _ hrun (by omega)
    · intro c w2 hc hw2
      rw [hwB, hwA, hgw1] at hw2
      cases hw2
      refine ⟨rfl, ?_⟩
      obtain ⟨cA, hcA1, _, _, hkeep⟩ := hcB idn c hc
      obtain ⟨c0, _, _, hval, _⟩ := hcA idn cA hcA1
      rw [hkeep pn, hval pn rfl rfl]
      intro hid p hp heq
      apply hne
      cases hwt : w.target with
      | mk ti tp =>
        rw [hwt] at hid hp
        simp only at hid hp
        rw [hid, hp, heq]
    · intro ido po c hwt hc
      obtain ⟨cA, _, _, hval, _⟩ := hcB ido c hc
      exact hval po (by rw [hwt]) (by rw [hwt])
  · intro hnew s2 hr
    rw [hunf] at hr
    refine run_driven fuel _ _ s2 g idn pn wid (modifyWire_onlyDriver_new s g wid _ idn pn hnew)
      ?_ ?_ hr
    · intro w' hw'
      rw [hgw1] at hw'
      cases hw'
      exact ⟨rfl, rfl⟩
    · simp only [targetTasks, getCell_modifyWire]
      cases hcn : getCell s g (some idn) with
      | none =>
        left
        refine ⟨fun c _ hc _ => (by cases hc), ?_⟩
        intro t ht
        simp only [List.nil_append] at ht
        split at ht
        · rename_i pgate _ hpg hpp
          rw [List.mem_singleton] at ht
          rw [ht]
          exact hnotold _ pgate hpg (by rw [hpp]; rfl)
        · simp at ht
      | some c =>
        right
        have hcid : c.id = idn := by
          have := getCell_id s g (some idn) c hcn
          simp only [Option.some.injEq] at this
          exact this.symm
        simp only [List.singleton_append, hcid]
        refine ⟨w.signal, ⟨some idn, some pn⟩, _, rfl, rfl, ?_, ?_⟩
        · intro w' hw'
          rw [hgw1] at hw'
          cases hw'
          rfl
        · intro t ht
          split at ht
          · rename_i pgate _ hpg hpp
            rw [List.mem_singleton] at ht
            rw [ht]
            exact hnotold _ pgate hpg (by rw [hpp]; rfl)
          · simp at ht
  · intro hids ido po hwt hold s2 hr c hc
    rw [hunf] at hr
    have heold : ¬ ((⟨some idn, some pn⟩ : End).id = some ido ∧
        portKey (⟨some idn, some pn⟩ : End).port = po) := by
      intro ⟨h1, h2⟩
      apply hne
      simp only [Option.some.injEq, portKey, Option.getD_some] at h1 h2
      rw [hwt, h1, h2]
    refine run_undriven fuel _ _ s2 g ido po
      (modifyWire_noDriver_old s g wid _ ido po hids hold heold) ?_ ?_ hr c hc
    · intro t ht v e hte hk
      simp only [targetTasks, getCell_modifyWire, List.mem_append] at ht
      rcases ht with ht | ht
      · split at ht
        · rename_i gate _ hgate _
          rw [List.mem_singleton] at ht
          rw [ht] at hte
          simp only [Task.setInput.injEq, Prod.mk.injEq] at hte
          obtain ⟨_, h2, _, h4⟩ := hte
          exfalso
          apply heold
          have hid := getCell_id s g (some idn) gate hgate
          rw [← h2] at hk
          simp only [Option.some.injEq] at hid
          exact ⟨by simp only; rw [hid, h4], hk⟩
        · simp at ht
      · split at ht
        · rw [List.mem_singleton] at ht
          rw [ht] at hte
          simp only [Task.setInput.injEq] at hte
          exact hte.1.symm
        · simp at ht
    · simp only [targetTasks, getCell_modifyWire]
      rw [hwt]
      simp only
      cases hco : getCell s g (some ido) with
      | none =>
        left
        intro c' hc'
        cases hc'
      | some c' =>
        right
        refine ⟨Task.setInput (Val.num 0) ⟨some ido, some po⟩ (g, c'.id), ?_, ?_⟩
        · simp
        · have hid := getCell_id s g (some ido) c' hco
          simp only [Option.some.injEq] at hid
          exact ⟨by rw [← hid], rfl⟩

theorem setTarget_inputs_witness :
    PlainPorts litBoard ∧ plainKey "in" = true
    ∧ (∃ s2, setTarget 2 0 "w1" ⟨some "d", some "in"⟩ litBoard = Outcome.ok s2 ∧
        (∀ c w2, getCell s2 0 (some "d") = some c → getWire s2 0 "w1" = some w2 →
          w2.signal = Val.num 1 ∧ inputValue c.inputSignals "in" = w2.signal) ∧
        (∀ ido po c,
          ({ mkWire "w1" "a" "out" "c" "in1" with signal := Val.num 1 } : Wire).target
            = ⟨some ido, some po⟩ →
          getCell s2 0 (some ido) = some c → inputValue c.inputSignals po = Val.num 0))
    ∧ PlainPorts feedbackUnplugged.state ∧ plainKey "q" = true
    ∧ (∀ c w2,
        getCell (setTarget 40 0 "w" ⟨some "x", some "q"⟩ feedbackUnplugged.state).state 0
          (some "x") = some c →
        getWire (setTarget 40 0 "w" ⟨some "x", some "q"⟩ feedbackUnplugged.state).state 0 "w"
          = some w2 →
        inputValue c.inputSignals "q" = w2.signal)
    ∧ (∀ c,
        getCell (setTarget 40 0 "w" ⟨some "x", some "q"⟩ feedbackUnplugged.state).state 0
          (some "x") = some c →
        inputValue c.inputSignals "p" = Val.num 0) :=
  ⟨by decide, by decide,
    (setTarget_inputs 0 0 "w1" "d" "in" litBoard
      { mkWire "w1" "a" "out" "c" "in1" with signal := Val.num 1 } (by decide) (by decide)
      (by decide) (by decide)).1 (by decide) (by decide),
    by decide, by decide,
    (setTarget_inputs 40 0 "w" "x" "q" feedbackUnplugged.state
      { mkWire "w" "a" "out" "x" "p" with signal := Val.num 1 } (by decide) (by decide)
      (by decide) (by decide)).2.1
      (onlyDriver_of_all feedbackUnplugged.state 0 "x" "q" "w"
        ((getGraph feedbackUnplugged.state 0).getD andBoardGraph) (by decide) (by decide))
      (setTarget 40 0 "w" ⟨some "x", some "q"⟩ feedbackUnplugged.state).state (by decide),
    (setTarget_inputs 40 0 "w" "x" "q" feedbackUnplugged.state
      { mkWire "w" "a" "out" "x" "p" with signal := Val.num 1 } (by decide) (by decide)
      (by decide) (by decide)).2.2
      (by
        intro gr hg
        have : getGraph feedbackUnplugged.state 0 = some gr →
            gr.wires.map (fun x => x.id) = ["w", "f"] := by
          intro h
          have h2 : getGraph feedbackUnplugged.state 0
              = some ((getGraph feedbackUnplugged.state 0).getD andBoardGraph) := by decide
          rw [h2] at h
          cases h
          decide
        rw [this hg]
        decide)
      "x" "p" rfl
      (onlyDriver_of_all feedbackUnplugged.state 0 "x" "p" "w"
        ((getGraph feedbackUnplugged.state 0).getD andBoardGraph) (by decide) (by decide))
      (setTarget 40 0 "w" ⟨some "x", some "q"⟩ feedbackUnplugged.state).state (by decide)⟩

/-- C9, as stated, fails in three ways. A Subcircuit whose nested input terminal
has net `p[0]` has an input port of that name; for a wire carrying 1 retargeted
to it, `setInput` stores what lodash `set` makes of the empty `inputSignals`,
the key `p[0]` and 1: the object `{p: [1]}`, whose property `p[0]` is
`undefined`. On `crossedLit` the wire `w` carries 1 and is retargeted to `x.p`,
which the feedback wire `h3` targets too: the handler returns with the wire
still at 1 and `x.inputSignals.p` at 0. On `twoPassLit`, where the feedback wire
`f2` targets `x.p`, the handler never returns. -/
theorem setTarget_second_driver :
    (getCell (Circuit.new 3 pathBox).state 0 (some "x")).map (fun c => (c.ports, c.inputSignals))
      = some ([("p[0]", Dir.inp)], [])
    ∧ plainKey "p[0]" = false
    ∧ lodashSet (Sigs.toJ []) "p[0]" (Val.num 1).toJ
      = JVal.object [("p", JVal.array [JVal.num 1])]
    ∧ (lodashSet (Sigs.toJ []) "p[0]" (Val.num 1).toJ).getField "p[0]" = JVal.undefined
    ∧ (∃ s2 c w2, setTarget 60 0 "w" ⟨some "x", some "p"⟩ crossedLit = Outcome.ok s2 ∧
        getCell s2 0 (some "x") = some c ∧ getWire s2 0 "w" = some w2 ∧
        w2.target = ⟨some "x", some "p"⟩ ∧ w2.signal = Val.num 1 ∧
        inputValue c.inputSignals "p" = Val.num 0)
    ∧ ∀ fuel, setTarget fuel 0 "w" ⟨some "x", some "p"⟩ twoPassLit = Outcome.outOfFuel := by
  refine ⟨by decide, by decide, rfl, rfl, ?_, ?_⟩
  · refine ⟨(setTarget 60 0 "w" ⟨some "x", some "p"⟩ crossedLit).state,
      ((getCell (setTarget 60 0 "w" ⟨some "x", some "p"⟩ crossedLit).state 0 (some "x")).getD
        andC),
      ⟨"w", ⟨some "a", some "out"⟩, ⟨some "x", some "p"⟩, Val.num 1⟩, by decide, by decide,
      by decide, rfl, rfl, by decide⟩
  · intro fuel
    have hw : getWire twoPassLit 0 "w"
        = some ⟨"w", ⟨some "a", some "out"⟩, ⟨none, none⟩, Val.num 1⟩ := by decide
    unfold setTarget
    rw [hw]
    simp only [End.mk.injEq, reduceCtorEq, false_and, and_false, if_false]
    exact cycle_diverges 18 31 _ _ (by decide) fuel

/-! ## Cascades that descend a rank -/

theorem crossing_bare (c : Gate) : c.bare.crossing = c.crossing := rfl

theorem inputRank_of_skeleton (rk : Rank) (s s0 : Circuit)
    (h : skeleton s = skeleton s0) (g : Nat) (e : End) :
    inputRank rk s g e = inputRank rk s0 g e := by
  unfold inputRank
  cases hc : getCell s g e.id with
  | none =>
    cases hc0 : getCell s0 g e.id with
    | none => rfl
    | some c0 =>
      obtain ⟨c, hc1, _⟩ := getCell_of_skeleton s0 s h.symm g e.id c0 hc0
      rw [hc] at hc1
      cases hc1
  | some c =>
    obtain ⟨c0, hc0, hb⟩ := getCell_of_skeleton s s0 h g e.id c hc
    rw [hc0]
    have h1 : c0.crossing = c.crossing := by
      rw [← crossing_bare c0, ← crossing_bare c, hb]
    have h2 : c0.id = c.id := by have := congrArg Gate.id hb; exact this
    simp only [h1, h2]

theorem rank_of_skeleton (rk : Rank) (s s0 : Circuit) (h : skeleton s = skeleton s0)
    (t : Task) : t.rank rk s = t.rank rk s0 := by
  cases t with
  | setInput v e r => exact inputRank_of_skeleton rk s s0 h _ _
  | setSignal g wid v =>
    simp only [Task.rank]
    cases hw : getWire s g wid with
    | none =>
      cases hw0 : getWire s0 g wid with
      | none => rfl
      | some w0 =>
        obtain ⟨w, hw1, _⟩ := getWire_of_skeleton s0 s h.symm g wid w0 hw0
        rw [hw] at hw1
        cases hw1
    | some w =>
      obtain ⟨w0, hw0, hb⟩ := getWire_of_skeleton s s0 h g wid w hw
      rw [hw0]
      have h1 : w0.target = w.target := by have := congrArg Wire.target hb; exact this
      simp only [h1, inputRank_of_skeleton rk s s0 h]
  | setOutputSignals r sigs => rfl
  | forwardInput v e r => rfl

theorem bound_of_skeleton (rk : Rank) (W : Nat) (s s0 : Circuit)
    (h : skeleton s = skeleton s0) (t : Task) : t.bound rk W s = t.bound rk W s0 := by
  unfold Task.bound
  rw [rank_of_skeleton rk s s0 h]

theorem ranked_of_skeleton (rk : Rank) (s s0 : Circuit) (h : skeleton s = skeleton s0)
    (h0 : Ranked rk s0) : Ranked rk s := by
  unfold Ranked at h0 ⊢
  rw [h]
  exact h0

theorem plugged_of_skeleton (rk : Rank) (s s0 : Circuit) (h : skeleton s = skeleton s0)
    (t : Task) (h0 : t.plugged rk s0) : t.plugged rk s := by
  have key : ∀ (r : GateRef) (e : End) (c0 c : Gate), c0.bare = c.bare →
      (∃ ng t, c0.graph = some ng ∧
          getCell s0 ng (lookupIomap c0.circuitIOmap (portKey e.port)) = some t) →
        ∃ ng t, c.graph = some ng ∧
          getCell s ng (lookupIomap c.circuitIOmap (portKey e.port)) = some t := by
    intro r e c0 c hb hk
    obtain ⟨ng, t0, hg, ht0⟩ := hk
    have e2 : c0.graph = c.graph := by have := congrArg Gate.graph hb; exact this
    have e3 : c0.circuitIOmap = c.circuitIOmap := by
      have := congrArg Gate.circuitIOmap hb; exact this
    obtain ⟨t1, ht1⟩ := getCell_exists_of_skeleton s s0 h ng _ t0 ht0
    exact ⟨ng, t1, by rw [← e2]; exact hg, by rw [← e3]; exact ht1⟩
  cases t with
  | setInput v e r =>
    intro c hc
    obtain ⟨c0, hc0, hb⟩ := getCell_of_skeleton s s0 h _ _ c hc
    have e1 : c0.type = c.type := by have := congrArg Gate.type hb; exact this
    obtain ⟨h1, h2⟩ := h0 c0 hc0
    refine ⟨fun hty => key r e c0 c hb (h1 (by rw [e1]; exact hty)), ?_⟩
    intro hty
    obtain ⟨H, hH, hle⟩ := h2 (by rw [e1]; exact hty)
    refine ⟨H, ?_, hle⟩
    cases hg0 : getGraph s0 r.1 with
    | none => rw [hg0] at hH; cases hH
    | some gr0 =>
      rw [hg0] at hH
      obtain ⟨gr, hgr, hbg⟩ := getGraph_of_skeleton s0 s h.symm r.1 gr0 hg0
      rw [hgr]
      have : gr.subcircuit = gr0.subcircuit := by
        have := congrArg Graph.subcircuit hbg; exact this
      simp only [Option.some_bind] at hH ⊢
      rw [this]
      exact hH
  | forwardInput v e r =>
    intro c hc
    obtain ⟨c0, hc0, hb⟩ := getCell_of_skeleton s s0 h _ _ c hc
    exact key r e c0 c hb (h0 c0 hc0)
  | setSignal g wid v => trivial
  | setOutputSignals r sigs => trivial

/-- What `Ranked` says of the graph `gr` of index `g`. -/
theorem ranked_graph (rk : Rank) (s : Circuit) (hR : Ranked rk s) (g : Nat)
    (gr : Graph) (hg : getGraph s g = some gr) :
    rankedGraph rk (skeleton s) g gr.bare = true := by
  unfold Ranked at hR
  rw [List.all_eq_true] at hR
  have hmem : (g, gr.bare) ∈ (skeleton s).enum := by
    apply List.mk_mem_enum_iff_getElem?.2
    unfold skeleton
    rw [List.getElem?_map]
    unfold getGraph at hg
    rw [hg]
    rfl
  exact hR (g, gr.bare) hmem

theorem getCell_findGate (s : Circuit) (g : Nat) (gr : Graph) (hg : getGraph s g = some gr)
    (i : String) : getCell s g (some i) = findGate gr.cells i := by
  unfold getCell
  rw [hg]

theorem getCell_bind (s : Circuit) (g : Nat) (gr : Graph) (hg : getGraph s g = some gr)
    (i : Option String) : getCell s g i = i.bind (findGate gr.cells) := by
  cases i with
  | none => rw [getCell_none]; rfl
  | some j => exact getCell_findGate s g gr hg j

theorem bind_findGate_bare (cs : List Gate) (i : Option String) :
    i.bind (findGate (cs.map Gate.bare)) = (i.bind (findGate cs)).map Gate.bare := by
  cases i with
  | none => rfl
  | some j => exact findGate_map_bare cs j

/-- In a ranked circuit a wire into a Subcircuit or an output terminal comes from
a gate of higher rank. -/
theorem ranked_wire (rk : Rank) (s : Circuit) (hR : Ranked rk s) (g : Nat)
    (gr : Graph) (hg : getGraph s g = some gr) (x w : Wire) (hx : x ∈ gr.wires)
    (hw : w ∈ gr.wires) (hid : x.id = w.id) (a : String) (ha : x.source.id = some a) (c : Gate)
    (hc : getCell s g w.target.id = some c) (hcr : c.crossing = true) :
    rk.inp (g, c.id) (portKey w.target.port) < rk.out (g, a) := by
  have h := ranked_graph rk s hR g gr hg
  unfold rankedGraph at h
  simp only [Bool.and_eq_true] at h
  have h1 := h.1
  rw [List.all_eq_true] at h1
  have h2 := h1 w.bare (List.mem_map_of_mem _ hw)
  have hcb : (w.bare.target.id.bind (findGate gr.bare.cells)) = some c.bare := by
    show (w.target.id.bind (findGate (gr.cells.map Gate.bare))) = some c.bare
    rw [bind_findGate_bare, ← getCell_bind s g gr hg, hc]
    rfl
  rw [hcb] at h2
  simp only [Bool.and_eq_true, Bool.or_eq_true, Bool.not_eq_true'] at h2
  rcases h2.1.1 with h3 | h3
  · rw [crossing_bare, hcr] at h3
    cases h3
  · rw [List.all_eq_true] at h3
    have h4 := h3 x.bare (List.mem_map_of_mem _ hx)
    simp only [Bool.or_eq_true, decide_eq_true_eq] at h4
    rcases h4 with h4 | h4
    · exact absurd hid h4
    · have hsrc : x.bare.source.id = some a := ha
      rw [hsrc] at h4
      simp only [decide_eq_true_eq] at h4
      exact h4

/-- In a ranked circuit a wire into a Subcircuit names a port that the
`circuitIOmap` sends to a gate of the nested graph. -/
theorem ranked_plug (rk : Rank) (s : Circuit) (hR : Ranked rk s) (g : Nat)
    (w : Wire) (wid : String) (hw : getWire s g wid = some w) (c : Gate)
    (hc : getCell s g w.target.id = some c) (hty : c.type = CellType.Subcircuit) :
    ∃ ng t, c.graph = some ng ∧
      getCell s ng (lookupIomap c.circuitIOmap (portKey w.target.port)) = some t := by
  cases hg : getGraph s g with
  | none => unfold getWire at hw; rw [hg] at hw; cases hw
  | some gr =>
    have hwm : w ∈ gr.wires := by
      unfold getWire at hw
      rw [hg] at hw
      exact findWire_mem gr.wires wid w hw
    have h := ranked_graph rk s hR g gr hg
    unfold rankedGraph at h
    simp only [Bool.and_eq_true] at h
    have h1 := h.1
    rw [List.all_eq_true] at h1
    have h2 := h1 w.bare (List.mem_map_of_mem _ hwm)
    have hcb : (w.bare.target.id.bind (findGate gr.bare.cells)) = some c.bare := by
      show (w.target.id.bind (findGate (gr.cells.map Gate.bare))) = some c.bare
      rw [bind_findGate_bare, ← getCell_bind s g gr hg, hc]
      rfl
    rw [hcb] at h2
    simp only [Bool.and_eq_true, Bool.or_eq_true, Bool.not_eq_true', decide_eq_false_iff_not,
      decide_eq_true_eq] at h2
    rcases h2.1.2 with h3 | h3
    · exact absurd hty h3
    · have hgraph : c.bare.graph = c.graph := rfl
      have hio : c.bare.circuitIOmap = c.circuitIOmap := rfl
      have hport : w.bare.target.port = w.target.port := rfl
      rw [hgraph, hio, hport] at h3
      cases hcg : c.graph with
      | none => rw [hcg] at h3; simp at h3
      | some ng =>
        rw [hcg] at h3
        simp only [Option.some_bind] at h3
        cases hsk : (skeleton s)[ng]? with
        | none => rw [hsk] at h3; simp at h3
        | some ngb =>
          rw [hsk] at h3
          simp only at h3
          unfold skeleton at hsk
          rw [List.getElem?_map] at hsk
          cases hng : s.graphs[ng]? with
          | none => rw [hng] at hsk; cases hsk
          | some ngr =>
            rw [hng] at hsk
            simp only [Option.map_some', Option.some.injEq] at hsk
            rw [← hsk] at h3
            have hb : ((lookupIomap c.circuitIOmap (portKey w.target.port)).bind
                (findGate ngr.bare.cells)) = ((lookupIomap c.circuitIOmap
                  (portKey w.target.port)).bind (findGate ngr.cells)).map Gate.bare :=
              bind_findGate_bare ngr.cells _
            rw [hb, Option.isSome_map'] at h3
            cases hf : (lookupIomap c.circuitIOmap (portKey w.target.port)).bind
                (findGate ngr.cells) with
            | none => rw [hf] at h3; cases h3
            | some t =>
              refine ⟨ng, t, rfl, ?_⟩
              rw [getCell_bind s ng ngr hng]
              exact hf

/-- In a ranked circuit the outputs of the nested gate a `circuitIOmap` names
have at most the rank of the port mapped to it. -/
theorem ranked_down (rk : Rank) (s : Circuit) (hR : Ranked rk s) (H : GateRef)
    (h : Gate) (hh : getCell s H.1 (some H.2) = some h) (ng : Nat) (hng : h.graph = some ng)
    (k tid : String) (hk : lookupIomap h.circuitIOmap k = some tid) :
    rk.out (ng, tid) ≤ rk.inp H k := by
  cases hg : getGraph s H.1 with
  | none => unfold getCell at hh; rw [hg] at hh; cases hh
  | some gr =>
    have hm : h ∈ gr.cells := by
      rw [getCell_findGate s H.1 gr hg] at hh
      exact findGate_mem gr.cells H.2 h hh
    have hid : h.id = H.2 := by
      have := getCell_id s H.1 (some H.2) h hh
      simp only [Option.some.injEq] at this
      exact this.symm
    have hr := ranked_graph rk s hR H.1 gr hg
    unfold rankedGraph at hr
    simp only [Bool.and_eq_true] at hr
    have h1 := hr.2
    rw [List.all_eq_true] at h1
    have h3 := h1 h.bare (List.mem_map_of_mem _ hm)
    have hgraph : h.bare.graph = some ng := hng
    rw [hgraph] at h3
    simp only at h3
    rw [List.all_eq_true] at h3
    have h4 := h3 (k, tid) (lookupIomap_mem h.circuitIOmap k tid hk)
    simp only [decide_eq_true_eq] at h4
    have hbid : h.bare.id = H.2 := hid
    rw [hbid] at h4
    exact h4

/-- In a ranked circuit a wire into an output terminal is in a graph that has a
`subcircuit`, whose outputs have at most the rank of the port the wire is on. -/
theorem ranked_up (rk : Rank) (s : Circuit) (hR : Ranked rk s) (g : Nat)
    (w : Wire) (wid : String) (hw : getWire s g wid = some w) (c : Gate)
    (hc : getCell s g w.target.id = some c) (hty : c.type = CellType.Output) :
    ∃ H, (getGraph s g).bind (fun gr => gr.subcircuit) = some H ∧
      rk.out H ≤ rk.inp (g, c.id) (portKey w.target.port) := by
  cases hg : getGraph s g with
  | none => unfold getWire at hw; rw [hg] at hw; cases hw
  | some gr =>
    have hwm : w ∈ gr.wires := by
      unfold getWire at hw
      rw [hg] at hw
      exact findWire_mem gr.wires wid w hw
    have h := ranked_graph rk s hR g gr hg
    unfold rankedGraph at h
    simp only [Bool.and_eq_true] at h
    have h1 := h.1
    rw [List.all_eq_true] at h1
    have h2 := h1 w.bare (List.mem_map_of_mem _ hwm)
    have hcb : (w.bare.target.id.bind (findGate gr.bare.cells)) = some c.bare := by
      show (w.target.id.bind (findGate (gr.cells.map Gate.bare))) = some c.bare
      rw [bind_findGate_bare, ← getCell_bind s g gr hg, hc]
      rfl
    rw [hcb] at h2
    simp only [Bool.and_eq_true, Bool.or_eq_true, Bool.not_eq_true', decide_eq_false_iff_not,
      decide_eq_true_eq] at h2
    rcases h2.2 with h3 | h3
    · exact absurd hty h3
    · have hsub : gr.bare.subcircuit = gr.subcircuit := rfl
      rw [hsub] at h3
      cases hs : gr.subcircuit with
      | none => rw [hs] at h3; cases h3
      | some H =>
        rw [hs] at h3
        simp only [decide_eq_true_eq] at h3
        exact ⟨H, by simp [hs], h3⟩

theorem sum_le_length_mul (l : List Nat) (M : Nat) (h : ∀ x ∈ l, x ≤ M) :
    l.sum ≤ l.length * M := by
  induction l with
  | nil => simp
  | cons a l ih =>
    have h1 := h a (List.mem_cons_self _ _)
    have h2 := ih fun x hx => h x (List.mem_cons_of_mem _ hx)
    simp only [List.sum_cons, List.length_cons]
    rw [Nat.succ_mul]
    omega

theorem pow_step (W n : Nat) : (W + 3) ^ n + 1 ≤ (W + 3) ^ (n + 1) := by
  have h1 : 1 ≤ (W + 3) ^ n := Nat.one_le_pow _ _ (by omega)
  rw [Nat.pow_succ]
  nlinarith

theorem pow_fan (W L n : Nat) (hL : L ≤ W) : L * (W + 3) ^ n + 1 ≤ (W + 3) ^ (n + 1) := by
  have h1 : 1 ≤ (W + 3) ^ n := Nat.one_le_pow _ _ (by omega)
  rw [Nat.pow_succ]
  nlinarith

theorem inputRank_crossing (rk : Rank) (s : Circuit) (g : Nat) (e : End)
    (c : Gate) (hc : getCell s g e.id = some c) (hcr : c.crossing = true) :
    inputRank rk s g e = 4 * rk.inp (g, c.id) (portKey e.port) + 4 := by
  unfold inputRank
  rw [hc]
  simp [hcr]

theorem inputRank_plain (rk : Rank) (s : Circuit) (g : Nat) (e : End)
    (h : ∀ c, getCell s g e.id = some c → c.crossing = false) : inputRank rk s g e = 0 := by
  unfold inputRank
  cases hc : getCell s g e.id with
  | none => rfl
  | some c => simp [h c hc]

/-- In a ranked circuit a call returns, and the calls it makes are bounded by less
than its own bound. -/
theorem step_ranked (rk : Rank) (W : Nat) (t : Task) (s : Circuit)
    (hR : Ranked rk s) (hW : WireBound W s) (hp : t.plugged rk s) :
    ∃ new s1, step t s = Outcome.ok (new, s1) ∧
      (new.map (Task.bound rk W s)).sum + 1 ≤ t.bound rk W s ∧
      ∀ t' ∈ new, t'.plugged rk s1 := by
  have hB : 0 < W + 3 := by omega
  cases t with
  | setInput v e r =>
    cases hc : getCell s r.1 (some r.2) with
    | none =>
      refine ⟨[], s, ?_, ?_, by simp⟩
      · simp [step, hc]
      · simp only [List.map_nil, List.sum_nil, Nat.zero_add, Task.bound]
        exact Nat.one_le_pow _ _ hB
    | some gate =>
      have hid : gate.id = r.2 := by
        have := getCell_id s r.1 (some r.2) gate hc
        simp only [Option.some.injEq] at this
        exact this.symm
      by_cases hsub : gate.type = CellType.Subcircuit
      · -- a Subcircuit: the forward is the only call
        have hcr : gate.crossing = true := by simp [Gate.crossing, hsub]
        have hrank : (Task.setInput v e r).rank rk s = 4 * rk.inp r (portKey e.port) + 4 := by
          show inputRank rk s r.1 ⟨some r.2, e.port⟩ = _
          rw [inputRank_crossing rk s r.1 _ gate hc hcr, hid]
        have hno : gate.type ≠ CellType.Output := by rw [hsub]; decide
        have hpl := (hp gate hc).1 hsub
        by_cases heq : Sigs.isEqual gate.inputSignals
            (Sigs.set gate.inputSignals (portKey e.port) v) = true
        · refine ⟨[Task.forwardInput v e r], s, ?_, ?_, ?_⟩
          · simp [step, hc, hsub, heq]
          · simp only [List.map_cons, List.map_nil, List.sum_cons, List.sum_nil, Nat.add_zero,
              Task.bound, hrank]
            exact pow_step W (4 * rk.inp r (portKey e.port) + 3)
          · intro t' ht'
            simp only [List.mem_singleton] at ht'
            subst ht'
            intro c hc'
            rw [hc] at hc'
            cases hc'
            exact hpl
        · obtain ⟨s1, hs1⟩ : ∃ s1, step (Task.setInput v e r) s
              = Outcome.ok ([Task.forwardInput v e r], s1) := by
            refine ⟨?_, ?_⟩
            rotate_left
            · simp only [step, hc, hsub, hno, heq, Bool.false_eq_true, if_false, if_true]
              exact rfl
          have hsk := step_skeleton _ s s1 _ hs1
          refine ⟨[Task.forwardInput v e r], s1, hs1, ?_, ?_⟩
          · simp only [List.map_cons, List.map_nil, List.sum_cons, List.sum_nil, Nat.add_zero,
              Task.bound, hrank]
            exact pow_step W (4 * rk.inp r (portKey e.port) + 3)
          · intro t' ht'
            simp only [List.mem_singleton] at ht'
            subst ht'
            refine plugged_of_skeleton rk s1 s hsk (Task.forwardInput v e r) ?_
            intro c hc'
            rw [hc] at hc'
            cases hc'
            exact hpl
      · by_cases hout : gate.type = CellType.Output
        · -- an output terminal: the outputs of the owner are set
          have hcr : gate.crossing = true := by simp [Gate.crossing, hout]
          have hrank : (Task.setInput v e r).rank rk s = 4 * rk.inp r (portKey e.port) + 4 := by
            show inputRank rk s r.1 ⟨some r.2, e.port⟩ = _
            rw [inputRank_crossing rk s r.1 _ gate hc hcr, hid]
          obtain ⟨H, hH, hle⟩ := (hp gate hc).2 hout
          by_cases heq : Sigs.isEqual gate.inputSignals
              (Sigs.set gate.inputSignals (portKey e.port) v) = true
          · refine ⟨[], s, ?_, ?_, by simp⟩
            · simp [step, hc, hsub, heq]
            · simp only [List.map_nil, List.sum_nil, Nat.zero_add, Task.bound]
              exact Nat.one_le_pow _ _ hB
          · obtain ⟨sm, hsm⟩ : ∃ sm, sm = modifyGate s r
                (fun c => { c with inputSignals := Sigs.set gate.inputSignals (portKey e.port) v }) :=
              ⟨_, rfl⟩
            have hsk : skeleton sm = skeleton s := by
              rw [hsm]
              exact skeleton_modifyGate s r _ (fun _ => rfl)
            have hH1 : (getGraph sm r.1).bind (fun gr => gr.subcircuit) = some H := by
              cases hg : getGraph s r.1 with
              | none => rw [hg] at hH; cases hH
              | some gr =>
                rw [hg] at hH
                cases hg1 : getGraph sm r.1 with
                | none =>
                  obtain ⟨gr1, hgr1, _⟩ := getGraph_of_skeleton s sm hsk.symm r.1 gr hg
                  rw [hg1] at hgr1
                  cases hgr1
                | some gr1 =>
                  obtain ⟨gr0, hgr0, hb⟩ := getGraph_of_skeleton sm s hsk r.1 gr1 hg1
                  rw [hg] at hgr0
                  cases hgr0
                  have : gr.subcircuit = gr1.subcircuit := by
                    have := congrArg Graph.subcircuit hb; exact this
                  simp only [Option.some_bind] at hH ⊢
                  rw [← this]
                  exact hH
            cases hsubc : getCell sm H.1 (some H.2) with
            | none =>
              refine ⟨[], sm, ?_, ?_, by simp⟩
              · simp only [step, hc, hsub, hout, heq, Bool.false_eq_true, if_false, if_true]
                rw [← hsm]
                simp only [hH1, hsubc, reduceCtorEq, if_false]
              · simp only [List.map_nil, List.sum_nil, Nat.zero_add, Task.bound]
                exact Nat.one_le_pow _ _ hB
            | some sub =>
              refine ⟨[Task.setOutputSignals H
                (Sigs.set sub.outputSignals (portKey gate.net)
                  (Sigs.read (Sigs.set gate.inputSignals (portKey e.port) v) "in"))], sm, ?_, ?_,
                ?_⟩
              · simp only [step, hc, hsub, hout, heq, Bool.false_eq_true, if_false, if_true]
                rw [← hsm]
                simp only [hH1, hsubc, reduceCtorEq, if_false]
              · have hrank2 : (Task.setInput v e r).bound rk W s
                    = (W + 3) ^ (4 * rk.inp r (portKey e.port) + 4) := by
                  unfold Task.bound
                  rw [hrank]
                rw [hrank2]
                simp only [List.map_cons, List.map_nil, List.sum_cons, List.sum_nil, Nat.add_zero,
                  Task.bound, Task.rank]
                have h1 : (W + 3) ^ (4 * rk.out H + 2)
                    ≤ (W + 3) ^ (4 * rk.inp r (portKey e.port) + 3) :=
                  Nat.pow_le_pow_right hB (by omega)
                have h2 : (W + 3) ^ (4 * rk.inp r (portKey e.port) + 3) + 1
                    ≤ (W + 3) ^ (4 * rk.inp r (portKey e.port) + 4) :=
                  pow_step W (4 * rk.inp r (portKey e.port) + 3)
                omega
              · intro t' ht'
                simp only [List.mem_singleton] at ht'
                subst ht'
                trivial
        · -- another gate: no call
          have hcr : gate.crossing = false := by simp [Gate.crossing, hsub, hout]
          by_cases heq : Sigs.isEqual gate.inputSignals
              (Sigs.set gate.inputSignals (portKey e.port) v) = true
          · refine ⟨[], s, ?_, ?_, by simp⟩
            · simp [step, hc, hsub, heq]
            · simp only [List.map_nil, List.sum_nil, Nat.zero_add, Task.bound]
              exact Nat.one_le_pow _ _ hB
          · refine ⟨[], ?_, ?_, ?_, ?_⟩
            rotate_left
            · simp only [step, hc, hsub, hout, heq, Bool.false_eq_true, if_false]
              exact rfl
            · simp only [List.map_nil, List.sum_nil, Nat.zero_add, Task.bound]
              exact Nat.one_le_pow _ _ hB
            · simp
  | setSignal g wid v =>
    cases hw : getWire s g wid with
    | none =>
      refine ⟨[], s, ?_, ?_, by simp⟩
      · simp [step, hw]
      · simp only [List.map_nil, List.sum_nil, Nat.zero_add, Task.bound]
        exact Nat.one_le_pow _ _ hB
    | some w =>
      by_cases hv : w.signal = v
      · refine ⟨[], s, ?_, ?_, by simp⟩
        · simp [step, hw, hv]
        · simp only [List.map_nil, List.sum_nil, Nat.zero_add, Task.bound]
          exact Nat.one_le_pow _ _ hB
      · have hcell : getCell (modifyWire s g wid (fun x => { x with signal := v })) g w.target.id
            = getCell s g w.target.id := getCell_modifyWire s g wid _ g w.target.id
        have hsk : skeleton (modifyWire s g wid (fun x => { x with signal := v })) = skeleton s :=
          skeleton_modifyWire s g wid _ (fun _ => rfl)
        cases hc : getCell s g w.target.id with
        | none =>
          refine ⟨[], ?_, ?_, ?_, ?_⟩
          rotate_left
          · simp only [step, hw, hv, if_false, hcell, hc]
            exact rfl
          · simp only [List.map_nil, List.sum_nil, Nat.zero_add, Task.bound]
            exact Nat.one_le_pow _ _ hB
          · simp
        | some gate =>
          have hid := getCell_id s g w.target.id gate hc
          refine ⟨[Task.setInput v w.target (g, gate.id)], ?_, ?_, ?_, ?_⟩
          rotate_left
          · simp only [step, hw, hv, if_false, hcell, hc]
            exact rfl
          · have hend : (⟨some gate.id, w.target.port⟩ : End) = w.target := by
              rw [← hid]
            simp only [List.map_cons, List.map_nil, List.sum_cons, List.sum_nil, Nat.add_zero,
              Task.bound, Task.rank, hw, hend]
            exact pow_step W _
          · intro t' ht'
            simp only [List.mem_singleton] at ht'
            subst ht'
            refine plugged_of_skeleton rk _ s hsk _ ?_
            intro c hc'
            rw [← hid, hc] at hc'
            have hcg : gate = c := Option.some.inj hc'
            rw [← hcg]
            exact ⟨fun hty => ranked_plug rk s hR g w wid hw gate hc hty,
              fun hty => ranked_up rk s hR g w wid hw gate hc hty⟩
  | setOutputSignals r sigs =>
    cases hc : getCell s r.1 (some r.2) with
    | none =>
      refine ⟨[], s, ?_, ?_, by simp⟩
      · simp [step, hc]
      · simp only [List.map_nil, List.sum_nil, Nat.zero_add, Task.bound]
        exact Nat.one_le_pow _ _ hB
    | some gate =>
      by_cases heq : Sigs.isEqual gate.outputSignals sigs = true
      · refine ⟨[], s, ?_, ?_, by simp⟩
        · simp [step, hc, heq]
        · simp only [List.map_nil, List.sum_nil, Nat.zero_add, Task.bound]
          exact Nat.one_le_pow _ _ hB
      · have hsk : skeleton (modifyGate s r (fun c => { c with outputSignals := sigs }))
            = skeleton s := skeleton_modifyGate s r _ (fun _ => rfl)
        cases hg : getGraph (modifyGate s r (fun c => { c with outputSignals := sigs })) r.1 with
        | none =>
          refine ⟨[], ?_, ?_, ?_, ?_⟩
          rotate_left
          · simp only [step, hc, heq, Bool.false_eq_true, if_false, hg]
            exact rfl
          · simp only [List.map_nil, List.sum_nil, Nat.zero_add, Task.bound]
            exact Nat.one_le_pow _ _ hB
          · simp
        | some gr =>
          refine ⟨outputTasks r.1 (connectedOutbound gr r.2) sigs, ?_, ?_, ?_, ?_⟩
          rotate_left
          · simp only [step, hc, heq, Bool.false_eq_true, if_false, hg]
            exact rfl
          · have hb := wireBound_of_skeleton W _ s hsk hW gr (List.getElem?_mem hg)
            have hle : (connectedOutbound gr r.2).length ≤ gr.wires.length :=
              List.length_filter_le _ _
            have hall : ∀ x ∈ (outputTasks r.1 (connectedOutbound gr r.2) sigs).map
                (Task.bound rk W s), x ≤ (W + 3) ^ (4 * rk.out r + 1) := by
              intro x hx
              obtain ⟨t', ht', hxe⟩ := List.mem_map.1 hx
              obtain ⟨x0, hx0, h2⟩ := (mem_outputTasks _ _ _ t').1 ht'
              rw [← hxe, h2]
              unfold Task.bound
              apply Nat.pow_le_pow_right hB
              unfold connectedOutbound at hx0
              simp only [List.mem_filter, decide_eq_true_eq] at hx0
              obtain ⟨gr0, hgr0, hbare⟩ := getGraph_of_skeleton _ s hsk r.1 gr hg
              simp only [Task.rank]
              cases hw' : getWire s r.1 x0.id with
              | none => simp only; omega
              | some w' =>
                simp only
                by_cases hcross : ∀ c, getCell s r.1 w'.target.id = some c → c.crossing = false
                · rw [inputRank_plain rk s r.1 _ hcross]
                  omega
                · simp only [not_forall] at hcross
                  obtain ⟨c, hc', hcr⟩ := hcross
                  simp only [Bool.not_eq_false] at hcr
                  rw [inputRank_crossing rk s r.1 _ c hc' hcr]
                  obtain ⟨gr1, x1, hgr1, hx1, hxb⟩ :=
                    mem_wires_of_skeleton _ s hsk r.1 gr x0 hg hx0.1
                  have hw'm := getWire_mem s r.1 x0.id w' hw'
                  obtain ⟨gr2, hgr2, hw'2⟩ := hw'm
                  rw [hgr1] at hgr2
                  cases hgr2
                  have e1 : x1.id = x0.id := by have := congrArg Wire.id hxb; exact this
                  have e2 : x1.source = x0.source := by
                    have := congrArg Wire.source hxb; exact this
                  have hwid : w'.id = x0.id := by
                    unfold getWire at hw'
                    rw [hgr1] at hw'
                    exact findWire_id gr1.wires x0.id w' hw'
                  have hlt : rk.inp (r.1, c.id) (portKey w'.target.port) < rk.out r :=
                    ranked_wire rk s hR r.1 gr1 hgr1 x1 w' hx1 hw'2.1 (by rw [e1, hwid])
                      r.2 (by rw [e2]; exact hx0.2) c hc' hcr
                  omega
            have hsum := sum_le_length_mul _ _ hall
            rw [List.length_map, length_outputTasks] at hsum
            have hL : (connectedOutbound gr r.2).length ≤ W := by omega
            have hfan : (connectedOutbound gr r.2).length * (W + 3) ^ (4 * rk.out r + 1) + 1
                ≤ (W + 3) ^ (4 * rk.out r + 2) := pow_fan W _ (4 * rk.out r + 1) hL
            show _ + 1 ≤ (W + 3) ^ (4 * rk.out r + 2)
            omega
          · intro t' ht'
            obtain ⟨w, _, h2⟩ := (mem_outputTasks _ _ _ t').1 ht'
            subst h2
            trivial
  | forwardInput v e r =>
    cases hc : getCell s r.1 (some r.2) with
    | none =>
      refine ⟨[], s, ?_, ?_, by simp⟩
      · simp [step, hc]
      · simp only [List.map_nil, List.sum_nil, Nat.zero_add, Task.bound]
        exact Nat.one_le_pow _ _ hB
    | some gate =>
      obtain ⟨ng, t, hg, ht⟩ := hp gate hc
      have htid : lookupIomap gate.circuitIOmap (portKey e.port) = some t.id :=
        getCell_id s ng _ t ht
      refine ⟨[Task.setOutputSignals (ng, t.id) [("out", v)]], s, ?_, ?_, ?_⟩
      · simp [step, hc, hg, ht]
      · simp only [List.map_cons, List.map_nil, List.sum_cons, List.sum_nil, Nat.add_zero,
          Task.bound, Task.rank]
        have hle := ranked_down rk s hR r gate hc ng hg (portKey e.port) t.id htid
        have h1 : (W + 3) ^ (4 * rk.out (ng, t.id) + 2)
            ≤ (W + 3) ^ (4 * rk.inp r (portKey e.port) + 2) :=
          Nat.pow_le_pow_right hB (by omega)
        have h2 : (W + 3) ^ (4 * rk.inp r (portKey e.port) + 2) + 1
            ≤ (W + 3) ^ (4 * rk.inp r (portKey e.port) + 3) :=
          pow_step W (4 * rk.inp r (portKey e.port) + 2)
        omega
      · intro t' ht'
        simp only [List.mem_singleton] at ht'
        subst ht'
        trivial

/-- In a ranked circuit a stack of calls runs to its end within the sum of their
bounds. -/
theorem run_ranked (rk : Rank) (W : Nat) (n : Nat) (ts : List Task) (s : Circuit)
    (hR : Ranked rk s) (hW : WireBound W s) (hp : ∀ t ∈ ts, t.plugged rk s)
    (hn : (ts.map (Task.bound rk W s)).sum ≤ n) : ∃ s1, run n ts s = Outcome.ok s1 := by
  induction n generalizing ts s with
  | zero =>
    cases ts with
    | nil => exact ⟨s, rfl⟩
    | cons t ts =>
      obtain ⟨new, s1, _, h2, _⟩ := step_ranked rk W t s hR hW (hp t (List.mem_cons_self _ _))
      simp only [List.map_cons, List.sum_cons] at hn
      omega
  | succ n ih =>
    cases ts with
    | nil => exact ⟨s, rfl⟩
    | cons t ts =>
      obtain ⟨new, s1, h1, h2, h3⟩ :=
        step_ranked rk W t s hR hW (hp t (List.mem_cons_self _ _))
      have hsk := step_skeleton t s s1 new h1
      rw [run_succ_cons, h1]
      apply ih
      · exact ranked_of_skeleton rk s1 s hsk hR
      · exact wireBound_of_skeleton W s1 s hsk hW
      · intro t' ht'
        rcases List.mem_append.1 ht' with h | h
        · exact h3 t' h
        · exact plugged_of_skeleton rk s1 s hsk t' (hp t' (List.mem_cons_of_mem _ h))
      · simp only [List.map_cons, List.sum_cons] at hn
        have hb : (new ++ ts).map (Task.bound rk W s1) = (new ++ ts).map (Task.bound rk W s) := by
          apply List.map_congr_left
          intro t' _
          exact bound_of_skeleton rk W s1 s hsk t'
        rw [hb]
        simp only [List.map_append, List.sum_append]
        omega

/-! ## Cascades and the calls they make -/

/-- An invariant of the stack and the state that every call of the log keeps
holds when the stack is empty. -/
theorem run_log_inv (P : Task → Prop) (I : List Task → Circuit → Prop)
    (hstep : ∀ t ts s new s1, P t → I (t :: ts) s → step t s = Outcome.ok (new, s1) →
      I (new ++ ts) s1)
    (fuel : Nat) (ts : List Task) (s s1 : Circuit)
    (hlog : ∀ t ∈ callLog fuel ts s, P t) (h0 : I ts s)
    (hr : run fuel ts s = Outcome.ok s1) : I [] s1 := by
  induction fuel generalizing ts s with
  | zero =>
    cases ts with
    | nil =>
      simp only [run] at hr
      cases hr
      exact h0
    | cons t ts => simp [run] at hr
  | succ n ih =>
    cases ts with
    | nil =>
      simp only [run] at hr
      cases hr
      exact h0
    | cons t ts =>
      rw [run_succ_cons] at hr
      cases hs : step t s with
      | ok r =>
        obtain ⟨new, s2⟩ := r
        rw [hs] at hr
        have hlog' : callLog (n + 1) (t :: ts) s = t :: callLog n (new ++ ts) s2 := by
          simp only [callLog, hs]
        rw [hlog'] at hlog
        exact ih (new ++ ts) s2 (fun x hx => hlog x (List.mem_cons_of_mem _ hx))
          (hstep t ts s new s2 (hlog t (List.mem_cons_self _ _)) h0 hs) hr
      | typeError => rw [hs] at hr; cases hr
      | outOfFuel => rw [hs] at hr; cases hr

/-- A call `wire.set('signal', x)` is made by the `change:outputSignals` handler
of the gate at the source of a wire of that id, with the value the new outputs
have at the source port of that wire. -/
theorem step_new_setSignal_value (t : Task) (s s1 : Circuit) (new : List Task)
    (h : step t s = Outcome.ok (new, s1)) (g : Nat) (wid : String) (x : Val)
    (hm : Task.setSignal g wid x ∈ new) :
    ∃ r sigs gr w, t = Task.setOutputSignals r sigs ∧ r.1 = g ∧ getGraph s1 g = some gr ∧
      w ∈ gr.wires ∧ w.source.id = some r.2 ∧ w.id = wid ∧
      x = Sigs.read sigs (portKey w.source.port) := by
  obtain ⟨r, sigs, _, _, ht, hr1, _, _, _, _⟩ := step_new_setSignal t s s1 new h g wid x hm
  subst ht
  rcases step_setOutputSignals_cases r sigs s s1 new h with ⟨_, hn⟩ | ⟨c, _, _, _, hn⟩
  · rw [hn] at hm
    cases hm
  · rcases hn with ⟨gr, hgr, hn⟩ | ⟨_, hn⟩
    · rw [hn, mem_outputTasks] at hm
      obtain ⟨w, hw, hv⟩ := hm
      simp only [Task.setSignal.injEq] at hv
      unfold connectedOutbound at hw
      simp only [List.mem_filter, decide_eq_true_eq] at hw
      refine ⟨r, sigs, gr, w, rfl, hr1, ?_, hw.1, hw.2, hv.2.1.symm, hv.2.2⟩
      rw [← hr1]
      exact hgr
    · rw [hn] at hm
      cases hm

/-- The outputs of a gate that the calls of a cascade set to `S` only are `S`
when the cascade has run, if they were `S` before or the first call sets them. -/
theorem run_output_set (fuel : Nat) (ts : List Task) (s s1 : Circuit) (H : GateRef) (S : Sigs)
    (hlog : ∀ t ∈ callLog fuel ts s, ∀ sigs, t = Task.setOutputSignals H sigs → sigs = S)
    (h0 : (∀ c, getCell s H.1 (some H.2) = some c → Sigs.isEqual c.outputSignals S = true)
      ∨ ∃ rest, ts = Task.setOutputSignals H S :: rest)
    (hr : run fuel ts s = Outcome.ok s1) :
    ∀ c, getCell s1 H.1 (some H.2) = some c → Sigs.isEqual c.outputSignals S = true := by
  have key := run_log_inv (fun t => ∀ sigs, t = Task.setOutputSignals H sigs → sigs = S)
    (fun ts' s' => (∀ c, getCell s' H.1 (some H.2) = some c →
        Sigs.isEqual c.outputSignals S = true)
      ∨ ∃ rest, ts' = Task.setOutputSignals H S :: rest)
    ?_ fuel ts s s1 hlog h0 hr
  · rcases key with h | ⟨_, h⟩
    · exact h
    · cases h
  · intro t ts' s' new s2 hP hI hstep
    left
    intro c1 hc1
    rcases hI with hd | ⟨rest, hrest⟩
    · obtain ⟨c, hc, hcases⟩ := step_outputs t s' s2 new hstep H.1 H.2 c1 hc1
      rcases hcases with he | ⟨sigs, ht, he⟩
      · rw [he]
        exact hd c hc
      · rw [he, hP sigs ht]
        exact Sigs.isEqual_refl S
    · simp only [List.cons.injEq] at hrest
      rw [hrest.1] at hstep
      exact step_setOutputSignals_value H S s' s2 new hstep c1 hc1

/-- The signal of a wire is `v` when a cascade has run, if every call of the
cascade that sets the outputs of its source gate gives the source port the
value `v`, and the wire carried `v` before or a call that sets it to `v` is on
the stack. -/
theorem run_wire_set (fuel : Nat) (ts : List Task) (s s1 : Circuit) (g : Nat)
    (wid sid sp : String) (v : Val)
    (hids : ∀ gr, getGraph s g = some gr → (gr.wires.map fun w => w.id).Nodup)
    (hsrc : ∀ w, getWire s g wid = some w → w.source = ⟨some sid, some sp⟩)
    (hlog : ∀ t ∈ callLog fuel ts s, ∀ sigs, t = Task.setOutputSignals (g, sid) sigs →
      Sigs.read sigs sp = v)
    (hts : ∀ t ∈ ts, ∀ x, t = Task.setSignal g wid x → x = v)
    (h0 : (∀ w, getWire s g wid = some w → w.signal = v)
      ∨ ∃ t ∈ ts, t = Task.setSignal g wid v)
    (hr : run fuel ts s = Outcome.ok s1) : ∀ w, getWire s1 g wid = some w → w.signal = v := by
  have key := run_log_inv
    (fun t => ∀ sigs, t = Task.setOutputSignals (g, sid) sigs → Sigs.read sigs sp = v)
    (fun ts' s' => skeleton s' = skeleton s
      ∧ (∀ t ∈ ts', ∀ x, t = Task.setSignal g wid x → x = v)
      ∧ ((∀ w, getWire s' g wid = some w → w.signal = v)
        ∨ ∃ t ∈ ts', t = Task.setSignal g wid v))
    ?_ fuel ts s s1 hlog ⟨rfl, hts, h0⟩ hr
  · rcases key.2.2 with h | ⟨t, ht, _⟩
    · exact h
    · cases ht
  · intro t ts' s' new s2 hP ⟨hsk, hts', hI⟩ hstep
    have hsk2 : skeleton s2 = skeleton s := (step_skeleton t s' s2 new hstep).trans hsk
    have hnewv : ∀ x, Task.setSignal g wid x ∈ new → x = v := by
      intro x hx
      obtain ⟨r, sigs, gr, w, ht, hr1, hgr, hw, hws, hwid, hxv⟩ :=
        step_new_setSignal_value t s' s2 new hstep g wid x hx
      have hids2 := wireIds_of_skeleton s2 s hsk2 g hids gr hgr
      have hgw : getWire s2 g wid = some w := by
        unfold getWire
        rw [hgr]
        simp only
        rw [← hwid]
        exact findWire_of_mem_nodup gr.wires w hids2 hw
      obtain ⟨w0, hw0, hb⟩ := getWire_of_skeleton s2 s hsk2 g wid w hgw
      have hs0 := hsrc w0 hw0
      rw [source_of_bare _ _ hb] at hs0
      rw [hs0] at hws hxv
      simp only [Option.some.injEq] at hws
      have hr : r = (g, sid) := Prod.ext hr1 hws.symm
      rw [hxv]
      exact hP sigs (by rw [ht, hr])
    refine ⟨hsk2, ?_, ?_⟩
    · intro t' ht' x hx
      rcases List.mem_append.1 ht' with h | h
      · rw [hx] at h
        exact hnewv x h
      · exact hts' t' (List.mem_cons_of_mem _ h) x hx
    · by_cases htop : ∃ x, t = Task.setSignal g wid x
      · obtain ⟨x, hx⟩ := htop
        have hxv := hts' t (List.mem_cons_self _ _) x hx
        left
        intro w1 hw1
        rw [hx, hxv] at hstep
        exact step_setSignal_value g wid v s' s2 new hstep w1 hw1
      · rcases hI with hd | ⟨t', ht', he⟩
        · left
          intro w1 hw1
          obtain ⟨w, hw, _, hws⟩ := step_wire t s' s2 new hstep g wid w1 hw1
          rcases hws with hws | hws
          · rw [hws]
            exact hd w hw
          · exact absurd ⟨_, hws⟩ htop
        · right
          rcases List.mem_cons.1 ht' with h | h
          · exact absurd ⟨v, by rw [← h, he]⟩ htop
          · exact ⟨t', List.mem_append_right _ h, he⟩

/-- The input port `p` of a gate holds `v` when a cascade has run, if every call
`setInput` of the cascade on that port has the value `v`, and the port held `v`
before or such a call is on the stack. -/
theorem run_input_set (fuel : Nat) (ts : List Task) (s s1 : Circuit) (H : GateRef) (p : String)
    (v : Val)
    (hlog : ∀ t ∈ callLog fuel ts s, ∀ x e, t = Task.setInput x e H → portKey e.port = p →
      x = v)
    (h0 : (∀ c, getCell s H.1 (some H.2) = some c → inputValue c.inputSignals p = v)
      ∨ ∃ t ∈ ts, Task.onPort H p t)
    (hr : run fuel ts s = Outcome.ok s1) :
    ∀ c, getCell s1 H.1 (some H.2) = some c → inputValue c.inputSignals p = v := by
  have key := run_log_inv
    (fun t => ∀ x e, t = Task.setInput x e H → portKey e.port = p → x = v)
    (fun ts' s' => (∀ c, getCell s' H.1 (some H.2) = some c → inputValue c.inputSignals p = v)
      ∨ ∃ t ∈ ts', Task.onPort H p t)
    ?_ fuel ts s s1 hlog h0 hr
  · rcases key with h | ⟨t, ht, _⟩
    · exact h
    · cases ht
  · intro t ts' s' new s2 hP hI hstep
    by_cases htop : Task.onPort H p t
    · left
      intro c1 hc1
      cases t with
      | setInput x e r =>
        obtain ⟨hr1, hk⟩ := htop
        subst hr1
        have := step_setInput_value x e r s' s2 new hstep c1 hc1
        rw [hk] at this
        rw [this]
        exact hP x e rfl hk
      | setOutputSignals r sigs => exact False.elim htop
      | setSignal g' wid x => exact False.elim htop
      | forwardInput x e r => exact False.elim htop
    · rcases hI with hd | ⟨t', ht', hon⟩
      · left
        intro c1 hc1
        obtain ⟨c, hc, hcases⟩ := step_inputs t s' s2 new hstep H.1 H.2 c1 hc1
        rcases hcases with he | ⟨x, e, ht, he⟩
        · rw [he]
          exact hd c hc
        · rw [he, inputValue_set]
          by_cases hk : portKey e.port = p
          · rw [if_pos hk]
            exact hP x e ht hk
          · rw [if_neg hk]
            exact hd c hc
      · right
        rcases List.mem_cons.1 ht' with h | h
        · rw [h] at hon
          exact absurd hon htop
        · exact ⟨t', List.mem_append_right _ h, hon⟩

end DigitalJS
